import Mathlib

/-!
# pgstl::list — a verification development

The container of `src/include/list.h` is an intrusive circular doubly-linked
ring of `ListNodeBase` records closed by a sentinel.  The embedding keeps the
pointer structure: a `Heap` maps addresses to the `_next` and `_prev` links and
to the payload slot `_data`; a `list` object is the address of its sentinel
(`_node`), which no member function ever reassigns.  Member functions become
heap transformers; loops carry a fuel argument and return `none` when it runs
out, and reading a payload slot that was never constructed returns `none`.
The `reverse_iterator` adapter and `lexicographical_compare` of
`src/include/iterator.h` work on the same heap; `allocate` of
`src/include/allocator.h` is embedded on its own, over the byte counts it
requests.
-/

namespace pgstl

/-- Memory as seen by the container: per address the two link fields of
`ListNodeBase`, the payload slot of `ListNode<T>` (`none` while no payload is
constructed there), whether the address is currently allocated, and the next
address `::operator new` hands out.  Addresses are natural numbers and
allocation never fails: memory is not bounded. -/
structure Heap (α : Type) where
  next : Nat → Nat
  prev : Nat → Nat
  data : Nat → Option α
  live : Nat → Bool
  brk : Nat

variable {α : Type}

/-- Assignment `p->_next = v`. -/
def Heap.setNext (h : Heap α) (p v : Nat) : Heap α :=
  { h with next := fun x => if x = p then v else h.next x }

/-- Assignment `p->_prev = v`. -/
def Heap.setPrev (h : Heap α) (p v : Nat) : Heap α :=
  { h with prev := fun x => if x = p then v else h.prev x }

/-- Placement construction of the payload at `p`. -/
def Heap.setData (h : Heap α) (p : Nat) (v : Option α) : Heap α :=
  { h with data := fun x => if x = p then v else h.data x }

/-- Allocation status of `p`. -/
def Heap.setLive (h : Heap α) (p : Nat) (b : Bool) : Heap α :=
  { h with live := fun x => if x = p then b else h.live x }

/-- The heap in which nothing has been allocated. -/
def Heap.init : Heap α :=
  { next := fun _ => 0, prev := fun _ => 0, data := fun _ => none,
    live := fun _ => false, brk := 1 }

/-- `createNode()`: `nodeAllocator.allocate(1)` returns storage that is not in
use; the payload slot is left unconstructed. -/
def createNode (h : Heap α) : Heap α × Nat :=
  ({ h.setLive h.brk true with brk := h.brk + 1 }, h.brk)

/-- `deleteNode(p)`. -/
def deleteNode (h : Heap α) (p : Nat) : Heap α :=
  h.setLive p false

/-- `constructNode(x)`: allocate, then copy-construct the payload. -/
def constructNode (h : Heap α) (x : α) : Heap α × Nat :=
  let r := createNode h
  (r.1.setData r.2 (some x), r.2)

/-- `destroyNode(p)`: destroy the payload, then release the node. -/
def destroyNode (h : Heap α) (p : Nat) : Heap α :=
  deleteNode (h.setData p none) p

/-- `initList()`: allocate the sentinel and link it to itself.  Returns the
heap and the new `_node`. -/
def initList (h : Heap α) : Heap α × Nat :=
  let r := createNode h
  let h1 := r.1.setNext r.2 r.2
  let h2 := h1.setPrev r.2 r.2
  (h2, r.2)

/-- `transfer(position, first, last)`. -/
def transfer (h : Heap α) (position first last : Nat) : Heap α :=
  if position ≠ last then
    let h1 := h.setNext (h.prev last) position
    let h2 := h1.setNext (h1.prev first) last
    let h3 := h2.setNext (h2.prev position) first
    let tmp := h3.prev position
    let h4 := h3.setPrev position (h3.prev last)
    let h5 := h4.setPrev last (h4.prev first)
    let h6 := h5.setPrev first tmp
    h6
  else h

/-- `begin()`. -/
def begin (h : Heap α) (node : Nat) : Nat := h.next node

/-- `end()`. -/
def end_ (_h : Heap α) (node : Nat) : Nat := node

/-- `empty()`. -/
def empty (h : Heap α) (node : Nat) : Bool := h.next node == node

/-- `insert(position, x)`: returns the heap and the cursor to the new node. -/
def insert (h : Heap α) (position : Nat) (x : α) : Heap α × Nat :=
  let r := constructNode h x
  let tmp := r.2
  let h1 := r.1.setNext tmp position
  let h2 := h1.setPrev tmp (h1.prev position)
  let h3 := h2.setNext (h2.prev position) tmp
  let h4 := h3.setPrev position tmp
  (h4, tmp)

/-- `push_front(x)`. -/
def push_front (h : Heap α) (node : Nat) (x : α) : Heap α :=
  (insert h (begin h node) x).1

/-- `push_back(x)`. -/
def push_back (h : Heap α) (node : Nat) (x : α) : Heap α :=
  (insert h (end_ h node) x).1

/-- `erase(position)`: returns the heap and the cursor to the successor. -/
def erase (h : Heap α) (position : Nat) : Heap α × Nat :=
  let next_node := h.next position
  let prev_node := h.prev position
  let h1 := h.setNext prev_node next_node
  let h2 := h1.setPrev next_node prev_node
  (destroyNode h2 position, next_node)

/-- `erase(first, last)`: repeats `erase` across the range, returns `last`. -/
def eraseRange : Nat → Heap α → Nat → Nat → Option (Heap α × Nat)
  | 0, _, _, _ => none
  | fuel + 1, h, first, last =>
    if first ≠ last then
      let r := erase h first
      eraseRange fuel r.1 r.2 last
    else some (h, last)

/-- `pop_front()`. -/
def pop_front (h : Heap α) (node : Nat) : Heap α :=
  (erase h (begin h node)).1

/-- `pop_back()`: `iterator tmp = end(); erase(--tmp);`. -/
def pop_back (h : Heap α) (node : Nat) : Heap α :=
  (erase h (h.prev (end_ h node))).1

/-- `distance(first, last, input_iterator_tag)`: the counting loop.  The
counter is a `ptrdiff_t`; it counts distinct nodes, each of which occupies
more than one byte of the address space, so it is kept as a natural number. -/
def distance : Nat → Heap α → Nat → Nat → Nat → Option Nat
  | 0, _, _, _, _ => none
  | fuel + 1, h, first, last, n =>
    if first ≠ last then distance fuel h (h.next first) last (n + 1)
    else some n

/-- `size()`. -/
def size (fuel : Nat) (h : Heap α) (node : Nat) : Option Nat :=
  distance fuel h (begin h node) (end_ h node) 0

/-- The loop of `clear()`. -/
def clearLoop : Nat → Heap α → Nat → Nat → Option (Heap α)
  | 0, _, _, _ => none
  | fuel + 1, h, node, cur =>
    if cur ≠ node then
      let tmp := cur
      let cur1 := h.next cur
      clearLoop fuel (destroyNode h tmp) node cur1
    else some h

/-- `clear()`. -/
def clear (fuel : Nat) (h : Heap α) (node : Nat) : Option (Heap α) :=
  match clearLoop fuel h node (h.next node) with
  | none => none
  | some h1 => some ((h1.setNext node node).setPrev node node)

/-- `~list()`: `clear(); deleteNode(_node);`. -/
def list_dtor (fuel : Nat) (h : Heap α) (node : Nat) : Option (Heap α) :=
  match clear fuel h node with
  | none => none
  | some h1 => some (deleteNode h1 node)

/-- `list(const list &x) : _node(x._node), allocator(x.allocator) {}`: the
new list object takes over the sentinel pointer of `x`; the heap is not
touched.  Returns the heap and the `_node` of the new object. -/
def list_copy (h : Heap α) (x : Nat) : Heap α × Nat := (h, x)

/-- The loop of `remove(value)`; `eq` is `operator==` of the element type and
`value` is passed by value (it is not an element of the list). -/
def removeLoop (eq : α → α → Bool) (value : α) :
    Nat → Heap α → Nat → Nat → Option (Heap α)
  | 0, _, _, _ => none
  | fuel + 1, h, first, last =>
    if first ≠ last then
      let next := h.next first
      match h.data first with
      | none => none
      | some d =>
        removeLoop eq value fuel (if eq d value then (erase h first).1 else h) next last
    else some h

/-- `remove(value)`. -/
def remove (eq : α → α → Bool) (fuel : Nat) (h : Heap α) (node : Nat) (value : α) :
    Option (Heap α) :=
  removeLoop eq value fuel h (begin h node) (end_ h node)

/-- The loop of `unique()`; at the loop test `next == first`, and the test is
`++next != last`. -/
def uniqueLoop (eq : α → α → Bool) : Nat → Heap α → Nat → Nat → Option (Heap α)
  | 0, _, _, _ => none
  | fuel + 1, h, first, last =>
    let next := h.next first
    if next ≠ last then
      match h.data first, h.data next with
      | some a, some b =>
        if eq a b then uniqueLoop eq fuel (erase h next).1 first last
        else uniqueLoop eq fuel h next last
      | _, _ => none
    else some h

/-- `unique()`. -/
def unique (eq : α → α → Bool) (fuel : Nat) (h : Heap α) (node : Nat) : Option (Heap α) :=
  if empty h node then some h
  else uniqueLoop eq fuel h (begin h node) (end_ h node)

/-- `splice(position, x)`. -/
def splice (h : Heap α) (position x : Nat) : Heap α :=
  if !empty h x then transfer h position (begin h x) (end_ h x) else h

/-- `splice(position, x, i)`. -/
def splice_one (h : Heap α) (position _x i : Nat) : Heap α :=
  let j := h.next i
  if position = i ∨ position = j then h else transfer h position i j

/-- `splice(position, x, first, last)`. -/
def splice_range (h : Heap α) (position _x first last : Nat) : Heap α :=
  if first ≠ last then transfer h position first last else h

/-- The loop of `merge(x)` together with the trailing `transfer` of what is
left of `x`; `lt` is `operator<` of the element type. -/
def mergeLoop (lt : α → α → Bool) :
    Nat → Heap α → Nat → Nat → Nat → Nat → Option (Heap α)
  | 0, _, _, _, _, _ => none
  | fuel + 1, h, first1, last1, first2, last2 =>
    if first1 ≠ last1 ∧ first2 ≠ last2 then
      match h.data first2, h.data first1 with
      | some b, some a =>
        if lt b a then
          let next := h.next first2
          mergeLoop lt fuel (transfer h first1 first2 next) first1 last1 next last2
        else mergeLoop lt fuel h (h.next first1) last1 first2 last2
      | _, _ => none
    else some (if first2 ≠ last2 then transfer h last1 first2 last2 else h)

/-- `merge(x)`. -/
def merge (lt : α → α → Bool) (fuel : Nat) (h : Heap α) (node x : Nat) : Option (Heap α) :=
  mergeLoop lt fuel h (begin h node) (end_ h node) (begin h x) (end_ h x)

/-- The loop of `reverse()`. -/
def reverseLoop : Nat → Heap α → Nat → Nat → Option (Heap α)
  | 0, _, _, _ => none
  | fuel + 1, h, node, first =>
    if first ≠ end_ h node then
      let old := first
      let first1 := h.next first
      reverseLoop fuel (transfer h (begin h node) old first1) node first1
    else some h

/-- `reverse()`. -/
def reverse (fuel : Nat) (h : Heap α) (node : Nat) : Option (Heap α) :=
  if empty h node || h.next (h.next node) == node then some h
  else reverseLoop fuel h node (h.next (begin h node))

/-- `ListNodeBase::swap(a, b)`: exchange the link fields of the two records,
then repair the rings around each of them. -/
def ListNodeBase.swap (h : Heap α) (a b : Nat) : Heap α :=
  let tempNext := h.next a
  let tempPrev := h.prev a
  let h1 := (h.setNext a (h.next b)).setPrev a (h.prev b)
  let h2 := (h1.setNext b tempNext).setPrev b tempPrev
  let h3 :=
    if h2.next a = b then (h2.setPrev a a).setNext a a
    else
      let k := h2.setNext (h2.prev a) a
      k.setPrev (k.next a) a
  if h3.next b = a then (h3.setPrev b b).setNext b b
  else
    let k := h3.setNext (h3.prev b) b
    k.setPrev (k.next b) b

/-- `swap(x)`.  `operator==` on two `allocator`s returns `true`
unconditionally (allocator.h), so the guard always selects
`ListNodeBase::swap` on the two sentinels. -/
def swap (h : Heap α) (node x : Nat) : Heap α :=
  ListNodeBase.swap h node x

/-- Default construction of `n` lists in a row (`list counter[64]`): the
heap and the sentinels, in index order. -/
def newLists : Nat → Heap α → Heap α × List Nat
  | 0, h => (h, [])
  | n + 1, h =>
    let r := initList h
    let r2 := newLists n r.1
    (r2.1, r.2 :: r2.2)

/-- Destruction of several list objects, in the order given. -/
def dtorAll (fuel : Nat) : List Nat → Heap α → Option (Heap α)
  | [], h => some h
  | c :: cs, h =>
    match list_dtor fuel h c with
    | none => none
    | some h1 => dtorAll fuel cs h1

/-- The carry loop of `sort()`:
`while (i < fill && !counter[i].empty()) { counter[i].merge(carry); carry.swap(counter[i++]); }`.
Indexing `counter` outside its bounds is undefined and gives `none`. -/
def sortCarry (lt : α → α → Bool) :
    Nat → Heap α → Nat → List Nat → Nat → Nat → Option (Heap α × Nat)
  | 0, _, _, _, _, _ => none
  | fuel + 1, h, carry, counter, fill, i =>
    if i < fill then
      match counter[i]? with
      | none => none
      | some ci =>
        if !empty h ci then
          match merge lt fuel h ci carry with
          | none => none
          | some h1 => sortCarry lt fuel (swap h1 carry ci) carry counter fill (i + 1)
        else some (h, i)
    else some (h, i)

/-- The outer loop of `sort()`; returns the heap and `fill`. -/
def sortLoop (lt : α → α → Bool) :
    Nat → Heap α → Nat → Nat → List Nat → Nat → Option (Heap α × Nat)
  | 0, _, _, _, _, _ => none
  | fuel + 1, h, node, carry, counter, fill =>
    if !empty h node then
      let h1 := splice_one h (begin h carry) node (begin h node)
      match sortCarry lt fuel h1 carry counter fill 0 with
      | none => none
      | some (h2, i) =>
        match counter[i]? with
        | none => none
        | some ci =>
          let h3 := swap h2 carry ci
          sortLoop lt fuel h3 node carry counter (if i = fill then fill + 1 else fill)
    else some (h, fill)

/-- The first `k` iterations of the outer loop of `sort()`: `k` times the loop
test `!empty()` and the loop body.  Returns the heap and `fill` reached, and
`none` if the source runs empty before. -/
def sortIter (lt : α → α → Bool) :
    Nat → Nat → Heap α → Nat → Nat → List Nat → Nat → Option (Heap α × Nat)
  | _, 0, h, _, _, _, fill => some (h, fill)
  | 0, _ + 1, _, _, _, _, _ => none
  | fuel + 1, k + 1, h, node, carry, counter, fill =>
    if !empty h node then
      let h1 := splice_one h (begin h carry) node (begin h node)
      match sortCarry lt fuel h1 carry counter fill 0 with
      | none => none
      | some (h2, i) =>
        match counter[i]? with
        | none => none
        | some ci =>
          let h3 := swap h2 carry ci
          sortIter lt fuel k h3 node carry counter (if i = fill then fill + 1 else fill)
    else none

/-- The collecting loop of `sort()`:
`for (int i = 1; i < fill; ++i) counter[i].merge(counter[i - 1]);`. -/
def sortCollect (lt : α → α → Bool) :
    Nat → Heap α → List Nat → Nat → Nat → Option (Heap α)
  | 0, _, _, _, _ => none
  | fuel + 1, h, counter, fill, i =>
    if i < fill then
      match counter[i]?, counter[i - 1]? with
      | some ci, some cj =>
        match merge lt fuel h ci cj with
        | none => none
        | some h1 => sortCollect lt fuel h1 counter fill (i + 1)
      | _, _ => none
    else some h

/-- `sort()`.  The locals `carry` and `counter[64]` are constructed after the
early return and destroyed, in reverse order of construction, on exit. -/
def sort (lt : α → α → Bool) (fuel : Nat) (h : Heap α) (node : Nat) : Option (Heap α) :=
  if empty h node || h.next (h.next node) == node then some h
  else
    let c := initList h
    let carry := c.2
    let cs := newLists 64 c.1
    let counter := cs.2
    match sortLoop lt fuel cs.1 node carry counter 0 with
    | none => none
    | some (h1, fill) =>
      match sortCollect lt fuel h1 counter fill 1 with
      | none => none
      | some h2 =>
        if fill = 0 then none
        else
          match counter[fill - 1]? with
          | none => none
          | some top => dtorAll fuel (counter.reverse ++ [carry]) (swap h2 node top)

/-- In-order traversal from `first` up to `last`, reading every payload. -/
def traverse : Nat → Heap α → Nat → Nat → Option (List α)
  | 0, _, _, _ => none
  | fuel + 1, h, first, last =>
    if first ≠ last then
      match h.data first, traverse fuel h (h.next first) last with
      | some d, some ds => some (d :: ds)
      | _, _ => none
    else some []

/-- The element sequence of a list: traversal from `begin()` to `end()`. -/
def toList (fuel : Nat) (h : Heap α) (node : Nat) : Option (List α) :=
  traverse fuel h (begin h node) (end_ h node)

/-- A new list filled by `push_back` of the given elements, in order. -/
def build (h : Heap α) (xs : List α) : Heap α × Nat :=
  let r := initList h
  (xs.foldl (fun k x => push_back k r.2 x) r.1, r.2)

/-! ## `resize` and what it calls -/

/-- The loop of `assign(n, val)`: `for (; n; --n) push_back(val);`. -/
def assignLoop (h : Heap α) (node : Nat) (val : α) : Nat → Heap α
  | 0 => h
  | n + 1 => assignLoop (push_back h node val) node val n

/-- `assign(n, val)`: `clear()`, then `n` times `push_back(val)`. -/
def assign_n (fuel : Nat) (h : Heap α) (node n : Nat) (val : α) : Option (Heap α) :=
  match clear fuel h node with
  | none => none
  | some h1 => some (assignLoop h1 node val n)

/-- `list(n, val, alloc)`: `initList(); assign(n, val);`.  Returns the heap
and the `_node` of the new list. -/
def list_n (fuel : Nat) (h : Heap α) (n : Nat) (val : α) : Option (Heap α × Nat) :=
  let r := initList h
  match assign_n fuel r.1 r.2 n val with
  | none => none
  | some h1 => some (h1, r.2)

/-- `insert(position, n, val)`: `list tmp(n, val, allocator); splice(position, tmp);`
and the destructor of `tmp` on exit. -/
def insert_n (fuel : Nat) (h : Heap α) (position n : Nat) (val : α) : Option (Heap α) :=
  match list_n fuel h n val with
  | none => none
  | some (h1, tmp) => list_dtor fuel (splice h1 position tmp) tmp

/-- The walk of `resize`: `while (cur != end() && n != 0) { ++cur; --n; }`.
Returns `cur` and what is left of `n`. -/
def resizeWalk : Nat → Heap α → Nat → Nat → Nat → Option (Nat × Nat)
  | 0, _, _, _, _ => none
  | fuel + 1, h, node, cur, n =>
    if cur ≠ end_ h node ∧ n ≠ 0 then resizeWalk fuel h node (h.next cur) (n - 1)
    else some (cur, n)

/-- `resize(n, val)`. -/
def resize (fuel : Nat) (h : Heap α) (node n : Nat) (val : α) : Option (Heap α) :=
  match resizeWalk fuel h node (begin h node) n with
  | none => none
  | some (cur, n1) =>
    if n1 ≠ 0 then insert_n fuel h (end_ h node) n1 val
    else (eraseRange fuel h cur (end_ h node)).map Prod.fst

/-! ## `iterator.h` and `allocator.h` -/

/-- `reverse_iterator<Iterator>` over list cursors: it holds the cursor `_cur`. -/
structure reverse_iterator where
  cur : Nat

/-- `reverse_iterator::base()`. -/
def reverse_iterator.base (it : reverse_iterator) : Nat := it.cur

/-- `reverse_iterator::operator*()`: `Iterator tmp = _cur; return *--tmp;`. -/
def reverse_iterator.deref (h : Heap α) (it : reverse_iterator) : Option α :=
  let tmp := h.prev it.cur
  h.data tmp

/-- `reverse_iterator::operator++()`: `--_cur`. -/
def reverse_iterator.inc (h : Heap α) (it : reverse_iterator) : reverse_iterator :=
  ⟨h.prev it.cur⟩

/-- `reverse_iterator::operator--()`: `++_cur`. -/
def reverse_iterator.dec (h : Heap α) (it : reverse_iterator) : reverse_iterator :=
  ⟨h.next it.cur⟩

/-- `operator!=` on reverse iterators: `lhs.base() != rhs.base()`. -/
def reverse_iterator.ne (lhs rhs : reverse_iterator) : Bool :=
  lhs.base != rhs.base

/-- `operator<(lhs, rhs)` on reverse iterators: `lhs.base() > rhs.base()`.
The relational operators need a random-access base, a pointer, whose own
relational operators compare addresses. -/
def reverse_iterator.lt (lhs rhs : reverse_iterator) : Bool :=
  decide (lhs.base > rhs.base)

/-- `operator<=(lhs, rhs)` on reverse iterators: `lhs.base() >= rhs.base()`. -/
def reverse_iterator.le (lhs rhs : reverse_iterator) : Bool :=
  decide (lhs.base ≥ rhs.base)

/-- `operator>(lhs, rhs)` on reverse iterators: `lhs.base() < rhs.base()`. -/
def reverse_iterator.gt (lhs rhs : reverse_iterator) : Bool :=
  decide (lhs.base < rhs.base)

/-- `operator>=(lhs, rhs)` on reverse iterators, as the source has it:
`return lhs.base() <= lhs.base();`, where `rhs` is not read. -/
def reverse_iterator.ge (lhs _rhs : reverse_iterator) : Bool :=
  decide (lhs.base ≤ lhs.base)

/-- `rbegin()`: `reverse_iterator(end())`. -/
def rbegin (h : Heap α) (node : Nat) : reverse_iterator := ⟨end_ h node⟩

/-- `rend()`: `reverse_iterator(begin())`. -/
def rend (h : Heap α) (node : Nat) : reverse_iterator := ⟨begin h node⟩

/-- The walk `for (; it != last; ++it)` over reverse iterators, reading `*it`
at every step. -/
def rtraverse : Nat → Heap α → reverse_iterator → reverse_iterator → Option (List α)
  | 0, _, _, _ => none
  | fuel + 1, h, it, last =>
    if reverse_iterator.ne it last then
      match reverse_iterator.deref h it, rtraverse fuel h (reverse_iterator.inc h it) last with
      | some d, some ds => some (d :: ds)
      | _, _ => none
    else some []

/-- What a walk from `rbegin()` to `rend()` reads. -/
def toListRev (fuel : Nat) (h : Heap α) (node : Nat) : Option (List α) :=
  rtraverse fuel h (rbegin h node) (rend h node)

/-- What a call of `allocate` gives its caller: a failure signal (`bad_alloc`
thrown, or no storage), or storage of the given number of bytes. -/
inductive Allocation where
  | failure : Allocation
  | storage (bytes : Nat) : Allocation
  deriving DecidableEq

/-- `::operator new(bytes)` with `avail` bytes of free store left: it throws
`bad_alloc` when the request cannot be met and returns storage of the
requested size otherwise, also for a request of zero bytes. -/
def operator_new (avail bytes : Nat) : Allocation :=
  if bytes ≤ avail then Allocation.storage bytes else Allocation.failure

/-- `allocator<T>::max_size()`: `size_type(-1) / sizeof(T)`, for a `size_t` of
`w` bits and `sizeof(T) = sz`. -/
def allocator.max_size (w sz : Nat) : Nat := (2 ^ w - 1) / sz

/-- `allocator<T>::allocate(n)`:
`if (n > max_size() || n < 0) n = 0; return ::operator new((size_t) (n * sizeof(T)));`
with the product taken in `size_t`. -/
def allocator.allocate (w sz avail n : Nat) : Allocation :=
  let n1 := if n > allocator.max_size w sz ∨ n < 0 then 0 else n
  operator_new avail ((n1 * sz) % 2 ^ w)

/-! ## Comparison operators of `list.h` -/

/-- The loop of `operator==` on two lists and its result
`i1 == end1 && i2 == end2`; `eq` is `operator==` of the element type, which
the loop test evaluates only when neither cursor is at its end. -/
def list_eqLoop (eq : α → α → Bool) : Nat → Heap α → Nat → Nat → Nat → Nat → Option Bool
  | 0, _, _, _, _, _ => none
  | fuel + 1, h, i1, end1, i2, end2 =>
    if i1 ≠ end1 ∧ i2 ≠ end2 then
      match h.data i1, h.data i2 with
      | some a, some b =>
        if eq a b then list_eqLoop eq fuel h (h.next i1) end1 (h.next i2) end2
        else some (decide (i1 = end1) && decide (i2 = end2))
      | _, _ => none
    else some (decide (i1 = end1) && decide (i2 = end2))

/-- `operator==(lhs, rhs)` on lists. -/
def list_eq (eq : α → α → Bool) (fuel : Nat) (h : Heap α) (lhs rhs : Nat) : Option Bool :=
  list_eqLoop eq fuel h (begin h lhs) (end_ h lhs) (begin h rhs) (end_ h rhs)

/-- `operator!=(lhs, rhs)` on lists: `!(lhs == rhs)`. -/
def list_ne (eq : α → α → Bool) (fuel : Nat) (h : Heap α) (lhs rhs : Nat) : Option Bool :=
  (list_eq eq fuel h lhs rhs).map not

/-- `lexicographical_compare(first1, last1, first2, last2)`; `lt` is
`operator<` of the element type. -/
def lexicographical_compare (lt : α → α → Bool) :
    Nat → Heap α → Nat → Nat → Nat → Nat → Option Bool
  | 0, _, _, _, _, _ => none
  | fuel + 1, h, first1, last1, first2, last2 =>
    if first1 ≠ last1 ∧ first2 ≠ last2 then
      match h.data first1, h.data first2 with
      | some a, some b =>
        if lt a b then some true
        else if lt b a then some false
        else lexicographical_compare lt fuel h (h.next first1) last1 (h.next first2) last2
      | _, _ => none
    else some (decide (first1 = last1) && decide (first2 ≠ last2))

/-- `operator<(lhs, rhs)` on lists. -/
def list_lt (lt : α → α → Bool) (fuel : Nat) (h : Heap α) (lhs rhs : Nat) : Option Bool :=
  lexicographical_compare lt fuel h (begin h lhs) (end_ h lhs) (begin h rhs) (end_ h rhs)

/-- `operator>(lhs, rhs)` on lists: `rhs < lhs`. -/
def list_gt (lt : α → α → Bool) (fuel : Nat) (h : Heap α) (lhs rhs : Nat) : Option Bool :=
  list_lt lt fuel h rhs lhs

/-- `operator<=(lhs, rhs)` on lists: `!(lhs > rhs)`. -/
def list_le (lt : α → α → Bool) (fuel : Nat) (h : Heap α) (lhs rhs : Nat) : Option Bool :=
  (list_gt lt fuel h lhs rhs).map not

/-- `operator>=(lhs, rhs)` on lists: `!(lhs < rhs)`. -/
def list_ge (lt : α → α → Bool) (fuel : Nat) (h : Heap α) (lhs rhs : Nat) : Option Bool :=
  (list_lt lt fuel h lhs rhs).map not

/-! ## Representation predicates -/

/-- The link from `x` to `y` is present in both directions. -/
def Link (h : Heap α) (x y : Nat) : Prop := h.next x = y ∧ h.prev y = x

instance (h : Heap α) (x y : Nat) : Decidable (Link h x y) :=
  inferInstanceAs (Decidable (h.next x = y ∧ h.prev y = x))

/-- The sentinel `s` and the data nodes `ps` (in traversal order, all
distinct) form a doubly-linked ring. -/
def Ring (h : Heap α) (s : Nat) (ps : List Nat) : Prop :=
  (s :: ps).Nodup ∧ List.Chain' (Link h) (s :: (ps ++ [s]))

/-- Deciding whether a sequence of nodes is linked both ways throughout. -/
def decLinked (h : Heap α) : (l : List Nat) → Decidable (List.Chain' (Link h) l)
  | [] => isTrue List.chain'_nil
  | [_] => isTrue (List.chain'_singleton _)
  | a :: b :: l =>
    match (inferInstance : Decidable (Link h a b)), decLinked h (b :: l) with
    | isTrue h1, isTrue h2 => isTrue (List.chain'_cons.mpr ⟨h1, h2⟩)
    | isFalse h1, _ => isFalse (fun hc => h1 (List.chain'_cons.mp hc).1)
    | _, isFalse h2 => isFalse (fun hc => h2 (List.chain'_cons.mp hc).2)

instance (h : Heap α) (s : Nat) (ps : List Nat) : Decidable (Ring h s ps) :=
  @instDecidableAnd _ _ inferInstance (decLinked h (s :: (ps ++ [s])))

/-- Payload slots of the nodes `ps`, in order. -/
def vals (h : Heap α) (ps : List Nat) : List (Option α) := ps.map h.data

/-- First node of `post`, or the sentinel when `post` is empty: the cursor
that stands before `post` in the ring of `s`. -/
def cursorAt (s : Nat) (post : List Nat) : Nat := (post ++ [s]).headI

/-- The nodes `c`, all distinct, are linked in a cycle: each to the next and
the last back to the first. -/
def Cyc (h : Heap α) (c : List Nat) : Prop :=
  c.Nodup ∧ List.Chain' (Link h) (c ++ [c.headI])

/-- The list object with sentinel `s` owns the data nodes `ps`, in traversal
order, and they carry the payloads `xs`: the ring is well linked, every node
is allocated, and the payload slots hold exactly `xs`. -/
def IsList (h : Heap α) (s : Nat) (ps : List Nat) (xs : List α) : Prop :=
  Ring h s ps ∧ (∀ p ∈ s :: ps, p < h.brk ∧ h.live p = true) ∧ vals h ps = xs.map some

instance [DecidableEq α] (h : Heap α) (s : Nat) (ps : List Nat) (xs : List α) :
    Decidable (IsList h s ps xs) :=
  inferInstanceAs (Decidable (Ring h s ps ∧ (∀ p ∈ s :: ps, p < h.brk ∧ h.live p = true) ∧
    ps.map h.data = xs.map some))

/-- Whether `remove(value)` keeps a node with payload slot `d`. -/
def keepB (eq : α → α → Bool) (v : α) : Option α → Bool
  | some d => !eq d v
  | none => true

/-- Single forward pass of `unique()` on a sequence, started with representative
`x`: every following element that compares equal to the current representative
is dropped, any other element becomes the next representative. -/
def uniqFrom {β : Type} (e : β → β → Bool) : β → List β → List β
  | x, [] => [x]
  | x, y :: l => if e x y then uniqFrom e x l else x :: uniqFrom e y l

/-- The maximal runs of consecutive equal elements of a sequence, in order. -/
def runs {β : Type} (e : β → β → Bool) : List β → List (List β)
  | [] => []
  | x :: l =>
    match runs e l with
    | (y :: r) :: rs => if e x y then (x :: y :: r) :: rs else [x] :: (y :: r) :: rs
    | _ => [[x]]

/-- The first element of every maximal run. -/
def runHeads {β : Type} (e : β → β → Bool) (l : List β) : List β :=
  (runs e l).filterMap List.head?

/-- The comparison `*p == *q` of two nodes. -/
def eqAt (eq : α → α → Bool) (h : Heap α) (p q : Nat) : Bool :=
  match h.data p, h.data q with
  | some a, some b => eq a b
  | _, _ => false

/-- The lists reached from a freshly constructed one by `push_back`,
`push_front`, `insert` and `erase` at valid cursors.  `Built h s ps i e`: in
heap `h` the list with sentinel `s` was reached with `i` insertions and `e`
erasures; `ps` records the data nodes currently linked, which is what makes a
cursor valid (for `insert` any linked node or the sentinel, for `erase` a
linked data node). -/
inductive Built : Heap α → Nat → List Nat → Nat → Nat → Prop
  | new (h0 : Heap α) : Built (initList h0).1 (initList h0).2 [] 0 0
  | push_back {h : Heap α} {s : Nat} {ps : List Nat} {i e : Nat} (x : α) :
      Built h s ps i e → Built (push_back h s x) s (ps ++ [h.brk]) (i + 1) e
  | push_front {h : Heap α} {s : Nat} {ps : List Nat} {i e : Nat} (x : α) :
      Built h s ps i e → Built (push_front h s x) s (h.brk :: ps) (i + 1) e
  | insert {h : Heap α} {s : Nat} {pre post : List Nat} {i e : Nat} (x : α) :
      Built h s (pre ++ post) i e →
      Built (insert h (cursorAt s post) x).1 s (pre ++ h.brk :: post) (i + 1) e
  | erase {h : Heap α} {s p : Nat} {pre post : List Nat} {i e : Nat} :
      Built h s (pre ++ p :: post) i e →
      Built (erase h p).1 s (pre ++ post) i (e + 1)

/-- Strict weak ordering: what `sort` and `merge` require of `operator<`. -/
structure StrictWeak (lt : α → α → Bool) : Prop where
  irrefl : ∀ a, lt a a = false
  trans : ∀ a b c, lt a b = true → lt b c = true → lt a c = true
  incomp : ∀ a b c, lt a b = false → lt b a = false → lt b c = false → lt c b = false →
    lt a c = false

/-- The order `a <= b` induced by `operator<`: `!(b < a)`. -/
def leOf (lt : α → α → Bool) (a b : α) : Bool := !lt b a

/-- Ascending: no element is less than an element before it. -/
def Ascending (lt : α → α → Bool) (xs : List α) : Prop :=
  xs.Pairwise (fun x y => leOf lt x y = true)

/-- The comparison `*p < *q` of two nodes. -/
def ltAt (lt : α → α → Bool) (h : Heap α) (p q : Nat) : Bool :=
  match h.data p, h.data q with
  | some a, some b => lt a b
  | _, _ => false

/-- The induced order on nodes: `!(*q < *p)`. -/
def leAt (lt : α → α → Bool) (h : Heap α) (p q : Nat) : Bool := !ltAt lt h q p

/-- The order `!(b < a)` on payload slots. -/
def leOpt (lt : α → α → Bool) (oa ob : Option α) : Bool :=
  !(match ob, oa with
    | some b, some a => lt b a
    | _, _ => false)

/-- `operator<` of the naturals, used in the examples. -/
def natLt (a b : Nat) : Bool := decide (a < b)

/-- The carry loop of `sort()` on sequences: `B` holds the contents of
`counter[0..63]`, `car` that of `carry`.  Merging `carry` into `counter[i]` and
swapping leaves the merged run in `carry` and `counter[i]` empty. -/
def carryL {β : Type} (le : β → β → Bool) :
    Nat → List β → List (List β) → Nat → Nat → Option (List β × List (List β) × Nat)
  | 0, _, _, _, _ => none
  | d + 1, car, B, fill, i =>
    if i < fill then
      match B[i]? with
      | none => none
      | some b =>
        if b.isEmpty then some (car, B, i)
        else carryL le d (List.merge b car le) (B.set i []) fill (i + 1)
    else some (car, B, i)

/-- The outer loop of `sort()` on sequences; returns the contents of `carry`
and of the buckets, and `fill`. -/
def sortLoopL {β : Type} (le : β → β → Bool) :
    Nat → List β → List β → List (List β) → Nat → Option (List β × List (List β) × Nat)
  | 0, _, _, _, _ => none
  | _ + 1, [], car, B, fill => some (car, B, fill)
  | d + 1, x :: src, car, B, fill =>
    match carryL le d (x :: car) B fill 0 with
    | none => none
    | some (car1, B1, i) =>
      match B1[i]? with
      | none => none
      | some b => sortLoopL le d src b (B1.set i car1) (if i = fill then fill + 1 else fill)

/-- The collecting loop of `sort()` on sequences. -/
def collectL {β : Type} (le : β → β → Bool) :
    Nat → List (List β) → Nat → Nat → Option (List (List β))
  | 0, _, _, _ => none
  | d + 1, B, fill, i =>
    if i < fill then
      match B[i]?, B[i - 1]? with
      | some bi, some bj =>
        collectL le d ((B.set i (List.merge bi bj le)).set (i - 1) []) fill (i + 1)
      | _, _ => none
    else some B

/-- `sort()` on sequences: the sequence the list holds afterwards. -/
def sortL {β : Type} (le : β → β → Bool) (d : Nat) (ps : List β) : Option (List β) :=
  match ps with
  | [] => some []
  | [x] => some [x]
  | _ =>
    match sortLoopL le d ps [] (List.replicate 64 []) 0 with
    | none => none
    | some (_, B, fill) =>
      match collectL le d B fill 1 with
      | none => none
      | some B1 => if fill = 0 then none else B1[fill - 1]?

/-- Shape of the bucket array: 64 buckets, bucket `j` empty or of `2^j`
elements, empty from `fill` on. -/
structure Buckets {β : Type} (B : List (List β)) (fill : Nat) : Prop where
  len : B.length = 64
  fill_le : fill ≤ 64
  size : ∀ (j : Nat) (b : List β), B[j]? = some b → b = [] ∨ b.length = 2 ^ j
  high : ∀ (j : Nat) (b : List β), fill ≤ j → B[j]? = some b → b = []

/-- A family of `n` lists living side by side in one heap: list `k` has
sentinel `S k` and data nodes `L k`; the rings are well linked, pairwise
disjoint, and every data node carries a payload. -/
structure Fam (h : Heap α) (n : Nat) (S : Nat → Nat) (L : Nat → List Nat) : Prop where
  ring : ∀ k, k < n → Ring h (S k) (L k)
  disj : ∀ k j, k < n → j < n → k ≠ j → ∀ x ∈ S k :: L k, x ∉ S j :: L j
  dat : ∀ k, k < n → ∀ p ∈ L k, (h.data p).isSome = true

/-- The sentinels of the lists `sort()` works on: `*this`, `carry`, and
`counter[0..]`. -/
def famS (node carry : Nat) (cs : List Nat) : Nat → Nat
  | 0 => node
  | 1 => carry
  | k + 2 => cs.getD k 0

/-- The contents of the lists `sort()` works on. -/
def famL (src car : List Nat) (B : List (List Nat)) : Nat → List Nat
  | 0 => src
  | 1 => car
  | k + 2 => B.getD k []

/-- Stable sorting of a sequence under the order `le`: insertion sort, which
places every element before the first element of the sorted remainder that it
does not exceed, so that elements `le` cannot tell apart keep their order. -/
def stableSort {β : Type} (le : β → β → Bool) (l : List β) : List β :=
  l.insertionSort (fun a b => le a b = true)

/-- The contents of a bucket array in order of age: `sort()` fills higher
buckets from earlier elements, so the last bucket comes first. -/
def agedL {β : Type} : List (List β) → List β
  | [] => []
  | b :: B => agedL B ++ b

/-- Element-wise equality of two sequences. -/
def seqEq (eq : α → α → Bool) : List α → List α → Bool
  | [], [] => true
  | a :: l, b :: m => eq a b && seqEq eq l m
  | _, _ => false

/-- Lexicographic order of two sequences: the first position where the
elements differ decides, and a proper prefix is less. -/
def lexLt (lt : α → α → Bool) : List α → List α → Bool
  | [], [] => false
  | [], _ :: _ => true
  | _ :: _, [] => false
  | a :: l, b :: m => if lt a b then true else if lt b a then false else lexLt lt l m

/-- Ring consistency as the data model states it: following `_next` from the
sentinel `s` leads back to `s` after finitely many steps, and every node `x`
reached on the way satisfies `x.next.prev == x` and `x.prev.next == x`. -/
def Consistent (h : Heap α) (s : Nat) : Prop :=
  (∃ n, (h.next)^[n + 1] s = s) ∧
  ∀ k, h.prev (h.next ((h.next)^[k] s)) = (h.next)^[k] s ∧
    h.next (h.prev ((h.next)^[k] s)) = (h.next)^[k] s

/-- Order on pairs by the first component only, used in the examples. -/
def fstLt (a b : Nat × Nat) : Bool := decide (a.1 < b.1)

/-! ## Links, chains and cycles -/

theorem chain_frame {h h' : Heap α} {P : Nat → Prop}
    (hf : ∀ x y, Link h x y → ¬ P y → Link h' x y) :
    ∀ (l : List Nat) (a : Nat), List.Chain' (Link h) (a :: l) → (∀ y ∈ l, ¬ P y) →
      List.Chain' (Link h') (a :: l)
  | [], _, _, _ => List.chain'_singleton _
  | b :: l, a, hc, hP => by
      rw [List.chain'_cons] at hc ⊢
      exact ⟨hf a b hc.1 (hP b (List.mem_cons_self _ _)),
        chain_frame hf l b hc.2 (fun y hy => hP y (List.mem_cons_of_mem _ hy))⟩

theorem transfer_next (h : Heap α) (p f l x : Nat) (hpl : p ≠ l) :
    (transfer h p f l).next x =
      if x = h.prev p then f else if x = h.prev f then l else if x = h.prev l then p
      else h.next x := by
  simp [transfer, Heap.setNext, Heap.setPrev, hpl]

theorem transfer_prev (h : Heap α) (p f l x : Nat) (hpl : p ≠ l) (hpf : f ≠ p) :
    (transfer h p f l).prev x =
      if x = f then h.prev p else if x = l then h.prev f else if x = p then h.prev l
      else h.prev x := by
  simp [transfer, Heap.setNext, Heap.setPrev, hpl, hpf]

theorem transfer_link_frame {h : Heap α} {p f l : Nat} (hpl : p ≠ l) (hpf : f ≠ p)
    (hp : h.next (h.prev p) = p) (hf : h.next (h.prev f) = f) (hl : h.next (h.prev l) = l)
    (x y : Nat) (hxy : Link h x y) (hy : ¬ (y = p ∨ y = f ∨ y = l)) :
    Link (transfer h p f l) x y := by
  obtain ⟨h1, h2⟩ := hxy
  simp only [not_or] at hy
  obtain ⟨yp, yf, yl⟩ := hy
  have xp : x ≠ h.prev p := by rintro rfl; exact yp (h1 ▸ hp)
  have xf : x ≠ h.prev f := by rintro rfl; exact yf (h1 ▸ hf)
  have xl : x ≠ h.prev l := by rintro rfl; exact yl (h1 ▸ hl)
  refine ⟨?_, ?_⟩
  · rw [transfer_next h p f l x hpl]; simp [xp, xf, xl, h1]
  · rw [transfer_prev h p f l y hpl hpf]; simp [yp, yf, yl, h2]

/-- A chain through `l1 ++ [b]` ends with the link from the last node of `l1`. -/
theorem chain_last_link {h : Heap α} (a : Nat) (l : List Nat) (b : Nat)
    (hc : List.Chain' (Link h) (a :: l ++ [b])) :
    List.Chain' (Link h) (a :: l) ∧ Link h ((a :: l).getLast (List.cons_ne_nil _ _)) b := by
  rw [List.chain'_append] at hc
  refine ⟨hc.1, hc.2.2 _ ?_ b (by simp)⟩
  simp [List.getLast?_eq_getLast]

theorem chain_snoc {h : Heap α} (a : Nat) (l : List Nat) (b : Nat)
    (hc : List.Chain' (Link h) (a :: l))
    (hl : Link h ((a :: l).getLast (List.cons_ne_nil _ _)) b) :
    List.Chain' (Link h) (a :: l ++ [b]) := by
  rw [List.chain'_append]
  refine ⟨hc, List.chain'_singleton _, ?_⟩
  intro x hx y hy
  simp [List.getLast?_eq_getLast] at hx hy
  subst hx; subst hy; exact hl

theorem transfer_two_cycles {h : Heap α} {p f l : Nat} {X R Y : List Nat}
    (hA : Cyc h (p :: X)) (hB : Cyc h (f :: R ++ l :: Y))
    (hd : ∀ x ∈ p :: X, x ∉ f :: R ++ l :: Y) :
    Cyc (transfer h p f l) (p :: X ++ f :: R) ∧ Cyc (transfer h p f l) (l :: Y) := by
  obtain ⟨nA, cA⟩ := hA
  obtain ⟨nB, cB⟩ := hB
  simp only [List.headI_cons] at cA cB
  obtain ⟨cA1, lA⟩ := chain_last_link p X p cA
  have cB' : List.Chain' (Link h) ((f :: R ++ [l]) ++ (Y ++ [f])) := by simpa using cB
  have cB0 : List.Chain' (Link h) ((f :: R) ++ l :: (Y ++ [f])) := by simpa using cB
  have cB1 := List.chain'_split.mp cB0
  obtain ⟨cR, lR⟩ := chain_last_link f R l cB1.1
  obtain ⟨cY, lY⟩ := chain_last_link l Y f (by simpa using cB1.2)
  have hpl : p ≠ l := by
    rintro rfl; exact hd p (by simp) (by simp)
  have hpf : f ≠ p := by
    rintro rfl; exact hd f (by simp) (by simp)
  have hlf : l ≠ f := by
    rintro rfl; simp at nB
  set pp := (p :: X).getLast (List.cons_ne_nil _ _) with hpp
  set lp := (f :: R).getLast (List.cons_ne_nil _ _) with hlp
  set fp := (l :: Y).getLast (List.cons_ne_nil _ _) with hfp
  have mpp : pp ∈ p :: X := List.getLast_mem _
  have mlp : lp ∈ f :: R := List.getLast_mem _
  have mfp : fp ∈ l :: Y := List.getLast_mem _
  have e1 : h.prev p = pp := lA.2
  have e2 : h.prev l = lp := lR.2
  have e3 : h.prev f = fp := lY.2
  have hfr := transfer_link_frame (h := h) hpl hpf (by rw [e1]; exact lA.1)
    (by rw [e3]; exact lY.1) (by rw [e2]; exact lR.1)
  have nB' : (f :: R).Nodup ∧ (l :: Y).Nodup ∧ ∀ x ∈ f :: R, x ∉ l :: Y := by
    have := List.nodup_append.mp (show ((f :: R) ++ (l :: Y)).Nodup by simpa using nB)
    exact ⟨this.1, this.2.1, fun x hx hy => this.2.2 hx hy⟩
  have d1 : lp ≠ pp := fun e => hd pp mpp (by rw [← e]; simp at mlp ⊢; tauto)
  have d2 : lp ≠ fp := fun e => nB'.2.2 lp mlp (e ▸ mfp)
  have d3 : fp ≠ pp := fun e => hd pp mpp (by rw [← e]; simp at mfp ⊢; tauto)
  have L1 : Link (transfer h p f l) pp f := by
    constructor
    · rw [transfer_next _ _ _ _ _ hpl]; simp [e1]
    · rw [transfer_prev _ _ _ _ _ hpl hpf]; simp [e1]
  have L2 : Link (transfer h p f l) lp p := by
    constructor
    · rw [transfer_next _ _ _ _ _ hpl]; simp [e1, e2, e3, d1, d2]
    · rw [transfer_prev _ _ _ _ _ hpl hpf]; simp [e2, hpl, hpf.symm]
  have L3 : Link (transfer h p f l) fp l := by
    constructor
    · rw [transfer_next _ _ _ _ _ hpl]; simp [e1, e3, d3]
    · rw [transfer_prev _ _ _ _ _ hpl hpf]; simp [e3, hlf]
  have fX : ∀ y ∈ X, ¬ (y = p ∨ y = f ∨ y = l) := by
    intro y hy
    have h1 : y ≠ p := by rintro rfl; simp at nA; exact nA.1 hy
    have h2 := hd y (List.mem_cons_of_mem _ hy)
    simp at h2
    tauto
  have fR : ∀ y ∈ R, ¬ (y = p ∨ y = f ∨ y = l) := by
    intro y hy
    have h1 : y ≠ p := by rintro rfl; exact hd y (by simp) (by simp [hy])
    have h2 : y ≠ f := by rintro rfl; simp at nB; tauto
    have h3 : y ≠ l := by rintro rfl; exact nB'.2.2 y (by simp [hy]) (by simp)
    tauto
  have fY : ∀ y ∈ Y, ¬ (y = p ∨ y = f ∨ y = l) := by
    intro y hy
    have h1 : y ≠ p := by rintro rfl; exact hd y (by simp) (by simp [hy])
    have h2 : y ≠ f := by rintro rfl; exact nB'.2.2 y (by simp) (by simp [hy])
    have h3 : y ≠ l := by rintro rfl; have := nB'.2.1; simp at this; tauto
    tauto
  have cX' := chain_frame hfr X p cA1 fX
  have cR' := chain_frame hfr R f cR fR
  have cY' := chain_frame hfr Y l cY fY
  refine ⟨⟨?_, ?_⟩, ⟨nB'.2.1, ?_⟩⟩
  · have : ((p :: X) ++ (f :: R)).Nodup := by
      rw [List.nodup_append]
      refine ⟨nA, nB'.1, ?_⟩
      intro x hx hy
      exact hd x hx (by simp at hy ⊢; tauto)
    simpa using this
  · show List.Chain' _ (p :: X ++ f :: R ++ [p])
    have h1 : List.Chain' (Link (transfer h p f l)) ((p :: X) ++ f :: (R ++ [p])) := by
      rw [List.chain'_split]
      exact ⟨chain_snoc p X f cX' L1, chain_snoc f R p cR' L2⟩
    simpa using h1
  · exact chain_snoc l Y l cY' L3


theorem cyc_rotate {h : Heap α} (a b : Nat) (l1 l2 : List Nat) :
    Cyc h (a :: l1 ++ b :: l2) → Cyc h (b :: l2 ++ a :: l1) := by
  rintro ⟨hn, hc⟩
  refine ⟨?_, ?_⟩
  · have : (a :: l1 ++ b :: l2).Perm (b :: l2 ++ a :: l1) := List.perm_append_comm
    exact this.nodup_iff.mp hn
  · simp only [List.cons_append, List.headI_cons, List.append_assoc] at hc ⊢
    have h1 : List.Chain' (Link h) ((a :: l1) ++ b :: (l2 ++ [a])) := by simpa using hc
    rw [List.chain'_split] at h1
    have h2 : List.Chain' (Link h) ((b :: l2) ++ a :: (l1 ++ [b])) := by
      rw [List.chain'_split]
      exact ⟨by simpa using h1.2, by simpa using h1.1⟩
    simpa using h2

theorem transfer_one_cycle {h : Heap α} {p f l : Nat} {X R Y : List Nat}
    (hC : Cyc h (p :: X ++ f :: R ++ l :: Y)) :
    Cyc (transfer h p f l) (p :: X ++ l :: Y ++ f :: R) := by
  obtain ⟨nC, cC⟩ := hC
  have nC' : ((p :: X) ++ ((f :: R) ++ (l :: Y))).Nodup := by simpa using nC
  rw [List.nodup_append, List.nodup_append] at nC'
  obtain ⟨nX, ⟨nR, nY, dRY⟩, dX⟩ := nC'
  have c0 : List.Chain' (Link h) ((p :: X) ++ f :: (R ++ l :: (Y ++ [p]))) := by
    simpa using cC
  rw [List.chain'_split] at c0
  obtain ⟨cX0, c1⟩ := c0
  obtain ⟨cX, lX⟩ := chain_last_link p X f cX0
  have c1' : List.Chain' (Link h) ((f :: R) ++ l :: (Y ++ [p])) := by simpa using c1
  rw [List.chain'_split] at c1'
  obtain ⟨cR0, cY0⟩ := c1'
  obtain ⟨cR, lR⟩ := chain_last_link f R l cR0
  obtain ⟨cY, lY⟩ := chain_last_link l Y p (by simpa using cY0)
  set fp := (p :: X).getLast (List.cons_ne_nil _ _) with hfp
  set lp := (f :: R).getLast (List.cons_ne_nil _ _) with hlp
  set pp := (l :: Y).getLast (List.cons_ne_nil _ _) with hpp
  have mfp : fp ∈ p :: X := List.getLast_mem _
  have mlp : lp ∈ f :: R := List.getLast_mem _
  have mpp : pp ∈ l :: Y := List.getLast_mem _
  have hpl : p ≠ l := by
    rintro rfl; exact dX (a := p) (by simp) (by simp)
  have hpf : f ≠ p := by
    rintro rfl; exact dX (a := f) (by simp) (by simp)
  have hlf : l ≠ f := by
    rintro rfl; exact dRY (a := l) (by simp) (by simp)
  have e1 : h.prev p = pp := lY.2
  have e2 : h.prev l = lp := lR.2
  have e3 : h.prev f = fp := lX.2
  have hfr := transfer_link_frame (h := h) hpl hpf (by rw [e1]; exact lY.1)
    (by rw [e3]; exact lX.1) (by rw [e2]; exact lR.1)
  have d1 : lp ≠ pp := fun e => dRY mlp (e ▸ mpp)
  have d2 : lp ≠ fp := fun e => dX mfp (by rw [← e]; simp at mlp ⊢; tauto)
  have d3 : fp ≠ pp := fun e => dX mfp (by rw [e]; simp at mpp ⊢; tauto)
  have L1 : Link (transfer h p f l) pp f := by
    constructor
    · rw [transfer_next _ _ _ _ _ hpl]; simp [e1]
    · rw [transfer_prev _ _ _ _ _ hpl hpf]; simp [e1]
  have L2 : Link (transfer h p f l) lp p := by
    constructor
    · rw [transfer_next _ _ _ _ _ hpl]; simp [e1, e2, e3, d1, d2]
    · rw [transfer_prev _ _ _ _ _ hpl hpf]; simp [e2, hpl, hpf.symm]
  have L3 : Link (transfer h p f l) fp l := by
    constructor
    · rw [transfer_next _ _ _ _ _ hpl]; simp [e1, e3, d3]
    · rw [transfer_prev _ _ _ _ _ hpl hpf]; simp [e3, hlf]
  have fX : ∀ y ∈ X, ¬ (y = p ∨ y = f ∨ y = l) := by
    intro y hy
    have h1 : y ≠ p := by rintro rfl; simp at nX; exact nX.1 hy
    have h2 : y ≠ f := by rintro rfl; exact dX (a := y) (by simp [hy]) (by simp)
    have h3 : y ≠ l := by rintro rfl; exact dX (a := y) (by simp [hy]) (by simp)
    tauto
  have fR : ∀ y ∈ R, ¬ (y = p ∨ y = f ∨ y = l) := by
    intro y hy
    have h1 : y ≠ p := by rintro rfl; exact dX (a := y) (by simp) (by simp [hy])
    have h2 : y ≠ f := by rintro rfl; simp at nR; tauto
    have h3 : y ≠ l := by rintro rfl; exact dRY (a := y) (by simp [hy]) (by simp)
    tauto
  have fY : ∀ y ∈ Y, ¬ (y = p ∨ y = f ∨ y = l) := by
    intro y hy
    have h1 : y ≠ p := by rintro rfl; exact dX (a := y) (by simp) (by simp [hy])
    have h2 : y ≠ f := by rintro rfl; exact dRY (a := y) (by simp) (by simp [hy])
    have h3 : y ≠ l := by rintro rfl; simp at nY; tauto
    tauto
  have cX' := chain_frame hfr X p cX fX
  have cR' := chain_frame hfr R f cR fR
  have cY' := chain_frame hfr Y l cY fY
  refine ⟨?_, ?_⟩
  · have hperm : (p :: X ++ f :: R ++ l :: Y).Perm (p :: X ++ l :: Y ++ f :: R) := by
      simp only [List.append_assoc]
      exact List.Perm.append_left _ List.perm_append_comm
    exact hperm.nodup_iff.mp nC
  · show List.Chain' _ (p :: X ++ l :: Y ++ f :: R ++ [p])
    have h1 : List.Chain' (Link (transfer h p f l))
        ((p :: X) ++ l :: (Y ++ f :: (R ++ [p]))) := by
      rw [List.chain'_split]
      refine ⟨chain_snoc p X l cX' L3, ?_⟩
      have h2 : List.Chain' (Link (transfer h p f l)) ((l :: Y) ++ f :: (R ++ [p])) := by
        rw [List.chain'_split]
        exact ⟨chain_snoc l Y f cY' L1, chain_snoc f R p cR' L2⟩
      simpa using h2
    simpa using h1


/-- Reading the ring of `s` from the cursor that stands before `post`. -/
theorem ring_iff_cyc (h : Heap α) (s : Nat) (pre post : List Nat) :
    Ring h s (pre ++ post) ↔ Cyc h (post ++ s :: pre) := by
  cases post with
  | nil => simp [Ring, Cyc]
  | cons p post =>
    constructor
    · intro hr
      exact cyc_rotate s p pre post hr
    · intro hc
      exact cyc_rotate p s post pre hc

theorem cursorAt_eq_headI (s : Nat) (pre post : List Nat) :
    (post ++ s :: pre).headI = cursorAt s post := by
  cases post <;> simp [cursorAt]

theorem cursorAt_nil (s : Nat) : cursorAt s [] = s := rfl

theorem cursorAt_cons (s p : Nat) (post : List Nat) : cursorAt s (p :: post) = p := rfl

theorem ring_nil_iff (h : Heap α) (s : Nat) : Ring h s [] ↔ h.next s = s ∧ h.prev s = s := by
  simp [Ring, Link]

theorem ring_next_sentinel {h : Heap α} {s : Nat} {ps : List Nat} (hr : Ring h s ps) :
    h.next s = cursorAt s ps := by
  obtain ⟨_, hc⟩ := hr
  cases ps with
  | nil => simpa [Link, cursorAt] using (List.chain'_cons.mp hc).1.1
  | cons p ps => exact (List.chain'_cons.mp hc).1.1

theorem ring_mid {h : Heap α} {s x : Nat} {pre post : List Nat}
    (hr : Ring h s (pre ++ x :: post)) :
    h.next x = cursorAt s post ∧ h.prev (cursorAt s post) = x := by
  obtain ⟨_, hc⟩ := hr
  have h1 : List.Chain' (Link h) ((s :: pre) ++ x :: (post ++ [s])) := by simpa using hc
  have h2 := (List.chain'_split.mp h1).2
  cases post with
  | nil => exact (List.chain'_cons.mp h2).1
  | cons p post => exact (List.chain'_cons.mp h2).1

theorem ring_prev_cursor {h : Heap α} {s : Nat} {pre post : List Nat}
    (hr : Ring h s (pre ++ post)) :
    h.prev (cursorAt s post) = (s :: pre).getLast (List.cons_ne_nil _ _) ∧
    h.next ((s :: pre).getLast (List.cons_ne_nil _ _)) = cursorAt s post := by
  obtain ⟨_, hc⟩ := hr
  have h1 : List.Chain' (Link h) ((s :: pre) ++ cursorAt s post :: (post ++ [s]).tail) := by
    cases post <;> simpa [cursorAt] using hc
  have h2 := (List.chain'_split.mp h1).1
  have := (chain_last_link s pre _ h2).2
  exact ⟨this.2, this.1⟩

theorem ring_cursor_ne {h : Heap α} {s : Nat} {pre post : List Nat}
    (hr : Ring h s (pre ++ post)) : cursorAt s post ≠ s ↔ post ≠ [] := by
  cases post with
  | nil => simp [cursorAt]
  | cons p post =>
    have := hr.1
    simp [cursorAt] at this ⊢
    rintro rfl; simp at this

theorem ring_empty_iff {h : Heap α} {s : Nat} {ps : List Nat} (hr : Ring h s ps) :
    empty h s = true ↔ ps = [] := by
  have h1 := ring_next_sentinel hr
  have h2 := @ring_cursor_ne α h s [] ps hr
  simp only [empty, beq_iff_eq, h1]
  constructor
  · intro e; by_contra hne; exact (h2.mpr hne) e
  · rintro rfl; rfl

/-- A ring is untouched by a heap change that leaves its nodes alone. -/
theorem ring_frame {h h' : Heap α} {s : Nat} {ps : List Nat} (hr : Ring h s ps)
    (hf : ∀ x ∈ s :: ps, h'.next x = h.next x ∧ h'.prev x = h.prev x) : Ring h' s ps := by
  refine ⟨hr.1, ?_⟩
  have key : ∀ (l : List Nat), (∀ x ∈ l, x ∈ s :: ps) → List.Chain' (Link h) l →
      List.Chain' (Link h') l := by
    intro l
    induction l with
    | nil => intros; exact List.chain'_nil
    | cons a l ih =>
      intro hm hc
      cases l with
      | nil => exact List.chain'_singleton _
      | cons b l =>
        rw [List.chain'_cons] at hc ⊢
        refine ⟨?_, ih (fun x hx => hm x (List.mem_cons_of_mem _ hx)) hc.2⟩
        have ha := hf a (hm a (by simp))
        have hb := hf b (hm b (by simp))
        exact ⟨by rw [ha.1]; exact hc.1.1, by rw [hb.2]; exact hc.1.2⟩
  apply key _ _ hr.2
  intro x hx
  simp at hx ⊢
  tauto


theorem cyc_prev_mem {h : Heap α} {c : List Nat} (hc : Cyc h c) {x : Nat} (hx : x ∈ c) :
    h.prev x ∈ c ∧ h.next (h.prev x) = x := by
  obtain ⟨l1, l2, rfl⟩ := List.append_of_mem hx
  cases l1 with
  | nil =>
    have h1 : List.Chain' (Link h) (x :: l2 ++ [x]) := by simpa using hc.2
    have h2 := (chain_last_link x l2 x h1).2
    rw [h2.2]
    exact ⟨List.getLast_mem (List.cons_ne_nil x l2), h2.1⟩
  | cons a l1 =>
    have h1 : List.Chain' (Link h) ((a :: l1) ++ x :: (l2 ++ [a])) := by simpa using hc.2
    have h2 := (chain_last_link a l1 x (List.chain'_split.mp h1).1).2
    rw [h2.2]
    refine ⟨?_, h2.1⟩
    have := List.getLast_mem (List.cons_ne_nil a l1)
    simp only [List.cons_append, List.mem_cons, List.mem_append] at this ⊢
    tauto

theorem transfer_outside {h : Heap α} {p f l : Nat} (x : Nat)
    (h1 : x ≠ h.prev p) (h2 : x ≠ h.prev f) (h3 : x ≠ h.prev l)
    (h4 : x ≠ p) (h5 : x ≠ f) (h6 : x ≠ l) :
    (transfer h p f l).next x = h.next x ∧ (transfer h p f l).prev x = h.prev x := by
  unfold transfer
  split
  · simp [Heap.setNext, Heap.setPrev, h1, h2, h3, h4, h5, h6]
  · exact ⟨rfl, rfl⟩

theorem transfer_cycles {h : Heap α} {f : Nat} {A R B : List Nat}
    (hA : Cyc h A) (hB : Cyc h (f :: R ++ B)) (hAne : A ≠ []) (hBne : B ≠ [])
    (hd : ∀ x ∈ A, x ∉ f :: R ++ B) :
    Cyc (transfer h A.headI f B.headI) (A ++ f :: R) ∧
    Cyc (transfer h A.headI f B.headI) B ∧
    ∀ x, x ∉ A → x ∉ f :: R ++ B →
      (transfer h A.headI f B.headI).next x = h.next x ∧
      (transfer h A.headI f B.headI).prev x = h.prev x := by
  obtain ⟨p, X, rfl⟩ := List.exists_cons_of_ne_nil hAne
  obtain ⟨l, Y, rfl⟩ := List.exists_cons_of_ne_nil hBne
  have := transfer_two_cycles hA hB hd
  refine ⟨this.1, this.2, ?_⟩
  intro x hxA hxB
  simp only [List.headI_cons]
  have mp : p ∈ p :: X := by simp
  have mf : f ∈ f :: R ++ l :: Y := by simp
  have ml : l ∈ f :: R ++ l :: Y := by simp
  apply transfer_outside
  · rintro rfl; exact hxA (cyc_prev_mem hA mp).1
  · rintro rfl; exact hxB (cyc_prev_mem hB mf).1
  · rintro rfl; exact hxB (cyc_prev_mem hB ml).1
  · rintro rfl; exact hxA mp
  · rintro rfl; exact hxB mf
  · rintro rfl; exact hxB ml

theorem transfer_cycle {h : Heap α} {p f : Nat} {X R B : List Nat}
    (hC : Cyc h (p :: X ++ f :: R ++ B)) (hBne : B ≠ []) :
    Cyc (transfer h p f B.headI) (p :: X ++ B ++ f :: R) ∧
    ∀ x, x ∉ p :: X ++ f :: R ++ B →
      (transfer h p f B.headI).next x = h.next x ∧
      (transfer h p f B.headI).prev x = h.prev x := by
  obtain ⟨l, Y, rfl⟩ := List.exists_cons_of_ne_nil hBne
  refine ⟨transfer_one_cycle hC, ?_⟩
  intro x hx
  simp only [List.headI_cons]
  have mp : p ∈ p :: X ++ f :: R ++ l :: Y := by simp
  have mf : f ∈ p :: X ++ f :: R ++ l :: Y := by simp
  have ml : l ∈ p :: X ++ f :: R ++ l :: Y := by simp
  apply transfer_outside
  · rintro rfl; exact hx (cyc_prev_mem hC mp).1
  · rintro rfl; exact hx (cyc_prev_mem hC mf).1
  · rintro rfl; exact hx (cyc_prev_mem hC ml).1
  · rintro rfl; exact hx mp
  · rintro rfl; exact hx mf
  · rintro rfl; exact hx ml

/-- Moving the run `f :: R` out of the ring of `b` to the cursor before `post`
in the ring of `a`. -/
theorem transfer_rings {h : Heap α} {a b f : Nat} {pre post l1 R rest : List Nat}
    (hA : Ring h a (pre ++ post)) (hB : Ring h b (l1 ++ (f :: R ++ rest)))
    (hd : ∀ x ∈ a :: (pre ++ post), x ∉ b :: (l1 ++ (f :: R ++ rest))) :
    Ring (transfer h (cursorAt a post) f (cursorAt b rest)) a (pre ++ f :: R ++ post) ∧
    Ring (transfer h (cursorAt a post) f (cursorAt b rest)) b (l1 ++ rest) ∧
    ∀ x, x ∉ a :: (pre ++ post) → x ∉ b :: (l1 ++ (f :: R ++ rest)) →
      (transfer h (cursorAt a post) f (cursorAt b rest)).next x = h.next x ∧
      (transfer h (cursorAt a post) f (cursorAt b rest)).prev x = h.prev x := by
  rw [ring_iff_cyc] at hA hB
  have hB' : Cyc h (f :: R ++ (rest ++ b :: l1)) := by simpa using hB
  have hd' : ∀ x ∈ post ++ a :: pre, x ∉ f :: R ++ (rest ++ b :: l1) := by
    intro x hx hy
    refine hd x ?_ ?_
    · simp at hx ⊢; tauto
    · simp at hy ⊢; tauto
  have key := transfer_cycles hA hB' (by simp) (by simp) hd'
  rw [cursorAt_eq_headI, cursorAt_eq_headI] at key
  refine ⟨?_, ?_, ?_⟩
  · have : pre ++ f :: R ++ post = (pre ++ f :: R) ++ post := by simp
    rw [this, ring_iff_cyc]
    simpa using key.1
  · rw [ring_iff_cyc]; exact key.2.1
  · intro x hxA hxB
    apply key.2.2 x
    · simp at hxA ⊢; tauto
    · simp at hxB ⊢; tauto

/-- Moving the run `f :: R` backwards inside the ring of `s`, to the cursor `p`. -/
theorem transfer_ring_back {h : Heap α} {s p f : Nat} {pre X R rest : List Nat}
    (hr : Ring h s (pre ++ (p :: X ++ f :: R ++ rest))) :
    Ring (transfer h p f (cursorAt s rest)) s (pre ++ f :: R ++ (p :: X ++ rest)) ∧
    ∀ x, x ∉ s :: (pre ++ (p :: X ++ f :: R ++ rest)) →
      (transfer h p f (cursorAt s rest)).next x = h.next x ∧
      (transfer h p f (cursorAt s rest)).prev x = h.prev x := by
  rw [ring_iff_cyc] at hr
  have hC : Cyc h (p :: X ++ f :: R ++ (rest ++ s :: pre)) := by simpa using hr
  have key := transfer_cycle hC (by simp)
  rw [cursorAt_eq_headI] at key
  refine ⟨?_, ?_⟩
  · have : pre ++ f :: R ++ (p :: X ++ rest) = (pre ++ f :: R) ++ (p :: X ++ rest) := by simp
    rw [this, ring_iff_cyc]
    simpa using key.1
  · intro x hx
    apply key.2 x
    simp at hx ⊢; tauto

/-! ## Insertion and erasure -/

theorem chain_frame2 {h h' : Heap α} {Q P : Nat → Prop}
    (hf : ∀ x y, Link h x y → ¬ Q x → ¬ P y → Link h' x y) :
    ∀ (l : List Nat) (a : Nat), List.Chain' (Link h) (a :: l) → ¬ Q a →
      (∀ y ∈ l, ¬ Q y ∧ ¬ P y) → List.Chain' (Link h') (a :: l)
  | [], _, _, _, _ => List.chain'_singleton _
  | b :: l, a, hc, hQ, hP => by
      rw [List.chain'_cons] at hc ⊢
      have hb := hP b (List.mem_cons_self _ _)
      exact ⟨hf a b hc.1 hQ hb.2,
        chain_frame2 hf l b hc.2 hb.1 (fun y hy => hP y (List.mem_cons_of_mem _ hy))⟩

theorem insert_snd (h : Heap α) (pos : Nat) (x : α) : (insert h pos x).2 = h.brk := rfl

theorem insert_next (h : Heap α) (pos : Nat) (x : α) (y : Nat) :
    (insert h pos x).1.next y =
      if y = h.prev pos then h.brk else if y = h.brk then pos else h.next y := by
  simp [insert, constructNode, createNode, Heap.setNext, Heap.setPrev, Heap.setData,
    Heap.setLive]

theorem insert_prev (h : Heap α) (pos : Nat) (x : α) (y : Nat) :
    (insert h pos x).1.prev y =
      if y = pos then h.brk else if y = h.brk then h.prev pos else h.prev y := by
  simp [insert, constructNode, createNode, Heap.setNext, Heap.setPrev, Heap.setData,
    Heap.setLive]

theorem insert_data (h : Heap α) (pos : Nat) (x : α) (y : Nat) :
    (insert h pos x).1.data y = if y = h.brk then some x else h.data y := by
  simp [insert, constructNode, createNode, Heap.setNext, Heap.setPrev, Heap.setData,
    Heap.setLive]

theorem insert_live (h : Heap α) (pos : Nat) (x : α) (y : Nat) :
    (insert h pos x).1.live y = if y = h.brk then true else h.live y := by
  simp [insert, constructNode, createNode, Heap.setNext, Heap.setPrev, Heap.setData,
    Heap.setLive]

theorem insert_brk (h : Heap α) (pos : Nat) (x : α) :
    (insert h pos x).1.brk = h.brk + 1 := rfl

theorem insert_cycle {h : Heap α} {p : Nat} {X : List Nat} (x : α)
    (hC : Cyc h (p :: X)) (ht : h.brk ∉ p :: X) :
    Cyc (insert h p x).1 (p :: X ++ [h.brk]) := by
  obtain ⟨nC, cC⟩ := hC
  obtain ⟨cX, lX⟩ := chain_last_link p X p cC
  set pp := (p :: X).getLast (List.cons_ne_nil _ _) with hpp
  have mpp : pp ∈ p :: X := List.getLast_mem _
  have e1 : h.prev p = pp := lX.2
  have tp : h.brk ≠ p := fun e => ht (by simp [e])
  have tpp : h.brk ≠ pp := fun e => ht (e ▸ mpp)
  have hfr : ∀ a b, Link h a b → ¬ (a = h.brk) → ¬ (b = p ∨ b = h.brk) →
      Link (insert h p x).1 a b := by
    intro a b hab ha hb
    simp only [not_or] at hb
    have : a ≠ h.prev p := by
      rintro rfl; exact hb.1 (by rw [← hab.1, e1]; exact lX.1)
    refine ⟨?_, ?_⟩
    · rw [insert_next]; simp [this, ha, hab.1]
    · rw [insert_prev]; simp [hb.1, hb.2, hab.2]
  have cX' : List.Chain' (Link (insert h p x).1) (p :: X) := by
    apply chain_frame2 hfr X p cX tp.symm
    intro y hy
    have h1 : y ≠ h.brk := by rintro rfl; exact ht (List.mem_cons_of_mem _ hy)
    have h2 : y ≠ p := by rintro rfl; simp at nC; exact nC.1 hy
    simp [h1, h2]
  have L1 : Link (insert h p x).1 pp h.brk := by
    refine ⟨?_, ?_⟩
    · rw [insert_next]; simp [e1]
    · rw [insert_prev]; simp [tp, e1]
  have L2 : Link (insert h p x).1 h.brk p := by
    refine ⟨?_, ?_⟩
    · rw [insert_next]; simp [e1, tpp]
    · rw [insert_prev]; simp
  refine ⟨?_, ?_⟩
  · have : ((p :: X) ++ [h.brk]).Nodup := by
      rw [List.nodup_append]
      refine ⟨nC, by simp, ?_⟩
      intro a ha hb
      simp at hb; subst hb; exact ht ha
    simpa using this
  · show List.Chain' _ (p :: X ++ [h.brk] ++ [p])
    have h1 : List.Chain' (Link (insert h p x).1) ((p :: X) ++ h.brk :: [p]) := by
      rw [List.chain'_split]
      refine ⟨chain_snoc p X _ cX' L1, ?_⟩
      rw [List.chain'_cons]
      exact ⟨L2, List.chain'_singleton _⟩
    simpa using h1

theorem insert_ring {h : Heap α} {s : Nat} {pre post : List Nat} (x : α)
    (hr : Ring h s (pre ++ post)) (ht : h.brk ∉ s :: (pre ++ post)) :
    Ring (insert h (cursorAt s post) x).1 s (pre ++ h.brk :: post) := by
  rw [ring_iff_cyc] at hr
  have hne : post ++ s :: pre ≠ [] := by simp
  obtain ⟨p, X, hpX⟩ := List.exists_cons_of_ne_nil hne
  have hp : cursorAt s post = p := by rw [← cursorAt_eq_headI s pre post, hpX]; rfl
  rw [hpX] at hr
  have ht' : h.brk ∉ p :: X := by
    rw [← hpX]; simp at ht ⊢; tauto
  have key := insert_cycle x hr ht'
  rw [hp]
  have : pre ++ h.brk :: post = (pre ++ [h.brk]) ++ post := by simp
  rw [this, ring_iff_cyc]
  have e : post ++ s :: (pre ++ [h.brk]) = p :: X ++ [h.brk] := by
    rw [← hpX]; simp
  rw [e]; exact key


theorem erase_snd (h : Heap α) (x : Nat) : (erase h x).2 = h.next x := rfl

theorem erase_next (h : Heap α) (x y : Nat) :
    (erase h x).1.next y = if y = h.prev x then h.next x else h.next y := by
  simp [erase, destroyNode, deleteNode, Heap.setNext, Heap.setPrev, Heap.setData, Heap.setLive]

theorem erase_prev (h : Heap α) (x y : Nat) :
    (erase h x).1.prev y = if y = h.next x then h.prev x else h.prev y := by
  simp [erase, destroyNode, deleteNode, Heap.setNext, Heap.setPrev, Heap.setData, Heap.setLive]

theorem erase_data (h : Heap α) (x y : Nat) :
    (erase h x).1.data y = if y = x then none else h.data y := by
  simp [erase, destroyNode, deleteNode, Heap.setNext, Heap.setPrev, Heap.setData, Heap.setLive]

theorem erase_live (h : Heap α) (x y : Nat) :
    (erase h x).1.live y = if y = x then false else h.live y := by
  simp [erase, destroyNode, deleteNode, Heap.setNext, Heap.setPrev, Heap.setData, Heap.setLive]

theorem erase_brk (h : Heap α) (x : Nat) : (erase h x).1.brk = h.brk := rfl

theorem erase_cycle {h : Heap α} {x n : Nat} {Y : List Nat} (hC : Cyc h (x :: n :: Y)) :
    Cyc (erase h x).1 (n :: Y) ∧ h.next x = n := by
  obtain ⟨nC, cC⟩ := hC
  have c0 : List.Chain' (Link h) (x :: n :: (Y ++ [x])) := by simpa using cC
  rw [List.chain'_cons] at c0
  obtain ⟨lxn, c1⟩ := c0
  obtain ⟨cY, lY⟩ := chain_last_link n Y x (by simpa using c1)
  set pv := (n :: Y).getLast (List.cons_ne_nil _ _) with hpv
  have e1 : h.prev x = pv := lY.2
  have e2 : h.next x = n := lxn.1
  have nC' := List.nodup_cons.mp nC
  have hfr : ∀ a b, Link h a b → ¬ (b = n ∨ b = x) → Link (erase h x).1 a b := by
    intro a b hab hb
    simp only [not_or] at hb
    have : a ≠ h.prev x := by
      rintro rfl; exact hb.2 (by rw [← hab.1, e1]; exact lY.1)
    refine ⟨?_, ?_⟩
    · rw [erase_next]; simp [this, hab.1]
    · rw [erase_prev]; simp [e2, hb.1, hab.2]
  have cY' : List.Chain' (Link (erase h x).1) (n :: Y) := by
    apply chain_frame hfr Y n cY
    intro y hy
    have h1 : y ≠ n := by rintro rfl; have := nC'.2; simp at this; exact this.1 hy
    have h2 : y ≠ x := by rintro rfl; exact nC'.1 (by simp [hy])
    simp [h1, h2]
  have L : Link (erase h x).1 pv n := by
    refine ⟨?_, ?_⟩
    · rw [erase_next]; simp [e1, e2]
    · rw [erase_prev]; simp [e1, e2]
  exact ⟨⟨nC'.2, chain_snoc n Y n cY' L⟩, e2⟩

theorem erase_ring {h : Heap α} {s x : Nat} {pre post : List Nat}
    (hr : Ring h s (pre ++ x :: post)) :
    Ring (erase h x).1 s (pre ++ post) ∧ (erase h x).2 = cursorAt s post := by
  have hr' := hr
  rw [ring_iff_cyc] at hr
  have hne : post ++ s :: pre ≠ [] := by simp
  obtain ⟨n, Y, hnY⟩ := List.exists_cons_of_ne_nil hne
  have hn : cursorAt s post = n := by rw [← cursorAt_eq_headI s pre post, hnY]; rfl
  have hC : Cyc h (x :: n :: Y) := by rw [← hnY]; simpa using hr
  have key := erase_cycle hC
  refine ⟨?_, ?_⟩
  · rw [ring_iff_cyc, hnY]; exact key.1
  · rw [erase_snd, key.2, hn]

/-! ## Traversal and `insert` -/

theorem traverse_ring {h : Heap α} {s : Nat} :
    ∀ (post pre : List Nat) (ys : List α) (fuel : Nat), Ring h s (pre ++ post) →
      vals h post = ys.map some → post.length < fuel →
      traverse fuel h (cursorAt s post) s = some ys
  | [], pre, ys, fuel, _, hv, hf => by
      cases fuel with
      | zero => omega
      | succ fuel =>
        cases ys with
        | nil => simp [traverse, cursorAt]
        | cons y ys => simp [vals] at hv
  | p :: post, pre, ys, fuel, hr, hv, hf => by
      cases fuel with
      | zero => omega
      | succ fuel =>
        cases ys with
        | nil => simp [vals] at hv
        | cons y ys =>
          simp only [vals, List.map_cons, List.cons.injEq] at hv
          have hne : cursorAt s (p :: post) ≠ s := (ring_cursor_ne hr).mpr (by simp)
          have hmid := ring_mid hr
          have hr' : Ring h s ((pre ++ [p]) ++ post) := by simpa using hr
          have ih := traverse_ring post (pre ++ [p]) ys fuel hr' hv.2
            (by simp at hf; omega)
          simp only [cursorAt_cons] at hne
          simp [traverse, cursorAt_cons, hne, hv.1, hmid.1, ih]

theorem toList_of_isList {h : Heap α} {s : Nat} {ps : List Nat} {xs : List α}
    (hl : IsList h s ps xs) (fuel : Nat) (hf : ps.length < fuel) :
    toList fuel h s = some xs := by
  unfold toList begin end_
  rw [ring_next_sentinel hl.1]
  exact traverse_ring ps [] xs fuel hl.1 hl.2.2 hf

theorem isList_length {h : Heap α} {s : Nat} {ps : List Nat} {xs : List α}
    (hl : IsList h s ps xs) : ps.length = xs.length := by
  have := congrArg List.length hl.2.2
  simpa [vals] using this

theorem vals_append (h : Heap α) (l1 l2 : List Nat) : vals h (l1 ++ l2) = vals h l1 ++ vals h l2 := by
  simp [vals]

theorem vals_congr {h h' : Heap α} {l : List Nat} (hd : ∀ p ∈ l, h'.data p = h.data p) :
    vals h' l = vals h l := by
  unfold vals
  exact List.map_congr_left hd

theorem isList_split {h : Heap α} {s : Nat} {pre post : List Nat} {xs ys : List α}
    (hl : IsList h s (pre ++ post) (xs ++ ys)) (hlen : pre.length = xs.length) :
    vals h pre = xs.map some ∧ vals h post = ys.map some := by
  have hv := hl.2.2
  rw [vals_append, List.map_append] at hv
  exact List.append_inj hv (by simp [vals, hlen])

theorem insert_isList {h : Heap α} {s : Nat} {pre post : List Nat} {xs ys : List α} (x : α)
    (hl : IsList h s (pre ++ post) (xs ++ ys)) (hlen : pre.length = xs.length) :
    IsList (insert h (cursorAt s post) x).1 s (pre ++ h.brk :: post) (xs ++ x :: ys) := by
  obtain ⟨hr, ha, hv⟩ := hl
  have hfresh : ∀ p ∈ s :: (pre ++ post), p ≠ h.brk := by
    intro p hp e; have := (ha p hp).1; omega
  have ht : h.brk ∉ s :: (pre ++ post) := fun hm => hfresh _ hm rfl
  have hsp := isList_split ⟨hr, ha, hv⟩ hlen
  refine ⟨insert_ring x hr ht, ?_, ?_⟩
  · intro p hp
    rw [insert_brk, insert_live]
    have hp' : p = h.brk ∨ p ∈ s :: (pre ++ post) := by
      simp at hp ⊢; tauto
    rcases hp' with rfl | hp'
    · simp
    · have := ha p hp'
      simp [this.2]; omega
  · have d1 : ∀ p ∈ pre, (insert h (cursorAt s post) x).1.data p = h.data p := by
      intro p hp; rw [insert_data]; simp [hfresh p (by simp [hp])]
    have d2 : ∀ p ∈ post, (insert h (cursorAt s post) x).1.data p = h.data p := by
      intro p hp; rw [insert_data]; simp [hfresh p (by simp [hp])]
    have : pre ++ h.brk :: post = pre ++ [h.brk] ++ post := by simp
    rw [this, vals_append, vals_append, vals_congr d1, vals_congr d2, hsp.1, hsp.2]
    simp [vals, insert_data]

/-- C10: `insert(position, x)` links exactly one new node holding `x` directly
before `position`. For a list with nodes `pre ++ post` and payloads `xs ++ ys`
(`pre` carrying `xs`) and `position` the cursor standing before `post` (the
sentinel when `post` is empty), the returned cursor is a node that was not in
the list, the list afterwards has nodes `pre ++ [new] ++ post` and payloads
`xs ++ [x] ++ ys`, which is also what a traversal from `begin()` to `end()`
reads, the returned cursor dereferences to `x` and its successor is
`position`, no other node changes payload or allocation status, and
`push_front` and `push_back` are this `insert` at `begin()` and at `end()`:
they put the new element first and last. -/
theorem insert_links_before_position (h : Heap α) (s : Nat) (pre post : List Nat)
    (xs ys : List α) (x : α)
    (hl : IsList h s (pre ++ post) (xs ++ ys)) (hlen : pre.length = xs.length) :
    (insert h (cursorAt s post) x).2 ∉ s :: (pre ++ post) ∧
    IsList (insert h (cursorAt s post) x).1 s
      (pre ++ (insert h (cursorAt s post) x).2 :: post) (xs ++ x :: ys) ∧
    (∀ fuel, (pre ++ post).length + 1 < fuel →
      toList fuel (insert h (cursorAt s post) x).1 s = some (xs ++ x :: ys)) ∧
    (insert h (cursorAt s post) x).1.data (insert h (cursorAt s post) x).2 = some x ∧
    (insert h (cursorAt s post) x).1.next (insert h (cursorAt s post) x).2 = cursorAt s post ∧
    (∀ q, q ≠ (insert h (cursorAt s post) x).2 →
      (insert h (cursorAt s post) x).1.data q = h.data q ∧
      (insert h (cursorAt s post) x).1.live q = h.live q) ∧
    push_front h s x = (insert h (cursorAt s (pre ++ post)) x).1 ∧
    push_back h s x = (insert h (cursorAt s []) x).1 ∧
    IsList (push_front h s x) s (h.brk :: (pre ++ post)) (x :: (xs ++ ys)) ∧
    IsList (push_back h s x) s ((pre ++ post) ++ [h.brk]) ((xs ++ ys) ++ [x]) := by
  have hfresh : ∀ p ∈ s :: (pre ++ post), p ≠ h.brk := by
    intro p hp e; have := (hl.2.1 p hp).1; omega
  have hnew := insert_isList x hl hlen
  have hpp := ring_prev_cursor hl.1
  have hppm : h.brk ≠ h.prev (cursorAt s post) := by
    rw [hpp.1]
    intro e
    have hm : (s :: pre).getLast (List.cons_ne_nil _ _) ∈ s :: pre := List.getLast_mem _
    exact hfresh _ (List.mem_cons.mpr
      ((List.mem_cons.mp hm).imp id (List.mem_append_left _))) e.symm
  have hfront : push_front h s x = (insert h (cursorAt s (pre ++ post)) x).1 := by
    unfold push_front begin
    rw [ring_next_sentinel hl.1]
  refine ⟨fun hm => hfresh _ hm rfl, hnew, ?_, ?_, ?_, ?_, hfront, rfl, ?_, ?_⟩
  · intro fuel hf
    exact toList_of_isList hnew fuel (by simp at hf ⊢; omega)
  · rw [insert_snd, insert_data]; simp
  · rw [insert_snd, insert_next]; simp [hppm]
  · intro q hq
    rw [insert_snd] at hq
    rw [insert_data, insert_live]; simp [hq]
  · rw [hfront]
    have hl0 : IsList h s ([] ++ (pre ++ post)) ([] ++ (xs ++ ys)) := by simpa using hl
    simpa using insert_isList x hl0 rfl
  · have hl0 : IsList h s ((pre ++ post) ++ []) ((xs ++ ys) ++ []) := by simpa using hl
    have := insert_isList x hl0 (isList_length hl)
    simpa [push_back, end_, cursorAt] using this

theorem insert_links_before_position_witness :
    IsList (build (Heap.init : Heap Nat) [1, 2, 3]).1 1 ([2] ++ [3, 4]) ([1] ++ [2, 3]) ∧
    toList 10 (insert (build (Heap.init : Heap Nat) [1, 2, 3]).1 (cursorAt 1 [3, 4]) 9).1 1
      = some ([1] ++ 9 :: [2, 3]) :=
  ⟨by decide,
   (insert_links_before_position (build (Heap.init : Heap Nat) [1, 2, 3]).1 1 [2] [3, 4]
      [1] [2, 3] 9 (by decide) (by decide)).2.2.1 10 (by decide)⟩

/-! ## Size and `splice` -/

theorem transfer_data (h : Heap α) (p f l : Nat) : (transfer h p f l).data = h.data := by
  unfold transfer; split <;> rfl

theorem transfer_live (h : Heap α) (p f l : Nat) : (transfer h p f l).live = h.live := by
  unfold transfer; split <;> rfl

theorem transfer_brk (h : Heap α) (p f l : Nat) : (transfer h p f l).brk = h.brk := by
  unfold transfer; split <;> rfl

theorem distance_ring {h : Heap α} {s : Nat} :
    ∀ (post pre : List Nat) (fuel n : Nat), Ring h s (pre ++ post) → post.length < fuel →
      distance fuel h (cursorAt s post) s n = some (n + post.length)
  | [], pre, fuel, n, _, hf => by
      cases fuel with
      | zero => omega
      | succ fuel => simp [distance, cursorAt]
  | p :: post, pre, fuel, n, hr, hf => by
      cases fuel with
      | zero => omega
      | succ fuel =>
        have hne : cursorAt s (p :: post) ≠ s := (ring_cursor_ne hr).mpr (by simp)
        have hmid := ring_mid hr
        have hr' : Ring h s ((pre ++ [p]) ++ post) := by simpa using hr
        have ih := distance_ring post (pre ++ [p]) fuel (n + 1) hr' (by simp at hf; omega)
        simp only [cursorAt_cons] at hne
        simp only [distance, cursorAt_cons, ne_eq, hne, not_false_eq_true, ↓reduceIte, hmid.1, ih,
          List.length_cons]
        congr 1; omega

theorem size_ring {h : Heap α} {s : Nat} {ps : List Nat} (hr : Ring h s ps) (fuel : Nat)
    (hf : ps.length < fuel) : size fuel h s = some ps.length := by
  unfold size begin end_
  rw [ring_next_sentinel hr]
  simpa using distance_ring ps [] fuel 0 hr hf

/-- A list keeps its representation under a heap change that relinks its ring
and leaves payloads, allocation status and the allocator alone. -/
theorem isList_relink {h h' : Heap α} {s : Nat} {ps : List Nat} {xs : List α}
    (hr : Ring h' s ps) (hb : h'.brk = h.brk) (hl : h'.live = h.live) (hd : h'.data = h.data)
    (ha : ∀ p ∈ s :: ps, p < h.brk ∧ h.live p = true) (hv : vals h ps = xs.map some) :
    IsList h' s ps xs := by
  refine ⟨hr, ?_, ?_⟩
  · intro p hp; rw [hb, hl]; exact ha p hp
  · unfold vals at hv ⊢; rw [hd]; exact hv

theorem splice_ring {h : Heap α} {a b : Nat} {pre post qs : List Nat}
    (hA : Ring h a (pre ++ post)) (hB : Ring h b qs)
    (hd : ∀ x ∈ a :: (pre ++ post), x ∉ b :: qs) :
    Ring (splice h (cursorAt a post) b) a (pre ++ qs ++ post) ∧
    Ring (splice h (cursorAt a post) b) b [] ∧
    ∀ x, x ∉ a :: (pre ++ post) → x ∉ b :: qs →
      (splice h (cursorAt a post) b).next x = h.next x ∧
      (splice h (cursorAt a post) b).prev x = h.prev x := by
  unfold splice
  cases qs with
  | nil =>
    have he : empty h b = true := (ring_empty_iff hB).mpr rfl
    simp only [he, Bool.not_true, Bool.false_eq_true, ↓reduceIte, List.append_nil]
    exact ⟨hA, hB, by simp⟩
  | cons q qs =>
    have he : empty h b = false := by
      have := (ring_empty_iff hB).not.mpr (by simp)
      simpa using this
    have hbeg : begin h b = q := ring_next_sentinel hB
    simp only [he, Bool.not_false, ↓reduceIte, hbeg, end_]
    have hB' : Ring h b ([] ++ (q :: qs ++ [])) := by simpa using hB
    have hd' : ∀ x ∈ a :: (pre ++ post), x ∉ b :: ([] ++ (q :: qs ++ [])) := by simpa using hd
    have key := transfer_rings hA hB' hd'
    simp only [cursorAt_nil, List.nil_append, List.append_nil] at key
    refine ⟨by simpa using key.1, key.2.1, ?_⟩
    intro x hxa hxb
    exact key.2.2 x hxa hxb

theorem splice_data (h : Heap α) (p b : Nat) : (splice h p b).data = h.data := by
  unfold splice; split
  · exact transfer_data _ _ _ _
  · rfl

theorem splice_live (h : Heap α) (p b : Nat) : (splice h p b).live = h.live := by
  unfold splice; split
  · exact transfer_live _ _ _ _
  · rfl

theorem splice_brk (h : Heap α) (p b : Nat) : (splice h p b).brk = h.brk := by
  unfold splice; split
  · exact transfer_brk _ _ _ _
  · rfl

/-- C3: `a.splice(pos, b)` for two lists with disjoint nodes, `pos` the cursor
of `a` standing before `post` (`a.end()` when `post` is empty). Afterwards `a`
holds (elements before `pos`) ++ (all former elements of `b`, in order, as the
same nodes) ++ (elements from `pos` on), a traversal reads exactly that, `b`
is empty, and `a.size()` is its former size plus the former size of `b`. -/
theorem splice_moves_whole_list (h : Heap α) (a b : Nat) (pre post qs : List Nat)
    (xs ys zs : List α)
    (hA : IsList h a (pre ++ post) (xs ++ ys)) (hlen : pre.length = xs.length)
    (hB : IsList h b qs zs) (hd : ∀ x ∈ a :: (pre ++ post), x ∉ b :: qs) :
    IsList (splice h (cursorAt a post) b) a (pre ++ qs ++ post) (xs ++ zs ++ ys) ∧
    IsList (splice h (cursorAt a post) b) b [] [] ∧
    empty (splice h (cursorAt a post) b) b = true ∧
    (∀ fuel, (pre ++ qs ++ post).length < fuel →
      toList fuel (splice h (cursorAt a post) b) a = some (xs ++ zs ++ ys) ∧
      ∃ n m, size fuel h a = some n ∧ size fuel h b = some m ∧
        size fuel (splice h (cursorAt a post) b) a = some (n + m)) := by
  have key := splice_ring hA.1 hB.1 hd
  have hsp := isList_split hA hlen
  have hA' : IsList (splice h (cursorAt a post) b) a (pre ++ qs ++ post) (xs ++ zs ++ ys) := by
    apply isList_relink key.1 (splice_brk _ _ _) (splice_live _ _ _) (splice_data _ _ _)
    · intro p hp
      have : p ∈ a :: (pre ++ post) ∨ p ∈ b :: qs := by
        simp at hp ⊢; tauto
      rcases this with hp | hp
      · exact hA.2.1 p hp
      · exact hB.2.1 p hp
    · rw [vals_append, vals_append, hsp.1, hsp.2, hB.2.2]; simp
  have hB' : IsList (splice h (cursorAt a post) b) b [] [] := by
    apply isList_relink key.2.1 (splice_brk _ _ _) (splice_live _ _ _) (splice_data _ _ _)
    · intro p hp
      exact hB.2.1 p (by simp at hp ⊢; tauto)
    · rfl
  refine ⟨hA', hB', (ring_empty_iff key.2.1).mpr rfl, ?_⟩
  intro fuel hf
  refine ⟨toList_of_isList hA' fuel hf, (pre ++ post).length, qs.length, ?_, ?_, ?_⟩
  · exact size_ring hA.1 fuel (by simp at hf ⊢; omega)
  · exact size_ring hB.1 fuel (by simp at hf ⊢; omega)
  · rw [size_ring key.1 fuel hf]; simp; omega

theorem splice_moves_whole_list_witness :
    IsList (build (build (Heap.init : Heap Nat) [1, 2, 3]).1 [10, 20]).1 1
      ([2, 3, 4] ++ []) ([1, 2, 3] ++ []) ∧
    IsList (build (build (Heap.init : Heap Nat) [1, 2, 3]).1 [10, 20]).1 5 [6, 7] [10, 20] ∧
    toList 6 (splice (build (build (Heap.init : Heap Nat) [1, 2, 3]).1 [10, 20]).1
      (cursorAt 1 []) 5) 1 = some ([1, 2, 3] ++ [10, 20] ++ []) ∧
    empty (splice (build (build (Heap.init : Heap Nat) [1, 2, 3]).1 [10, 20]).1
      (cursorAt 1 []) 5) 5 = true :=
  have w := splice_moves_whole_list (build (build (Heap.init : Heap Nat) [1, 2, 3]).1 [10, 20]).1
    1 5 [2, 3, 4] [] [6, 7] [1, 2, 3] [] [10, 20] (by decide) (by decide) (by decide) (by decide)
  ⟨by decide, by decide, (w.2.2.2 6 (by decide)).1, w.2.2.1⟩

/-! ## `reverse` -/

theorem reverseLoop_ring {s : Nat} :
    ∀ (rest : List Nat) (r0 : Nat) (rev : List Nat) (h : Heap α) (fuel : Nat),
      Ring h s (r0 :: rev ++ rest) → rest.length < fuel →
      ∃ h', reverseLoop fuel h s (cursorAt s rest) = some h' ∧
        Ring h' s (rest.reverse ++ r0 :: rev) ∧
        h'.data = h.data ∧ h'.live = h.live ∧ h'.brk = h.brk ∧
        ∀ x, x ∉ s :: (r0 :: rev ++ rest) → h'.next x = h.next x ∧ h'.prev x = h.prev x
  | [], r0, rev, h, fuel, hr, hf => by
      cases fuel with
      | zero => omega
      | succ fuel =>
        refine ⟨h, ?_, by simpa using hr, rfl, rfl, rfl, fun _ _ => ⟨rfl, rfl⟩⟩
        simp [reverseLoop, cursorAt, end_]
  | old :: rest, r0, rev, h, fuel, hr, hf => by
      cases fuel with
      | zero => omega
      | succ fuel =>
        have hne : cursorAt s (old :: rest) ≠ s := (ring_cursor_ne hr).mpr (by simp)
        have hmid := ring_mid hr
        have hbeg : begin h s = r0 := ring_next_sentinel hr
        have hr0 : Ring h s ([] ++ (r0 :: rev ++ old :: [] ++ rest)) := by simpa using hr
        have key := transfer_ring_back hr0
        have hr1 : Ring (transfer h r0 old (cursorAt s rest)) s (old :: r0 :: rev ++ rest) := by
          simpa using key.1
        obtain ⟨h', e, hr', hd, hl, hb, hfr⟩ :=
          reverseLoop_ring rest old (r0 :: rev) _ fuel hr1 (by simp at hf; omega)
        refine ⟨h', ?_, by simpa using hr', ?_, ?_, ?_, ?_⟩
        · simp only [cursorAt_cons] at hne
          simp only [reverseLoop, cursorAt_cons, end_, ne_eq, hne, not_false_eq_true,
            ↓reduceIte, hmid.1, hbeg]
          exact e
        · rw [hd, transfer_data]
        · rw [hl, transfer_live]
        · rw [hb, transfer_brk]
        · intro x hx
          have h1 := hfr x (by simp at hx ⊢; tauto)
          have h2 := key.2 x (by simp at hx ⊢; tauto)
          exact ⟨h1.1.trans h2.1, h1.2.trans h2.2⟩

theorem reverse_ring {h : Heap α} {s : Nat} {ps : List Nat} (hr : Ring h s ps) (fuel : Nat)
    (hf : ps.length < fuel) :
    ∃ h', reverse fuel h s = some h' ∧ Ring h' s ps.reverse ∧
      h'.data = h.data ∧ h'.live = h.live ∧ h'.brk = h.brk ∧ (ps.length ≤ 1 → h' = h) ∧
      ∀ x, x ∉ s :: ps → h'.next x = h.next x ∧ h'.prev x = h.prev x := by
  unfold reverse
  match ps, hr, hf with
  | [], hr, _ =>
    have he : empty h s = true := (ring_empty_iff hr).mpr rfl
    exact ⟨h, by simp [he], hr, rfl, rfl, rfl, fun _ => rfl, fun _ _ => ⟨rfl, rfl⟩⟩
  | [p], hr, _ =>
    have h1 : h.next s = p := ring_next_sentinel hr
    have h2 : h.next p = s := (@ring_mid α h s p [] [] hr).1
    exact ⟨h, by simp [h1, h2], hr, rfl, rfl, rfl, fun _ => rfl, fun _ _ => ⟨rfl, rfl⟩⟩
  | p0 :: p1 :: ps, hr, hf =>
    have he : empty h s = false := by
      have := (ring_empty_iff hr).not.mpr (by simp)
      simpa using this
    have h1 : h.next s = p0 := ring_next_sentinel hr
    have h2 : h.next p0 = p1 := (@ring_mid α h s p0 [] (p1 :: ps) hr).1
    have hne : p1 ≠ s := by
      have := hr.1
      rintro rfl
      simp at this
    have hr0 : Ring h s (p0 :: [] ++ (p1 :: ps)) := by simpa using hr
    obtain ⟨h', e, hr', hd, hl, hb, hfr⟩ :=
      reverseLoop_ring (p1 :: ps) p0 [] h fuel hr0 (by simp at hf ⊢; omega)
    refine ⟨h', ?_, by simpa using hr', hd, hl, hb, ?_, ?_⟩
    · have hne' : (p1 == s) = false := by simpa using hne
      simp only [he, h1, h2, hne', Bool.or_self, Bool.false_eq_true, ↓reduceIte, begin]
      exact e
    · intro hlen; simp at hlen
    · intro x hx; exact hfr x (by simpa using hx)

/-- C5: `reverse()` turns the node sequence `ps` (payloads `xs`) into
`ps.reverse` (payloads `xs.reverse`) by relinking; it leaves the heap as it is
for lists of 0 or 1 elements; and a second `reverse()` restores the original
sequence. -/
theorem reverse_reverses (h : Heap α) (s : Nat) (ps : List Nat) (xs : List α) (fuel : Nat)
    (hl : IsList h s ps xs) (hf : ps.length < fuel) :
    ∃ h', reverse fuel h s = some h' ∧ IsList h' s ps.reverse xs.reverse ∧
      toList fuel h' s = some xs.reverse ∧ (ps.length ≤ 1 → h' = h) ∧
      ∃ h'', reverse fuel h' s = some h'' ∧ IsList h'' s ps xs ∧ toList fuel h'' s = some xs := by
  obtain ⟨h', e, hr', hd, hlv, hb, hsmall, _⟩ := reverse_ring hl.1 fuel hf
  have hl' : IsList h' s ps.reverse xs.reverse := by
    apply isList_relink hr' hb hlv hd
    · intro p hp; exact hl.2.1 p (by simpa using hp)
    · have := hl.2.2
      unfold vals at this ⊢
      rw [List.map_reverse, this, List.map_reverse]
  obtain ⟨h'', e2, hr'', hd2, hlv2, hb2, _, _⟩ := reverse_ring hr' fuel (by simpa using hf)
  have hl'' : IsList h'' s ps xs := by
    apply isList_relink (by simpa using hr'') (hb2.trans hb) (hlv2.trans hlv) (hd2.trans hd)
      hl.2.1 hl.2.2
  exact ⟨h', e, hl', toList_of_isList hl' fuel (by simpa using hf), hsmall,
    h'', e2, hl'', toList_of_isList hl'' fuel hf⟩

theorem reverse_reverses_witness :
    IsList (build (Heap.init : Heap Nat) [7, 8, 9]).1 1 [2, 3, 4] [7, 8, 9] ∧
    ∃ h', reverse 5 (build (Heap.init : Heap Nat) [7, 8, 9]).1 1 = some h' ∧
      IsList h' 1 [4, 3, 2] [9, 8, 7] ∧ toList 5 h' 1 = some [9, 8, 7] ∧
      (([2, 3, 4] : List Nat).length ≤ 1 → h' = (build (Heap.init : Heap Nat) [7, 8, 9]).1) ∧
      ∃ h'', reverse 5 h' 1 = some h'' ∧ IsList h'' 1 [2, 3, 4] [7, 8, 9] ∧
        toList 5 h'' 1 = some [7, 8, 9] :=
  ⟨by decide, reverse_reverses (build (Heap.init : Heap Nat) [7, 8, 9]).1 1 [2, 3, 4] [7, 8, 9] 5
    (by decide) (by decide)⟩

/-! ## `erase` and `remove` -/

theorem erase_isList {h : Heap α} {s p : Nat} {pre post : List Nat} {xs ys : List α} {y : α}
    (hl : IsList h s (pre ++ p :: post) (xs ++ y :: ys)) (hlen : pre.length = xs.length) :
    IsList (erase h p).1 s (pre ++ post) (xs ++ ys) := by
  obtain ⟨hr, ha, hv⟩ := hl
  have hsp := isList_split ⟨hr, ha, hv⟩ hlen
  have hnd := hr.1
  have hne : ∀ q ∈ s :: (pre ++ post), q ≠ p := by
    intro q hq e
    subst e
    have : (q :: (s :: (pre ++ post))).Nodup := by
      have hp : (s :: (pre ++ q :: post)).Perm (q :: (s :: (pre ++ post))) := by
        refine (List.Perm.cons s List.perm_middle).trans (List.Perm.swap _ _ _)
      exact hp.nodup_iff.mp hnd
    exact (List.nodup_cons.mp this).1 hq
  refine ⟨(erase_ring hr).1, ?_, ?_⟩
  · intro q hq
    rw [erase_brk, erase_live]
    have := ha q (by simp at hq ⊢; tauto)
    simp [hne q hq, this.1, this.2]
  · have d1 : ∀ q ∈ pre, (erase h p).1.data q = h.data q := by
      intro q hq; rw [erase_data]; simp [hne q (by simp [hq])]
    have d2 : ∀ q ∈ post, (erase h p).1.data q = h.data q := by
      intro q hq; rw [erase_data]; simp [hne q (by simp [hq])]
    have hv2 : vals h post = ys.map some := by
      have := hsp.2; simp only [vals, List.map_cons, List.cons.injEq] at this; exact this.2
    rw [vals_append, vals_congr d1, vals_congr d2, hsp.1, hv2]; simp

theorem removeLoop_spec (eq : α → α → Bool) (v : α) {s : Nat} :
    ∀ (post pre : List Nat) (xs ys : List α) (h : Heap α) (fuel : Nat),
      IsList h s (pre ++ post) (xs ++ ys) → pre.length = xs.length → post.length < fuel →
      ∃ h', removeLoop eq v fuel h (cursorAt s post) s = some h' ∧
        IsList h' s (pre ++ post.filter (fun p => keepB eq v (h.data p)))
          (xs ++ ys.filter (fun y => !eq y v)) ∧
        h'.brk = h.brk ∧
        (∀ q, q ∉ post.filter (fun p => !keepB eq v (h.data p)) →
          h'.data q = h.data q ∧ h'.live q = h.live q) ∧
        (∀ q ∈ post.filter (fun p => !keepB eq v (h.data p)),
          h'.data q = none ∧ h'.live q = false)
  | [], pre, xs, ys, h, fuel, hl, hlen, hf => by
      cases fuel with
      | zero => omega
      | succ fuel =>
        have hys : ys = [] := by
          have := isList_length hl; simp at this
          cases ys with
          | nil => rfl
          | cons y ys => simp at this; omega
        subst hys
        exact ⟨h, by simp [removeLoop, cursorAt], by simpa using hl, rfl,
          fun _ _ => ⟨rfl, rfl⟩, by simp⟩
  | p :: post, pre, xs, ys, h, fuel, hl, hlen, hf => by
      cases fuel with
      | zero => omega
      | succ fuel =>
        have hsp := isList_split hl hlen
        cases ys with
        | nil => simp [vals] at hsp
        | cons y ys =>
          have hdp : h.data p = some y := by
            have := hsp.2; simp only [vals, List.map_cons, List.cons.injEq] at this; exact this.1
          have hne : cursorAt s (p :: post) ≠ s := (ring_cursor_ne hl.1).mpr (by simp)
          have hmid := ring_mid hl.1
          have hnd := hl.1.1
          have hpn : ∀ q ∈ post, q ≠ p := by
            intro q hq e; subst e
            have h1 : (q :: post).Nodup := by
              have := (List.nodup_cons.mp hnd).2
              exact (List.nodup_append.mp this).2.1
            exact (List.nodup_cons.mp h1).1 hq
          simp only [cursorAt_cons] at hne
          simp only [removeLoop, cursorAt_cons, ne_eq, hne, not_false_eq_true, ↓reduceIte, hdp,
            hmid.1]
          by_cases hev : eq y v = true
          · have hl1 := erase_isList hl hlen
            obtain ⟨h', e, hl', hb, hsame, hgone⟩ :=
              removeLoop_spec eq v post pre xs ys _ fuel hl1 hlen (by simp at hf; omega)
            have hfc : ∀ (f : Option α → Bool),
                post.filter (fun q => f ((erase h p).1.data q)) =
                post.filter (fun q => f (h.data q)) := by
              intro f
              apply List.filter_congr
              intro q hq; rw [erase_data]; simp [hpn q hq]
            rw [hfc (keepB eq v)] at hl'
            rw [hfc (fun d => !keepB eq v d)] at hsame hgone
            refine ⟨h', by simpa [hev] using e, ?_, by rw [hb, erase_brk], ?_, ?_⟩
            · simpa [List.filter_cons, hdp, keepB, hev] using hl'
            · intro q hq
              have hq' : q ≠ p ∧ q ∉ post.filter (fun p => !keepB eq v (h.data p)) := by
                simpa [List.filter_cons, hdp, keepB, hev] using hq
              have := hsame q hq'.2
              rw [erase_data, erase_live] at this
              simpa [hq'.1] using this
            · intro q hq
              have hq' : q = p ∨ q ∈ post.filter (fun p => !keepB eq v (h.data p)) := by
                simpa [List.filter_cons, hdp, keepB, hev] using hq
              rcases hq' with rfl | hq'
              · have hq2 : q ∉ post.filter (fun p => !keepB eq v (h.data p)) := by
                  intro hm; exact hpn q (List.mem_of_mem_filter hm) rfl
                have := hsame q hq2
                rw [erase_data, erase_live] at this
                simpa using this
              · exact hgone q hq'
          · have hl1 : IsList h s ((pre ++ [p]) ++ post) ((xs ++ [y]) ++ ys) := by
              simpa using hl
            obtain ⟨h', e, hl', hb, hsame, hgone⟩ :=
              removeLoop_spec eq v post (pre ++ [p]) (xs ++ [y]) ys h fuel hl1
                (by simp [hlen]) (by simp at hf; omega)
            refine ⟨h', by simpa [hev] using e, ?_, hb, ?_, ?_⟩
            · simpa [List.filter_cons, hdp, keepB, hev] using hl'
            · intro q hq
              exact hsame q (by simpa [List.filter_cons, hdp, keepB, hev] using hq)
            · intro q hq
              exact hgone q (by simpa [List.filter_cons, hdp, keepB, hev] using hq)

/-- C7: `remove(v)`, with `v` passed by value (not an element of the list),
erases every node whose payload compares equal to `v` and nothing else: the
list keeps exactly the nodes whose payload is not equal to `v`, in their
original order, so its sequence is the original one filtered; kept nodes and
all nodes outside the list keep payload and allocation status; erased nodes
are destroyed and released. -/
theorem remove_filters_equal (eq : α → α → Bool) (h : Heap α) (s : Nat) (ps : List Nat)
    (xs : List α) (v : α) (fuel : Nat) (hl : IsList h s ps xs) (hf : ps.length < fuel) :
    ∃ h', remove eq fuel h s v = some h' ∧
      IsList h' s (ps.filter (fun p => keepB eq v (h.data p))) (xs.filter (fun x => !eq x v)) ∧
      toList fuel h' s = some (xs.filter (fun x => !eq x v)) ∧
      (∀ q, q ∉ ps.filter (fun p => !keepB eq v (h.data p)) →
        h'.data q = h.data q ∧ h'.live q = h.live q) ∧
      (∀ q ∈ ps.filter (fun p => !keepB eq v (h.data p)),
        h'.data q = none ∧ h'.live q = false) := by
  have hl0 : IsList h s ([] ++ ps) ([] ++ xs) := by simpa using hl
  obtain ⟨h', e, hl', _, hsame, hgone⟩ := removeLoop_spec eq v ps [] [] xs h fuel hl0 rfl hf
  refine ⟨h', ?_, by simpa using hl', ?_, hsame, hgone⟩
  · unfold remove begin end_
    rw [ring_next_sentinel hl.1]; exact e
  · apply toList_of_isList (by simpa using hl') fuel
    exact lt_of_le_of_lt (List.length_filter_le _ _) hf

theorem remove_filters_equal_witness :
    IsList (build (Heap.init : Heap Nat) [1, 2, 1, 3]).1 1 [2, 3, 4, 5] [1, 2, 1, 3] ∧
    ∃ h', remove (fun a b => a == b) 5 (build (Heap.init : Heap Nat) [1, 2, 1, 3]).1 1 1
        = some h' ∧
      toList 5 h' 1 = some [2, 3] :=
  have w := remove_filters_equal (fun a b => a == b) (build (Heap.init : Heap Nat) [1, 2, 1, 3]).1
    1 [2, 3, 4, 5] [1, 2, 1, 3] 1 5 (by decide) (by decide)
  ⟨by decide, w.choose, w.choose_spec.1, w.choose_spec.2.2.1⟩

/-! ## `unique` -/

section runs
variable {β : Type} (e : β → β → Bool)

theorem runs_cons_ne_nil (x : β) (l : List β) :
    ∃ r rs, runs e (x :: l) = (x :: r) :: rs := by
  induction l generalizing x with
  | nil => exact ⟨[], [], rfl⟩
  | cons y l ih =>
    obtain ⟨r, rs, hr⟩ := ih y
    simp only [runs] at hr ⊢
    rw [hr]
    by_cases hxy : e x y = true
    · exact ⟨y :: r, rs, by simp [hxy]⟩
    · exact ⟨[], (y :: r) :: rs, by simp [hxy]⟩

theorem runHeads_cons_cons (x y : β) (l : List β) :
    runHeads e (x :: y :: l) =
      if e x y then x :: (runHeads e (y :: l)).tail else x :: runHeads e (y :: l) := by
  obtain ⟨r, rs, hr⟩ := runs_cons_ne_nil e y l
  have : runs e (x :: y :: l) =
      if e x y then (x :: y :: r) :: rs else [x] :: (y :: r) :: rs := by
    rw [runs, hr]
  unfold runHeads
  rw [this, hr]
  by_cases hxy : e x y = true <;> simp [hxy]

theorem uniqFrom_of_same (x y : β) (hxy : ∀ z, e x z = e y z) :
    ∀ l, uniqFrom e x l = x :: (uniqFrom e y l).tail
  | [] => rfl
  | z :: l => by
      simp only [uniqFrom, hxy z]
      by_cases hz : e y z = true
      · simp only [hz, ↓reduceIte]; exact uniqFrom_of_same x y hxy l
      · simp [hz]

/-- For a symmetric and transitive comparison the forward pass keeps exactly
the first element of every maximal run. -/
theorem uniqFrom_eq_runHeads (hs : ∀ a b, e a b = true → e b a = true)
    (ht : ∀ a b c, e a b = true → e b c = true → e a c = true) :
    ∀ (l : List β) (x : β), uniqFrom e x l = runHeads e (x :: l)
  | [], x => rfl
  | y :: l, x => by
      rw [runHeads_cons_cons, uniqFrom]
      by_cases hxy : e x y = true
      · simp only [hxy, ↓reduceIte]
        rw [← uniqFrom_eq_runHeads hs ht l y]
        apply uniqFrom_of_same
        intro z
        by_cases hz : e y z = true
        · rw [hz]; exact ht x y z hxy hz
        · have : ¬ e x z = true := fun hxz => hz (ht y x z (hs x y hxy) hxz)
          simp at hz this; rw [hz, this]
      · simp only [hxy, Bool.false_eq_true, ↓reduceIte]
        rw [uniqFrom_eq_runHeads hs ht l y]

theorem mem_uniqFrom {x q : β} : ∀ {l : List β}, q ∈ uniqFrom e x l → q ∈ x :: l
  | [], hq => by simpa [uniqFrom] using hq
  | y :: l, hq => by
      simp only [uniqFrom] at hq
      by_cases hxy : e x y = true
      · simp only [hxy, ↓reduceIte] at hq
        have := mem_uniqFrom hq
        simp at this ⊢; tauto
      · simp only [hxy, Bool.false_eq_true, ↓reduceIte, List.mem_cons] at hq
        rcases hq with rfl | hq
        · simp
        · have := mem_uniqFrom hq
          simp at this ⊢; tauto

theorem head_mem_uniqFrom (x : β) : ∀ (l : List β), x ∈ uniqFrom e x l
  | [] => by simp [uniqFrom]
  | y :: l => by
      simp only [uniqFrom]
      by_cases hxy : e x y = true
      · simp only [hxy, ↓reduceIte]; exact head_mem_uniqFrom x l
      · simp [hxy]

theorem uniqFrom_congr {e' : β → β → Bool} :
    ∀ (l : List β) (x : β), (∀ p ∈ x :: l, ∀ q ∈ x :: l, e p q = e' p q) →
      uniqFrom e x l = uniqFrom e' x l
  | [], _, _ => rfl
  | y :: l, x, hc => by
      simp only [uniqFrom]
      rw [hc x (by simp) y (by simp)]
      rw [uniqFrom_congr l x (fun p hp q hq => hc p (by simp at hp ⊢; tauto) q
        (by simp at hq ⊢; tauto))]
      rw [uniqFrom_congr l y (fun p hp q hq => hc p (by simp at hp ⊢; tauto) q
        (by simp at hq ⊢; tauto))]

theorem uniqFrom_chain : ∀ (l : List β) (x : β),
    List.Chain' (fun a b => e a b = false) (uniqFrom e x l) ∧
    (uniqFrom e x l).head? = some x
  | [], x => by simp [uniqFrom]
  | y :: l, x => by
      simp only [uniqFrom]
      by_cases hxy : e x y = true
      · simp only [hxy, ↓reduceIte]; exact uniqFrom_chain l x
      · simp only [hxy, Bool.false_eq_true, ↓reduceIte, List.head?_cons, and_true]
        have ih := uniqFrom_chain l y
        rw [List.chain'_cons']
        refine ⟨?_, ih.1⟩
        intro z hz
        rw [ih.2] at hz
        simp at hz; subst hz; simpa using hxy

end runs

theorem uniqueLoop_spec (eq : α → α → Bool) {s : Nat} :
    ∀ (post pre : List Nat) (f : Nat) (xs : List α) (a : α) (ys : List α) (h : Heap α)
      (fuel : Nat),
      IsList h s (pre ++ f :: post) (xs ++ a :: ys) → pre.length = xs.length →
      post.length < fuel →
      ∃ h', uniqueLoop eq fuel h f s = some h' ∧
        IsList h' s (pre ++ uniqFrom (eqAt eq h) f post) (xs ++ uniqFrom eq a ys) ∧
        (∀ q, q ∉ post ∨ q ∈ uniqFrom (eqAt eq h) f post →
          h'.data q = h.data q ∧ h'.live q = h.live q) ∧
        (∀ q ∈ post, q ∉ uniqFrom (eqAt eq h) f post → h'.data q = none ∧ h'.live q = false)
  | [], pre, f, xs, a, ys, h, fuel, hl, hlen, hf => by
      cases fuel with
      | zero => omega
      | succ fuel =>
        have hys : ys = [] := by
          have := isList_length hl
          cases ys with
          | nil => rfl
          | cons y ys => simp at this; omega
        subst hys
        have hmid := ring_mid hl.1
        refine ⟨h, ?_, by simpa [uniqFrom] using hl, fun _ _ => ⟨rfl, rfl⟩, by simp⟩
        simp [uniqueLoop, hmid.1, cursorAt]
  | n :: post, pre, f, xs, a, ys, h, fuel, hl, hlen, hf => by
      cases fuel with
      | zero => omega
      | succ fuel =>
        have hsp := isList_split hl hlen
        cases ys with
        | nil => simp [vals] at hsp
        | cons b ys =>
          have hv := hsp.2
          simp only [vals, List.map_cons, List.cons.injEq] at hv
          obtain ⟨hdf, hdn, _⟩ := hv
          have hmid := ring_mid hl.1
          simp only [cursorAt_cons] at hmid
          have hl2 : IsList h s ((pre ++ [f]) ++ n :: post) ((xs ++ [a]) ++ b :: ys) := by
            simpa using hl
          have hne : n ≠ s := by
            have := (ring_cursor_ne hl2.1).mpr (by simp)
            simpa [cursorAt] using this
          have hnd : (f :: n :: post).Nodup := by
            have := (List.nodup_cons.mp hl.1.1).2
            exact (List.nodup_append.mp this).2.1
          have hfn : f ≠ n := by
            intro e; subst e; simp at hnd
          have hpn : ∀ q ∈ f :: post, q ≠ n := by
            intro q hq e; subst e
            simp at hnd hq
            rcases hq with rfl | hq
            · exact hfn rfl
            · exact hnd.2.1 hq
          have hfp : f ∉ post := by
            intro hm; simp at hnd; exact hnd.1.2 hm
          have hea : eqAt eq h f n = eq a b := by simp [eqAt, hdf, hdn]
          simp only [uniqueLoop, hmid.1, ne_eq, hne, not_false_eq_true, ↓reduceIte, hdf, hdn]
          by_cases hev : eq a b = true
          · have hl1 := erase_isList hl2 (by simp [hlen])
            have hl1' : IsList (erase h n).1 s (pre ++ f :: post) (xs ++ a :: ys) := by
              simpa using hl1
            obtain ⟨h', e, hl', hsame, hgone⟩ :=
              uniqueLoop_spec eq post pre f xs a ys _ fuel hl1' hlen (by simp at hf; omega)
            have hcg : uniqFrom (eqAt eq (erase h n).1) f post = uniqFrom (eqAt eq h) f post := by
              apply uniqFrom_congr
              intro p hp q hq
              simp only [eqAt, erase_data, hpn p hp, hpn q hq, ↓reduceIte]
            rw [hcg] at hl' hsame hgone
            refine ⟨h', by simpa [hev] using e, ?_, ?_, ?_⟩
            · simpa [uniqFrom, hea, hev] using hl'
            · intro q hq
              have hq' : q ≠ n ∧ (q ∉ post ∨ q ∈ uniqFrom (eqAt eq h) f post) := by
                simp only [uniqFrom, hea, hev, ↓reduceIte, List.mem_cons, not_or] at hq
                rcases hq with hq | hq
                · exact ⟨hq.1, Or.inl hq.2⟩
                · exact ⟨hpn q (mem_uniqFrom _ hq), Or.inr hq⟩
              have := hsame q hq'.2
              rw [erase_data, erase_live] at this
              simpa [hq'.1] using this
            · intro q hq hq2
              simp only [uniqFrom, hea, hev, ↓reduceIte] at hq2
              rcases List.mem_cons.mp hq with rfl | hq
              · have hnp : q ∉ post := fun hm => hpn q (List.mem_cons_of_mem _ hm) rfl
                have := hsame q (Or.inl hnp)
                rw [erase_data, erase_live] at this
                simpa using this
              · exact hgone q hq hq2
          · obtain ⟨h', e, hl', hsame, hgone⟩ :=
              uniqueLoop_spec eq post (pre ++ [f]) n (xs ++ [a]) b ys h fuel hl2
                (by simp [hlen]) (by simp at hf; omega)
            refine ⟨h', by simpa [hev] using e, ?_, ?_, ?_⟩
            · simpa [uniqFrom, hea, hev] using hl'
            · intro q hq
              apply hsame q
              simp only [uniqFrom, hea, hev, Bool.false_eq_true, ↓reduceIte, List.mem_cons,
                not_or] at hq
              rcases hq with hq | hq | hq
              · exact Or.inl hq.2
              · exact Or.inl (hq ▸ hfp)
              · exact Or.inr hq
            · intro q hq hq2
              simp only [uniqFrom, hea, hev, Bool.false_eq_true, ↓reduceIte, List.mem_cons,
                not_or] at hq2
              rcases List.mem_cons.mp hq with rfl | hq
              · exact absurd (head_mem_uniqFrom _ q post) hq2.2
              · exact hgone q hq hq2.2

theorem eqAt_symm {eq : α → α → Bool} (hs : ∀ a b, eq a b = true → eq b a = true)
    (h : Heap α) (p q : Nat) (hpq : eqAt eq h p q = true) : eqAt eq h q p = true := by
  unfold eqAt at hpq ⊢
  cases hp : h.data p <;> cases hq : h.data q <;> simp_all

theorem eqAt_trans {eq : α → α → Bool}
    (ht : ∀ a b c, eq a b = true → eq b c = true → eq a c = true)
    (h : Heap α) (p q r : Nat) (hpq : eqAt eq h p q = true) (hqr : eqAt eq h q r = true) :
    eqAt eq h p r = true := by
  unfold eqAt at hpq hqr ⊢
  cases hp : h.data p <;> cases hq : h.data q <;> cases hr : h.data r <;> simp_all
  exact ht _ _ _ hpq hqr

theorem runHeads_length_le {β : Type} (e : β → β → Bool) (x : β) :
    ∀ l : List β, (uniqFrom e x l).length ≤ l.length + 1
  | [] => by simp [uniqFrom]
  | y :: l => by
      simp only [uniqFrom]
      by_cases hxy : e x y = true
      · simp only [hxy, ↓reduceIte, List.length_cons]
        have := runHeads_length_le e x l; omega
      · simp only [hxy, Bool.false_eq_true, ↓reduceIte, List.length_cons]
        have := runHeads_length_le e y l; omega

/-- C6: `unique()`, for an `operator==` that is symmetric and transitive,
collapses every maximal run of consecutive equal elements to its first node and
keeps the runs in order: the list afterwards consists of the first node of
every maximal run, its sequence is the first element of every run, no two
adjacent elements of it compare equal, the kept nodes and all nodes outside
the list are untouched, the other nodes of the runs are destroyed, and an
empty list stays empty. -/
theorem unique_collapses_runs (eq : α → α → Bool)
    (hs : ∀ a b, eq a b = true → eq b a = true)
    (ht : ∀ a b c, eq a b = true → eq b c = true → eq a c = true)
    (h : Heap α) (s : Nat) (ps : List Nat) (xs : List α) (fuel : Nat)
    (hl : IsList h s ps xs) (hf : ps.length < fuel) :
    ∃ h', unique eq fuel h s = some h' ∧
      IsList h' s (runHeads (eqAt eq h) ps) (runHeads eq xs) ∧
      toList fuel h' s = some (runHeads eq xs) ∧
      List.Chain' (fun a b => eq a b = false) (runHeads eq xs) ∧
      (xs = [] → h' = h ∧ runHeads eq xs = []) ∧
      (∀ q, q ∉ ps ∨ q ∈ runHeads (eqAt eq h) ps →
        h'.data q = h.data q ∧ h'.live q = h.live q) ∧
      (∀ q ∈ ps, q ∉ runHeads (eqAt eq h) ps → h'.data q = none ∧ h'.live q = false) := by
  unfold unique
  cases ps with
  | nil =>
    have hxs : xs = [] := by
      have := isList_length hl
      cases xs with
      | nil => rfl
      | cons y ys => simp at this
    subst hxs
    have he : empty h s = true := (ring_empty_iff hl.1).mpr rfl
    refine ⟨h, by simp [he], by simpa [runHeads, runs] using hl, ?_, by simp [runHeads, runs],
      fun _ => ⟨rfl, rfl⟩, fun _ _ => ⟨rfl, rfl⟩, by simp⟩
    have hl' : IsList h s [] (runHeads eq ([] : List α)) := by simpa [runHeads, runs] using hl
    exact toList_of_isList hl' fuel hf
  | cons f post =>
    cases xs with
    | nil => have := isList_length hl; simp at this
    | cons a ys =>
      have he : empty h s = false := by
        have := (ring_empty_iff hl.1).not.mpr (by simp)
        simpa using this
      have hbeg : begin h s = f := ring_next_sentinel hl.1
      have hl0 : IsList h s ([] ++ f :: post) ([] ++ a :: ys) := by simpa using hl
      obtain ⟨h', e, hl', hsame, hgone⟩ :=
        uniqueLoop_spec eq post [] f [] a ys h fuel hl0 rfl (by simp at hf; omega)
      rw [uniqFrom_eq_runHeads (eqAt eq h) (eqAt_symm hs h) (eqAt_trans ht h)] at hl' hsame hgone
      rw [uniqFrom_eq_runHeads eq hs ht] at hl'
      have hl'' : IsList h' s (runHeads (eqAt eq h) (f :: post)) (runHeads eq (a :: ys)) := by
        simpa using hl'
      have hlen : (runHeads (eqAt eq h) (f :: post)).length < fuel := by
        rw [← uniqFrom_eq_runHeads (eqAt eq h) (eqAt_symm hs h) (eqAt_trans ht h)]
        have := runHeads_length_le (eqAt eq h) f post
        simp at hf; omega
      refine ⟨h', by simpa [he, hbeg, end_] using e, hl'', toList_of_isList hl'' fuel hlen, ?_,
        by simp, ?_, ?_⟩
      · rw [← uniqFrom_eq_runHeads eq hs ht]
        exact (uniqFrom_chain eq ys a).1
      · intro q hq
        apply hsame q
        rcases hq with hq | hq
        · left; intro hm; exact hq (List.mem_cons_of_mem _ hm)
        · exact Or.inr hq
      · intro q hq hq2
        rcases List.mem_cons.mp hq with rfl | hq
        · exfalso; apply hq2
          rw [← uniqFrom_eq_runHeads (eqAt eq h) (eqAt_symm hs h) (eqAt_trans ht h)]
          exact head_mem_uniqFrom _ _ _
        · exact hgone q hq hq2

theorem unique_collapses_runs_witness :
    IsList (build (Heap.init : Heap Nat) [1, 1, 2, 2, 3]).1 1 [2, 3, 4, 5, 6] [1, 1, 2, 2, 3] ∧
    ∃ h', unique (fun a b => a == b) 6 (build (Heap.init : Heap Nat) [1, 1, 2, 2, 3]).1 1
        = some h' ∧
      IsList h' 1 [2, 4, 6] [1, 2, 3] ∧ toList 6 h' 1 = some [1, 2, 3] :=
  have w := unique_collapses_runs (fun (a b : Nat) => a == b)
    (by intro a b hab; simp at hab ⊢; exact hab.symm)
    (by intro a b c hab hbc; simp at hab hbc ⊢; exact hab.trans hbc)
    (build (Heap.init : Heap Nat) [1, 1, 2, 2, 3]).1 1 [2, 3, 4, 5, 6] [1, 1, 2, 2, 3] 6
    (by decide) (by decide)
  ⟨by decide, w.choose, w.choose_spec.1, w.choose_spec.2.1, w.choose_spec.2.2.1⟩

/-! ## Lists built by insertions and erasures -/

theorem initList_ring (h0 : Heap α) : Ring (initList h0).1 (initList h0).2 [] := by
  rw [ring_nil_iff]
  simp [initList, createNode, Heap.setNext, Heap.setPrev, Heap.setLive]

theorem initList_snd (h0 : Heap α) : (initList h0).2 = h0.brk := rfl

theorem initList_brk (h0 : Heap α) : (initList h0).1.brk = h0.brk + 1 := rfl

theorem initList_live (h0 : Heap α) (y : Nat) :
    (initList h0).1.live y = if y = h0.brk then true else h0.live y := by
  simp [initList, createNode, Heap.setNext, Heap.setPrev, Heap.setLive]

theorem initList_data (h0 : Heap α) : (initList h0).1.data = h0.data := rfl

theorem initList_next (h0 : Heap α) (y : Nat) :
    (initList h0).1.next y = if y = h0.brk then h0.brk else h0.next y := by
  simp [initList, createNode, Heap.setNext, Heap.setPrev, Heap.setLive]

theorem initList_prev (h0 : Heap α) (y : Nat) :
    (initList h0).1.prev y = if y = h0.brk then h0.brk else h0.prev y := by
  simp [initList, createNode, Heap.setNext, Heap.setPrev, Heap.setLive]

theorem built_inv {h : Heap α} {s : Nat} {ps : List Nat} {i e : Nat} (hb : Built h s ps i e) :
    Ring h s ps ∧ (∀ p ∈ s :: ps, p < h.brk ∧ h.live p = true) ∧
    (∀ p ∈ ps, (h.data p).isSome = true) ∧ ps.length + e = i := by
  induction hb with
  | new h0 =>
    refine ⟨initList_ring h0, ?_, by simp, rfl⟩
    intro p hp
    simp only [List.mem_singleton] at hp
    subst hp
    rw [initList_snd, initList_brk, initList_live]; simp
  | @push_back h s ps i e x _ ih =>
    obtain ⟨hr, ha, hd, hn⟩ := ih
    have hfresh : ∀ p ∈ s :: (ps ++ []), p ≠ h.brk := by
      intro p hp he; have := (ha p (by simpa using hp)).1; omega
    have hr0 : Ring h s (ps ++ []) := by simpa using hr
    have hr' := insert_ring x hr0 (fun hm => hfresh _ hm rfl)
    refine ⟨hr', ?_, ?_, by simp; omega⟩
    · intro p hp
      show p < (insert h _ x).1.brk ∧ (insert h _ x).1.live p = true
      rw [insert_brk, insert_live]
      by_cases hpb : p = h.brk
      · simp [hpb]
      · have := ha p (by simp at hp ⊢; tauto)
        simp [hpb, this.2]; omega
    · intro p hp
      show ((insert h _ x).1.data p).isSome = true
      rw [insert_data]
      by_cases hpb : p = h.brk
      · simp [hpb]
      · simp only [hpb, ↓reduceIte]; exact hd p (by simp at hp; tauto)
  | @push_front h s ps i e x _ ih =>
    obtain ⟨hr, ha, hd, hn⟩ := ih
    have hfresh : ∀ p ∈ s :: ([] ++ ps), p ≠ h.brk := by
      intro p hp he; have := (ha p (by simpa using hp)).1; omega
    have hr0 : Ring h s ([] ++ ps) := by simpa using hr
    have hr' := insert_ring x hr0 (fun hm => hfresh _ hm rfl)
    have hbeg : begin h s = cursorAt s ps := ring_next_sentinel hr
    refine ⟨by unfold push_front; rw [hbeg]; simpa using hr', ?_, ?_, by simp; omega⟩
    · intro p hp
      show p < (insert h _ x).1.brk ∧ (insert h _ x).1.live p = true
      rw [insert_brk, insert_live]
      by_cases hpb : p = h.brk
      · simp [hpb]
      · have := ha p (by simp at hp ⊢; tauto)
        simp [hpb, this.2]; omega
    · intro p hp
      show ((insert h _ x).1.data p).isSome = true
      rw [insert_data]
      by_cases hpb : p = h.brk
      · simp [hpb]
      · simp only [hpb, ↓reduceIte]; exact hd p (by simp at hp; tauto)
  | @insert h s pre post i e x _ ih =>
    obtain ⟨hr, ha, hd, hn⟩ := ih
    have hfresh : ∀ p ∈ s :: (pre ++ post), p ≠ h.brk := by
      intro p hp he; have := (ha p hp).1; omega
    have hr' := insert_ring x hr (fun hm => hfresh _ hm rfl)
    refine ⟨hr', ?_, ?_, by simp at hn ⊢; omega⟩
    · intro p hp
      rw [insert_brk, insert_live]
      by_cases hpb : p = h.brk
      · simp [hpb]
      · have := ha p (by simp at hp ⊢; tauto)
        simp [hpb, this.2]; omega
    · intro p hp
      rw [insert_data]
      by_cases hpb : p = h.brk
      · simp [hpb]
      · simp only [hpb, ↓reduceIte]; exact hd p (by simp at hp ⊢; tauto)
  | @erase h s p pre post i e _ ih =>
    obtain ⟨hr, ha, hd, hn⟩ := ih
    have hne : ∀ q ∈ s :: (pre ++ post), q ≠ p := by
      intro q hq he
      subst he
      have hp : (s :: (pre ++ q :: post)).Perm (q :: (s :: (pre ++ post))) :=
        (List.Perm.cons s List.perm_middle).trans (List.Perm.swap _ _ _)
      exact (List.nodup_cons.mp (hp.nodup_iff.mp hr.1)).1 hq
    refine ⟨(erase_ring hr).1, ?_, ?_, by simp at hn ⊢; omega⟩
    · intro q hq
      rw [erase_brk, erase_live]
      have := ha q (by simp at hq ⊢; tauto)
      simp [hne q hq, this.1, this.2]
    · intro q hq
      rw [erase_data]
      simp only [hne q (by simp at hq ⊢; tauto), ↓reduceIte]
      exact hd q (by simp at hq ⊢; tauto)

/-- C8: for every list reached from a freshly constructed (empty) one by
`push_back`, `push_front`, `insert` and `erase` at valid cursors, the sentinel
and the linked data nodes `ps` form a ring of live nodes with constructed
payloads, `size()` returns the number of these nodes, that number is the
number of insertions minus the number of erasures, and `empty()` holds
exactly when `size()` is 0. -/
theorem size_counts_linked_nodes (h : Heap α) (s : Nat) (ps : List Nat) (i e : Nat)
    (hb : Built h s ps i e) :
    Ring h s ps ∧ (∀ p ∈ ps, h.live p = true ∧ (h.data p).isSome = true) ∧
    ps.length + e = i ∧
    (∀ fuel, ps.length < fuel →
      size fuel h s = some ps.length ∧ size fuel h s = some (i - e) ∧
      (empty h s = true ↔ size fuel h s = some 0)) := by
  obtain ⟨hr, ha, hd, hn⟩ := built_inv hb
  refine ⟨hr, fun p hp => ⟨(ha p (List.mem_cons_of_mem _ hp)).2, hd p hp⟩, hn, ?_⟩
  intro fuel hf
  have hsz := size_ring hr fuel hf
  refine ⟨hsz, by rw [hsz]; congr 1; omega, ?_⟩
  rw [hsz, ring_empty_iff hr]
  simp [List.length_eq_zero]

theorem size_counts_linked_nodes_witness :
    Built (erase (push_front (push_back (initList (Heap.init : Heap Nat)).1 1 7) 1 8) 2).1
      1 ([3] ++ []) 2 1 ∧
    size 5 (erase (push_front (push_back (initList (Heap.init : Heap Nat)).1 1 7) 1 8) 2).1 1
      = some 1 :=
  have b : Built (erase (push_front (push_back (initList (Heap.init : Heap Nat)).1 1 7) 1 8)
      2).1 1 ([3] ++ []) 2 1 :=
    @Built.erase Nat _ 1 2 [3] [] 2 0
      (Built.push_front 8 (Built.push_back 7 (Built.new (Heap.init : Heap Nat))))
  ⟨b, ((size_counts_linked_nodes _ 1 ([3] ++ []) 2 1 b).2.2.2 5 (by decide)).1⟩

/-! ## `merge` -/

theorem leOf_total {lt : α → α → Bool} (hw : StrictWeak lt) (a b : α) :
    (leOf lt a b || leOf lt b a) = true := by
  unfold leOf
  by_cases h1 : lt b a = true
  · by_cases h2 : lt a b = true
    · have := hw.trans a b a h2 h1
      rw [hw.irrefl] at this; cases this
    · simp [h2]
  · simp [h1]

theorem leOf_trans {lt : α → α → Bool} (hw : StrictWeak lt) (a b c : α)
    (hab : leOf lt a b = true) (hbc : leOf lt b c = true) : leOf lt a c = true := by
  unfold leOf at *
  simp only [Bool.not_eq_true'] at *
  by_contra hca
  simp only [Bool.not_eq_false] at hca
  have h1 : lt a b = false := by
    by_contra h; simp only [Bool.not_eq_false] at h
    have := hw.trans c a b hca h; rw [hbc] at this; cases this
  have h2 : lt b c = false := by
    by_contra h; simp only [Bool.not_eq_false] at h
    have := hw.trans b c a h hca; rw [hab] at this; cases this
  have := hw.incomp c b a hbc h2 hab h1
  rw [hca] at this; cases this

theorem leAt_congr (lt : α → α → Bool) {h h' : Heap α} (hd : h'.data = h.data) :
    leAt lt h' = leAt lt h := by
  funext p q; simp [leAt, ltAt, hd]

theorem mergeLoop_ring (lt : α → α → Bool) {a b : Nat} :
    ∀ (r1 r2 done : List Nat) (h : Heap α) (fuel : Nat),
      Ring h a (done ++ r1) → Ring h b r2 →
      (∀ x ∈ a :: (done ++ r1), x ∉ b :: r2) →
      (∀ p ∈ r1 ++ r2, (h.data p).isSome = true) → r1.length + r2.length < fuel →
      ∃ h', mergeLoop lt fuel h (cursorAt a r1) a (cursorAt b r2) b = some h' ∧
        Ring h' a (done ++ List.merge r1 r2 (leAt lt h)) ∧ Ring h' b [] ∧
        h'.data = h.data ∧ h'.live = h.live ∧ h'.brk = h.brk ∧
        ∀ x, x ∉ a :: (done ++ r1) → x ∉ b :: r2 →
          h'.next x = h.next x ∧ h'.prev x = h.prev x := by
  intro r1
  induction r1 with
  | nil =>
    intro r2 done h fuel hA hB hd hs hf
    cases fuel with
    | zero => omega
    | succ fuel =>
      cases r2 with
      | nil =>
        refine ⟨h, by simp [mergeLoop, cursorAt], by simpa using hA, hB, rfl, rfl, rfl,
          fun _ _ _ => ⟨rfl, rfl⟩⟩
      | cons y r2 =>
        have hne : y ≠ b := by
          have := (@ring_cursor_ne α h b [] (y :: r2) hB).mpr (by simp)
          simpa [cursorAt] using this
        have hB' : Ring h b ([] ++ (y :: r2 ++ [])) := by simpa using hB
        have hd' : ∀ x ∈ a :: (done ++ []), x ∉ b :: ([] ++ (y :: r2 ++ [])) := by
          simpa using hd
        have key := transfer_rings hA hB' hd'
        simp only [cursorAt_nil, List.nil_append, List.append_nil] at key
        refine ⟨transfer h a y b, ?_, by simpa using key.1, key.2.1, transfer_data _ _ _ _,
          transfer_live _ _ _ _, transfer_brk _ _ _ _, ?_⟩
        · simp [mergeLoop, cursorAt, hne]
        · intro x hxa hxb
          exact key.2.2 x (by simpa using hxa) (by simpa using hxb)
  | cons x r1 ih1 =>
    intro r2
    induction r2 with
    | nil =>
      intro done h fuel hA hB hd hs hf
      cases fuel with
      | zero => omega
      | succ fuel =>
        refine ⟨h, by simp [mergeLoop, cursorAt], by simpa using hA, hB, rfl, rfl, rfl,
          fun _ _ _ => ⟨rfl, rfl⟩⟩
    | cons y r2 ih2 =>
      intro done h fuel hA hB hd hs hf
      cases fuel with
      | zero => omega
      | succ fuel =>
        have hxa : x ≠ a := by
          have := (ring_cursor_ne hA).mpr (by simp)
          simpa [cursorAt] using this
        have hyb : y ≠ b := by
          have := (@ring_cursor_ne α h b [] (y :: r2) hB).mpr (by simp)
          simpa [cursorAt] using this
        obtain ⟨va, hva⟩ := Option.isSome_iff_exists.mp (hs x (by simp))
        obtain ⟨vb, hvb⟩ := Option.isSome_iff_exists.mp (hs y (by simp))
        have hlt : ltAt lt h y x = lt vb va := by simp [ltAt, hva, hvb]
        simp only [mergeLoop, cursorAt_cons, ne_eq, hxa, not_false_eq_true, hyb, and_self,
          ↓reduceIte, hvb, hva]
        by_cases hc : lt vb va = true
        · -- the head of `x` goes first
          have hny : h.next y = cursorAt b r2 := (@ring_mid α h b y [] r2 hB).1
          have hB' : Ring h b ([] ++ (y :: [] ++ r2)) := by simpa using hB
          have hd' : ∀ z ∈ a :: (done ++ x :: r1), z ∉ b :: ([] ++ (y :: [] ++ r2)) := by
            simpa using hd
          have key := transfer_rings hA hB' hd'
          simp only [cursorAt_cons, List.nil_append] at key
          have hA1 : Ring (transfer h x y (cursorAt b r2)) a ((done ++ [y]) ++ x :: r1) := by
            simpa using key.1
          have hd1 : ∀ z ∈ a :: ((done ++ [y]) ++ x :: r1), z ∉ b :: r2 := by
            intro z hz hzb
            have hz' : z = y ∨ z ∈ a :: (done ++ x :: r1) := by
              simp at hz ⊢; tauto
            rcases hz' with rfl | hz'
            · have := hB.1
              simp at this hzb
              rcases hzb with rfl | hzb
              · exact this.1.1 rfl
              · exact this.2.1 hzb
            · exact hd z hz' (by simp at hzb ⊢; tauto)
          have hs1 : ∀ p ∈ (x :: r1) ++ r2,
              ((transfer h x y (cursorAt b r2)).data p).isSome = true := by
            intro p hp; rw [transfer_data]; exact hs p (by simp at hp ⊢; tauto)
          obtain ⟨h', e, hA', hB'', hdt, hlv, hbk, hfr⟩ :=
            ih2 (done ++ [y]) _ fuel hA1 key.2.1 hd1 hs1 (by simp at hf ⊢; omega)
          rw [leAt_congr lt (transfer_data h x y (cursorAt b r2))] at hA'
          refine ⟨h', by simpa [hc, hny] using e, ?_, hB'', ?_, ?_, ?_, ?_⟩
          · have hm : List.merge (x :: r1) (y :: r2) (leAt lt h) =
                y :: List.merge (x :: r1) r2 (leAt lt h) := by
              rw [List.cons_merge_cons]; simp [leAt, hlt, hc]
            rw [hm]; simpa using hA'
          · rw [hdt, transfer_data]
          · rw [hlv, transfer_live]
          · rw [hbk, transfer_brk]
          · intro z hza hzb
            have h1 := hfr z (by simp at hza hzb ⊢; tauto) (by simp at hzb ⊢; tauto)
            have h2 := key.2.2 z hza (by simpa using hzb)
            exact ⟨h1.1.trans h2.1, h1.2.trans h2.2⟩
        · -- the head of `*this` stays, the cursor moves on
          have hnx : h.next x = cursorAt a r1 := (ring_mid hA).1
          have hA1 : Ring h a ((done ++ [x]) ++ r1) := by simpa using hA
          have hd1 : ∀ z ∈ a :: ((done ++ [x]) ++ r1), z ∉ b :: (y :: r2) := by
            intro z hz; exact hd z (by simp at hz ⊢; tauto)
          have hs1 : ∀ p ∈ r1 ++ (y :: r2), (h.data p).isSome = true := by
            intro p hp; exact hs p (by simp at hp ⊢; tauto)
          obtain ⟨h', e, hA', hB'', hdt, hlv, hbk, hfr⟩ :=
            ih1 (y :: r2) (done ++ [x]) h fuel hA1 hB hd1 hs1 (by simp at hf ⊢; omega)
          refine ⟨h', by simpa [hc, hnx] using e, ?_, hB'', hdt, hlv, hbk, ?_⟩
          · have hm : List.merge (x :: r1) (y :: r2) (leAt lt h) =
                x :: List.merge r1 (y :: r2) (leAt lt h) := by
              rw [List.cons_merge_cons]; simp [leAt, hlt, hc]
            rw [hm]; simpa using hA'
          · intro z hza hzb
            exact hfr z (by simp at hza ⊢; tauto) hzb

theorem merge_ring (lt : α → α → Bool) {h : Heap α} {a b : Nat} {pa pb : List Nat}
    (hA : Ring h a pa) (hB : Ring h b pb) (hd : ∀ x ∈ a :: pa, x ∉ b :: pb)
    (hs : ∀ p ∈ pa ++ pb, (h.data p).isSome = true) (fuel : Nat)
    (hf : pa.length + pb.length < fuel) :
    ∃ h', merge lt fuel h a b = some h' ∧
      Ring h' a (List.merge pa pb (leAt lt h)) ∧ Ring h' b [] ∧
      h'.data = h.data ∧ h'.live = h.live ∧ h'.brk = h.brk ∧
      ∀ x, x ∉ a :: pa → x ∉ b :: pb → h'.next x = h.next x ∧ h'.prev x = h.prev x := by
  have hA0 : Ring h a ([] ++ pa) := by simpa using hA
  obtain ⟨h', e, hA', hB', hdt, hlv, hbk, hfr⟩ :=
    mergeLoop_ring lt pa pb [] h fuel hA0 hB (by simpa using hd) hs hf
  refine ⟨h', ?_, by simpa using hA', hB', hdt, hlv, hbk, by simpa using hfr⟩
  unfold merge begin end_
  rw [ring_next_sentinel hA, ring_next_sentinel hB]; exact e


theorem vals_merge (lt : α → α → Bool) (h : Heap α) {pa pb : List Nat} {xa xb : List α}
    (ha : vals h pa = xa.map some) (hb : vals h pb = xb.map some) :
    vals h (List.merge pa pb (leAt lt h)) = (List.merge xa xb (leOf lt)).map some := by
  unfold vals at *
  have h1 : (List.merge pa pb (leAt lt h)).map h.data =
      List.merge (pa.map h.data) (pb.map h.data) (leOpt lt) :=
    List.map_merge (fun _ _ _ _ => rfl)
  have h2 : (List.merge xa xb (leOf lt)).map some =
      List.merge (xa.map some) (xb.map some) (leOpt lt) :=
    List.map_merge (fun _ _ _ _ => rfl)
  rw [h1, h2, ha, hb]

theorem isSome_of_vals {h : Heap α} {ps : List Nat} {xs : List α}
    (hv : vals h ps = xs.map some) : ∀ p ∈ ps, (h.data p).isSome = true := by
  intro p hp
  have : h.data p ∈ vals h ps := List.mem_map_of_mem _ hp
  rw [hv] at this
  obtain ⟨x, _, hx⟩ := List.mem_map.mp this
  rw [← hx]; rfl

theorem ascending_merge {lt : α → α → Bool} (hw : StrictWeak lt) {xa xb : List α}
    (sa : Ascending lt xa) (sb : Ascending lt xb) :
    Ascending lt (List.merge xa xb (leOf lt)) :=
  List.sorted_merge (leOf_trans hw) (leOf_total hw) xa xb sa sb

theorem merge_isList (lt : α → α → Bool) {h : Heap α} {a b : Nat} {pa pb : List Nat}
    {xa xb : List α} (hA : IsList h a pa xa) (hB : IsList h b pb xb)
    (hd : ∀ x ∈ a :: pa, x ∉ b :: pb) (fuel : Nat) (hf : pa.length + pb.length < fuel) :
    ∃ h', merge lt fuel h a b = some h' ∧
      IsList h' a (List.merge pa pb (leAt lt h)) (List.merge xa xb (leOf lt)) ∧
      IsList h' b [] [] ∧
      h'.data = h.data ∧ h'.live = h.live ∧ h'.brk = h.brk ∧
      ∀ x, x ∉ a :: pa → x ∉ b :: pb → h'.next x = h.next x ∧ h'.prev x = h.prev x := by
  have hs : ∀ p ∈ pa ++ pb, (h.data p).isSome = true := by
    intro p hp
    rcases List.mem_append.mp hp with hp | hp
    · exact isSome_of_vals hA.2.2 p hp
    · exact isSome_of_vals hB.2.2 p hp
  obtain ⟨h', e, hA', hB', hdt, hlv, hbk, hfr⟩ := merge_ring lt hA.1 hB.1 hd hs fuel hf
  refine ⟨h', e, ?_, ?_, hdt, hlv, hbk, hfr⟩
  · apply isList_relink hA' hbk hlv hdt
    · intro p hp
      have : p ∈ a :: pa ∨ p ∈ b :: pb := by
        simp only [List.mem_cons, List.mem_merge] at hp ⊢; tauto
      rcases this with hp | hp
      · exact hA.2.1 p hp
      · exact hB.2.1 p hp
    · exact vals_merge lt h hA.2.2 hB.2.2
  · apply isList_relink hB' hbk hlv hdt
    · intro p hp; exact hB.2.1 p (by simp at hp ⊢; tauto)
    · rfl

/-- C2: `a.merge(b)` for two lists with disjoint nodes, each sorted ascending
under a strict weak `operator<`. Afterwards `a` is sorted ascending, its
elements are as a multiset the union of the elements `a` and `b` held before
(the nodes of both, relinked), and `b` is empty. -/
theorem merge_sorted_union (lt : α → α → Bool) (hw : StrictWeak lt) (h : Heap α) (a b : Nat)
    (pa pb : List Nat) (xa xb : List α) (fuel : Nat)
    (hA : IsList h a pa xa) (hB : IsList h b pb xb) (hd : ∀ x ∈ a :: pa, x ∉ b :: pb)
    (sa : Ascending lt xa) (sb : Ascending lt xb) (hf : pa.length + pb.length < fuel) :
    ∃ h', merge lt fuel h a b = some h' ∧
      IsList h' a (List.merge pa pb (leAt lt h)) (List.merge xa xb (leOf lt)) ∧
      toList fuel h' a = some (List.merge xa xb (leOf lt)) ∧
      Ascending lt (List.merge xa xb (leOf lt)) ∧
      ((List.merge xa xb (leOf lt) : List α) : Multiset α) = (xa : Multiset α) + (xb : Multiset α) ∧
      IsList h' b [] [] ∧ empty h' b = true := by
  obtain ⟨h', e, hA', hB', _, _, _, _⟩ := merge_isList lt hA hB hd fuel hf
  refine ⟨h', e, hA', ?_, ascending_merge hw sa sb, ?_, hB', (ring_empty_iff hB'.1).mpr rfl⟩
  · apply toList_of_isList hA' fuel
    rw [List.length_merge]; exact hf
  · rw [Multiset.coe_add, Multiset.coe_eq_coe]
    exact List.merge_perm_append (leOf lt)


theorem natLt_strictWeak : StrictWeak natLt where
  irrefl := by intro a; simp [natLt]
  trans := by intro a b c h1 h2; simp [natLt] at *; omega
  incomp := by intro a b c h1 h2 h3 h4; simp [natLt] at *; omega

theorem merge_sorted_union_witness :
    IsList (build (build (Heap.init : Heap Nat) [1, 4, 6]).1 [2, 3, 4, 7, 9]).1 1
      [2, 3, 4] [1, 4, 6] ∧
    IsList (build (build (Heap.init : Heap Nat) [1, 4, 6]).1 [2, 3, 4, 7, 9]).1 5
      [6, 7, 8, 9, 10] [2, 3, 4, 7, 9] ∧
    ∃ h', merge natLt 9 (build (build (Heap.init : Heap Nat) [1, 4, 6]).1 [2, 3, 4, 7, 9]).1 1 5
        = some h' ∧
      toList 9 h' 1 = some [1, 2, 3, 4, 4, 6, 7, 9] ∧ empty h' 5 = true :=
  have w := merge_sorted_union natLt natLt_strictWeak
    (build (build (Heap.init : Heap Nat) [1, 4, 6]).1 [2, 3, 4, 7, 9]).1 1 5
    [2, 3, 4] [6, 7, 8, 9, 10] [1, 4, 6] [2, 3, 4, 7, 9] 9 (by decide) (by decide) (by decide)
    (by unfold Ascending; decide) (by unfold Ascending; decide) (by decide)
  have e : List.merge [1, 4, 6] [2, 3, 4, 7, 9] (leOf natLt) = [1, 2, 3, 4, 4, 6, 7, 9] := by
    simp [List.merge, leOf, natLt]
  ⟨by decide, by decide, w.choose, w.choose_spec.1, e ▸ w.choose_spec.2.2.1,
    w.choose_spec.2.2.2.2.2.2⟩

/-! ## `swap` and single-element `splice` -/

theorem setNext_next (h : Heap α) (p v x : Nat) :
    (h.setNext p v).next x = if x = p then v else h.next x := rfl
theorem setNext_prev (h : Heap α) (p v : Nat) : (h.setNext p v).prev = h.prev := rfl
theorem setPrev_prev (h : Heap α) (p v x : Nat) :
    (h.setPrev p v).prev x = if x = p then v else h.prev x := rfl
theorem setPrev_next (h : Heap α) (p v : Nat) : (h.setPrev p v).next = h.next := rfl

theorem swap_next_eq (h : Heap α) (a b x : Nat) (hab : a ≠ b)
    (h1 : h.next b ≠ b → h.prev b ≠ a ∧ h.prev b ≠ b)
    (h2 : h.next a ≠ a → h.prev a ≠ b) :
    (ListNodeBase.swap h a b).next x =
      if h.next a = a then
        (if x = b then b else
          if h.next b = b then (if x = a then a else h.next x)
          else (if x = h.prev b then a else if x = a then h.next b else h.next x))
      else
        (if x = h.prev a then b else
          if h.next b = b then (if x = a then a else if x = b then h.next a else h.next x)
          else (if x = h.prev b then a else if x = b then h.next a
                else if x = a then h.next b else h.next x)) := by
  unfold ListNodeBase.swap
  simp only [setNext_next, setNext_prev, setPrev_prev, setPrev_next, hab, hab.symm, ↓reduceIte]
  by_cases c1 : h.next b = b
  · simp only [c1, ↓reduceIte, setNext_next, setNext_prev, setPrev_prev, setPrev_next, hab,
      hab.symm]
    by_cases c2 : h.next a = a
    · simp only [c2, ↓reduceIte, setNext_next, setNext_prev, setPrev_prev, setPrev_next]
      split_ifs <;> simp_all
    · have := h2 c2
      simp only [c2, ↓reduceIte, setNext_next, setNext_prev, setPrev_prev, setPrev_next, hab,
        hab.symm, this]
      split_ifs <;> simp_all
  · have hb := h1 c1
    simp only [c1, ↓reduceIte, setNext_next, setNext_prev, setPrev_prev, setPrev_next, hab,
      hab.symm, hb.1.symm, hb.2.symm, Ne.symm hb.1, Ne.symm hb.2]
    have c1' : ¬ b = h.next b := fun e => c1 e.symm
    by_cases c2 : h.next a = a
    · simp only [c2, ↓reduceIte, setNext_next, setNext_prev, setPrev_prev, setPrev_next]
      split_ifs <;> simp_all
    · have ha := h2 c2
      have ha' : ¬ b = h.prev a := fun e => ha e.symm
      simp only [c2, c1', ha', ↓reduceIte, setNext_next, setNext_prev, setPrev_prev, setPrev_next]


theorem swap_prev_eq (h : Heap α) (a b x : Nat) (hab : a ≠ b)
    (h1 : h.next b ≠ b → h.prev b ≠ a ∧ h.prev b ≠ b)
    (h2 : h.next a ≠ a → h.prev a ≠ b) :
    (ListNodeBase.swap h a b).prev x =
      if h.next a = a then
        (if x = b then b else
          if h.next b = b then (if x = a then a else h.prev x)
          else (if x = h.next b then a else if x = a then h.prev b else h.prev x))
      else
        (if x = h.next a then b else
          if h.next b = b then (if x = a then a else if x = b then h.prev a else h.prev x)
          else (if x = h.next b then a else if x = b then h.prev a
                else if x = a then h.prev b else h.prev x)) := by
  unfold ListNodeBase.swap
  simp only [setNext_next, setNext_prev, setPrev_prev, setPrev_next, hab, hab.symm, ↓reduceIte]
  by_cases c1 : h.next b = b
  · simp only [c1, ↓reduceIte, setNext_next, setNext_prev, setPrev_prev, setPrev_next, hab,
      hab.symm]
    by_cases c2 : h.next a = a
    · simp only [c2, ↓reduceIte, setNext_next, setNext_prev, setPrev_prev, setPrev_next]
      split_ifs <;> simp_all
    · have := h2 c2
      simp only [c2, ↓reduceIte, setNext_next, setNext_prev, setPrev_prev, setPrev_next, hab,
        hab.symm, this]
      split_ifs <;> simp_all
  · have hb := h1 c1
    simp only [c1, ↓reduceIte, setNext_next, setNext_prev, setPrev_prev, setPrev_next, hab,
      hab.symm, hb.1.symm, hb.2.symm, Ne.symm hb.1, Ne.symm hb.2]
    have c1' : ¬ b = h.next b := fun e => c1 e.symm
    by_cases c2 : h.next a = a
    · simp only [c2, ↓reduceIte, setNext_next, setNext_prev, setPrev_prev, setPrev_next]
      split_ifs <;> simp_all
    · have ha := h2 c2
      have ha' : ¬ b = h.prev a := fun e => ha e.symm
      simp only [c2, c1', ha', ↓reduceIte, setNext_next, setNext_prev, setPrev_prev, setPrev_next]


theorem swap_data (h : Heap α) (a b : Nat) : (ListNodeBase.swap h a b).data = h.data := by
  unfold ListNodeBase.swap
  simp only []
  split <;> split <;> rfl

theorem swap_live (h : Heap α) (a b : Nat) : (ListNodeBase.swap h a b).live = h.live := by
  unfold ListNodeBase.swap
  simp only []
  split <;> split <;> rfl

theorem swap_brk (h : Heap α) (a b : Nat) : (ListNodeBase.swap h a b).brk = h.brk := by
  unfold ListNodeBase.swap
  simp only []
  split <;> split <;> rfl

/-- Local facts about the sentinel of a ring. -/
theorem ring_sentinel_facts {h : Heap α} {s : Nat} {ps : List Nat} (hr : Ring h s ps) :
    h.next s ∈ s :: ps ∧ h.prev s ∈ s :: ps ∧ (h.next s = s ↔ ps = []) ∧
    (h.prev s = s ↔ ps = []) ∧ h.next (h.prev s) = s ∧ h.prev (h.next s) = s := by
  have hn := ring_next_sentinel hr
  have hr0 : Ring h s (ps ++ []) := by simpa using hr
  have hp := ring_prev_cursor hr0
  simp only [cursorAt_nil] at hp
  have hnd := hr.1
  refine ⟨?_, ?_, ?_, ?_, ?_, ?_⟩
  · rw [hn]; cases ps <;> simp [cursorAt]
  · rw [hp.1]; exact List.getLast_mem _
  · rw [hn]
    cases ps with
    | nil => simp [cursorAt]
    | cons p ps =>
      simp only [cursorAt_cons, reduceCtorEq, iff_false]
      rintro rfl; simp at hnd
  · rw [hp.1]
    cases ps with
    | nil => simp
    | cons p ps =>
      simp only [reduceCtorEq, iff_false]
      intro e
      have hm : (p :: ps).getLast (List.cons_ne_nil _ _) ∈ p :: ps := List.getLast_mem _
      rw [List.getLast_cons (List.cons_ne_nil _ _)] at e
      rw [e] at hm
      exact (List.nodup_cons.mp hnd).1 hm
  · exact (cyc_prev_mem hr (List.mem_cons_self _ _)).2
  · rw [hn]
    cases ps with
    | nil => simpa [cursorAt] using hp.1
    | cons p ps =>
      have := hr.2
      simp only [cursorAt_cons]
      exact (List.chain'_cons.mp this).1.2


theorem swap_ring {h : Heap α} {a b : Nat} {pa pb : List Nat}
    (hA : Ring h a pa) (hB : Ring h b pb) (hd : ∀ x ∈ a :: pa, x ∉ b :: pb) :
    Ring (swap h a b) a pb ∧ Ring (swap h a b) b pa ∧
    ∀ x, x ∉ a :: pa → x ∉ b :: pb →
      (swap h a b).next x = h.next x ∧ (swap h a b).prev x = h.prev x := by
  unfold swap
  obtain ⟨a1, a2, a3, a4, a5, a6⟩ := ring_sentinel_facts hA
  obtain ⟨b1, b2, b3, b4, b5, b6⟩ := ring_sentinel_facts hB
  have hab : a ≠ b := by
    rintro rfl; exact hd a (by simp) (by simp)
  have hd2 : ∀ x ∈ b :: pb, x ∉ a :: pa := fun x hx hx' => hd x hx' hx
  have na_b : h.next a ≠ b := fun e => hd _ a1 (by simp [e])
  have pa_b : h.prev a ≠ b := fun e => hd _ a2 (by simp [e])
  have nb_a : h.next b ≠ a := fun e => hd2 _ b1 (by simp [e])
  have pb_a : h.prev b ≠ a := fun e => hd2 _ b2 (by simp [e])
  have nab : h.next a ≠ h.next b := fun e => hd _ a1 (e ▸ b1)
  have pab : h.prev a ≠ h.prev b := fun e => hd _ a2 (e ▸ b2)
  have H1 : h.next b ≠ b → h.prev b ≠ a ∧ h.prev b ≠ b := fun c =>
    ⟨pb_a, fun e => c (b3.mpr (b4.mp e))⟩
  have H2 : h.next a ≠ a → h.prev a ≠ b := fun _ => pa_b
  have hN := fun x => swap_next_eq h a b x hab H1 H2
  have hP := fun x => swap_prev_eq h a b x hab H1 H2
  -- links that do not end at a sentinel or at a first node survive
  have hfr : ∀ x y, Link h x y → ¬ (y = a ∨ y = b ∨ y = h.next a ∨ y = h.next b) →
      Link (ListNodeBase.swap h a b) x y := by
    intro x y hxy hy
    simp only [not_or] at hy
    obtain ⟨ya, yb, yna, ynb⟩ := hy
    have xa : x ≠ a := by rintro rfl; exact yna hxy.1.symm
    have xb : x ≠ b := by rintro rfl; exact ynb hxy.1.symm
    have xpa : x ≠ h.prev a := by rintro rfl; exact ya (hxy.1 ▸ a5)
    have xpb : x ≠ h.prev b := by rintro rfl; exact yb (hxy.1 ▸ b5)
    refine ⟨?_, ?_⟩
    · rw [hN]; simp [xa, xb, xpa, xpb, hxy.1]
    · rw [hP]; simp [ya, yb, yna, ynb, hxy.2]
  have ringOf : ∀ (s t : Nat) (pt : List Nat), Ring h t pt → s ≠ t →
      (∀ x ∈ pt, x ≠ a ∧ x ≠ b ∧ x ≠ h.next s) →
      (pt = [] → (ListNodeBase.swap h a b).next s = s ∧ (ListNodeBase.swap h a b).prev s = s) →
      (pt ≠ [] → Link (ListNodeBase.swap h a b) s (h.next t) ∧
        Link (ListNodeBase.swap h a b) (h.prev t) s) →
      (s = a ∧ t = b ∨ s = b ∧ t = a) →
      Ring (ListNodeBase.swap h a b) s pt := by
    intro s t pt hT _ hmem hnil hcons hcase
    cases pt with
    | nil =>
      rw [ring_nil_iff]; exact hnil rfl
    | cons q pt =>
      have hl := hcons (by simp)
      have hnt : h.next t = q := ring_next_sentinel hT
      have hT0 : Ring h t ((q :: pt) ++ []) := by simpa using hT
      have hpt := (ring_prev_cursor hT0).1
      simp only [cursorAt_nil] at hpt
      have hc : List.Chain' (Link h) (t :: q :: pt) := by
        have := hT.2
        have h' : List.Chain' (Link h) ((t :: q :: pt) ++ [t]) := by simpa using this
        exact (List.chain'_append.mp h').1
      have hc' : List.Chain' (Link h) (q :: pt) := (List.chain'_cons.mp hc).2
      have hcq : List.Chain' (Link (ListNodeBase.swap h a b)) (q :: pt) := by
        apply chain_frame hfr pt q hc'
        intro y hy
        have hy' := hmem y (List.mem_cons_of_mem _ hy)
        have hyq : y ≠ q := by
          rintro rfl
          have := hT.1
          simp at this
          exact this.2.1 hy
        rcases hcase with ⟨rfl, rfl⟩ | ⟨rfl, rfl⟩
        · simp only [not_or]; exact ⟨hy'.1, hy'.2.1, hy'.2.2, by rw [hnt]; exact hyq⟩
        · simp only [not_or]; exact ⟨hy'.1, hy'.2.1, by rw [hnt]; exact hyq, hy'.2.2⟩
      refine ⟨?_, ?_⟩
      · have hTn := hT.1
        rw [List.nodup_cons] at hTn ⊢
        refine ⟨?_, hTn.2⟩
        intro hs
        have := hmem s hs
        rcases hcase with ⟨rfl, rfl⟩ | ⟨rfl, rfl⟩
        · exact this.1 rfl
        · exact this.2.1 rfl
      · have h2 := chain_snoc q pt s hcq (by
          have e : (q :: pt).getLast (List.cons_ne_nil _ _) = h.prev t := by
            rw [hpt, List.getLast_cons (List.cons_ne_nil _ _)]
          rw [e]; exact hl.2)
        show List.Chain' _ (s :: q :: (pt ++ [s]))
        rw [List.chain'_cons]
        exact ⟨hnt ▸ hl.1, by simpa using h2⟩
  refine ⟨?_, ?_, ?_⟩
  · apply ringOf a b pb hB hab
    · intro x hx
      refine ⟨fun e => hd2 x (List.mem_cons_of_mem _ hx) (by simp [e]),
        fun e => (List.nodup_cons.mp hB.1).1 (e ▸ hx), ?_⟩
      intro e; exact hd2 x (List.mem_cons_of_mem _ hx) (e ▸ a1)
    · intro e
      have c1 : h.next b = b := b3.mpr e
      refine ⟨?_, ?_⟩
      · rw [hN]; simp [c1, hab]
        intro c2 e2; exact absurd (a3.mpr (a4.mp e2.symm)) c2
      · rw [hP]; simp [c1, hab]
        intro c2 e2; exact absurd e2.symm c2
    · intro hne
      have c1 : h.next b ≠ b := fun e => hne (b3.mp e)
      have c1' : h.prev b ≠ b := fun e => hne (b4.mp e)
      refine ⟨⟨?_, ?_⟩, ⟨?_, ?_⟩⟩
      · rw [hN]; simp [c1, hab, pb_a.symm]
        intro c2 e2; exact absurd (a3.mpr (a4.mp e2.symm)) c2
      · rw [hP]; simp [c1, nab.symm]
      · rw [hN]; simp [c1, c1', pab.symm]
      · rw [hP]; simp [c1, hab, nb_a.symm]
        intro c2 e2; exact absurd e2.symm c2
    · exact Or.inl ⟨rfl, rfl⟩
  · apply ringOf b a pa hA hab.symm
    · intro x hx
      refine ⟨fun e => (List.nodup_cons.mp hA.1).1 (e ▸ hx),
        fun e => hd x (List.mem_cons_of_mem _ hx) (by simp [e]), ?_⟩
      intro e; exact hd x (List.mem_cons_of_mem _ hx) (e ▸ b1)
    · intro e
      have c2 : h.next a = a := a3.mpr e
      refine ⟨?_, ?_⟩
      · rw [hN]; simp [c2]
      · rw [hP]; simp [c2]
    · intro hne
      have c2 : h.next a ≠ a := fun e => hne (a3.mp e)
      have c2' : h.prev a ≠ a := fun e => hne (a4.mp e)
      refine ⟨⟨?_, ?_⟩, ⟨?_, ?_⟩⟩
      · rw [hN]; simp [c2, pa_b.symm, hab.symm, pb_a.symm]
        intro c1 e1; exact absurd (b3.mpr (b4.mp e1.symm)) c1
      · rw [hP]; simp [c2]
      · rw [hN]; simp [c2]
      · rw [hP]; simp [c2, na_b.symm, hab.symm, nb_a.symm]
        intro c1 e1; exact absurd e1.symm c1
    · exact Or.inr ⟨rfl, rfl⟩
  · intro x hxa hxb
    have xa : x ≠ a := fun e => hxa (by simp [e])
    have xb : x ≠ b := fun e => hxb (by simp [e])
    have x1 : x ≠ h.next a := fun e => hxa (e ▸ a1)
    have x2 : x ≠ h.prev a := fun e => hxa (e ▸ a2)
    have x3 : x ≠ h.next b := fun e => hxb (e ▸ b1)
    have x4 : x ≠ h.prev b := fun e => hxb (e ▸ b2)
    refine ⟨?_, ?_⟩
    · rw [hN]; simp [xa, xb, x2, x4]
    · rw [hP]; simp [xa, xb, x1, x3]


theorem splice_one_ring {h : Heap α} {c node x : Nat} {car src : List Nat}
    (hC : Ring h c car) (hN : Ring h node (x :: src))
    (hd : ∀ y ∈ c :: car, y ∉ node :: x :: src) :
    Ring (splice_one h (begin h c) node (begin h node)) c (x :: car) ∧
    Ring (splice_one h (begin h c) node (begin h node)) node src ∧
    ∀ y, y ∉ c :: car → y ∉ node :: x :: src →
      (splice_one h (begin h c) node (begin h node)).next y = h.next y ∧
      (splice_one h (begin h c) node (begin h node)).prev y = h.prev y := by
  have hbc : begin h c = cursorAt c car := ring_next_sentinel hC
  have hbn : begin h node = x := ring_next_sentinel hN
  have hnx : h.next x = cursorAt node src := (@ring_mid α h node x [] src hN).1
  have hpm : cursorAt c car ∈ c :: car := by
    cases car <;> simp [cursorAt]
  have hjm : cursorAt node src ∈ node :: x :: src := by
    cases src <;> simp [cursorAt]
  have h1 : cursorAt c car ≠ x := fun e => hd _ hpm (by simp [e])
  have h2 : cursorAt c car ≠ cursorAt node src := fun e => hd _ hpm (e ▸ hjm)
  unfold splice_one
  simp only [hbc, hbn, hnx, h1, h2, or_self, ↓reduceIte]
  have hC0 : Ring h c ([] ++ car) := by simpa using hC
  have hN0 : Ring h node ([] ++ (x :: [] ++ src)) := by simpa using hN
  have key := transfer_rings hC0 hN0 (by simpa using hd)
  refine ⟨by simpa using key.1, by simpa using key.2.1, ?_⟩
  intro y hy1 hy2
  exact key.2.2 y (by simpa using hy1) (by simpa using hy2)

theorem splice_one_data (h : Heap α) (p n i : Nat) : (splice_one h p n i).data = h.data := by
  unfold splice_one; simp only []; split
  · rfl
  · exact transfer_data _ _ _ _

theorem splice_one_live (h : Heap α) (p n i : Nat) : (splice_one h p n i).live = h.live := by
  unfold splice_one; simp only []; split
  · rfl
  · exact transfer_live _ _ _ _

theorem splice_one_brk (h : Heap α) (p n i : Nat) : (splice_one h p n i).brk = h.brk := by
  unfold splice_one; simp only []; split
  · rfl
  · exact transfer_brk _ _ _ _

/-! ## The run of `sort` on sequences -/

section pure
variable {β : Type} (le : β → β → Bool)


theorem flatten_set_perm : ∀ (B : List (List β)) (i : Nat) (v : List β), i < B.length →
    ((B.set i v).flatten).Perm (v ++ (B.set i []).flatten)
  | [], _, _, hi => by simp at hi
  | b :: B, 0, v, _ => by simp
  | b :: B, i + 1, v, hi => by
      simp only [List.set_cons_succ, List.flatten_cons]
      have ih := flatten_set_perm B i v (by simpa using hi)
      exact (List.Perm.append_left b ih).trans (by
        rw [← List.append_assoc, ← List.append_assoc]
        exact List.Perm.append_right _ List.perm_append_comm)

theorem flatten_get_perm (B : List (List β)) (i : Nat) (b : List β) (hb : B[i]? = some b) :
    (B.flatten).Perm (b ++ (B.set i []).flatten) := by
  have hi : i < B.length := by
    rw [List.getElem?_eq_some_iff] at hb; exact hb.1
  have := flatten_set_perm B i b hi
  have e : B.set i b = B := by
    apply List.ext_getElem?
    intro j
    rw [List.getElem?_set]
    by_cases hij : i = j
    · subst hij; simp [hi, hb]
    · simp [hij]
  rwa [e] at this

theorem get_of_lt (B : List (List β)) (i : Nat) (hi : i < B.length) :
    ∃ b, B[i]? = some b := ⟨B[i], List.getElem?_eq_getElem hi⟩

theorem carryL_spec (P : List β → Prop) (hP0 : P [])
    (hPm : ∀ a b, P a → P b → P (List.merge a b le)) :
    ∀ (d : Nat) (car : List β) (B : List (List β)) (fill i : Nat),
      B.length = 64 → i ≤ fill → fill ≤ 64 → car.length = 2 ^ i →
      (∀ (j : Nat) (b : List β), j < i → B[j]? = some b → b = []) →
      (∀ (j : Nat) (b : List β), B[j]? = some b → b = [] ∨ b.length = 2 ^ j) →
      (∀ (j : Nat) (b : List β), fill ≤ j → B[j]? = some b → b = []) →
      car.length + B.flatten.length < 2 ^ 64 → fill - i < d →
      P car → (∀ (j : Nat) (b : List β), B[j]? = some b → P b) →
      ∃ car' B' i', carryL le d car B fill i = some (car', B', i') ∧
        i ≤ i' ∧ i' ≤ fill ∧ i' < 64 ∧ B'.length = 64 ∧ B'[i']? = some [] ∧
        car'.length = 2 ^ i' ∧ (∀ (j : Nat) (b : List β), j < i' → B'[j]? = some b → b = []) ∧
        (∀ (j : Nat), i' < j → B'[j]? = B[j]?) ∧ (car' ++ B'.flatten).Perm (car ++ B.flatten) ∧
        P car' ∧ (∀ (j : Nat) (b : List β), B'[j]? = some b → P b)
  | 0, _, _, _, _, _, _, _, _, _, _, _, _, hd, _, _ => by omega
  | d + 1, car, B, fill, i, hlen, hif, hf, hcar, hlow, hsz, hhigh, htot, hd, hPc, hPB => by
      have hi64 : i < 64 := by
        by_contra hge
        have h1 : 2 ^ 64 ≤ 2 ^ i := Nat.pow_le_pow_right (by decide) (by omega)
        omega
      obtain ⟨b, hb⟩ := get_of_lt B i (by omega)
      unfold carryL
      by_cases hlt : i < fill
      · simp only [hlt, ↓reduceIte, hb]
        by_cases hbe : b = []
        · subst hbe
          refine ⟨car, B, i, by simp, le_refl _, hif, hi64, hlen, hb, hcar, hlow,
            fun _ _ => rfl, List.Perm.refl _, hPc, hPB⟩
        · have hbl : b.length = 2 ^ i := (hsz i b hb).resolve_left hbe
          have hperm := flatten_get_perm B i b hb
          have hlenf : B.flatten.length = b.length + (B.set i []).flatten.length := by
            simpa using hperm.length_eq
          have hget : ∀ j, (B.set i [])[j]? = if i = j then some [] else B[j]? := by
            intro j; rw [List.getElem?_set]; simp [hlen, hi64]
          obtain ⟨car', B', i', e, h1, h2, h3, h4, h5, h6, h7, h8, h9, h10, h11⟩ :=
            carryL_spec P hP0 hPm d (List.merge b car le) (B.set i []) fill (i + 1)
              (by simpa using hlen) (by omega) hf
              (by rw [List.length_merge, hbl, hcar, pow_succ]; omega)
              (by
                intro j c hj hc
                rw [hget] at hc
                by_cases hij : i = j
                · simp only [hij, ↓reduceIte, Option.some.injEq] at hc; exact hc.symm
                · simp only [hij, ↓reduceIte] at hc
                  exact hlow j c (by omega) hc)
              (by
                intro j c hc
                rw [hget] at hc
                by_cases hij : i = j
                · simp only [hij, ↓reduceIte, Option.some.injEq] at hc; exact Or.inl hc.symm
                · simp only [hij, ↓reduceIte] at hc; exact hsz j c hc)
              (by
                intro j c hj hc
                rw [hget] at hc
                by_cases hij : i = j
                · simp only [hij, ↓reduceIte, Option.some.injEq] at hc; exact hc.symm
                · simp only [hij, ↓reduceIte] at hc; exact hhigh j c hj hc)
              (by rw [List.length_merge]; omega) (by omega)
              (hPm b car (hPB i b hb) hPc)
              (by
                intro j c hc
                rw [hget] at hc
                by_cases hij : i = j
                · simp only [hij, ↓reduceIte, Option.some.injEq] at hc
                  subst hc; exact hP0
                · simp only [hij, ↓reduceIte] at hc; exact hPB j c hc)
          have hbe' : b.isEmpty = false := by
            cases b with
            | nil => exact absurd rfl hbe
            | cons _ _ => rfl
          refine ⟨car', B', i', by simpa [hbe'] using e, by omega, h2, h3, h4, h5, h6, h7, ?_,
            ?_, h10, h11⟩
          · intro j hj
            rw [h8 j hj, hget]
            have : i ≠ j := by omega
            simp [this]
          · refine h9.trans ?_
            have hm : (List.merge b car le).Perm (b ++ car) := List.merge_perm_append le
            refine (List.Perm.append_right _ hm).trans ?_
            refine (List.Perm.append_right _ List.perm_append_comm).trans ?_
            rw [List.append_assoc]
            exact List.Perm.append_left _ hperm.symm
      · have hie : i = fill := by omega
        simp only [hlt, ↓reduceIte]
        have hbn : b = [] := hhigh i b (by omega) hb
        subst hbn
        exact ⟨car, B, i, rfl, le_refl _, hif, hi64, hlen, hb, hcar, hlow, fun _ _ => rfl,
          List.Perm.refl _, hPc, hPB⟩

theorem set_self_of_get (B : List (List β)) (i : Nat) (b : List β) (hb : B[i]? = some b) :
    B.set i b = B := by
  have hi : i < B.length := by
    rw [List.getElem?_eq_some_iff] at hb; exact hb.1
  apply List.ext_getElem?
  intro j
  rw [List.getElem?_set]
  by_cases hij : i = j
  · subst hij; simp [hi, hb]
  · simp [hij]

theorem sortLoopL_spec (P : List β → Prop) (hP0 : P []) (hP1 : ∀ x, P [x])
    (hPm : ∀ a b, P a → P b → P (List.merge a b le)) :
    ∀ (d : Nat) (src : List β) (B : List (List β)) (fill : Nat),
      Buckets B fill → src.length + B.flatten.length < 2 ^ 64 → src.length + 65 ≤ d →
      (∀ (j : Nat) (b : List β), B[j]? = some b → P b) →
      ∃ B' fill', sortLoopL le d src [] B fill = some ([], B', fill') ∧
        Buckets B' fill' ∧ (B'.flatten).Perm (src ++ B.flatten) ∧
        (∀ (j : Nat) (b : List β), B'[j]? = some b → P b) ∧ fill ≤ fill' ∧
        (src ≠ [] → 0 < fill')
  | 0, _, _, _, _, _, hd, _ => by omega
  | d + 1, [], B, fill, hB, _, _, hPB =>
      ⟨B, fill, rfl, hB, by simp, hPB, le_refl _, fun hne => absurd rfl hne⟩
  | d + 1, x :: src, B, fill, hB, htot, hd, hPB => by
      obtain ⟨car1, B1, i, e, -, h2, h3, h4, h5, h6, h7, h8, h9, h10, h11⟩ :=
        carryL_spec le P hP0 hPm d [x] B fill 0 hB.len (Nat.zero_le _) hB.fill_le (by simp)
          (fun j b hj => absurd hj (Nat.not_lt_zero _)) hB.size hB.high
          (by simp at htot ⊢; omega) (by have := hB.fill_le; simp at hd; omega) (hP1 x) hPB
      have hget : ∀ j, (B1.set i car1)[j]? = if i = j then some car1 else B1[j]? := by
        intro j; rw [List.getElem?_set]; simp [h4, h3]
      have hperm : ((B1.set i car1).flatten).Perm (x :: B.flatten) := by
        have p1 := flatten_set_perm B1 i car1 (by omega)
        have e1 : B1.set i [] = B1 := set_self_of_get B1 i [] h5
        rw [e1] at p1
        exact p1.trans (by simpa using h9)
      have hB2 : Buckets (B1.set i car1) (if i = fill then fill + 1 else fill) := by
        refine ⟨by simpa using h4, ?_, ?_, ?_⟩
        · split
          · omega
          · exact hB.fill_le
        · intro j b hb
          rw [hget] at hb
          by_cases hij : i = j
          · simp only [hij, ↓reduceIte, Option.some.injEq] at hb
            subst hb; subst hij; exact Or.inr h6
          · simp only [hij, ↓reduceIte] at hb
            by_cases hji : j < i
            · exact Or.inl (h7 j b hji hb)
            · rw [h8 j (by omega)] at hb; exact hB.size j b hb
        · intro j b hj hb
          rw [hget] at hb
          have hij : i ≠ j := by
            intro e'; subst e'
            split at hj <;> omega
          simp only [hij, ↓reduceIte] at hb
          have hji : i < j := by
            split at hj <;> omega
          rw [h8 j hji] at hb
          exact hB.high j b (by split at hj <;> omega) hb
      obtain ⟨B', fill', e2, hB', hp', hP', hf', _⟩ :=
        sortLoopL_spec P hP0 hP1 hPm d src (B1.set i car1) (if i = fill then fill + 1 else fill)
          hB2 (by have := hperm.length_eq; simp at this htot ⊢; omega)
          (by simp at hd; omega)
          (by
            intro j b hb
            rw [hget] at hb
            by_cases hij : i = j
            · simp only [hij, ↓reduceIte, Option.some.injEq] at hb; subst hb; exact h10
            · simp only [hij, ↓reduceIte] at hb; exact h11 j b hb)
      refine ⟨B', fill', ?_, hB', ?_, hP', ?_, ?_⟩
      · simp only [sortLoopL, e, h5]; exact e2
      · refine hp'.trans ?_
        refine (List.Perm.append_left src hperm).trans ?_
        exact List.perm_middle
      · split at hf' <;> omega
      · intro _
        split at hf' <;> omega

theorem collectL_spec (P : List β → Prop) (hP0 : P [])
    (hPm : ∀ a b, P a → P b → P (List.merge a b le)) :
    ∀ (d : Nat) (B : List (List β)) (fill i : Nat),
      B.length = 64 → 1 ≤ i → i ≤ fill → fill ≤ 64 →
      (∀ (j : Nat) (b : List β), j + 1 < i → B[j]? = some b → b = []) →
      (∀ (j : Nat) (b : List β), fill ≤ j → B[j]? = some b → b = []) →
      fill - i < d → (∀ (j : Nat) (b : List β), B[j]? = some b → P b) →
      ∃ B', collectL le d B fill i = some B' ∧ B'.length = 64 ∧
        (∀ (j : Nat) (b : List β), j ≠ fill - 1 → B'[j]? = some b → b = []) ∧
        (B'.flatten).Perm B.flatten ∧ (∀ (j : Nat) (b : List β), B'[j]? = some b → P b)
  | 0, _, _, _, _, _, _, _, _, _, hd, _ => by omega
  | d + 1, B, fill, i, hlen, hi1, hif, hf, hlow, hhigh, hd, hPB => by
      unfold collectL
      by_cases hlt : i < fill
      · obtain ⟨bi, hbi⟩ := get_of_lt B i (by omega)
        obtain ⟨bj, hbj⟩ := get_of_lt B (i - 1) (by omega)
        simp only [hlt, ↓reduceIte, hbi, hbj]
        have hget : ∀ j, ((B.set i (List.merge bi bj le)).set (i - 1) [])[j]? =
            if i - 1 = j then some [] else if i = j then some (List.merge bi bj le)
            else B[j]? := by
          intro j
          rw [List.getElem?_set, List.getElem?_set]
          have h1 : i - 1 < B.length := by omega
          have h2 : i < B.length := by omega
          simp [h1, h2]
        obtain ⟨B', e, h1, h2, h3, h4⟩ :=
          collectL_spec P hP0 hPm d ((B.set i (List.merge bi bj le)).set (i - 1) []) fill (i + 1)
            (by simpa using hlen) (by omega) (by omega) hf
            (by
              intro j b hj hb
              rw [hget] at hb
              by_cases hj1 : i - 1 = j
              · simp only [hj1, ↓reduceIte, Option.some.injEq] at hb; exact hb.symm
              · have : i ≠ j := by omega
                simp only [hj1, this, ↓reduceIte] at hb
                exact hlow j b (by omega) hb)
            (by
              intro j b hj hb
              rw [hget] at hb
              have h1 : i - 1 ≠ j := by omega
              have h2 : i ≠ j := by omega
              simp only [h1, h2, ↓reduceIte] at hb
              exact hhigh j b hj hb)
            (by omega)
            (by
              intro j b hb
              rw [hget] at hb
              by_cases hj1 : i - 1 = j
              · simp only [hj1, ↓reduceIte, Option.some.injEq] at hb; subst hb; exact hP0
              · by_cases hj2 : i = j
                · rw [if_neg hj1, if_pos hj2, Option.some.injEq] at hb
                  subst hb; exact hPm bi bj (hPB i bi hbi) (hPB (i - 1) bj hbj)
                · simp only [hj1, hj2, ↓reduceIte] at hb; exact hPB j b hb)
        refine ⟨B', e, h1, h2, h3.trans ?_, h4⟩
        -- the two buckets are replaced by their merge and an empty bucket
        have hC : (B.set i (List.merge bi bj le))[i - 1]? = some bj := by
          rw [List.getElem?_set_ne (by omega)]; exact hbj
        have p1 := flatten_get_perm (B.set i (List.merge bi bj le)) (i - 1) bj hC
        have p2 := flatten_set_perm B i (List.merge bi bj le) (by omega)
        have p3 := flatten_get_perm B i bi hbi
        have hm : (List.merge bi bj le).Perm (bi ++ bj) := List.merge_perm_append le
        have p4 : (bj ++ ((B.set i (List.merge bi bj le)).set (i - 1) []).flatten).Perm
            (bj ++ B.flatten) := by
          refine p1.symm.trans (p2.trans ?_)
          refine (List.Perm.append_right _ hm).trans ?_
          refine (List.Perm.append_right _ List.perm_append_comm).trans ?_
          rw [List.append_assoc]
          exact List.Perm.append_left _ p3.symm
        exact (List.perm_append_left_iff bj).mp p4
      · have hie : i = fill := by omega
        simp only [hlt, ↓reduceIte]
        refine ⟨B, rfl, hlen, ?_, List.Perm.refl _, hPB⟩
        intro j b hj hb
        by_cases hjf : fill ≤ j
        · exact hhigh j b hjf hb
        · exact hlow j b (by omega) hb

theorem buckets_replicate : Buckets (List.replicate 64 ([] : List β)) 0 := by
  refine ⟨by simp, by omega, ?_, ?_⟩
  · intro j b hb
    rw [List.getElem?_replicate] at hb
    split at hb
    · simp only [Option.some.injEq] at hb; exact Or.inl hb.symm
    · cases hb
  · intro j b _ hb
    rw [List.getElem?_replicate] at hb
    split at hb
    · simp only [Option.some.injEq] at hb; exact hb.symm
    · cases hb

/-- The run of `sort()` on a sequence of two or more and fewer than `2^64`
elements: both loops finish within bounds of the bucket array; afterwards
everything sits in bucket `fill - 1`, and all other buckets are empty. -/
theorem sortL_stages (P : List β → Prop) (hP0 : P []) (hP1 : ∀ x, P [x])
    (hPm : ∀ a b, P a → P b → P (List.merge a b le))
    (d : Nat) (ps : List β) (hne : ps ≠ []) (hlen : ps.length < 2 ^ 64)
    (hd : ps.length + 65 ≤ d) :
    ∃ B fill B1 top, sortLoopL le d ps [] (List.replicate 64 []) 0 = some ([], B, fill) ∧
      collectL le d B fill 1 = some B1 ∧ 0 < fill ∧ fill ≤ 64 ∧ B.length = 64 ∧
      B1.length = 64 ∧ B1[fill - 1]? = some top ∧
      (∀ (j : Nat) (b : List β), j ≠ fill - 1 → B1[j]? = some b → b = []) ∧
      top.Perm ps ∧ P top ∧ (B.flatten).Perm ps := by
  obtain ⟨B, fill, e1, hB, hp, hP, _, hfill⟩ :=
    sortLoopL_spec le P hP0 hP1 hPm d ps (List.replicate 64 []) 0 buckets_replicate
      (by simpa using hlen) hd
      (by
        intro j b hb
        rw [List.getElem?_replicate] at hb
        split at hb
        · simp only [Option.some.injEq] at hb; subst hb; exact hP0
        · cases hb)
  have hf := hfill hne
  obtain ⟨B1, e2, hl1, hemp, hp1, hP1'⟩ :=
    collectL_spec le P hP0 hPm d B fill 1 hB.len (le_refl _) hf hB.fill_le
      (fun j b hj => absurd hj (by omega)) hB.high (by have := hB.fill_le; omega) hP
  obtain ⟨top, htop⟩ := get_of_lt B1 (fill - 1) (by have := hB.fill_le; omega)
  refine ⟨B, fill, B1, top, e1, e2, hf, hB.fill_le, hB.len, hl1, htop, hemp, ?_, hP1' _ _ htop,
    hp.trans (by simp)⟩
  -- all other buckets are empty, so the flattened array is bucket `fill - 1`
  have hflat : ∀ (C : List (List β)) (k : Nat) (t : List β), C[k]? = some t →
      (∀ (j : Nat) (b : List β), j ≠ k → C[j]? = some b → b = []) → C.flatten = t := by
    intro C
    induction C with
    | nil => intro k t hk; simp at hk
    | cons c C ih =>
      intro k t hk hall
      cases k with
      | zero =>
        simp only [List.getElem?_cons_zero, Option.some.injEq] at hk
        subst hk
        have : C.flatten = [] := by
          rw [List.flatten_eq_nil_iff]
          intro l hl
          obtain ⟨n, hn⟩ := List.mem_iff_getElem?.mp hl
          exact hall (n + 1) l (by omega) (by simpa using hn)
        simp [this]
      | succ k =>
        have hc : c = [] := hall 0 c (by omega) (by simp)
        subst hc
        simp only [List.flatten_cons, List.nil_append]
        apply ih k t (by simpa using hk)
        intro j b hj hb
        exact hall (j + 1) b (by omega) (by simpa using hb)
  have hfl := hflat B1 (fill - 1) top htop hemp
  rw [← hfl]
  exact hp1.trans (hp.trans (by simp))

theorem sortL_spec (P : List β → Prop) (hP0 : P []) (hP1 : ∀ x, P [x])
    (hPm : ∀ a b, P a → P b → P (List.merge a b le))
    (d : Nat) (ps : List β) (hlen : ps.length < 2 ^ 64) (hd : ps.length + 65 ≤ d) :
    ∃ r, sortL le d ps = some r ∧ r.Perm ps ∧ P r := by
  match ps, hlen, hd with
  | [], _, _ => exact ⟨[], rfl, List.Perm.refl _, hP0⟩
  | [x], _, _ => exact ⟨[x], rfl, List.Perm.refl _, hP1 x⟩
  | x :: y :: ps, hlen, hd =>
    obtain ⟨B, fill, B1, top, e1, e2, hf, _, _, _, htop, _, hp, hP, _⟩ :=
      sortL_stages le P hP0 hP1 hPm d (x :: y :: ps) (by simp) hlen hd
    refine ⟨top, ?_, hp, hP⟩
    have hf0 : fill ≠ 0 := by omega
    simp only [sortL, e1, e2, hf0, ↓reduceIte, htop]

end pure

section maps
variable {β γ : Type} {r : β → β → Bool} {s : γ → γ → Bool} {f : β → γ}

theorem isEmpty_map_eq (l : List β) : (l.map f).isEmpty = l.isEmpty := by
  cases l <;> rfl

theorem map_carryL (hrs : ∀ a b, r a b = s (f a) (f b)) :
    ∀ (d : Nat) (car : List β) (B : List (List β)) (fill i : Nat),
      carryL s d (car.map f) (B.map (List.map f)) fill i =
        (carryL r d car B fill i).map
          (fun t => (t.1.map f, t.2.1.map (List.map f), t.2.2))
  | 0, _, _, _, _ => rfl
  | d + 1, car, B, fill, i => by
      unfold carryL
      by_cases hlt : i < fill
      · simp only [hlt, ↓reduceIte, List.getElem?_map]
        cases hb : B[i]? with
        | none => rfl
        | some b =>
          simp only [Option.map_some', isEmpty_map_eq]
          by_cases hbe : b.isEmpty = true
          · simp [hbe]
          · simp only [hbe, Bool.false_eq_true, ↓reduceIte]
            have hm : List.merge (b.map f) (car.map f) s = (List.merge b car r).map f :=
              (List.map_merge (fun a _ c _ => hrs a c)).symm
            have hs : (B.map (List.map f)).set i [] = (B.set i []).map (List.map f) := by
              rw [List.map_set]; rfl
            rw [hm, hs]
            exact map_carryL hrs d _ _ fill (i + 1)
      · simp [hlt]

theorem map_sortLoopL (hrs : ∀ a b, r a b = s (f a) (f b)) :
    ∀ (d : Nat) (src car : List β) (B : List (List β)) (fill : Nat),
      sortLoopL s d (src.map f) (car.map f) (B.map (List.map f)) fill =
        (sortLoopL r d src car B fill).map
          (fun t => (t.1.map f, t.2.1.map (List.map f), t.2.2))
  | 0, _, _, _, _ => rfl
  | d + 1, [], car, B, fill => rfl
  | d + 1, x :: src, car, B, fill => by
      simp only [List.map_cons, sortLoopL]
      have h1 := map_carryL hrs d (x :: car) B fill 0
      simp only [List.map_cons] at h1
      rw [h1]
      cases hc : carryL r d (x :: car) B fill 0 with
      | none => rfl
      | some t =>
        obtain ⟨car1, B1, i⟩ := t
        simp only [Option.map_some', List.getElem?_map]
        cases hb : B1[i]? with
        | none => rfl
        | some b =>
          simp only [Option.map_some']
          have hs : (B1.map (List.map f)).set i (car1.map f) =
              (B1.set i car1).map (List.map f) := by
            rw [List.map_set]
          rw [hs]
          exact map_sortLoopL hrs d src b _ _

theorem map_collectL (hrs : ∀ a b, r a b = s (f a) (f b)) :
    ∀ (d : Nat) (B : List (List β)) (fill i : Nat),
      collectL s d (B.map (List.map f)) fill i =
        (collectL r d B fill i).map (fun t => t.map (List.map f))
  | 0, _, _, _ => rfl
  | d + 1, B, fill, i => by
      unfold collectL
      by_cases hlt : i < fill
      · simp only [hlt, ↓reduceIte, List.getElem?_map]
        cases hbi : B[i]? with
        | none => rfl
        | some bi =>
          cases hbj : B[i - 1]? with
          | none => rfl
          | some bj =>
            simp only [Option.map_some']
            have hm : List.merge (bi.map f) (bj.map f) s = (List.merge bi bj r).map f :=
              (List.map_merge (fun a _ c _ => hrs a c)).symm
            have hs : ((B.map (List.map f)).set i ((List.merge bi bj r).map f)).set (i - 1) [] =
                ((B.set i (List.merge bi bj r)).set (i - 1) []).map (List.map f) := by
              rw [List.map_set, List.map_set]; rfl
            rw [hm, hs]
            exact map_collectL hrs d _ fill (i + 1)
      · simp [hlt]

theorem map_sortL (hrs : ∀ a b, r a b = s (f a) (f b)) (d : Nat) (ps : List β) :
    sortL s d (ps.map f) = (sortL r d ps).map (List.map f) := by
  match ps with
  | [] => rfl
  | [x] => rfl
  | x :: y :: ps =>
    simp only [List.map_cons, sortL]
    have h1 := map_sortLoopL hrs d (x :: y :: ps) [] (List.replicate 64 []) 0
    simp only [List.map_cons, List.map_nil, List.map_replicate] at h1
    rw [h1]
    cases hc : sortLoopL r d (x :: y :: ps) [] (List.replicate 64 []) 0 with
    | none => rfl
    | some t =>
      obtain ⟨car, B, fill⟩ := t
      simp only [Option.map_some']
      rw [map_collectL hrs]
      cases hc2 : collectL r d B fill 1 with
      | none => rfl
      | some B1 =>
        simp only [Option.map_some']
        by_cases hf : fill = 0
        · simp [hf]
        · simp only [hf, ↓reduceIte, List.getElem?_map]

end maps

/-! ## Families of lists in one heap -/

/-- Two lists of a family exchange nodes; the others are left alone. -/
theorem Fam.update2 {h h' : Heap α} {n : Nat} {S : Nat → Nat} {L L' : Nat → List Nat}
    (hF : Fam h n S L) {i j : Nat} (hi : i < n) (hj : j < n) (hij : i ≠ j)
    (hri : Ring h' (S i) (L' i)) (hrj : Ring h' (S j) (L' j))
    (hmem : ∀ x, (x ∈ L' i ∨ x ∈ L' j) ↔ (x ∈ L i ∨ x ∈ L j))
    (hdj : ∀ x ∈ L' i, x ∉ L' j)
    (hoth : ∀ k, k ≠ i → k ≠ j → L' k = L k)
    (hfr : ∀ x, x ∉ S i :: L i → x ∉ S j :: L j → h'.next x = h.next x ∧ h'.prev x = h.prev x)
    (hd : h'.data = h.data) : Fam h' n S L' := by
  -- membership of a node in one of the two lists, before and after
  have inOld : ∀ x, x ∈ L' i ∨ x ∈ L' j → x ∈ L i ∨ x ∈ L j := fun x => (hmem x).mp
  have sI : ∀ k, k < n → k ≠ i → ∀ x ∈ S k :: L k, x ∉ S i :: L i := fun k hk hki =>
    hF.disj k i hk hi hki
  have sJ : ∀ k, k < n → k ≠ j → ∀ x ∈ S k :: L k, x ∉ S j :: L j := fun k hk hkj =>
    hF.disj k j hk hj hkj
  have newI : ∀ k, k < n → k ≠ i → k ≠ j → ∀ x ∈ S k :: L k, x ∉ S i :: L' i := by
    intro k hk hki hkj x hx hx'
    rcases List.mem_cons.mp hx' with e | hm
    · exact sI k hk hki x hx (by simp [e])
    · rcases inOld x (Or.inl hm) with h1 | h1
      · exact sI k hk hki x hx (List.mem_cons_of_mem _ h1)
      · exact sJ k hk hkj x hx (List.mem_cons_of_mem _ h1)
  have newJ : ∀ k, k < n → k ≠ i → k ≠ j → ∀ x ∈ S k :: L k, x ∉ S j :: L' j := by
    intro k hk hki hkj x hx hx'
    rcases List.mem_cons.mp hx' with e | hm
    · exact sJ k hk hkj x hx (by simp [e])
    · rcases inOld x (Or.inr hm) with h1 | h1
      · exact sI k hk hki x hx (List.mem_cons_of_mem _ h1)
      · exact sJ k hk hkj x hx (List.mem_cons_of_mem _ h1)
  have hSij : S i ≠ S j := fun e => hF.disj i j hi hj hij (S i) (by simp) (by simp [e])
  have hSi_notin : ∀ x, x ∈ L' i ∨ x ∈ L' j → x ≠ S i ∧ x ≠ S j := by
    intro x hx
    rcases inOld x hx with h1 | h1
    · refine ⟨?_, ?_⟩
      · rintro rfl; exact (List.nodup_cons.mp (hF.ring i hi).1).1 h1
      · rintro rfl; exact hF.disj i j hi hj hij _ (List.mem_cons_of_mem _ h1) (by simp)
    · refine ⟨?_, ?_⟩
      · rintro rfl; exact hF.disj j i hj hi (Ne.symm hij) _ (List.mem_cons_of_mem _ h1) (by simp)
      · rintro rfl; exact (List.nodup_cons.mp (hF.ring j hj).1).1 h1
  have hdisj_ij : ∀ x ∈ S i :: L' i, x ∉ S j :: L' j := by
    intro x hx hx'
    rcases List.mem_cons.mp hx with e | hm
    · subst e
      rcases List.mem_cons.mp hx' with e' | hm'
      · exact hSij e'
      · exact (hSi_notin _ (Or.inr hm')).1 rfl
    · rcases List.mem_cons.mp hx' with e' | hm'
      · exact (hSi_notin _ (Or.inl hm)).2 e'
      · exact hdj x hm hm'
  refine ⟨?_, ?_, ?_⟩
  · intro k hk
    by_cases hki : k = i
    · subst hki; exact hri
    · by_cases hkj : k = j
      · subst hkj; exact hrj
      · rw [hoth k hki hkj]
        apply ring_frame (hF.ring k hk)
        intro x hx
        exact hfr x (sI k hk hki x hx) (sJ k hk hkj x hx)
  · intro k l hk hl hkl x hx hx'
    by_cases hki : k = i
    · subst hki
      by_cases hlj : l = j
      · subst hlj; exact hdisj_ij x hx hx'
      · rw [hoth l (Ne.symm hkl) hlj] at hx'
        exact newI l hl (Ne.symm hkl) hlj x hx' hx
    · by_cases hkj : k = j
      · subst hkj
        by_cases hli : l = i
        · subst hli; exact hdisj_ij x hx' hx
        · rw [hoth l hli (Ne.symm hkl)] at hx'
          exact newJ l hl hli (Ne.symm hkl) x hx' hx
      · rw [hoth k hki hkj] at hx
        by_cases hli : l = i
        · subst hli; exact newI k hk hki hkj x hx hx'
        · by_cases hlj : l = j
          · subst hlj; exact newJ k hk hki hkj x hx hx'
          · rw [hoth l hli hlj] at hx'
            exact hF.disj k l hk hl hkl x hx hx'
  · intro k hk p hp
    rw [hd]
    by_cases hki : k = i
    · subst hki
      rcases inOld p (Or.inl hp) with h1 | h1
      · exact hF.dat _ hi p h1
      · exact hF.dat j hj p h1
    · by_cases hkj : k = j
      · subst hkj
        rcases inOld p (Or.inr hp) with h1 | h1
        · exact hF.dat i hi p h1
        · exact hF.dat _ hj p h1
      · rw [hoth k hki hkj] at hp
        exact hF.dat k hk p hp

theorem Fam.nodes_disj {h : Heap α} {n : Nat} {S : Nat → Nat} {L : Nat → List Nat}
    (hF : Fam h n S L) {i j : Nat} (hi : i < n) (hj : j < n) (hij : i ≠ j) :
    ∀ x ∈ L i, x ∉ L j := fun x hx hx' =>
  hF.disj i j hi hj hij x (List.mem_cons_of_mem _ hx) (List.mem_cons_of_mem _ hx')

theorem Fam.merge_step (lt : α → α → Bool) {h : Heap α} {n : Nat} {S : Nat → Nat}
    {L : Nat → List Nat} (hF : Fam h n S L) {i j : Nat} (hi : i < n) (hj : j < n)
    (hij : i ≠ j) (fuel : Nat) (hfuel : (L i).length + (L j).length < fuel) :
    ∃ h1, merge lt fuel h (S i) (S j) = some h1 ∧
      h1.data = h.data ∧ h1.live = h.live ∧ h1.brk = h.brk ∧
      ∀ L' : Nat → List Nat, L' i = List.merge (L i) (L j) (leAt lt h) → L' j = [] →
        (∀ k, k ≠ i → k ≠ j → L' k = L k) → Fam h1 n S L' := by
  have hs : ∀ p ∈ L i ++ L j, (h.data p).isSome = true := by
    intro p hp
    rcases List.mem_append.mp hp with hp | hp
    · exact hF.dat i hi p hp
    · exact hF.dat j hj p hp
  obtain ⟨h1, e, hA, hB, hd, hl, hb, hfr⟩ :=
    merge_ring lt (hF.ring i hi) (hF.ring j hj) (hF.disj i j hi hj hij) hs fuel hfuel
  refine ⟨h1, e, hd, hl, hb, ?_⟩
  intro L' e1 e2 hoth
  apply hF.update2 hi hj hij (by rw [e1]; exact hA) (by rw [e2]; exact hB) _ _ hoth hfr hd
  · intro x; rw [e1, e2, List.mem_merge]; simp
  · intro x _; rw [e2]; simp

theorem Fam.swap_step {h : Heap α} {n : Nat} {S : Nat → Nat}
    {L : Nat → List Nat} (hF : Fam h n S L) {i j : Nat} (hi : i < n) (hj : j < n)
    (hij : i ≠ j) :
    ∀ L' : Nat → List Nat, L' i = L j → L' j = L i →
      (∀ k, k ≠ i → k ≠ j → L' k = L k) → Fam (swap h (S i) (S j)) n S L' := by
  obtain ⟨hA, hB, hfr⟩ := swap_ring (hF.ring i hi) (hF.ring j hj) (hF.disj i j hi hj hij)
  intro L' e1 e2 hoth
  apply hF.update2 hi hj hij (by rw [e1]; exact hA) (by rw [e2]; exact hB) _ _ hoth hfr
    (swap_data _ _ _)
  · intro x; rw [e1, e2]; exact Or.comm
  · intro x hx; rw [e1] at hx; rw [e2]
    exact hF.nodes_disj hj hi (Ne.symm hij) x hx

theorem Fam.splice_one_step {h : Heap α} {n : Nat} {S : Nat → Nat}
    {L : Nat → List Nat} (hF : Fam h n S L) {c m : Nat} (hc : c < n) (hm : m < n)
    (hcm : c ≠ m) {x : Nat} {src : List Nat} (hx : L m = x :: src) :
    ∀ L' : Nat → List Nat, L' c = x :: L c → L' m = src →
      (∀ k, k ≠ c → k ≠ m → L' k = L k) →
      Fam (splice_one h (begin h (S c)) (S m) (begin h (S m))) n S L' := by
  have hN : Ring h (S m) (x :: src) := hx ▸ hF.ring m hm
  have hd : ∀ y ∈ S c :: L c, y ∉ S m :: x :: src := hx ▸ hF.disj c m hc hm hcm
  obtain ⟨hA, hB, hfr⟩ := splice_one_ring (hF.ring c hc) hN hd
  intro L' e1 e2 hoth
  apply hF.update2 hc hm hcm (by rw [e1]; exact hA) (by rw [e2]; exact hB) _ _ hoth
    (by rw [hx]; exact hfr) (splice_one_data _ _ _ _)
  · intro y; rw [e1, e2, hx]; simp only [List.mem_cons]; tauto
  · intro y hy; rw [e1] at hy; rw [e2]
    have hnd := hN.1
    rcases List.mem_cons.mp hy with rfl | hy
    · intro hy'; simp at hnd; exact hnd.2.1 hy'
    · intro hy'
      exact hF.nodes_disj hc hm hcm y hy (by rw [hx]; exact List.mem_cons_of_mem _ hy')

theorem getD_set_nil (B : List (List Nat)) (i k : Nat) (v : List Nat) (hi : i < B.length) :
    (B.set i v).getD k [] = if i = k then v else B.getD k [] := by
  rw [List.getD_eq_getElem?_getD, List.getD_eq_getElem?_getD, List.getElem?_set]
  by_cases hik : i = k
  · subst hik; simp [hi]
  · simp [hik]

theorem getD_of_get (B : List (List Nat)) (i : Nat) (b : List Nat) (hb : B[i]? = some b) :
    B.getD i [] = b := by
  rw [List.getD_eq_getElem?_getD, hb]; rfl

theorem counter_get (cs : List Nat) (i : Nat) (hi : i < cs.length) :
    cs[i]? = some (cs.getD i 0) := by
  rw [List.getD_eq_getElem?_getD, List.getElem?_eq_getElem hi]; rfl

/-! ## `sort` refines its run on sequences -/

theorem famL_other {src car src' car' : List Nat} {B B' : List (List Nat)} {i : Nat}
    (hsrc : src' = src) (hB : ∀ k, k ≠ i → B'.getD k [] = B.getD k []) :
    ∀ k, k ≠ i + 2 → k ≠ 1 → famL src' car' B' k = famL src car B k := by
  intro k h1 h2
  match k with
  | 0 => exact hsrc
  | 1 => exact absurd rfl h2
  | k + 2 => exact hB k (by omega)

theorem length_le_flatten (B : List (List Nat)) (i : Nat) (b : List Nat) (hb : B[i]? = some b) :
    b.length + (B.set i []).flatten.length = B.flatten.length := by
  have := (flatten_get_perm B i b hb).length_eq
  simpa using this.symm

theorem sortCarry_refines (lt : α → α → Bool) {node carry : Nat} {cs : List Nat}
    (hcs : cs.length = 64) (h0 : Heap α) (src : List Nat) (fill : Nat) :
    ∀ (d : Nat) (car : List Nat) (B : List (List Nat)) (i : Nat) (h : Heap α) (fuel : Nat)
      (r : List Nat × List (List Nat) × Nat),
      Fam h 66 (famS node carry cs) (famL src car B) → B.length = 64 → h.data = h0.data →
      carryL (leAt lt h0) d car B fill i = some r →
      d + car.length + B.flatten.length < fuel →
      ∃ h', sortCarry lt fuel h carry cs fill i = some (h', r.2.2) ∧
        Fam h' 66 (famS node carry cs) (famL src r.1 r.2.1) ∧
        h'.data = h0.data ∧ h'.live = h.live ∧ h'.brk = h.brk
  | 0, _, _, _, _, _, _, _, _, _, hr, _ => by simp [carryL] at hr
  | d + 1, car, B, i, h, fuel, r, hF, hlen, hdat, hr, hfuel => by
      cases fuel with
      | zero => omega
      | succ fuel =>
        unfold carryL at hr
        unfold sortCarry
        by_cases hlt : i < fill
        · simp only [hlt, ↓reduceIte] at hr ⊢
          cases hb : B[i]? with
          | none => simp [hb] at hr
          | some b =>
            have hi : i < 64 := by
              rw [List.getElem?_eq_some_iff] at hb; have := hb.1; omega
            have hci := counter_get cs i (by omega)
            have hLi : famL src car B (i + 2) = b := getD_of_get B i b hb
            have hring : Ring h (cs.getD i 0) b := hLi ▸ hF.ring (i + 2) (by omega)
            simp only [hb, hci] at hr ⊢
            by_cases hbe : b = []
            · subst hbe
              have he : empty h (cs.getD i 0) = true := (ring_empty_iff hring).mpr rfl
              simp only [List.isEmpty_nil, ↓reduceIte, Option.some.injEq] at hr
              subst hr
              exact ⟨h, by simp only [he, Bool.not_true, Bool.false_eq_true, ↓reduceIte], hF, hdat,
                rfl, rfl⟩
            · have he : empty h (cs.getD i 0) = false := by
                have := (ring_empty_iff hring).not.mpr hbe
                simpa using this
              have hbe' : b.isEmpty = false := by
                cases b with
                | nil => exact absurd rfl hbe
                | cons _ _ => rfl
              simp only [hbe', Bool.false_eq_true, ↓reduceIte] at hr
              have hsz := length_le_flatten B i b hb
              obtain ⟨h1, e1, hd1, hl1, hb1, hF1⟩ :=
                hF.merge_step lt (show i + 2 < 66 by omega) (show 1 < 66 by omega)
                  (by omega) fuel
                  (by rw [hLi]; show b.length + car.length < fuel; omega)
              have hle : leAt lt h = leAt lt h0 := leAt_congr lt hdat
              have hF1' : Fam h1 66 (famS node carry cs)
                  (famL src [] (B.set i (List.merge b car (leAt lt h0)))) := by
                apply hF1
                · show (B.set i _).getD i [] = _
                  rw [getD_set_nil B i i _ (by omega), hLi, hle]
                  simp only [↓reduceIte]; rfl
                · rfl
                · apply famL_other rfl
                  intro k hk
                  rw [getD_set_nil B i k _ (by omega)]; simp only [Ne.symm hk, ↓reduceIte]
              have hF2 : Fam (swap h1 carry (cs.getD i 0)) 66 (famS node carry cs)
                  (famL src (List.merge b car (leAt lt h0)) (B.set i [])) := by
                apply hF1'.swap_step (show 1 < 66 by omega) (show i + 2 < 66 by omega)
                  (by omega)
                · show _ = (B.set i _).getD i []
                  rw [getD_set_nil B i i _ (by omega)]; simp only [↓reduceIte]; rfl
                · show (B.set i []).getD i [] = []
                  rw [getD_set_nil B i i _ (by omega)]; simp only [↓reduceIte]
                · intro k hk1 hk2
                  apply famL_other rfl _ k hk2 hk1
                  intro k hk
                  rw [getD_set_nil B i k _ (by omega), getD_set_nil B i k _ (by omega)]
                  simp only [Ne.symm hk, ↓reduceIte]
              obtain ⟨h', e, hF', hd', hl', hb'⟩ :=
                sortCarry_refines lt hcs h0 src fill d _ _ (i + 1) _ fuel r hF2
                  (by simpa using hlen) ((swap_data h1 _ _).trans (hd1.trans hdat)) hr
                  (by rw [List.length_merge]; omega)
              refine ⟨h', ?_, hF', hd', ?_, ?_⟩
              · have e1' : merge lt fuel h (cs.getD i 0) carry = some h1 := e1
                simp only [he, Bool.not_false, ↓reduceIte, e1']; exact e
              · exact hl'.trans ((swap_live h1 _ _).trans hl1)
              · exact hb'.trans ((swap_brk h1 _ _).trans hb1)
        · simp only [hlt, ↓reduceIte, Option.some.injEq] at hr ⊢
          subst hr
          exact ⟨h, rfl, hF, hdat, rfl, rfl⟩

theorem carryL_total {β : Type} (le : β → β → Bool) :
    ∀ (d : Nat) (car : List β) (B : List (List β)) (fill i : Nat)
      (r : List β × List (List β) × Nat), carryL le d car B fill i = some r →
      r.2.1.length = B.length ∧
      r.1.length + r.2.1.flatten.length = car.length + B.flatten.length
  | 0, _, _, _, _, _, hr => by simp [carryL] at hr
  | d + 1, car, B, fill, i, r, hr => by
      unfold carryL at hr
      by_cases hlt : i < fill
      · simp only [hlt, ↓reduceIte] at hr
        cases hb : B[i]? with
        | none => simp [hb] at hr
        | some b =>
          simp only [hb] at hr
          by_cases hbe : b.isEmpty = true
          · simp only [hbe, ↓reduceIte, Option.some.injEq] at hr
            subst hr; exact ⟨rfl, rfl⟩
          · simp only [hbe, Bool.false_eq_true, ↓reduceIte] at hr
            have ih := carryL_total le d _ _ fill (i + 1) r hr
            have hp := (flatten_get_perm B i b hb).length_eq
            simp only [List.length_set, List.length_merge, List.length_append] at ih hp
            exact ⟨ih.1, by omega⟩
      · simp only [hlt, ↓reduceIte, Option.some.injEq] at hr
        subst hr; exact ⟨rfl, rfl⟩

theorem flatten_set_length {β : Type} (B : List (List β)) (i : Nat) (b v : List β)
    (hb : B[i]? = some b) :
    (B.set i v).flatten.length + b.length = B.flatten.length + v.length := by
  have hi : i < B.length := by
    rw [List.getElem?_eq_some_iff] at hb; exact hb.1
  have p1 := (flatten_set_perm B i v hi).length_eq
  have p2 := (flatten_get_perm B i b hb).length_eq
  simp only [List.length_append] at p1 p2
  omega

theorem sortLoop_refines (lt : α → α → Bool) {node carry : Nat} {cs : List Nat}
    (hcs : cs.length = 64) (h0 : Heap α) :
    ∀ (d : Nat) (src car : List Nat) (B : List (List Nat)) (fill : Nat) (h : Heap α)
      (fuel : Nat) (r : List Nat × List (List Nat) × Nat),
      Fam h 66 (famS node carry cs) (famL src car B) → B.length = 64 → h.data = h0.data →
      sortLoopL (leAt lt h0) d src car B fill = some r →
      d + src.length + car.length + B.flatten.length < fuel →
      ∃ h', sortLoop lt fuel h node carry cs fill = some (h', r.2.2) ∧
        Fam h' 66 (famS node carry cs) (famL [] r.1 r.2.1) ∧
        h'.data = h0.data ∧ h'.live = h.live ∧ h'.brk = h.brk
  | 0, _, _, _, _, _, _, _, _, _, _, hr, _ => by simp [sortLoopL] at hr
  | d + 1, [], car, B, fill, h, fuel, r, hF, hlen, hdat, hr, hfuel => by
      cases fuel with
      | zero => omega
      | succ fuel =>
        simp only [sortLoopL, Option.some.injEq] at hr
        subst hr
        have he : empty h node = true := (ring_empty_iff (hF.ring 0 (by omega))).mpr rfl
        exact ⟨h, by simp only [sortLoop, he, Bool.not_true, Bool.false_eq_true, ↓reduceIte],
          hF, hdat, rfl, rfl⟩
  | d + 1, x :: src, car, B, fill, h, fuel, r, hF, hlen, hdat, hr, hfuel => by
      cases fuel with
      | zero => omega
      | succ fuel =>
        have he : empty h node = false := by
          have := (ring_empty_iff (hF.ring 0 (by omega))).not.mpr
            (show famL (x :: src) car B 0 ≠ [] from by simp [famL])
          simpa using this
        simp only [sortLoopL] at hr
        cases hc : carryL (leAt lt h0) d (x :: car) B fill 0 with
        | none => simp [hc] at hr
        | some t =>
          obtain ⟨car1, B1, i⟩ := t
          simp only [hc] at hr
          cases hb : B1[i]? with
          | none => simp [hb] at hr
          | some b =>
            simp only [hb] at hr
            have htot := carryL_total (leAt lt h0) d (x :: car) B fill 0 _ hc
            simp only [List.length_cons] at htot
            have hB1 : B1.length = 64 := htot.1.trans hlen
            have hi : i < 64 := by
              rw [List.getElem?_eq_some_iff] at hb; have := hb.1; omega
            -- move the first element of `*this` to the front of `carry`
            have hF1 : Fam (splice_one h (begin h carry) node (begin h node)) 66
                (famS node carry cs) (famL src (x :: car) B) := by
              apply hF.splice_one_step (show 1 < 66 by omega) (show 0 < 66 by omega)
                (by omega) (show famL (x :: src) car B 0 = x :: src from rfl)
              · rfl
              · rfl
              · intro k hk1 hk0
                match k with
                | 0 => exact absurd rfl hk0
                | 1 => exact absurd rfl hk1
                | k + 2 => rfl
            obtain ⟨h2, e2, hF2, hd2, hl2, hb2⟩ :=
              sortCarry_refines lt hcs h0 src fill d (x :: car) B 0 _ fuel _ hF1 hlen
                ((splice_one_data _ _ _ _).trans hdat) hc
                (by simp only [List.length_cons] at hfuel ⊢; omega)
            have hci := counter_get cs i (by omega)
            have hF3 : Fam (swap h2 carry (cs.getD i 0)) 66 (famS node carry cs)
                (famL src b (B1.set i car1)) := by
              apply hF2.swap_step (show 1 < 66 by omega) (show i + 2 < 66 by omega)
                (by omega)
              · exact (getD_of_get B1 i b hb).symm
              · show (B1.set i car1).getD i [] = car1
                rw [getD_set_nil B1 i i _ (by omega)]; simp only [↓reduceIte]
              · intro k hk1 hk2
                apply famL_other rfl _ k hk2 hk1
                intro k hk
                rw [getD_set_nil B1 i k _ (by omega)]
                simp only [Ne.symm hk, ↓reduceIte]
            have hsl := flatten_set_length B1 i b car1 hb
            obtain ⟨h', e, hF', hd', hl', hb'⟩ :=
              sortLoop_refines lt hcs h0 d src b (B1.set i car1) _ _ fuel r hF3
                (by simpa using hB1) ((swap_data h2 _ _).trans hd2) hr
                (by simp only [List.length_cons] at hfuel; omega)
            refine ⟨h', ?_, hF', hd', ?_, ?_⟩
            · simp only [sortLoop, he, Bool.not_false, ↓reduceIte, e2, hci]
              exact e
            · exact hl'.trans ((swap_live h2 _ _).trans (hl2.trans (splice_one_live _ _ _ _)))
            · exact hb'.trans ((swap_brk h2 _ _).trans (hb2.trans (splice_one_brk _ _ _ _)))

theorem sortCollect_refines (lt : α → α → Bool) {node carry : Nat} {cs : List Nat}
    (hcs : cs.length = 64) (h0 : Heap α) (src car : List Nat) (fill : Nat) :
    ∀ (d : Nat) (B : List (List Nat)) (i : Nat) (h : Heap α) (fuel : Nat)
      (B' : List (List Nat)),
      Fam h 66 (famS node carry cs) (famL src car B) → B.length = 64 → h.data = h0.data →
      1 ≤ i → collectL (leAt lt h0) d B fill i = some B' → d + B.flatten.length < fuel →
      ∃ h', sortCollect lt fuel h cs fill i = some h' ∧
        Fam h' 66 (famS node carry cs) (famL src car B') ∧
        h'.data = h0.data ∧ h'.live = h.live ∧ h'.brk = h.brk
  | 0, _, _, _, _, _, _, _, _, _, hr, _ => by simp [collectL] at hr
  | d + 1, B, i, h, fuel, B', hF, hlen, hdat, hi1, hr, hfuel => by
      cases fuel with
      | zero => omega
      | succ fuel =>
        unfold collectL at hr
        unfold sortCollect
        by_cases hlt : i < fill
        · simp only [hlt, ↓reduceIte] at hr ⊢
          cases hbi : B[i]? with
          | none => simp [hbi] at hr
          | some bi =>
            cases hbj : B[i - 1]? with
            | none => simp [hbi, hbj] at hr
            | some bj =>
              simp only [hbi, hbj] at hr
              have hi : i < 64 := by
                rw [List.getElem?_eq_some_iff] at hbi; have := hbi.1; omega
              have hci := counter_get cs i (by omega)
              have hcj := counter_get cs (i - 1) (by omega)
              have hLi : famL src car B (i + 2) = bi := getD_of_get B i bi hbi
              have hLj : famL src car B (i - 1 + 2) = bj := getD_of_get B (i - 1) bj hbj
              have hC : (B.set i (List.merge bi bj (leAt lt h0)))[i - 1]? = some bj := by
                rw [List.getElem?_set_ne (by omega)]; exact hbj
              have s1 := flatten_set_length B i bi (List.merge bi bj (leAt lt h0)) hbi
              have s2 := flatten_set_length _ (i - 1) bj [] hC
              simp only [List.length_merge, List.length_nil] at s1 s2
              have hC0 : (B.set i ([] : List Nat))[i - 1]? = some bj := by
                rw [List.getElem?_set_ne (by omega)]; exact hbj
              have t1 := flatten_set_length B i bi [] hbi
              have t2 := flatten_set_length _ (i - 1) bj [] hC0
              simp only [List.length_nil] at t1 t2
              obtain ⟨h1, e1, hd1, hl1, hb1, hF1⟩ :=
                hF.merge_step lt (show i + 2 < 66 by omega) (show i - 1 + 2 < 66 by omega)
                  (by omega) fuel (by rw [hLi, hLj]; omega)
              have hle : leAt lt h = leAt lt h0 := leAt_congr lt hdat
              have hF1' : Fam h1 66 (famS node carry cs)
                  (famL src car ((B.set i (List.merge bi bj (leAt lt h0))).set (i - 1) [])) := by
                apply hF1
                · show ((B.set i _).set (i - 1) []).getD i [] = _
                  rw [getD_set_nil _ (i - 1) i _ (by simp; omega),
                    getD_set_nil B i i _ (by omega), hLi, hLj, hle]
                  have : i - 1 ≠ i := by omega
                  simp only [this, ↓reduceIte]
                · show ((B.set i _).set (i - 1) []).getD (i - 1) [] = _
                  rw [getD_set_nil _ (i - 1) (i - 1) _ (by simp; omega)]
                  simp only [↓reduceIte]
                · intro k hk1 hk2
                  match k with
                  | 0 => rfl
                  | 1 => rfl
                  | k + 2 =>
                    show ((B.set i _).set (i - 1) []).getD k [] = B.getD k []
                    rw [getD_set_nil _ (i - 1) k _ (by simp; omega),
                      getD_set_nil B i k _ (by omega)]
                    have h1 : i - 1 ≠ k := by omega
                    have h2 : i ≠ k := by omega
                    simp only [h1, h2, ↓reduceIte]
              obtain ⟨h', e, hF', hd', hl', hb'⟩ :=
                sortCollect_refines lt hcs h0 src car fill d _ (i + 1) h1 fuel B' hF1'
                  (by simpa using hlen) (hd1.trans hdat) (by omega) hr (by omega)
              have e1' : merge lt fuel h (cs.getD i 0) (cs.getD (i - 1) 0) = some h1 := e1
              refine ⟨h', ?_, hF', hd', hl'.trans hl1, hb'.trans hb1⟩
              simp only [hci, hcj, e1']; exact e
        · simp only [hlt, ↓reduceIte, Option.some.injEq] at hr ⊢
          subst hr
          exact ⟨h, rfl, hF, hdat, rfl, rfl⟩

theorem newLists_spec : ∀ (n : Nat) (h : Heap α),
    (newLists n h).2 = List.range' h.brk n ∧ (newLists n h).1.brk = h.brk + n ∧
    (newLists n h).1.data = h.data ∧
    (∀ x, (newLists n h).1.live x = if h.brk ≤ x ∧ x < h.brk + n then true else h.live x) ∧
    (∀ x, (newLists n h).1.next x = if h.brk ≤ x ∧ x < h.brk + n then x else h.next x) ∧
    (∀ x, (newLists n h).1.prev x = if h.brk ≤ x ∧ x < h.brk + n then x else h.prev x)
  | 0, h => by
      have hno : ∀ x, ¬ (h.brk ≤ x ∧ x < h.brk) := by intro x; omega
      simp [newLists, hno]
  | n + 1, h => by
      obtain ⟨i1, i2, i3, i4, i5, i6⟩ := newLists_spec n (initList h).1
      simp only [newLists]
      rw [initList_brk] at i1 i2 i4 i5 i6
      refine ⟨?_, by rw [i2]; omega, by rw [i3, initList_data], ?_, ?_, ?_⟩
      · rw [i1, initList_snd]; rfl
      · intro x; rw [i4, initList_live]
        by_cases h1 : h.brk + 1 ≤ x ∧ x < h.brk + 1 + n
        · have : h.brk ≤ x ∧ x < h.brk + (n + 1) := by omega
          simp [h1, this]
        · by_cases h2 : x = h.brk
          · have : h.brk ≤ x ∧ x < h.brk + (n + 1) := by omega
            simp [h1, h2]
          · have : ¬ (h.brk ≤ x ∧ x < h.brk + (n + 1)) := by omega
            simp [h1, h2, this]
      · intro x; rw [i5, initList_next]
        by_cases h1 : h.brk + 1 ≤ x ∧ x < h.brk + 1 + n
        · have : h.brk ≤ x ∧ x < h.brk + (n + 1) := by omega
          simp [h1, this]
        · by_cases h2 : x = h.brk
          · have : h.brk ≤ x ∧ x < h.brk + (n + 1) := by omega
            simp [h1, h2]
          · have : ¬ (h.brk ≤ x ∧ x < h.brk + (n + 1)) := by omega
            simp [h1, h2, this]
      · intro x; rw [i6, initList_prev]
        by_cases h1 : h.brk + 1 ≤ x ∧ x < h.brk + 1 + n
        · have : h.brk ≤ x ∧ x < h.brk + (n + 1) := by omega
          simp [h1, this]
        · by_cases h2 : x = h.brk
          · have : h.brk ≤ x ∧ x < h.brk + (n + 1) := by omega
            simp [h1, h2]
          · have : ¬ (h.brk ≤ x ∧ x < h.brk + (n + 1)) := by omega
            simp [h1, h2, this]

theorem list_dtor_empty (h : Heap α) (s : Nat) (hn : h.next s = s) (hp : h.prev s = s)
    (fuel : Nat) (hf : 0 < fuel) :
    ∃ h', list_dtor fuel h s = some h' ∧ h'.next = h.next ∧ h'.prev = h.prev ∧
      h'.data = h.data ∧ h'.brk = h.brk ∧
      (∀ x, h'.live x = if x = s then false else h.live x) := by
  cases fuel with
  | zero => omega
  | succ fuel =>
    refine ⟨deleteNode ((h.setNext s s).setPrev s s) s, ?_, ?_, ?_, rfl, rfl, fun _ => rfl⟩
    · simp [list_dtor, clear, clearLoop, hn]
    · funext x
      show (if x = s then s else h.next x) = h.next x
      split
      · rename_i e; rw [e, hn]
      · rfl
    · funext x
      show (if x = s then s else h.prev x) = h.prev x
      split
      · rename_i e; rw [e, hp]
      · rfl

theorem dtorAll_empty (fuel : Nat) (hf : 0 < fuel) :
    ∀ (ss : List Nat) (h : Heap α), (∀ s ∈ ss, h.next s = s ∧ h.prev s = s) →
      ∃ h', dtorAll fuel ss h = some h' ∧ h'.next = h.next ∧ h'.prev = h.prev ∧
        h'.data = h.data ∧ h'.brk = h.brk ∧
        (∀ x, h'.live x = if x ∈ ss then false else h.live x)
  | [], h, _ => ⟨h, rfl, rfl, rfl, rfl, rfl, by simp⟩
  | s :: ss, h, hs => by
      obtain ⟨h1, e1, n1, p1, d1, b1, l1⟩ :=
        list_dtor_empty h s (hs s (by simp)).1 (hs s (by simp)).2 fuel hf
      obtain ⟨h', e, n', p', d', b', l'⟩ := dtorAll_empty fuel hf ss h1 (by
        intro t ht
        rw [n1, p1]; exact hs t (List.mem_cons_of_mem _ ht))
      refine ⟨h', by simp only [dtorAll, e1]; exact e, n'.trans n1, p'.trans p1, d'.trans d1,
        b'.trans b1, ?_⟩
      intro x
      rw [l', l1]
      by_cases hx : x ∈ ss
      · simp [hx]
      · by_cases hxs : x = s
        · simp [hxs]
        · simp [hx, hxs]

theorem getD_range' (a n k : Nat) (hk : k < n) : (List.range' a n).getD k 0 = a + k := by
  rw [List.getD_eq_getElem?_getD, List.getElem?_range' _ _ hk]; simp

theorem sort_refines (lt : α → α → Bool) (h : Heap α) (s : Nat) (ps : List Nat) (fuel : Nat)
    (hr : Ring h s ps) (ha : ∀ p ∈ s :: ps, p < h.brk)
    (hd : ∀ p ∈ ps, (h.data p).isSome = true) (hlen : ps.length < 2 ^ 64)
    (hf : 2 * ps.length + 66 ≤ fuel) :
    ∃ h' r, sort lt fuel h s = some h' ∧ sortL (leAt lt h) (ps.length + 65) ps = some r ∧
      Ring h' s r ∧ h'.data = h.data ∧ h.brk ≤ h'.brk ∧
      (∀ x, x < h.brk → h'.live x = h.live x) ∧
      (∀ x, h.brk ≤ x → h'.live x = true → h.live x = true) := by
  match ps, hr, ha, hd, hlen, hf with
  | [], hr, _, _, _, _ =>
    have he : empty h s = true := (ring_empty_iff hr).mpr rfl
    exact ⟨h, [], by simp [sort, he], rfl, hr, rfl, le_refl _, fun _ _ => rfl, fun _ _ e => e⟩
  | [p], hr, _, _, _, _ =>
    have h1 : h.next s = p := ring_next_sentinel hr
    have h2 : h.next p = s := (@ring_mid α h s p [] [] hr).1
    exact ⟨h, [p], by simp [sort, h1, h2], rfl, hr, rfl, le_refl _, fun _ _ => rfl,
      fun _ _ e => e⟩
  | x :: y :: ps, hr, ha, hd, hlen, hf =>
    have he : empty h s = false := by
      have := (ring_empty_iff hr).not.mpr (by simp)
      simpa using this
    have h1 : h.next s = x := ring_next_sentinel hr
    have h2 : h.next x = y := (@ring_mid α h s x [] (y :: ps) hr).1
    have hys : (y == s) = false := by
      have := hr.1
      simp only [beq_eq_false_iff_ne]
      rintro rfl
      simp at this
    obtain ⟨n1, n2, n3, n4, n5, n6⟩ := newLists_spec 64 (initList h).1
    rw [initList_brk] at n1 n2 n4 n5 n6
    -- the heap after construction of `carry` and `counter[64]`
    have hcs : (newLists 64 (initList h).1).2.length = 64 := by rw [n1]; simp
    have hS1 : ∀ k, k < 64 → (newLists 64 (initList h).1).2.getD k 0 = h.brk + 1 + k := by
      intro k hk; rw [n1]; exact getD_range' _ _ _ hk
    have hnext : ∀ z, (newLists 64 (initList h).1).1.next z =
        if h.brk ≤ z ∧ z < h.brk + 65 then z else h.next z := by
      intro z; rw [n5, initList_next]
      by_cases c1 : h.brk + 1 ≤ z ∧ z < h.brk + 1 + 64
      · have : h.brk ≤ z ∧ z < h.brk + 65 := by omega
        simp [c1, this]
      · by_cases c2 : z = h.brk
        · have : h.brk ≤ z ∧ z < h.brk + 65 := by omega
          simp [c1, c2]
        · have : ¬ (h.brk ≤ z ∧ z < h.brk + 65) := by omega
          simp [c1, c2, this]
    have hprev : ∀ z, (newLists 64 (initList h).1).1.prev z =
        if h.brk ≤ z ∧ z < h.brk + 65 then z else h.prev z := by
      intro z; rw [n6, initList_prev]
      by_cases c1 : h.brk + 1 ≤ z ∧ z < h.brk + 1 + 64
      · have : h.brk ≤ z ∧ z < h.brk + 65 := by omega
        simp [c1, this]
      · by_cases c2 : z = h.brk
        · have : h.brk ≤ z ∧ z < h.brk + 65 := by omega
          simp [c1, c2]
        · have : ¬ (h.brk ≤ z ∧ z < h.brk + 65) := by omega
          simp [c1, c2, this]
    have hlive : ∀ z, (newLists 64 (initList h).1).1.live z =
        if h.brk ≤ z ∧ z < h.brk + 65 then true else h.live z := by
      intro z; rw [n4, initList_live]
      by_cases c1 : h.brk + 1 ≤ z ∧ z < h.brk + 1 + 64
      · have : h.brk ≤ z ∧ z < h.brk + 65 := by omega
        simp [c1, this]
      · by_cases c2 : z = h.brk
        · have : h.brk ≤ z ∧ z < h.brk + 65 := by omega
          simp [c1, c2]
        · have : ¬ (h.brk ≤ z ∧ z < h.brk + 65) := by omega
          simp [c1, c2, this]
    have hdata : (newLists 64 (initList h).1).1.data = h.data := by rw [n3, initList_data]
    generalize hH1 : (newLists 64 (initList h).1).1 = H1 at *
    generalize hCS : (newLists 64 (initList h).1).2 = cs at *
    have hSk : ∀ k, 1 ≤ k → k < 66 → famS s h.brk cs k = h.brk + (k - 1) := by
      intro k hk1 hk2
      match k with
      | 1 => rfl
      | k + 2 =>
        show cs.getD k 0 = _
        rw [hS1 k (by omega)]; omega
    have hLk : ∀ k, 1 ≤ k → famL (x :: y :: ps) [] (List.replicate 64 []) k = [] := by
      intro k hk1
      match k with
      | 1 => rfl
      | k + 2 =>
        show (List.replicate 64 ([] : List Nat)).getD k [] = []
        rw [List.getD_eq_getElem?_getD, List.getElem?_replicate]
        split <;> rfl
    have hF1 : Fam H1 66 (famS s h.brk cs) (famL (x :: y :: ps) [] (List.replicate 64 [])) := by
      refine ⟨?_, ?_, ?_⟩
      · intro k hk
        by_cases hk0 : k = 0
        · subst hk0
          apply ring_frame hr
          intro z hz
          have := ha z hz
          rw [hnext, hprev]
          have hc : ¬ (h.brk ≤ z ∧ z < h.brk + 65) := by omega
          simp [hc]
        · rw [hLk k (by omega), ring_nil_iff, hnext, hprev, hSk k (by omega) hk]
          have hc : h.brk ≤ h.brk + (k - 1) ∧ h.brk + (k - 1) < h.brk + 65 := by omega
          simp [hc]
      · intro k j hk hj hkj z hz hz'
        by_cases hk0 : k = 0
        · subst hk0
          have hzlt := ha z hz
          rw [hLk j (by omega), hSk j (by omega) hj] at hz'
          simp at hz'; omega
        · rw [hLk k (by omega), hSk k (by omega) hk] at hz
          simp only [List.mem_singleton] at hz
          by_cases hj0 : j = 0
          · subst hj0
            have := ha z hz'
            omega
          · rw [hLk j (by omega), hSk j (by omega) hj] at hz'
            simp only [List.mem_singleton] at hz'
            omega
      · intro k hk p hp
        by_cases hk0 : k = 0
        · subst hk0; rw [hdata]; exact hd p hp
        · rw [hLk k (by omega)] at hp; simp at hp
    -- the run on sequences
    obtain ⟨B, fill, B1, top, e1, e2, hfill, hf64, hBlen, hB1len, htop, hemp, hperm, -, hBperm⟩ :=
      sortL_stages (leAt lt h) (fun _ => True) trivial (fun _ => trivial)
        (fun _ _ _ _ => trivial) ((x :: y :: ps).length + 65) (x :: y :: ps) (by simp) hlen
        (le_refl _)
    obtain ⟨H2, l1, hF2, hd2, hl2, hb2⟩ :=
      sortLoop_refines lt hcs h _ (x :: y :: ps) [] (List.replicate 64 []) 0 H1 fuel _ hF1
        (by simp) hdata e1 (by simp only [List.length_cons] at hf ⊢; simp; omega)
    obtain ⟨H3, l2, hF3, hd3, hl3, hb3⟩ :=
      sortCollect_refines lt hcs h [] [] fill _ B 1 H2 fuel B1 hF2 hBlen hd2 (le_refl _) e2
        (by have := hBperm.length_eq; simp only [List.length_cons] at hf this ⊢; omega)
    have hct := counter_get cs (fill - 1) (by omega)
    have hF4 : Fam (swap H3 s (cs.getD (fill - 1) 0)) 66 (famS s h.brk cs)
        (famL top [] (B1.set (fill - 1) [])) := by
      have hidx : fill - 1 + 2 < 66 := by omega
      apply hF3.swap_step (show 0 < 66 by omega) hidx (by omega)
      · exact (getD_of_get B1 (fill - 1) top htop).symm
      · show (B1.set (fill - 1) []).getD (fill - 1) [] = []
        rw [getD_set_nil B1 _ _ _ (by omega)]; simp only [↓reduceIte]
      · intro k hk0 hk2
        match k with
        | 0 => exact absurd rfl hk0
        | 1 => rfl
        | k + 2 =>
          show (B1.set (fill - 1) []).getD k [] = B1.getD k []
          rw [getD_set_nil B1 _ _ _ (by omega)]
          have : fill - 1 ≠ k := by omega
          simp only [this, ↓reduceIte]
    have hL4 : ∀ k, 1 ≤ k → k < 66 → famL top [] (B1.set (fill - 1) []) k = [] := by
      intro k hk1 hk2
      match k with
      | 1 => rfl
      | k + 2 =>
        show (B1.set (fill - 1) []).getD k [] = []
        rw [getD_set_nil B1 _ _ _ (by omega)]
        by_cases hkf : fill - 1 = k
        · simp only [hkf, ↓reduceIte]
        · simp only [hkf, ↓reduceIte]
          obtain ⟨b, hb⟩ := get_of_lt B1 k (by omega)
          rw [getD_of_get B1 k b hb]
          exact hemp k b (Ne.symm hkf) hb
    have hsent : ∀ t ∈ cs.reverse ++ [h.brk], ∃ k, 1 ≤ k ∧ k < 66 ∧ t = famS s h.brk cs k := by
      intro t ht
      simp only [List.mem_append, List.mem_reverse, List.mem_singleton] at ht
      rcases ht with ht | ht
      · obtain ⟨n, hn⟩ := List.mem_iff_getElem?.mp ht
        have hn64 : n < 64 := by
          rw [List.getElem?_eq_some_iff] at hn; have := hn.1; omega
        refine ⟨n + 2, by omega, by omega, ?_⟩
        show t = cs.getD n 0
        rw [List.getD_eq_getElem?_getD, hn]; rfl
      · exact ⟨1, le_refl _, by omega, ht⟩
    obtain ⟨H5, l5, n5', p5, d5, b5, lv5⟩ :=
      dtorAll_empty fuel (by omega) (cs.reverse ++ [h.brk]) (swap H3 s (cs.getD (fill - 1) 0))
        (by
          intro t ht
          obtain ⟨k, hk1, hk2, rfl⟩ := hsent t ht
          have := hF4.ring k hk2
          rw [hL4 k hk1 hk2, ring_nil_iff] at this
          exact this)
    have hsentge : ∀ t ∈ cs.reverse ++ [h.brk], h.brk ≤ t ∧ t < h.brk + 65 := by
      intro t ht
      obtain ⟨k, hk1, hk2, rfl⟩ := hsent t ht
      rw [hSk k hk1 hk2]; omega
    have hlive4 : (swap H3 s (cs.getD (fill - 1) 0)).live = H1.live :=
      (swap_live H3 _ _).trans (hl3.trans hl2)
    refine ⟨H5, top, ?_, ?_, ?_, ?_, ?_, ?_, ?_⟩
    · have hf0 : fill ≠ 0 := by omega
      simp only [sort, he, h1, h2, hys, Bool.or_self, Bool.false_eq_true, ↓reduceIte, hH1, hCS,
        initList_snd, l1, l2, hf0, hct]
      exact l5
    · have hf0 : fill ≠ 0 := by omega
      simp only [sortL, e1, e2, hf0, ↓reduceIte, htop]
    · apply ring_frame (hF4.ring 0 (by omega))
      intro z _
      rw [n5', p5]; exact ⟨rfl, rfl⟩
    · exact d5.trans ((swap_data H3 _ _).trans hd3)
    · rw [b5]
      have : (swap H3 s (cs.getD (fill - 1) 0)).brk = H1.brk :=
        (swap_brk H3 _ _).trans (hb3.trans hb2)
      rw [this, n2]; omega
    · intro z hz
      rw [lv5, hlive4, hlive]
      have hc1 : z ∉ cs.reverse ++ [h.brk] := fun hm => by
        have := hsentge z hm; omega
      have hc2 : ¬ (h.brk ≤ z ∧ z < h.brk + 65) := by omega
      simp only [hc1, hc2, ↓reduceIte]
    · intro z hz hl
      rw [lv5, hlive4, hlive] at hl
      by_cases hc1 : z ∈ cs.reverse ++ [h.brk]
      · simp [hc1] at hl
      · simp only [hc1, ↓reduceIte] at hl
        by_cases hc2 : h.brk ≤ z ∧ z < h.brk + 65
        · exfalso
          apply hc1
          by_cases hzb : z = h.brk
          · simp [hzb]
          · have hk : z - h.brk - 1 < 64 := by omega
            have : cs.getD (z - h.brk - 1) 0 = z := by rw [hS1 _ hk]; omega
            simp only [List.mem_append, List.mem_reverse, List.mem_singleton]
            left
            rw [← this, List.getD_eq_getElem?_getD, List.getElem?_eq_getElem (by omega)]
            exact List.getElem_mem _
        · simpa [hc2] using hl

/-! ## `sort` -/

theorem ascending_nil (lt : α → α → Bool) : Ascending lt [] := List.Pairwise.nil

theorem ascending_singleton (lt : α → α → Bool) (x : α) : Ascending lt [x] :=
  List.pairwise_singleton _ _

/-- What `sort()` leaves in the heap, in terms of the run on sequences: the
nodes are relinked in the order `sortL` gives for the node sequence, the
payload sequence is what `sortL` gives for the payload sequence, and it is
ascending and a permutation of the original. -/
theorem sort_isList (lt : α → α → Bool) (hw : StrictWeak lt) {h : Heap α} {s : Nat}
    {ps : List Nat} {xs : List α} (fuel : Nat)
    (hl : IsList h s ps xs) (hlen : ps.length < 2 ^ 64) (hf : 2 * ps.length + 66 ≤ fuel) :
    ∃ h' ps' xs', sort lt fuel h s = some h' ∧
      sortL (leAt lt h) (ps.length + 65) ps = some ps' ∧
      sortL (leOf lt) (xs.length + 65) xs = some xs' ∧
      IsList h' s ps' xs' ∧ Ascending lt xs' ∧ xs'.Perm xs ∧ ps'.Perm ps ∧
      h'.data = h.data ∧ h.brk ≤ h'.brk ∧ (∀ x, x < h.brk → h'.live x = h.live x) ∧
      (∀ x, h.brk ≤ x → h'.live x = true → h.live x = true) := by
  have hxl : ps.length = xs.length := isList_length hl
  obtain ⟨h', r, e, er, hr', hd', hb', hlv, hlv2⟩ :=
    sort_refines lt h s ps fuel hl.1 (fun p hp => (hl.2.1 p hp).1) (isSome_of_vals hl.2.2) hlen hf
  obtain ⟨xs', ex, hpx, hax⟩ :=
    sortL_spec (leOf lt) (Ascending lt) (ascending_nil lt) (ascending_singleton lt)
      (fun a b ha hb => ascending_merge hw ha hb) (xs.length + 65) xs (by omega) (le_refl _)
  obtain ⟨r', er', hpr, -⟩ :=
    sortL_spec (leAt lt h) (fun _ => True) trivial (fun _ => trivial) (fun _ _ _ _ => trivial)
      (ps.length + 65) ps hlen (le_refl _)
  have hrr : r' = r := by rw [er] at er'; exact (Option.some.inj er').symm
  subst hrr
  -- payloads of the sorted nodes
  have m1 : sortL (leOpt lt) (ps.length + 65) (ps.map h.data) = some (r'.map h.data) := by
    have := @map_sortL Nat (Option α) (leAt lt h) (leOpt lt) h.data (fun _ _ => rfl)
      (ps.length + 65) ps
    rw [this, er]; rfl
  have m2 : sortL (leOpt lt) (xs.length + 65) (xs.map some) = some (xs'.map some) := by
    have := @map_sortL α (Option α) (leOf lt) (leOpt lt) some (fun _ _ => rfl)
      (xs.length + 65) xs
    rw [this, ex]; rfl
  have hv : vals h r' = xs'.map some := by
    have hv0 : ps.map h.data = xs.map some := hl.2.2
    rw [hv0, hxl, m2] at m1
    exact (Option.some.inj m1).symm
  refine ⟨h', r', xs', e, er, ex, ⟨hr', ?_, ?_⟩, hax, hpx, hpr, hd', hb', hlv, hlv2⟩
  · intro p hp
    have hp' : p ∈ s :: ps := by
      rcases List.mem_cons.mp hp with e | hm
      · exact e ▸ List.mem_cons_self _ _
      · exact List.mem_cons_of_mem _ (hpr.mem_iff.mp hm)
    have := hl.2.1 p hp'
    exact ⟨by omega, by rw [hlv p this.1]; exact this.2⟩
  · unfold vals at hv ⊢; rw [hd']; exact hv

/-- C1: for a list of fewer than `2^64` elements over a type whose `operator<`
is a strict weak order, `sort()` returns, and afterwards a traversal from
`begin()` to `end()` reads a sequence that is ascending (no element is less
than one before it) and is a permutation of the sequence held before the call;
the nodes are the same nodes, relinked. -/
theorem sort_ascending_permutation (lt : α → α → Bool) (hw : StrictWeak lt) (h : Heap α)
    (s : Nat) (ps : List Nat) (xs : List α) (fuel : Nat)
    (hl : IsList h s ps xs) (hlen : ps.length < 2 ^ 64) (hf : 2 * ps.length + 66 ≤ fuel) :
    ∃ h' ps' xs', sort lt fuel h s = some h' ∧ IsList h' s ps' xs' ∧
      toList fuel h' s = some xs' ∧ Ascending lt xs' ∧
      List.Chain' (fun a b => lt b a = false) xs' ∧ xs'.Perm xs ∧ ps'.Perm ps := by
  obtain ⟨h', ps', xs', e, -, -, hl', hax, hpx, hpp, -⟩ := sort_isList lt hw fuel hl hlen hf
  refine ⟨h', ps', xs', e, hl', ?_, hax, ?_, hpx, hpp⟩
  · apply toList_of_isList hl' fuel
    rw [hpp.length_eq]; omega
  · have : List.Chain' (fun a b => leOf lt a b = true) xs' := List.Pairwise.chain' hax
    exact this.imp (fun a b hab => by simpa [leOf] using hab)

set_option maxRecDepth 100000 in
theorem sort_ascending_permutation_witness :
    IsList (build (Heap.init : Heap Nat) [5, 3, 1, 4, 2]).1 1 [2, 3, 4, 5, 6] [5, 3, 1, 4, 2] ∧
    ∃ h', sort natLt 76 (build (Heap.init : Heap Nat) [5, 3, 1, 4, 2]).1 1 = some h' ∧
      toList 76 h' 1 = some [1, 2, 3, 4, 5] :=
  have w := sort_ascending_permutation natLt natLt_strictWeak
    (build (Heap.init : Heap Nat) [5, 3, 1, 4, 2]).1 1 [2, 3, 4, 5, 6] [5, 3, 1, 4, 2] 76
    (by decide) (by decide) (by decide)
  have ev : (sort natLt 76 (build (Heap.init : Heap Nat) [5, 3, 1, 4, 2]).1 1).bind
      (fun k => toList 76 k 1) = some [1, 2, 3, 4, 5] := by decide
  ⟨by decide, w.choose, w.choose_spec.choose_spec.choose_spec.1, by
    have e := w.choose_spec.choose_spec.choose_spec.1
    rw [e] at ev; exact ev⟩

/-! ## Relinking operations and the copy constructor -/

/-- C9: `splice(pos, other)`, `merge(other)`, `reverse()` and `sort()` move
elements by relinking only. For a list `a` and a list `b` with disjoint nodes:
each call returns; it leaves every payload slot of the heap as it was and
changes the allocation status of no address that was allocated before (only
`sort()` allocates, and releases again, the sentinels of its local lists), so
every cursor to an element still points to a live node holding the same value;
and the data nodes of the lists involved are afterwards the same nodes,
rearranged (a permutation), with `other` empty after `splice` and `merge`. -/
theorem relinking_preserves_nodes (lt : α → α → Bool) (h : Heap α) (a b : Nat)
    (pre post pb : List Nat) (xs ys zs : List α) (fuel : Nat)
    (hA : IsList h a (pre ++ post) (xs ++ ys)) (hB : IsList h b pb zs)
    (hd : ∀ x ∈ a :: (pre ++ post), x ∉ b :: pb)
    (hlen : (pre ++ post).length < 2 ^ 64)
    (hf : 2 * (pre ++ post).length + pb.length + 66 ≤ fuel) :
    -- splice
    ((splice h (cursorAt a post) b).data = h.data ∧
      (splice h (cursorAt a post) b).live = h.live ∧
      Ring (splice h (cursorAt a post) b) a (pre ++ pb ++ post) ∧
      Ring (splice h (cursorAt a post) b) b [] ∧
      (pre ++ pb ++ post).Perm ((pre ++ post) ++ pb)) ∧
    -- merge
    (∃ h' pa', merge lt fuel h a b = some h' ∧ h'.data = h.data ∧ h'.live = h.live ∧
      Ring h' a pa' ∧ Ring h' b [] ∧ pa'.Perm ((pre ++ post) ++ pb) ∧
      ∀ p ∈ (pre ++ post) ++ pb, h'.live p = true ∧ h'.data p = h.data p) ∧
    -- reverse
    (∃ h' pa', reverse fuel h a = some h' ∧ h'.data = h.data ∧ h'.live = h.live ∧
      Ring h' a pa' ∧ pa'.Perm (pre ++ post) ∧
      ∀ p ∈ pre ++ post, h'.live p = true ∧ h'.data p = h.data p) ∧
    -- sort
    (∃ h' pa', sort lt fuel h a = some h' ∧ h'.data = h.data ∧
      (∀ x, x < h.brk → h'.live x = h.live x) ∧
      (∀ x, h.brk ≤ x → h'.live x = true → h.live x = true) ∧
      Ring h' a pa' ∧ pa'.Perm (pre ++ post) ∧
      ∀ p ∈ pre ++ post, h'.live p = true ∧ h'.data p = h.data p) := by
  have hliveA : ∀ p ∈ pre ++ post, p < h.brk ∧ h.live p = true := fun p hp =>
    hA.2.1 p (List.mem_cons_of_mem _ hp)
  have hliveB : ∀ p ∈ pb, h.live p = true := fun p hp =>
    (hB.2.1 p (List.mem_cons_of_mem _ hp)).2
  refine ⟨?_, ?_, ?_, ?_⟩
  · obtain ⟨r1, r2, _⟩ := splice_ring hA.1 hB.1 hd
    refine ⟨splice_data _ _ _, splice_live _ _ _, r1, r2, ?_⟩
    rw [List.append_assoc, List.append_assoc]
    exact List.Perm.append_left _ List.perm_append_comm
  · obtain ⟨h', e, hA', hB', hdt, hlv, _, _⟩ :=
      merge_isList lt hA hB hd fuel (by omega)
    refine ⟨h', _, e, hdt, hlv, hA'.1, hB'.1, List.merge_perm_append _, ?_⟩
    intro p hp
    rw [hlv, hdt]
    rcases List.mem_append.mp hp with hp | hp
    · exact ⟨(hliveA p hp).2, rfl⟩
    · exact ⟨hliveB p hp, rfl⟩
  · obtain ⟨h', e, hr', hdt, hlv, _, _, _⟩ := reverse_ring hA.1 fuel (by omega)
    refine ⟨h', _, e, hdt, hlv, hr', List.reverse_perm _, ?_⟩
    intro p hp
    rw [hlv, hdt]; exact ⟨(hliveA p hp).2, rfl⟩
  · obtain ⟨h', r, e, er, hr', hdt, _, hlv1, hlv2⟩ :=
      sort_refines lt h a (pre ++ post) fuel hA.1 (fun p hp => (hA.2.1 p hp).1)
        (isSome_of_vals hA.2.2) hlen (by omega)
    obtain ⟨r', er', hpr, -⟩ :=
      sortL_spec (leAt lt h) (fun _ => True) trivial (fun _ => trivial) (fun _ _ _ _ => trivial)
        ((pre ++ post).length + 65) (pre ++ post) hlen (le_refl _)
    have hrr : r' = r := by rw [er] at er'; exact (Option.some.inj er').symm
    subst hrr
    refine ⟨h', r', e, hdt, hlv1, hlv2, hr', hpr, ?_⟩
    intro p hp
    have := hliveA p hp
    rw [hlv1 p this.1, hdt]; exact ⟨this.2, rfl⟩

theorem relinking_preserves_nodes_witness :
    IsList (build (build (Heap.init : Heap Nat) [3, 1, 2]).1 [10, 20]).1 1
      ([2] ++ [3, 4]) ([3] ++ [1, 2]) ∧
    IsList (build (build (Heap.init : Heap Nat) [3, 1, 2]).1 [10, 20]).1 5 [6, 7] [10, 20] ∧
    (splice (build (build (Heap.init : Heap Nat) [3, 1, 2]).1 [10, 20]).1
      (cursorAt 1 [3, 4]) 5).data = (build (build (Heap.init : Heap Nat) [3, 1, 2]).1 [10, 20]).1.data ∧
    ∃ h' pa', sort natLt 80 (build (build (Heap.init : Heap Nat) [3, 1, 2]).1 [10, 20]).1 1
        = some h' ∧
      h'.data = (build (build (Heap.init : Heap Nat) [3, 1, 2]).1 [10, 20]).1.data ∧
      Ring h' 1 pa' ∧ pa'.Perm ([2] ++ [3, 4]) :=
  have w := relinking_preserves_nodes natLt
    (build (build (Heap.init : Heap Nat) [3, 1, 2]).1 [10, 20]).1 1 5 [2] [3, 4] [6, 7]
    [3] [1, 2] [10, 20] 80 (by decide) (by decide) (by decide) (by decide) (by decide)
  ⟨by decide, by decide, w.1.1,
    w.2.2.2.choose, w.2.2.2.choose_spec.choose, w.2.2.2.choose_spec.choose_spec.1,
    w.2.2.2.choose_spec.choose_spec.2.1, w.2.2.2.choose_spec.choose_spec.2.2.2.2.1,
    w.2.2.2.choose_spec.choose_spec.2.2.2.2.2.1⟩

/-- C4 (evaluation of the code): `list(const list &x)` copies the sentinel
pointer of `x` and allocates nothing, so the copy is the same ring as `x`:
after copy-constructing `c` from `x = [1]` and `c.push_back(2)`, traversing
`x` reads `[1, 2]`. -/
theorem list_copy_shares_ring :
    (list_copy (build (Heap.init : Heap Nat) [1]).1 (build (Heap.init : Heap Nat) [1]).2).2
      = (build (Heap.init : Heap Nat) [1]).2 ∧
    (list_copy (build (Heap.init : Heap Nat) [1]).1 (build (Heap.init : Heap Nat) [1]).2).1.brk
      = (build (Heap.init : Heap Nat) [1]).1.brk ∧
    toList 5 (build (Heap.init : Heap Nat) [1]).1 (build (Heap.init : Heap Nat) [1]).2
      = some [1] ∧
    toList 5
      (push_back
        (list_copy (build (Heap.init : Heap Nat) [1]).1 (build (Heap.init : Heap Nat) [1]).2).1
        (list_copy (build (Heap.init : Heap Nat) [1]).1 (build (Heap.init : Heap Nat) [1]).2).2 2)
      (build (Heap.init : Heap Nat) [1]).2 = some [1, 2] := by
  decide

/-! ## Range `erase` -/

theorem ring_node_ne_cursor {h : Heap α} {s p : Nat} {pre mid post : List Nat}
    (hr : Ring h s (pre ++ p :: mid ++ post)) : p ≠ cursorAt s post := by
  have hnd := hr.1
  intro e
  have hmem : cursorAt s post ∈ s :: post := by
    cases post with
    | nil => simp [cursorAt]
    | cons q post => simp [cursorAt]
  rw [← e] at hmem
  have hp : (s :: (pre ++ p :: mid ++ post)).Perm (p :: (s :: (pre ++ mid ++ post))) := by
    refine (List.Perm.cons s ?_).trans (List.Perm.swap _ _ _)
    have : pre ++ p :: mid ++ post = pre ++ p :: (mid ++ post) := by simp
    rw [this, List.append_assoc]
    exact List.perm_middle
  have h2 := hp.nodup_iff.mp hnd
  have h3 := (List.nodup_cons.mp h2).1
  apply h3
  simp only [List.mem_cons, List.mem_append] at hmem ⊢
  tauto

theorem eraseRange_spec {s : Nat} :
    ∀ (run pre post : List Nat) (xs rs ys : List α) (h : Heap α) (fuel : Nat),
      IsList h s (pre ++ run ++ post) (xs ++ rs ++ ys) → pre.length = xs.length →
      run.length = rs.length → run.length < fuel →
      ∃ h', eraseRange fuel h (cursorAt s (run ++ post)) (cursorAt s post)
          = some (h', cursorAt s post) ∧
        IsList h' s (pre ++ post) (xs ++ ys) ∧ h'.brk = h.brk ∧
        (∀ q, q ∉ run → h'.data q = h.data q ∧ h'.live q = h.live q) ∧
        (∀ q ∈ run, h'.data q = none ∧ h'.live q = false)
  | [], pre, post, xs, rs, ys, h, fuel, hl, _, hrl, hf => by
      cases fuel with
      | zero => omega
      | succ fuel =>
        have hrs : rs = [] := by
          cases rs with
          | nil => rfl
          | cons r rs => simp at hrl
        subst hrs
        refine ⟨h, ?_, by simpa using hl, rfl, fun _ _ => ⟨rfl, rfl⟩, by simp⟩
        simp [eraseRange]
  | p :: run, pre, post, xs, rs, ys, h, fuel, hl, hlen, hrl, hf => by
      cases fuel with
      | zero => omega
      | succ fuel =>
        cases rs with
        | nil => simp at hrl
        | cons y rs =>
          have hl1 : IsList h s (pre ++ p :: (run ++ post)) (xs ++ y :: (rs ++ ys)) := by
            simpa using hl
          have hne : p ≠ cursorAt s post := by
            have hr := hl.1
            have e : pre ++ (p :: run) ++ post = pre ++ p :: run ++ post := by simp
            rw [e] at hr
            exact ring_node_ne_cursor hr
          have hE := erase_isList hl1 hlen
          have hc := (erase_ring hl1.1).2
          have hE' : IsList (erase h p).1 s (pre ++ run ++ post) (xs ++ rs ++ ys) := by
            simpa using hE
          obtain ⟨h', e1, i1, b1, k1, k2⟩ :=
            eraseRange_spec run pre post xs rs ys (erase h p).1 fuel hE' hlen
              (by simpa using hrl) (by simp at hf; omega)
          have hnd : p ∉ run := by
            have hnd := hl.1.1
            intro hp
            have h2 : (pre ++ (p :: run) ++ post).Nodup := (List.nodup_cons.mp hnd).2
            have h3 : (p :: run).Nodup :=
              (List.nodup_append.mp (List.nodup_append.mp h2).1).2.1
            exact (List.nodup_cons.mp h3).1 hp
          refine ⟨h', ?_, i1, by rw [b1, erase_brk], ?_, ?_⟩
          · have : cursorAt s (p :: run ++ post) = p := rfl
            rw [this, eraseRange]
            simp only [ne_eq, hne, not_false_eq_true, ↓reduceIte]
            rw [hc]; exact e1
          · intro q hq
            have hq1 : q ∉ run := fun hm => hq (List.mem_cons_of_mem _ hm)
            have hq2 : q ≠ p := fun e => hq (e ▸ List.mem_cons_self _ _)
            have := k1 q hq1
            rw [erase_data, erase_live] at this
            simpa [hq2] using this
          · intro q hq
            rcases List.mem_cons.mp hq with e | hm
            · subst e
              have := k1 q hnd
              rw [erase_data, erase_live] at this
              simpa using this
            · exact k2 q hm

/-- C11: In a well-formed list, `erase(position)` at a data node removes
exactly that node and its element, keeps every other element in order,
destroys the node and returns the cursor to its successor, which is `end()`
when the last element was removed; `erase(first, last)` on a valid range
returns, removes exactly the elements of `[first, last)`, destroys their
nodes, leaves every other node untouched and returns `last`. -/
theorem erase_removes_exactly (h : Heap α) (s : Nat) (pre run post : List Nat)
    (xs rs ys : List α) (fuel : Nat)
    (hl : IsList h s (pre ++ run ++ post) (xs ++ rs ++ ys)) (hlen : pre.length = xs.length)
    (hrl : run.length = rs.length) (hf : (pre ++ run ++ post).length < fuel) :
    (∀ (p : Nat) (run1 : List Nat) (y : α) (rs1 : List α), run = p :: run1 → rs = y :: rs1 →
      IsList (erase h p).1 s (pre ++ run1 ++ post) (xs ++ rs1 ++ ys) ∧
      toList fuel (erase h p).1 s = some (xs ++ rs1 ++ ys) ∧
      (erase h p).2 = cursorAt s (run1 ++ post) ∧ (erase h p).2 = h.next p ∧
      (run1 ++ post = [] → (erase h p).2 = end_ (erase h p).1 s) ∧
      (erase h p).1.data p = none ∧ (erase h p).1.live p = false ∧
      (∀ q, q ≠ p → (erase h p).1.data q = h.data q ∧ (erase h p).1.live q = h.live q)) ∧
    (∃ h', eraseRange fuel h (cursorAt s (run ++ post)) (cursorAt s post)
        = some (h', cursorAt s post) ∧
      IsList h' s (pre ++ post) (xs ++ ys) ∧ toList fuel h' s = some (xs ++ ys) ∧
      (∀ q, q ∉ run → h'.data q = h.data q ∧ h'.live q = h.live q) ∧
      (∀ q ∈ run, h'.data q = none ∧ h'.live q = false)) := by
  constructor
  · intro p run1 y rs1 e1 e2
    subst e1 e2
    have hl1 : IsList h s (pre ++ p :: (run1 ++ post)) (xs ++ y :: (rs1 ++ ys)) := by
      simpa using hl
    have hE := erase_isList hl1 hlen
    have hE' : IsList (erase h p).1 s (pre ++ run1 ++ post) (xs ++ rs1 ++ ys) := by
      simpa using hE
    refine ⟨hE', toList_of_isList hE' fuel (by simp at hf ⊢; omega), (erase_ring hl1.1).2, rfl,
      ?_, ?_, ?_, ?_⟩
    · intro he
      rw [(erase_ring hl1.1).2, he]; rfl
    · rw [erase_data]; simp
    · rw [erase_live]; simp
    · intro q hq
      rw [erase_data, erase_live]; simp [hq]
  · obtain ⟨h', e1, i1, -, k1, k2⟩ :=
      eraseRange_spec run pre post xs rs ys h fuel hl hlen hrl (by simp at hf; omega)
    exact ⟨h', e1, i1, toList_of_isList i1 fuel (by simp at hf ⊢; omega), k1, k2⟩

theorem erase_removes_exactly_witness :
    IsList (build (Heap.init : Heap Nat) [7, 8, 9, 10]).1 1 ([2] ++ [3, 4] ++ [5])
      ([7] ++ [8, 9] ++ [10]) ∧
    toList 6 (erase (build (Heap.init : Heap Nat) [7, 8, 9, 10]).1 3).1 1
      = some ([7] ++ [9] ++ [10]) ∧
    ∃ h', eraseRange 6 (build (Heap.init : Heap Nat) [7, 8, 9, 10]).1 (cursorAt 1 ([3, 4] ++ [5]))
        (cursorAt 1 [5]) = some (h', cursorAt 1 [5]) ∧
      toList 6 h' 1 = some ([7] ++ [10]) :=
  have hl : IsList (build (Heap.init : Heap Nat) [7, 8, 9, 10]).1 1 ([2] ++ [3, 4] ++ [5])
      ([7] ++ [8, 9] ++ [10]) := by decide
  have t := erase_removes_exactly (build (Heap.init : Heap Nat) [7, 8, 9, 10]).1 1 [2] [3, 4] [5]
    [7] [8, 9] [10] 6 hl rfl rfl (by decide)
  ⟨hl, (t.1 3 [4] 8 [9] rfl rfl).2.1,
    t.2.elim fun h' k => ⟨h', k.1, k.2.2.1⟩⟩

/-! ## `resize` -/

theorem resizeWalk_spec {h : Heap α} {s : Nat} :
    ∀ (post pre : List Nat) (n fuel : Nat), Ring h s (pre ++ post) → post.length < fuel →
      resizeWalk fuel h s (cursorAt s post) n = some (cursorAt s (post.drop n), n - post.length)
  | [], pre, n, fuel, _, hf => by
      cases fuel with
      | zero => omega
      | succ fuel => simp [resizeWalk, cursorAt, end_]
  | p :: post, pre, n, fuel, hr, hf => by
      cases fuel with
      | zero => omega
      | succ fuel =>
        have hne : cursorAt s (p :: post) ≠ s := (ring_cursor_ne hr).mpr (by simp)
        cases n with
        | zero => simp [resizeWalk]
        | succ n =>
          have hr' : Ring h s ((pre ++ [p]) ++ post) := by simpa using hr
          have ih := resizeWalk_spec post (pre ++ [p]) n fuel hr' (by simp at hf; omega)
          have hnx : h.next p = cursorAt s post := (ring_mid hr).1
          have hps : p ≠ s := hne
          rw [resizeWalk]
          simp only [end_, ne_eq, hps, not_false_eq_true, Nat.add_one_ne_zero, and_self,
            ↓reduceIte, Nat.add_sub_cancel, cursorAt_cons, hnx, ih, List.drop_succ_cons,
            List.length_cons, Nat.add_sub_add_right]

theorem assignLoop_spec (t : Nat) (val : α) :
    ∀ (k : Nat) (h : Heap α) (qs : List Nat) (zs : List α), IsList h t qs zs →
      IsList (assignLoop h t val k) t (qs ++ List.range' h.brk k) (zs ++ List.replicate k val) ∧
      (assignLoop h t val k).brk = h.brk + k ∧
      ∀ x, x ∉ t :: qs → x < h.brk →
        (assignLoop h t val k).next x = h.next x ∧ (assignLoop h t val k).prev x = h.prev x ∧
        (assignLoop h t val k).data x = h.data x ∧ (assignLoop h t val k).live x = h.live x
  | 0, h, qs, zs, hl => by
      refine ⟨by simpa [assignLoop] using hl, rfl, fun _ _ _ => ⟨rfl, rfl, rfl, rfl⟩⟩
  | k + 1, h, qs, zs, hl => by
      have hl0 : IsList h t (qs ++ []) (zs ++ []) := by simpa using hl
      have h1 := insert_isList val hl0 (isList_length hl)
      have e1 : push_back h t val = (insert h (cursorAt t []) val).1 := rfl
      rw [← e1] at h1
      have hl1 : IsList (push_back h t val) t (qs ++ [h.brk]) (zs ++ [val]) := h1
      obtain ⟨i1, b1, f1⟩ := assignLoop_spec t val k (push_back h t val) (qs ++ [h.brk])
        (zs ++ [val]) hl1
      have hb : (push_back h t val).brk = h.brk + 1 := rfl
      rw [hb] at i1 b1 f1
      have hpt : h.prev t ∈ t :: qs := (ring_sentinel_facts hl.1).2.1
      refine ⟨?_, ?_, ?_⟩
      · have e2 : qs ++ List.range' h.brk (k + 1) = qs ++ [h.brk] ++ List.range' (h.brk + 1) k := by
          simp [List.range'_succ]
        have e3 : zs ++ List.replicate (k + 1) val = zs ++ [val] ++ List.replicate k val := by
          simp [List.replicate_succ]
        rw [e2, e3]; exact i1
      · show (assignLoop (push_back h t val) t val k).brk = _
        rw [b1]; omega
      · intro x hx hlt
        have hx1 : x ≠ h.prev t := fun e => hx (e ▸ hpt)
        have hx2 : x ≠ h.brk := by omega
        have hx3 : x ≠ t := fun e => hx (e ▸ List.mem_cons_self _ _)
        have hx' : x ∉ t :: (qs ++ [h.brk]) := by
          simp only [List.mem_cons, List.mem_append, List.mem_singleton] at hx ⊢
          tauto
        obtain ⟨n1, p1, d1, l1⟩ := f1 x hx' (by omega)
        show (assignLoop (push_back h t val) t val k).next x = _ ∧
          (assignLoop (push_back h t val) t val k).prev x = _ ∧
          (assignLoop (push_back h t val) t val k).data x = _ ∧
          (assignLoop (push_back h t val) t val k).live x = _
        rw [n1, p1, d1, l1]
        show (insert h t val).1.next x = _ ∧ (insert h t val).1.prev x = _ ∧
          (insert h t val).1.data x = _ ∧ (insert h t val).1.live x = _
        rw [insert_next, insert_prev, insert_data, insert_live]
        simp [hx1, hx2, hx3]

theorem list_n_spec (h : Heap α) (n : Nat) (val : α) (fuel : Nat) (hf : 0 < fuel) :
    ∃ h1, list_n fuel h n val = some (h1, h.brk) ∧
      IsList h1 h.brk (List.range' (h.brk + 1) n) (List.replicate n val) ∧
      h1.brk = h.brk + 1 + n ∧
      ∀ x, x < h.brk → h1.next x = h.next x ∧ h1.prev x = h.prev x ∧
        h1.data x = h.data x ∧ h1.live x = h.live x := by
  cases fuel with
  | zero => omega
  | succ fuel =>
    let h0 : Heap α := ((initList h).1.setNext h.brk h.brk).setPrev h.brk h.brk
    have e0 : list_n (fuel + 1) h n val = some (assignLoop h0 h.brk val n, h.brk) := by
      have hn : (initList h).1.next h.brk = h.brk := by rw [initList_next]; simp
      simp [list_n, assign_n, clear, clearLoop, initList_snd, hn, h0]
    have hb0 : h0.brk = h.brk + 1 := rfl
    have hl0 : IsList h0 h.brk [] [] := by
      refine ⟨(ring_nil_iff _ _).mpr ⟨?_, ?_⟩, ?_, rfl⟩
      · show (if h.brk = h.brk then h.brk else _) = h.brk
        simp
      · show (if h.brk = h.brk then h.brk else _) = h.brk
        simp
      · intro p hp
        have hp' : p = h.brk := by simpa using hp
        subst hp'
        refine ⟨by rw [hb0]; omega, ?_⟩
        show (initList h).1.live h.brk = true
        rw [initList_live]; simp
    obtain ⟨i1, b1, f1⟩ := assignLoop_spec h.brk val n h0 [] [] hl0
    rw [hb0] at i1 b1 f1
    refine ⟨assignLoop h0 h.brk val n, e0, by simpa using i1, b1, ?_⟩
    intro x hx
    obtain ⟨n1, p1, d1, l1⟩ := f1 x (by simp; omega) (by omega)
    have hxb : x ≠ h.brk := by omega
    rw [n1, p1, d1, l1]
    refine ⟨?_, ?_, ?_, ?_⟩
    · show (if x = h.brk then h.brk else (initList h).1.next x) = _
      rw [initList_next]; simp [hxb]
    · show (if x = h.brk then h.brk else (initList h).1.prev x) = _
      rw [initList_prev]; simp [hxb]
    · show (initList h).1.data x = _
      rw [initList_data]
    · show (initList h).1.live x = _
      rw [initList_live]; simp [hxb]

theorem insert_n_spec {h : Heap α} {s : Nat} {ps : List Nat} {xs : List α}
    (hl : IsList h s ps xs) (n : Nat) (val : α) (fuel : Nat) (hf : 0 < fuel) :
    ∃ h', insert_n fuel h s n val = some h' ∧
      IsList h' s (ps ++ List.range' (h.brk + 1) n) (xs ++ List.replicate n val) ∧
      (∀ x ∈ ps, h'.data x = h.data x) := by
  obtain ⟨h1, e1, i1, b1, f1⟩ := list_n_spec h n val fuel hf
  obtain ⟨hr, ha, hv⟩ := hl
  have hlt : ∀ x ∈ s :: ps, x < h.brk := fun x hx => (ha x hx).1
  have hr1 : Ring h1 s (ps ++ []) := by
    rw [List.append_nil]
    exact ring_frame hr (fun x hx => ⟨(f1 x (hlt x hx)).1, (f1 x (hlt x hx)).2.1⟩)
  have hd : ∀ x ∈ s :: (ps ++ []), x ∉ h.brk :: List.range' (h.brk + 1) n := by
    intro x hx hm
    have h1 := hlt x (by simpa using hx)
    simp only [List.mem_cons, List.mem_range'_1] at hm
    omega
  obtain ⟨r1, r2, -⟩ := splice_ring hr1 i1.1 hd
  rw [cursorAt_nil] at r1 r2
  have hn2 := (ring_nil_iff _ _).mp r2
  obtain ⟨h', e2, n2, p2, d2, b2, l2⟩ := list_dtor_empty (splice h1 s h.brk) h.brk hn2.1 hn2.2 fuel hf
  refine ⟨h', ?_, ⟨?_, ?_, ?_⟩, ?_⟩
  · simp only [insert_n, e1]; exact e2
  · have := @ring_frame α _ h' _ _ r1 (fun x _ => by rw [n2, p2]; exact ⟨rfl, rfl⟩)
    simpa using this
  · intro p hp
    rw [b2, splice_brk, b1, l2, splice_live]
    have hp' : p ∈ s :: ps ∨ p ∈ List.range' (h.brk + 1) n := by
      simp only [List.mem_cons, List.mem_append] at hp ⊢; tauto
    rcases hp' with hp' | hp'
    · have := hlt p hp'
      have hpb : p ≠ h.brk := by omega
      simp only [hpb, ↓reduceIte]
      rw [(f1 p this).2.2.2]
      exact ⟨by omega, (ha p hp').2⟩
    · have hq := (i1.2.1 p (List.mem_cons_of_mem _ hp'))
      rw [b1] at hq
      have hpb : p ≠ h.brk := by
        simp only [List.mem_range'_1] at hp'; omega
      simp only [hpb, ↓reduceIte]
      exact hq
  · rw [vals_append, List.map_append, ← i1.2.2]
    have da : ∀ p ∈ ps, h'.data p = h.data p := by
      intro p hp
      rw [d2, splice_data]
      exact (f1 p (hlt p (List.mem_cons_of_mem _ hp))).2.2.1
    have db : ∀ p ∈ List.range' (h.brk + 1) n, h'.data p = h1.data p := by
      intro p _
      rw [d2, splice_data]
    rw [vals_congr da, vals_congr db, hv]
  · intro p hp
    rw [d2, splice_data]
    exact (f1 p (hlt p (List.mem_cons_of_mem _ hp))).2.2.1

theorem resize_spec {h : Heap α} {s : Nat} {ps : List Nat} {xs : List α}
    (hl : IsList h s ps xs) (n : Nat) (val : α) (fuel : Nat) (hf : ps.length < fuel) :
    ∃ h', resize fuel h s n val = some h' ∧
      IsList h' s (ps.take n ++ List.range' (h.brk + 1) (n - ps.length))
        (xs.take n ++ List.replicate (n - xs.length) val) ∧
      (∀ x ∈ ps.take n, h'.data x = h.data x) := by
  have hlen := isList_length hl
  have hw := resizeWalk_spec ps [] n fuel (by simpa using hl.1) hf
  rw [← ring_next_sentinel hl.1] at hw
  by_cases hn : n - ps.length = 0
  · have hle : n ≤ ps.length := by omega
    have hl2 : IsList h s (ps.take n ++ ps.drop n ++ []) (xs.take n ++ xs.drop n ++ []) := by
      simpa using hl
    obtain ⟨h', e1, i1, -, k1, -⟩ := eraseRange_spec (ps.drop n) (ps.take n) [] (xs.take n)
      (xs.drop n) [] h fuel hl2 (by simp [hlen]) (by simp [hlen]) (by simp; omega)
    refine ⟨h', ?_, ?_, ?_⟩
    · simp only [resize, begin, hw, hn, ne_eq, not_true_eq_false, ↓reduceIte, end_]
      simp only [List.append_nil, cursorAt_nil] at e1
      rw [e1]; rfl
    · have : n - xs.length = 0 := by omega
      simpa [hn, this] using i1
    · intro x hx
      refine (k1 x ?_).1
      intro hx2
      have hnd : (ps.take n ++ ps.drop n).Nodup := by
        rw [List.take_append_drop]; exact (List.nodup_cons.mp hl.1.1).2
      exact (List.nodup_append.mp hnd).2.2 hx hx2
  · have hgt : ps.length < n := by omega
    obtain ⟨h', e1, i1, k1⟩ := insert_n_spec hl (n - ps.length) val fuel (by omega)
    refine ⟨h', ?_, ?_, ?_⟩
    · simp only [resize, begin, hw, ne_eq, hn, not_false_eq_true, ↓reduceIte, end_]
      exact e1
    · rw [List.take_of_length_le (by omega), List.take_of_length_le (by omega), ← hlen]
      exact i1
    · intro x hx
      exact k1 x (List.mem_of_mem_take hx)

/-- C12: For a list of `m` elements and every `n`, `resize(n, val)` returns
and leaves a list of exactly `n` elements: the first `min(n, m)` elements are
the original first `min(n, m)` elements, in order and held by the same nodes,
and for `n > m` the remaining `n - m` elements are all copies of `val`. -/
theorem resize_sets_length (h : Heap α) (s : Nat) (ps : List Nat) (xs : List α) (n : Nat)
    (val : α) (fuel : Nat) (hl : IsList h s ps xs) (hf : ps.length < fuel) :
    ∃ h' ps', resize fuel h s n val = some h' ∧
      IsList h' s ps' (xs.take n ++ List.replicate (n - xs.length) val) ∧
      (xs.take n ++ List.replicate (n - xs.length) val).length = n ∧
      (xs.take n).length = min n xs.length ∧
      ps'.take (min n ps.length) = ps.take n ∧
      (∀ x ∈ ps.take n, h'.data x = h.data x) ∧
      (∀ f2, n < f2 →
        toList f2 h' s = some (xs.take n ++ List.replicate (n - xs.length) val) ∧
        size f2 h' s = some n) := by
  obtain ⟨h', e1, i1, k1⟩ := resize_spec hl n val fuel hf
  have hlen := isList_length hl
  have hn : (xs.take n ++ List.replicate (n - xs.length) val).length = n := by
    simp only [List.length_append, List.length_take, List.length_replicate]; omega
  have hpl : (ps.take n ++ List.range' (h.brk + 1) (n - ps.length)).length = n := by
    simp only [List.length_append, List.length_take, List.length_range']; omega
  refine ⟨h', _, e1, i1, hn, by simp, ?_, k1, ?_⟩
  · have : min n ps.length = (ps.take n).length := by simp
    rw [this, List.take_left']
    rfl
  · intro f2 hf2
    refine ⟨toList_of_isList i1 f2 (by rw [hpl]; exact hf2), ?_⟩
    have := size_ring i1.1 f2 (by rw [hpl]; exact hf2)
    rw [hpl] at this
    exact this

theorem resize_sets_length_witness :
    IsList (build (Heap.init : Heap Nat) [1, 2, 3]).1 1 [2, 3, 4] [1, 2, 3] ∧
    ∃ h' ps', resize 4 (build (Heap.init : Heap Nat) [1, 2, 3]).1 1 5 9 = some h' ∧
      IsList h' 1 ps' ([1, 2, 3].take 5 ++ List.replicate (5 - [1, 2, 3].length) 9) ∧
      toList 6 h' 1 = some ([1, 2, 3].take 5 ++ List.replicate (5 - [1, 2, 3].length) 9) :=
  have hl : IsList (build (Heap.init : Heap Nat) [1, 2, 3]).1 1 [2, 3, 4] [1, 2, 3] := by decide
  ⟨hl, (resize_sets_length (build (Heap.init : Heap Nat) [1, 2, 3]).1 1 [2, 3, 4] [1, 2, 3] 5 9 4
    hl (by decide)).elim fun h' k => k.elim fun ps' k =>
      ⟨h', ps', k.1, k.2.1, (k.2.2.2.2.2.2 6 (by decide)).1⟩⟩

/-! ## `swap` of two lists -/

theorem chain_links_eq {h h' : Heap α} :
    ∀ (l : List Nat) (a : Nat), List.Chain' (Link h) (a :: l) → List.Chain' (Link h') (a :: l) →
      (∀ x ∈ (a :: l).dropLast, h'.next x = h.next x) ∧ (∀ x ∈ l, h'.prev x = h.prev x)
  | [], _, _, _ => by simp
  | b :: l, a, hc, hc' => by
      rw [List.chain'_cons] at hc hc'
      obtain ⟨ih1, ih2⟩ := chain_links_eq l b hc.2 hc'.2
      constructor
      · intro x hx
        rw [List.dropLast_cons₂] at hx
        rcases List.mem_cons.mp hx with e | hx
        · subst e; rw [hc.1.1, hc'.1.1]
        · exact ih1 x hx
      · intro x hx
        rcases List.mem_cons.mp hx with e | hx
        · subst e; rw [hc.1.2, hc'.1.2]
        · exact ih2 x hx

theorem ring_links_eq {h h' : Heap α} {s : Nat} {ps : List Nat} (hr : Ring h s ps)
    (hr' : Ring h' s ps) : ∀ x ∈ s :: ps, h'.next x = h.next x ∧ h'.prev x = h.prev x := by
  obtain ⟨k1, k2⟩ := chain_links_eq (ps ++ [s]) s hr.2 hr'.2
  intro x hx
  constructor
  · apply k1
    have : (s :: (ps ++ [s])).dropLast = s :: ps := by
      rw [← List.cons_append, List.dropLast_concat]
    rw [this]; exact hx
  · apply k2
    simp only [List.mem_cons, List.mem_append, List.mem_singleton] at hx ⊢
    tauto

theorem heap_ext {h h' : Heap α} (h1 : h'.next = h.next) (h2 : h'.prev = h.prev)
    (h3 : h'.data = h.data) (h4 : h'.live = h.live) (h5 : h'.brk = h.brk) : h' = h := by
  cases h; cases h'; simp only [Heap.mk.injEq]
  exact ⟨h1, h2, h3, h4, h5⟩

theorem swap_swap {h : Heap α} {a b : Nat} {pa pb : List Nat}
    (hA : Ring h a pa) (hB : Ring h b pb) (hd : ∀ x ∈ a :: pa, x ∉ b :: pb) :
    swap (swap h a b) a b = h := by
  obtain ⟨r1, r2, f1⟩ := swap_ring hA hB hd
  have hd' : ∀ x ∈ a :: pb, x ∉ b :: pa := by
    intro x hx hm
    have hab : a ≠ b := fun e => hd a (List.mem_cons_self _ _) (e ▸ List.mem_cons_self _ _)
    rcases List.mem_cons.mp hx with e | hx
    · subst e
      rcases List.mem_cons.mp hm with e | hm
      · exact hab e
      · exact (List.nodup_cons.mp hA.1).1 hm
    · rcases List.mem_cons.mp hm with e | hm
      · subst e; exact (List.nodup_cons.mp hB.1).1 hx
      · exact hd x (List.mem_cons_of_mem _ hm) (List.mem_cons_of_mem _ hx)
  obtain ⟨q1, q2, f2⟩ := swap_ring r1 r2 hd'
  have ea := ring_links_eq hA q1
  have eb := ring_links_eq hB q2
  have key : ∀ x, (swap (swap h a b) a b).next x = h.next x ∧
      (swap (swap h a b) a b).prev x = h.prev x := by
    intro x
    by_cases xa : x ∈ a :: pa
    · exact ea x xa
    · by_cases xb : x ∈ b :: pb
      · exact eb x xb
      · have xa' : x ∉ a :: pb := by
          simp only [List.mem_cons, not_or] at xa xb ⊢; tauto
        have xb' : x ∉ b :: pa := by
          simp only [List.mem_cons, not_or] at xa xb ⊢; tauto
        obtain ⟨n2, p2⟩ := f2 x xa' xb'
        obtain ⟨n1, p1⟩ := f1 x xa xb
        exact ⟨n2.trans n1, p2.trans p1⟩
  apply heap_ext
  · funext x; exact (key x).1
  · funext x; exact (key x).2
  · exact (swap_data _ _ _).trans (swap_data _ _ _)
  · exact (swap_live _ _ _).trans (swap_live _ _ _)
  · exact (swap_brk _ _ _).trans (swap_brk _ _ _)

/-- C13: For two distinct lists `a` and `b` in one heap (either may be
empty), `a.swap(b)` exchanges their contents without moving, copying,
allocating or releasing any node: afterwards `a` owns the nodes and elements
`b` had, in the same order, and `b` those of `a`; both rings are well formed,
an empty side being the sentinel linked to itself; payloads, allocation status
and every link outside the two rings are untouched; and a second `swap`
restores the heap exactly. -/
theorem swap_exchanges_contents (h : Heap α) (a b : Nat) (pa pb : List Nat) (xa xb : List α)
    (hA : IsList h a pa xa) (hB : IsList h b pb xb) (hd : ∀ x ∈ a :: pa, x ∉ b :: pb) :
    IsList (swap h a b) a pb xb ∧ IsList (swap h a b) b pa xa ∧
    (∀ fuel, pa.length < fuel → pb.length < fuel →
      toList fuel (swap h a b) a = some xb ∧ toList fuel (swap h a b) b = some xa) ∧
    (pb = [] → (swap h a b).next a = a ∧ (swap h a b).prev a = a) ∧
    (pa = [] → (swap h a b).next b = b ∧ (swap h a b).prev b = b) ∧
    (swap h a b).data = h.data ∧ (swap h a b).live = h.live ∧ (swap h a b).brk = h.brk ∧
    (∀ x, x ∉ a :: pa → x ∉ b :: pb →
      (swap h a b).next x = h.next x ∧ (swap h a b).prev x = h.prev x) ∧
    swap (swap h a b) a b = h := by
  obtain ⟨r1, r2, f1⟩ := swap_ring hA.1 hB.1 hd
  have i1 : IsList (swap h a b) a pb xb := by
    refine isList_relink r1 (swap_brk _ _ _) (swap_live _ _ _) (swap_data _ _ _) ?_ hB.2.2
    intro p hp
    rcases List.mem_cons.mp hp with e | hp
    · subst e; exact hA.2.1 p (List.mem_cons_self _ _)
    · exact hB.2.1 p (List.mem_cons_of_mem _ hp)
  have i2 : IsList (swap h a b) b pa xa := by
    refine isList_relink r2 (swap_brk _ _ _) (swap_live _ _ _) (swap_data _ _ _) ?_ hA.2.2
    intro p hp
    rcases List.mem_cons.mp hp with e | hp
    · subst e; exact hB.2.1 p (List.mem_cons_self _ _)
    · exact hA.2.1 p (List.mem_cons_of_mem _ hp)
  refine ⟨i1, i2, fun fuel f1 f2 => ⟨toList_of_isList i1 fuel f2, toList_of_isList i2 fuel f1⟩,
    ?_, ?_, swap_data _ _ _, swap_live _ _ _, swap_brk _ _ _, f1, swap_swap hA.1 hB.1 hd⟩
  · intro e; subst e; exact (ring_nil_iff _ _).mp r1
  · intro e; subst e; exact (ring_nil_iff _ _).mp r2

theorem swap_exchanges_contents_witness :
    IsList (build (build (Heap.init : Heap Nat) [1, 2, 3]).1 []).1 1 [2, 3, 4] [1, 2, 3] ∧
    IsList (build (build (Heap.init : Heap Nat) [1, 2, 3]).1 []).1 5 [] [] ∧
    toList 4 (swap (build (build (Heap.init : Heap Nat) [1, 2, 3]).1 []).1 1 5) 1 = some [] ∧
    toList 4 (swap (build (build (Heap.init : Heap Nat) [1, 2, 3]).1 []).1 1 5) 5
      = some [1, 2, 3] ∧
    swap (swap (build (build (Heap.init : Heap Nat) [1, 2, 3]).1 []).1 1 5) 1 5
      = (build (build (Heap.init : Heap Nat) [1, 2, 3]).1 []).1 :=
  have hA : IsList (build (build (Heap.init : Heap Nat) [1, 2, 3]).1 []).1 1 [2, 3, 4] [1, 2, 3] :=
    by decide
  have hB : IsList (build (build (Heap.init : Heap Nat) [1, 2, 3]).1 []).1 5 [] [] := by decide
  have t := swap_exchanges_contents (build (build (Heap.init : Heap Nat) [1, 2, 3]).1 []).1 1 5
    [2, 3, 4] [] [1, 2, 3] [] hA hB (by decide)
  ⟨hA, hB, (t.2.2.1 4 (by decide) (by decide)).1, (t.2.2.1 4 (by decide) (by decide)).2,
    t.2.2.2.2.2.2.2.2.2⟩

/-! ## `sort` is stable -/

section stable
variable {β : Type} (le : β → β → Bool)

theorem stableSort_nil : stableSort le [] = [] := rfl

theorem stableSort_cons (a : β) (l : List β) :
    stableSort le (a :: l) = List.orderedInsert (fun a b => le a b = true) a (stableSort le l) :=
  rfl

theorem stableSort_eq_nil {l : List β} : stableSort le l = [] ↔ l = [] := by
  rw [← List.length_eq_zero, ← List.length_eq_zero (l := l)]
  unfold stableSort
  rw [List.length_insertionSort]

theorem merge_single (a : β) : ∀ l : List β,
    List.merge [a] l le = List.orderedInsert (fun a b => le a b = true) a l
  | [] => by simp
  | y :: l => by
      rw [List.cons_merge_cons, List.orderedInsert]
      by_cases h : le a y = true
      · simp [h]
      · simp only [h, Bool.false_eq_true, ↓reduceIte]
        rw [merge_single a l]

variable {le}

theorem merge_orderedInsert (ht : ∀ a b, le a b = true ∨ le b a = true)
    (htr : ∀ a b c, le a b = true → le b c = true → le a c = true) (a : β) :
    ∀ (l1 l2 : List β),
      List.merge (List.orderedInsert (fun a b => le a b = true) a l1) l2 le =
        List.orderedInsert (fun a b => le a b = true) a (List.merge l1 l2 le)
  | [], l2 => by simpa using merge_single le a l2
  | x :: l1, [] => by simp
  | x :: l1, y :: l2 => by
      have ih1 := merge_orderedInsert ht htr a l1 (y :: l2)
      have ih2 := merge_orderedInsert ht htr a (x :: l1) l2
      rw [List.orderedInsert] at ih2 ⊢
      rw [List.cons_merge_cons]
      by_cases hxy : le x y = true
      · simp only [hxy, ↓reduceIte, List.orderedInsert]
        by_cases hax : le a x = true
        · have hay := htr a x y hax hxy
          simp only [hax, ↓reduceIte, List.cons_merge_cons, hay, hxy]
        · simp only [hax, Bool.false_eq_true, ↓reduceIte, List.cons_merge_cons, hxy, ih1]
      · simp only [hxy, Bool.false_eq_true, ↓reduceIte, List.orderedInsert]
        have hyx : le y x = true := (ht x y).resolve_left hxy
        by_cases hay : le a y = true
        · have hax := htr a y x hay hyx
          simp only [hax, ↓reduceIte, List.cons_merge_cons, hay, hxy, Bool.false_eq_true]
        · simp only [hay, Bool.false_eq_true, ↓reduceIte]
          by_cases hax : le a x = true
          · simp only [hax, ↓reduceIte] at ih2 ⊢
            rw [List.cons_merge_cons]
            simp only [hay, Bool.false_eq_true, ↓reduceIte, ih2]
          · simp only [hax, Bool.false_eq_true, ↓reduceIte] at ih2 ⊢
            rw [List.cons_merge_cons]
            simp only [hxy, Bool.false_eq_true, ↓reduceIte, ih2]

/-- Merging two stably sorted runs, the run of the earlier elements on the
left, gives the stably sorted concatenation. -/
theorem merge_stableSort (ht : ∀ a b, le a b = true ∨ le b a = true)
    (htr : ∀ a b c, le a b = true → le b c = true → le a c = true) :
    ∀ (s1 s2 : List β),
      List.merge (stableSort le s1) (stableSort le s2) le = stableSort le (s1 ++ s2)
  | [], s2 => by simp [stableSort_nil]
  | a :: s1, s2 => by
      rw [List.cons_append, stableSort_cons, stableSort_cons,
        merge_orderedInsert ht htr, merge_stableSort ht htr s1 s2]

end stable

section aged
variable {β : Type}

theorem agedL_all_nil : ∀ (Sg : List (List β)), (∀ sg ∈ Sg, sg = []) → agedL Sg = []
  | [], _ => rfl
  | b :: B, hall => by
      rw [agedL, agedL_all_nil B (fun sg hs => hall sg (List.mem_cons_of_mem _ hs)),
        hall b (List.mem_cons_self _ _)]
      rfl

theorem agedL_set_low : ∀ (Sg : List (List β)) (i : Nat) (v : List β), i < Sg.length →
    (∀ (j : Nat) (sg : List β), j < i → Sg[j]? = some sg → sg = []) →
    agedL (Sg.set i v) = agedL (Sg.drop (i + 1)) ++ v
  | [], _, _, hi, _ => by simp at hi
  | b :: B, 0, v, _, _ => by simp [agedL]
  | b :: B, i + 1, v, hi, hlow => by
      have hb : b = [] := hlow 0 b (by omega) (by simp)
      subst hb
      rw [List.set_cons_succ, agedL, List.append_nil, List.drop_succ_cons]
      exact agedL_set_low B i v (by simpa using hi)
        (fun j sg hj hs => hlow (j + 1) sg (by omega) (by simpa using hs))

theorem agedL_set_two : ∀ (Sg : List (List β)) (i : Nat) (v w : List β), 1 ≤ i →
    i < Sg.length → (∀ (j : Nat) (sg : List β), j + 1 < i → Sg[j]? = some sg → sg = []) →
    agedL ((Sg.set i v).set (i - 1) w) = agedL (Sg.drop (i + 1)) ++ v ++ w
  | [], _, _, _, _, hi, _ => by simp at hi
  | b :: B, 0, _, _, h1, _, _ => by omega
  | [b], 1, _, _, _, hi, _ => by simp at hi
  | b :: c :: B, 1, v, w, _, _, _ => by simp [agedL]
  | b :: B, i + 2, v, w, _, hi, hlow => by
      have hb : b = [] := hlow 0 b (by omega) (by simp)
      subst hb
      have e : i + 2 - 1 = i + 1 := rfl
      rw [e, List.set_cons_succ, List.set_cons_succ, agedL, List.append_nil,
        List.drop_succ_cons]
      have := agedL_set_two B (i + 1) v w (by omega) (by simp at hi; omega)
        (fun j sg hj hs => hlow (j + 1) sg (by omega) (by simpa using hs))
      simpa using this

theorem agedL_get_low (Sg : List (List β)) (i : Nat) (sg : List β) (hs : Sg[i]? = some sg)
    (hlow : ∀ (j : Nat) (sg : List β), j < i → Sg[j]? = some sg → sg = []) :
    agedL Sg = agedL (Sg.drop (i + 1)) ++ sg := by
  have hi : i < Sg.length := by
    rcases Nat.lt_or_ge i Sg.length with h | h
    · exact h
    · rw [List.getElem?_eq_none h] at hs; cases hs
  have := agedL_set_low Sg i sg hi hlow
  rwa [set_self_of_get Sg i sg hs] at this

end aged

section agedrun
variable {β : Type} {le : β → β → Bool}

theorem stableSort_isEmpty (l : List β) : (stableSort le l).isEmpty = l.isEmpty := by
  cases l with
  | nil => rfl
  | cons a l =>
    cases h : stableSort le (a :: l) with
    | nil => exact absurd ((stableSort_eq_nil le).mp h) (by simp)
    | cons b m => rfl

theorem get_lt_length {γ : Type} {l : List γ} {i : Nat} {x : γ} (h : l[i]? = some x) :
    i < l.length := by
  rcases Nat.lt_or_ge i l.length with h1 | h1
  · exact h1
  · rw [List.getElem?_eq_none h1] at h; cases h

theorem carryL_aged (ht : ∀ a b, le a b = true ∨ le b a = true)
    (htr : ∀ a b c, le a b = true → le b c = true → le a c = true) :
    ∀ (d : Nat) (cseg : List β) (Sg : List (List β)) (fill i : Nat)
      (r : List β × List (List β) × Nat),
      carryL le d (stableSort le cseg) (Sg.map (stableSort le)) fill i = some r →
      (∀ (j : Nat) (sg : List β), j < i → Sg[j]? = some sg → sg = []) →
      ∃ cseg' Sg', r.1 = stableSort le cseg' ∧ r.2.1 = Sg'.map (stableSort le) ∧
        Sg'.length = Sg.length ∧ i ≤ r.2.2 ∧ (i ≤ fill → r.2.2 ≤ fill) ∧
        (∀ (j : Nat) (sg : List β), j < r.2.2 → Sg'[j]? = some sg → sg = []) ∧
        (∀ (j : Nat), r.2.2 ≤ j → Sg'[j]? = Sg[j]?) ∧
        (r.2.2 < fill → Sg'[r.2.2]? = some []) ∧
        agedL Sg' ++ cseg' = agedL Sg ++ cseg
  | 0, _, _, _, _, _, hr, _ => by simp [carryL] at hr
  | d + 1, cseg, Sg, fill, i, r, hr, hlow => by
      unfold carryL at hr
      by_cases hlt : i < fill
      · simp only [hlt, ↓reduceIte, List.getElem?_map] at hr
        cases hs : Sg[i]? with
        | none => simp [hs] at hr
        | some sg =>
          simp only [hs, Option.map_some', stableSort_isEmpty] at hr
          by_cases hse : sg = []
          · subst hse
            simp only [List.isEmpty_nil, ↓reduceIte, Option.some.injEq] at hr
            subst hr
            exact ⟨cseg, Sg, rfl, rfl, rfl, le_refl _, fun _ => hlt.le, hlow, fun _ _ => rfl,
              fun _ => hs, rfl⟩
          · have hne : sg.isEmpty = false := by
              cases sg with
              | nil => exact absurd rfl hse
              | cons a l => rfl
            simp only [hne, Bool.false_eq_true, ↓reduceIte] at hr
            have e : (Sg.map (stableSort le)).set i [] = (Sg.set i []).map (stableSort le) := by
              rw [List.map_set]; rfl
            rw [merge_stableSort ht htr, e] at hr
            have hi : i < Sg.length := get_lt_length hs
            have hlow1 : ∀ (j : Nat) (sg : List β), j < i + 1 → (Sg.set i [])[j]? = some sg →
                sg = [] := by
              intro j sg1 hj hs1
              by_cases hji : i = j
              · subst hji
                rw [List.getElem?_set_self hi] at hs1
                exact (Option.some.inj hs1).symm
              · rw [List.getElem?_set_ne hji] at hs1
                exact hlow j sg1 (by omega) hs1
            obtain ⟨cseg', Sg', a1, a2, a3, a4, a5, a6, a7, a8, a9⟩ :=
              carryL_aged ht htr d (sg ++ cseg) (Sg.set i []) fill (i + 1) r hr hlow1
            refine ⟨cseg', Sg', a1, a2, by simpa using a3, by omega, fun _ => a5 (by omega), a6,
              ?_, a8, ?_⟩
            · intro j hj
              rw [a7 j hj, List.getElem?_set_ne (by omega)]
            · rw [a9, agedL_set_low Sg i [] hi hlow, agedL_get_low Sg i sg hs hlow]
              simp
      · simp only [hlt, ↓reduceIte, Option.some.injEq] at hr
        subst hr
        exact ⟨cseg, Sg, rfl, rfl, rfl, le_refl _, fun h => h, hlow, fun _ _ => rfl,
          fun h => absurd h hlt, rfl⟩

theorem sortLoopL_aged (ht : ∀ a b, le a b = true ∨ le b a = true)
    (htr : ∀ a b c, le a b = true → le b c = true → le a c = true) :
    ∀ (d : Nat) (src : List β) (Sg : List (List β)) (fill : Nat)
      (r : List β × List (List β) × Nat),
      sortLoopL le d src [] (Sg.map (stableSort le)) fill = some r →
      (∀ (j : Nat) (sg : List β), fill ≤ j → Sg[j]? = some sg → sg = []) →
      ∃ Sg', r.1 = [] ∧ r.2.1 = Sg'.map (stableSort le) ∧ agedL Sg' = agedL Sg ++ src
  | 0, _, _, _, _, hr, _ => by simp [sortLoopL] at hr
  | d + 1, [], Sg, fill, r, hr, _ => by
      simp only [sortLoopL, Option.some.injEq] at hr
      subst hr
      exact ⟨Sg, rfl, rfl, by simp⟩
  | d + 1, x :: src, Sg, fill, r, hr, hhigh => by
      simp only [sortLoopL] at hr
      cases hc : carryL le d [x] (Sg.map (stableSort le)) fill 0 with
      | none => simp [hc] at hr
      | some t =>
        obtain ⟨car1, B1, i⟩ := t
        simp only [hc] at hr
        have hc' : carryL le d (stableSort le [x]) (Sg.map (stableSort le)) fill 0
            = some (car1, B1, i) := hc
        obtain ⟨cseg', Sg1, a1, a2, a3, -, a5, a6, a7, a8, a9⟩ :=
          carryL_aged ht htr d [x] Sg fill 0 _ hc' (fun j _ hj => absurd hj (by omega))
        simp only at a1 a2 a5 a6 a7 a8
        subst a1 a2
        simp only [List.getElem?_map] at hr
        cases hs : Sg1[i]? with
        | none => simp [hs] at hr
        | some sg =>
          simp only [hs, Option.map_some'] at hr
          have hif : i ≤ fill := a5 (Nat.zero_le _)
          have hsg : sg = [] := by
            by_cases hlt : i < fill
            · have := a8 hlt
              rw [hs] at this
              exact Option.some.inj this
            · have hie : i = fill := by omega
              have := a7 i (le_refl _)
              rw [hs] at this
              exact hhigh i sg (by omega) this.symm
          subst hsg
          have e : (Sg1.map (stableSort le)).set i (stableSort le cseg')
              = (Sg1.set i cseg').map (stableSort le) := by
            rw [List.map_set]
          have e0 : stableSort le ([] : List β) = [] := rfl
          rw [e, e0] at hr
          have hi : i < Sg1.length := get_lt_length hs
          have hhigh2 : ∀ (j : Nat) (sg : List β), (if i = fill then fill + 1 else fill) ≤ j →
              (Sg1.set i cseg')[j]? = some sg → sg = [] := by
            intro j sg1 hj hs1
            have hij : i < j := by
              split at hj <;> omega
            rw [List.getElem?_set_ne (by omega), a7 j (by omega)] at hs1
            refine hhigh j sg1 ?_ hs1
            split at hj <;> omega
          obtain ⟨Sg', b1, b2, b3⟩ := sortLoopL_aged ht htr d src (Sg1.set i cseg') _ r hr hhigh2
          refine ⟨Sg', b1, b2, ?_⟩
          have k1 := agedL_set_low Sg1 i cseg' hi a6
          have k2 := agedL_get_low Sg1 i [] hs a6
          rw [List.append_nil] at k2
          rw [b3, k1, ← k2, a9]
          simp

theorem collectL_aged (ht : ∀ a b, le a b = true ∨ le b a = true)
    (htr : ∀ a b c, le a b = true → le b c = true → le a c = true) :
    ∀ (d : Nat) (Sg : List (List β)) (fill i : Nat) (B' : List (List β)),
      collectL le d (Sg.map (stableSort le)) fill i = some B' → 1 ≤ i →
      (∀ (j : Nat) (sg : List β), j + 1 < i → Sg[j]? = some sg → sg = []) →
      ∃ Sg', B' = Sg'.map (stableSort le) ∧ agedL Sg' = agedL Sg
  | 0, _, _, _, _, hr, _, _ => by simp [collectL] at hr
  | d + 1, Sg, fill, i, B', hr, hi1, hlow => by
      unfold collectL at hr
      by_cases hlt : i < fill
      · simp only [hlt, ↓reduceIte, List.getElem?_map] at hr
        cases hsi : Sg[i]? with
        | none => simp [hsi] at hr
        | some sgi =>
          cases hsj : Sg[i - 1]? with
          | none => simp [hsi, hsj] at hr
          | some sgj =>
            simp only [hsi, hsj, Option.map_some'] at hr
            have hi : i < Sg.length := get_lt_length hsi
            have e : ((Sg.map (stableSort le)).set i
                (List.merge (stableSort le sgi) (stableSort le sgj) le)).set (i - 1) []
                = ((Sg.set i (sgi ++ sgj)).set (i - 1) []).map (stableSort le) := by
              rw [List.map_set, List.map_set, merge_stableSort ht htr]; rfl
            rw [e] at hr
            have hlow1 : ∀ (j : Nat) (sg : List β), j + 1 < i + 1 →
                ((Sg.set i (sgi ++ sgj)).set (i - 1) [])[j]? = some sg → sg = [] := by
              intro j sg hj hs
              by_cases hji : i - 1 = j
              · subst hji
                rw [List.getElem?_set_self (by simp; omega)] at hs
                exact (Option.some.inj hs).symm
              · rw [List.getElem?_set_ne hji, List.getElem?_set_ne (by omega)] at hs
                exact hlow j sg (by omega) hs
            obtain ⟨Sg', b1, b2⟩ := collectL_aged ht htr d _ fill (i + 1) B' hr (by omega) hlow1
            refine ⟨Sg', b1, ?_⟩
            rw [b2, agedL_set_two Sg i _ _ hi1 hi hlow]
            have k := agedL_set_two Sg i sgi sgj hi1 hi hlow
            have e1 : Sg.set i sgi = Sg := set_self_of_get Sg i sgi hsi
            rw [e1, set_self_of_get Sg (i - 1) sgj hsj] at k
            rw [k]; simp
      · simp only [hlt, ↓reduceIte, Option.some.injEq] at hr
        subst hr
        exact ⟨Sg, rfl, rfl⟩

/-- On fewer than `2^64` elements and for a total, transitive order the run
of `sort()` computes the stable sort of its input. -/
theorem sortL_eq_stableSort (ht : ∀ a b, le a b = true ∨ le b a = true)
    (htr : ∀ a b c, le a b = true → le b c = true → le a c = true)
    (d : Nat) (ps : List β) (hlen : ps.length < 2 ^ 64) (hd : ps.length + 65 ≤ d) :
    sortL le d ps = some (stableSort le ps) := by
  match ps, hlen, hd with
  | [], _, _ => rfl
  | [x], _, _ => rfl
  | x :: y :: ps, hlen, hd =>
    obtain ⟨B, fill, B1, top, e1, e2, hf, hf64, _, hl1, htop, hemp, _, _, _⟩ :=
      sortL_stages le (fun _ => True) trivial (fun _ => trivial) (fun _ _ _ _ => trivial)
        d (x :: y :: ps) (by simp) hlen hd
    have hf0 : fill ≠ 0 := by omega
    have e0 : List.replicate 64 ([] : List β)
        = (List.replicate 64 ([] : List β)).map (stableSort le) := by
      rw [List.map_replicate]; rfl
    have e1' := e1
    rw [e0] at e1'
    obtain ⟨Sg, -, a2, a3⟩ := sortLoopL_aged ht htr d _ _ 0 _ e1'
      (by
        intro j sg _ hs
        rw [List.getElem?_replicate] at hs
        split at hs
        · exact (Option.some.inj hs).symm
        · cases hs)
    simp only at a2
    subst a2
    obtain ⟨Sg1, b1, b2⟩ := collectL_aged ht htr d Sg fill 1 B1 e2 (le_refl _)
      (fun j _ hj => absurd hj (by omega))
    subst b1
    rw [List.getElem?_map] at htop
    cases hs : Sg1[fill - 1]? with
    | none => simp [hs] at htop
    | some sgt =>
      simp only [hs, Option.map_some', Option.some.injEq] at htop
      have hall : ∀ (j : Nat) (sg : List β), j ≠ fill - 1 → Sg1[j]? = some sg → sg = [] := by
        intro j sg hj hsj
        have := hemp j (stableSort le sg) hj (by rw [List.getElem?_map, hsj]; rfl)
        exact (stableSort_eq_nil le).mp this
      have k := agedL_get_low Sg1 (fill - 1) sgt hs (fun j sg hj => hall j sg (by omega))
      have k0 : agedL (Sg1.drop (fill - 1 + 1)) = [] := by
        apply agedL_all_nil
        intro sg hsg
        obtain ⟨n, hn⟩ := List.mem_iff_getElem?.mp hsg
        rw [List.getElem?_drop] at hn
        exact hall _ sg (by omega) hn
      have a3' : agedL Sg = x :: y :: ps := by
        rw [a3, agedL_all_nil _ (fun sg hs => List.eq_of_mem_replicate hs)]; rfl
      rw [k0, List.nil_append, b2, a3'] at k
      subst k
      simp only [sortL, e1, e2, hf0, ↓reduceIte]
      rw [List.getElem?_map, hs]; rfl

end agedrun

/-! ## `sort` is idempotent -/

theorem leAt_eq_leOpt (lt : α → α → Bool) (h : Heap α) (p q : Nat) :
    leAt lt h p q = leOpt lt (h.data p) (h.data q) := rfl

theorem leAt_of_data {lt : α → α → Bool} {h : Heap α} {p q : Nat} {a b : α}
    (hp : h.data p = some a) (hq : h.data q = some b) : leAt lt h p q = leOf lt a b := by
  simp only [leAt, ltAt, hp, hq, leOf]

/-- On nodes that all carry a payload, the run of `sort()` computes the
stable sort of the node sequence under the order of the payloads. -/
theorem sortL_nodes {lt : α → α → Bool} (hw : StrictWeak lt) (h : Heap α) (d : Nat)
    (ps : List Nat) (hd : ∀ p ∈ ps, (h.data p).isSome = true) (hlen : ps.length < 2 ^ 64)
    (hdep : ps.length + 65 ≤ d) :
    sortL (leAt lt h) d ps = some (stableSort (leAt lt h) ps) := by
  let r : {p : Nat // (h.data p).isSome = true} → {p : Nat // (h.data p).isSome = true} → Bool :=
    fun a b => leAt lt h a.1 b.1
  have hget : ∀ a : {p : Nat // (h.data p).isSome = true}, ∃ x, h.data a.1 = some x :=
    fun a => Option.isSome_iff_exists.mp a.2
  have ht : ∀ a b, r a b = true ∨ r b a = true := by
    intro a b
    obtain ⟨x, hx⟩ := hget a
    obtain ⟨y, hy⟩ := hget b
    show leAt lt h a.1 b.1 = true ∨ leAt lt h b.1 a.1 = true
    rw [leAt_of_data hx hy, leAt_of_data hy hx]
    have := leOf_total hw x y
    simpa [Bool.or_eq_true] using this
  have htr : ∀ a b c, r a b = true → r b c = true → r a c = true := by
    intro a b c
    obtain ⟨x, hx⟩ := hget a
    obtain ⟨y, hy⟩ := hget b
    obtain ⟨z, hz⟩ := hget c
    show leAt lt h a.1 b.1 = true → leAt lt h b.1 c.1 = true → leAt lt h a.1 c.1 = true
    rw [leAt_of_data hx hy, leAt_of_data hy hz, leAt_of_data hx hz]
    exact leOf_trans hw x y z
  have hmap : (ps.pmap Subtype.mk hd).map Subtype.val = ps := by
    rw [List.map_pmap]; simp
  have h1 := sortL_eq_stableSort ht htr d (ps.pmap Subtype.mk hd) (by simpa using hlen)
    (by simpa using hdep)
  have h2 := map_sortL (r := r) (s := leAt lt h) (f := Subtype.val) (fun _ _ => rfl) d
    (ps.pmap Subtype.mk hd)
  rw [hmap, h1, Option.map_some'] at h2
  rw [h2]
  congr 1
  have h3 := List.map_insertionSort (r := fun a b => r a b = true)
    (s := fun a b => leAt lt h a b = true) Subtype.val (ps.pmap Subtype.mk hd)
    (fun _ _ _ _ => Iff.rfl)
  rw [hmap] at h3
  exact h3

theorem sort_small {h : Heap α} {s : Nat} {ps : List Nat} (hr : Ring h s ps)
    (hlen : ps.length ≤ 1) (lt : α → α → Bool) (fuel : Nat) : sort lt fuel h s = some h := by
  match ps, hr, hlen with
  | [], hr, _ =>
    have := (ring_empty_iff hr).mpr rfl
    simp [sort, this]
  | [p], hr, _ =>
    have h1 : h.next s = p := ring_next_sentinel hr
    have h2 : h.next p = s := (@ring_mid α h s p [] [] hr).1
    simp [sort, h1, h2]

theorem pairwise_nodes {lt : α → α → Bool} {h : Heap α} {ps : List Nat} {xs : List α}
    (hv : vals h ps = xs.map some) (ha : Ascending lt xs) :
    ps.Pairwise (fun p q => leAt lt h p q = true) := by
  have h1 : (xs.map some).Pairwise (fun a b => leOpt lt a b = true) :=
    List.pairwise_map.mpr ha
  rw [← hv] at h1
  exact List.pairwise_map.mp h1

/-- C14: `sort()` is idempotent.  For a strict weak `operator<` and fewer
than `2^64` elements, a second `sort()` returns and leaves the list as the
first one left it: the same elements in the same order, held by the same
nodes in the same order; that common result is the stable sort of the
input.  On a list of 0 or 1 elements `sort()` returns at once with the heap
unchanged, whatever the comparison. -/
theorem sort_idempotent (lt : α → α → Bool) (hw : StrictWeak lt) (h : Heap α) (s : Nat)
    (ps : List Nat) (xs : List α) (fuel : Nat)
    (hl : IsList h s ps xs) (hlen : ps.length < 2 ^ 64) (hf : 2 * ps.length + 66 ≤ fuel) :
    (∃ h1 h2 ps' xs', sort lt fuel h s = some h1 ∧ sort lt fuel h1 s = some h2 ∧
      IsList h1 s ps' xs' ∧ IsList h2 s ps' xs' ∧
      toList fuel h1 s = some xs' ∧ toList fuel h2 s = some xs' ∧
      xs' = stableSort (leOf lt) xs ∧ ps' = stableSort (leAt lt h) ps) ∧
    (ps.length ≤ 1 → ∀ (lt2 : α → α → Bool) (f : Nat),
      sort lt2 f h s = some h ∧ toList fuel h s = some xs) := by
  have hlx := isList_length hl
  constructor
  · obtain ⟨h1, ps1, xs1, e1, n1, m1, i1, a1, px1, pp1, d1, -, -, -⟩ :=
      sort_isList lt hw fuel hl hlen hf
    have hl1 : ps1.length = ps.length := pp1.length_eq
    obtain ⟨h2, ps2, xs2, e2, n2, m2, i2, -, -, -, -, -, -, -⟩ :=
      sort_isList lt hw fuel i1 (by rw [hl1]; exact hlen) (by rw [hl1]; exact hf)
    have ht : ∀ a b, leOf lt a b = true ∨ leOf lt b a = true := by
      intro a b
      have := leOf_total hw a b
      simpa [Bool.or_eq_true] using this
    have htr := leOf_trans hw
    have x1 : xs1 = stableSort (leOf lt) xs := by
      have := sortL_eq_stableSort ht htr (xs.length + 65) xs (by rw [← hlx]; exact hlen)
        (le_refl _)
      rw [m1] at this
      exact Option.some.inj this
    have x2 : xs2 = xs1 := by
      have := sortL_eq_stableSort ht htr (xs1.length + 65) xs1
        (by rw [← isList_length i1, hl1]; exact hlen) (le_refl _)
      rw [m2] at this
      rw [Option.some.inj this]
      exact List.Sorted.insertionSort_eq a1
    have q1 : ps1 = stableSort (leAt lt h) ps := by
      have := sortL_nodes hw h (ps.length + 65) ps (isSome_of_vals hl.2.2) hlen (le_refl _)
      rw [n1] at this
      exact Option.some.inj this
    have q2 : ps2 = ps1 := by
      have := sortL_nodes hw h1 (ps1.length + 65) ps1 (isSome_of_vals i1.2.2)
        (by rw [hl1]; exact hlen) (le_refl _)
      rw [n2] at this
      rw [Option.some.inj this]
      exact List.Sorted.insertionSort_eq (pairwise_nodes i1.2.2 a1)
    rw [x2, q2] at i2
    refine ⟨h1, h2, ps1, xs1, e1, e2, i1, i2, toList_of_isList i1 fuel (by omega),
      toList_of_isList i2 fuel (by omega), x1, q1⟩
  · intro hs lt2 f
    exact ⟨sort_small hl.1 hs lt2 f, toList_of_isList hl fuel (by omega)⟩

set_option maxRecDepth 100000 in
theorem sort_idempotent_witness :
    IsList (build (Heap.init : Heap Nat) [3, 1, 2, 1]).1 1 [2, 3, 4, 5] [3, 1, 2, 1] ∧
    ∃ h1 h2, sort natLt 74 (build (Heap.init : Heap Nat) [3, 1, 2, 1]).1 1 = some h1 ∧
      sort natLt 74 h1 1 = some h2 ∧
      toList 74 h1 1 = some [1, 1, 2, 3] ∧ toList 74 h2 1 = some [1, 1, 2, 3] ∧
      IsList h2 1 [3, 5, 4, 2] [1, 1, 2, 3] :=
  have hl : IsList (build (Heap.init : Heap Nat) [3, 1, 2, 1]).1 1 [2, 3, 4, 5] [3, 1, 2, 1] := by
    decide
  have t := (sort_idempotent natLt natLt_strictWeak (build (Heap.init : Heap Nat) [3, 1, 2, 1]).1
    1 [2, 3, 4, 5] [3, 1, 2, 1] 74 hl (by decide) (by decide)).1
  have ex : stableSort (leOf natLt) [3, 1, 2, 1] = [1, 1, 2, 3] := by decide
  have ep : stableSort (leAt natLt (build (Heap.init : Heap Nat) [3, 1, 2, 1]).1) [2, 3, 4, 5]
      = [3, 5, 4, 2] := by decide
  ⟨hl, t.elim fun h1 k => k.elim fun h2 k => k.elim fun ps' k => k.elim fun xs' k =>
    ⟨h1, h2, k.1, k.2.1,
      (k.2.2.2.2.2.2.1.trans ex) ▸ k.2.2.2.2.1,
      (k.2.2.2.2.2.2.1.trans ex) ▸ k.2.2.2.2.2.1,
      (k.2.2.2.2.2.2.1.trans ex) ▸ (k.2.2.2.2.2.2.2.trans ep) ▸ k.2.2.2.1⟩⟩

/-! ## Reverse iterators -/

theorem rtraverse_ring {h : Heap α} {s : Nat} :
    ∀ (rpre post : List Nat) (ys : List α) (fuel : Nat), Ring h s (rpre.reverse ++ post) →
      vals h rpre = ys.map some → rpre.length < fuel →
      rtraverse fuel h ⟨cursorAt s post⟩ ⟨cursorAt s (rpre.reverse ++ post)⟩ = some ys
  | [], post, ys, fuel, _, hv, hf => by
      cases fuel with
      | zero => omega
      | succ fuel =>
        cases ys with
        | nil => simp [rtraverse, reverse_iterator.ne, reverse_iterator.base]
        | cons y ys => simp [vals] at hv
  | p :: rpre, post, ys, fuel, hr, hv, hf => by
      cases fuel with
      | zero => omega
      | succ fuel =>
        cases ys with
        | nil => simp [vals] at hv
        | cons y ys =>
          simp only [vals, List.map_cons, List.cons.injEq] at hv
          have e : (p :: rpre).reverse ++ post = rpre.reverse ++ p :: post := by simp
          rw [e] at hr ⊢
          have hne : cursorAt s (rpre.reverse ++ p :: post) ≠ cursorAt s post := by
            cases hq : rpre.reverse with
            | nil =>
              rw [hq] at hr
              exact @ring_node_ne_cursor α h s p [] [] post (by simpa using hr)
            | cons q l =>
              rw [hq] at hr
              have : q :: l ++ p :: post = [] ++ q :: (l ++ [p]) ++ post := by simp
              rw [this] at hr
              exact ring_node_ne_cursor hr
          have hpv : h.prev (cursorAt s post) = p := (ring_mid hr).2
          have ih := rtraverse_ring rpre (p :: post) ys fuel hr hv.2 (by simp at hf; omega)
          rw [cursorAt_cons] at ih
          rw [rtraverse]
          have hne2 : ¬ cursorAt s post = cursorAt s (rpre.reverse ++ p :: post) :=
            fun e => hne e.symm
          simp only [reverse_iterator.ne, reverse_iterator.base, bne_iff_ne, ne_eq,
            hne2, not_false_eq_true, ↓reduceIte, reverse_iterator.deref,
            reverse_iterator.inc, hpv, hv.1, ih]

/-- C15: Dereferencing a `reverse_iterator` built on the cursor `cur` yields
the element immediately before `cur`, incrementing it moves `cur` one step
backward and decrementing it one step forward; consequently the walk from
`rbegin()` to `rend()` of a list returns its elements in reverse order, last
element first, without dereferencing the sentinel, and visits nothing when the
list is empty. -/
theorem reverse_iterator_walks_backward (h : Heap α) (s : Nat) (ps : List Nat) (xs : List α)
    (fuel : Nat) (hl : IsList h s ps xs) (hf : ps.length < fuel) :
    (∀ (pre post : List Nat) (p : Nat) (xs1 ys : List α) (y : α),
      ps = pre ++ p :: post → xs = xs1 ++ y :: ys → pre.length = xs1.length →
      reverse_iterator.deref h ⟨cursorAt s post⟩ = some y ∧
      (reverse_iterator.inc h ⟨cursorAt s post⟩).base = p ∧
      (reverse_iterator.dec h ⟨p⟩).base = cursorAt s post) ∧
    (rbegin h s).base = s ∧ (rend h s).base = cursorAt s ps ∧
    toListRev fuel h s = some xs.reverse ∧
    (ps = [] → toListRev fuel h s = some []) := by
  have hrev : toListRev fuel h s = some xs.reverse := by
    have hr : Ring h s (ps.reverse.reverse ++ []) := by simpa using hl.1
    have hv : vals h ps.reverse = xs.reverse.map some := by
      have := hl.2.2
      simp only [vals] at this ⊢
      rw [List.map_reverse, List.map_reverse, this]
    have := rtraverse_ring ps.reverse [] xs.reverse fuel hr hv (by simpa using hf)
    simp only [List.reverse_reverse, List.append_nil, cursorAt_nil] at this
    rw [toListRev, rbegin, rend, end_, begin, ring_next_sentinel hl.1]
    exact this
  refine ⟨?_, rfl, ring_next_sentinel hl.1, hrev, ?_⟩
  · intro pre post p xs1 ys y e1 e2 hlen
    subst e1 e2
    have hm := ring_mid hl.1
    have hsp := isList_split hl hlen
    have hy : h.data p = some y := by
      have := hsp.2
      simp only [vals, List.map_cons, List.cons.injEq] at this
      exact this.1
    refine ⟨?_, hm.2, hm.1⟩
    simp only [reverse_iterator.deref, hm.2, hy]
  · intro e
    subst e
    have : xs = [] := by
      have := isList_length hl
      cases xs with
      | nil => rfl
      | cons x xs => simp at this
    rw [hrev, this]; rfl

theorem reverse_iterator_walks_backward_witness :
    IsList (build (Heap.init : Heap Nat) [7, 8, 9]).1 1 [2, 3, 4] [7, 8, 9] ∧
    reverse_iterator.deref (build (Heap.init : Heap Nat) [7, 8, 9]).1 ⟨cursorAt 1 [4]⟩ = some 8 ∧
    toListRev 4 (build (Heap.init : Heap Nat) [7, 8, 9]).1 1 = some [7, 8, 9].reverse :=
  have hl : IsList (build (Heap.init : Heap Nat) [7, 8, 9]).1 1 [2, 3, 4] [7, 8, 9] := by decide
  have t := reverse_iterator_walks_backward (build (Heap.init : Heap Nat) [7, 8, 9]).1 1 [2, 3, 4]
    [7, 8, 9] 4 hl (by decide)
  ⟨hl, (t.1 [2] [4] 3 [7] [9] 8 rfl rfl rfl).1, t.2.2.2.1⟩

/-! ## The allocator -/

/-- A count above `max_size()` is replaced by zero, and the request for zero
bytes succeeds whatever is left of the free store. -/
theorem allocate_over_max (w sz avail n : Nat) (hn : allocator.max_size w sz < n) :
    allocator.allocate w sz avail n = Allocation.storage 0 := by
  simp [allocator.allocate, hn, operator_new]

/-- Up to `max_size()` the byte count `n * sizeof(T)` fits `size_t`, and
`allocate` requests exactly that many bytes. -/
theorem allocate_no_overflow (w sz avail n : Nat)
    (hn : n ≤ allocator.max_size w sz) :
    n * sz < 2 ^ w ∧ allocator.allocate w sz avail n = operator_new avail (n * sz) := by
  have h1 : n * sz ≤ 2 ^ w - 1 := by
    have := Nat.mul_le_mul_right sz hn
    exact this.trans (Nat.div_mul_le_self _ _)
  have h2 : 0 < 2 ^ w := Nat.two_pow_pos w
  have h3 : n * sz < 2 ^ w := by omega
  refine ⟨h3, ?_⟩
  have hn' : ¬ (allocator.max_size w sz < n) := by omega
  simp [allocator.allocate, hn', Nat.mod_eq_of_lt h3]

/-- C16: `allocate(n)` does not signal a failure for a count above
`max_size()`.  For a 64-bit `size_t` and an element type of 8 bytes, the call
`allocate(max_size() + 1)` is answered, even with no free store left, by a
successful allocation of zero bytes: the count is truncated to zero and
`::operator new(0)` is returned to the caller. -/
theorem allocate_over_max_size_succeeds :
    allocator.max_size 64 8 = 2305843009213693951 ∧
    allocator.allocate 64 8 0 (allocator.max_size 64 8 + 1) = Allocation.storage 0 ∧
    allocator.allocate 64 8 0 (allocator.max_size 64 8 + 1) ≠ Allocation.failure := by
  decide

/-! ## Comparison of lists -/

theorem list_eqLoop_spec (eq : α → α → Bool) {h : Heap α} {a b : Nat} :
    ∀ (post1 post2 pre1 pre2 : List Nat) (xs ys : List α) (fuel : Nat),
      Ring h a (pre1 ++ post1) → Ring h b (pre2 ++ post2) →
      vals h post1 = xs.map some → vals h post2 = ys.map some →
      min post1.length post2.length < fuel →
      list_eqLoop eq fuel h (cursorAt a post1) a (cursorAt b post2) b = some (seqEq eq xs ys)
  | [], post2, pre1, pre2, xs, ys, fuel, _, h2, v1, v2, hf => by
      cases fuel with
      | zero => omega
      | succ fuel =>
        have hx : xs = [] := by cases xs with
          | nil => rfl
          | cons x xs => simp [vals] at v1
        subst hx
        cases post2 with
        | nil =>
          have hy : ys = [] := by cases ys with
            | nil => rfl
            | cons y ys => simp [vals] at v2
          subst hy
          simp [list_eqLoop, cursorAt, seqEq]
        | cons q post2 =>
          cases ys with
          | nil => simp [vals] at v2
          | cons y ys =>
            have hne : cursorAt b (q :: post2) ≠ b := (ring_cursor_ne h2).mpr (by simp)
            have hq : q ≠ b := hne
            simp [list_eqLoop, cursorAt, seqEq, hq]
  | p :: post1, [], pre1, pre2, xs, ys, fuel, h1, _, v1, v2, hf => by
      cases fuel with
      | zero => omega
      | succ fuel =>
        have hy : ys = [] := by cases ys with
          | nil => rfl
          | cons y ys => simp [vals] at v2
        subst hy
        cases xs with
        | nil => simp [vals] at v1
        | cons x xs =>
          have hne : cursorAt a (p :: post1) ≠ a := (ring_cursor_ne h1).mpr (by simp)
          have hp : p ≠ a := hne
          simp [list_eqLoop, cursorAt, seqEq, hp]
  | p :: post1, q :: post2, pre1, pre2, xs, ys, fuel, h1, h2, v1, v2, hf => by
      cases fuel with
      | zero => omega
      | succ fuel =>
        cases xs with
        | nil => simp [vals] at v1
        | cons x xs =>
          cases ys with
          | nil => simp [vals] at v2
          | cons y ys =>
            simp only [vals, List.map_cons, List.cons.injEq] at v1 v2
            have hp : p ≠ a := (ring_cursor_ne h1).mpr (by simp)
            have hq : q ≠ b := (ring_cursor_ne h2).mpr (by simp)
            have h1' : Ring h a ((pre1 ++ [p]) ++ post1) := by simpa using h1
            have h2' : Ring h b ((pre2 ++ [q]) ++ post2) := by simpa using h2
            have ih := list_eqLoop_spec eq post1 post2 (pre1 ++ [p]) (pre2 ++ [q]) xs ys fuel
              h1' h2' v1.2 v2.2 (by simp at hf; omega)
            rw [cursorAt_cons, cursorAt_cons, list_eqLoop]
            simp only [ne_eq, hp, not_false_eq_true, hq, and_self, ↓reduceIte, v1.1, v2.1,
              (ring_mid h1).1, (ring_mid h2).1, ih, seqEq, decide_False, Bool.and_self]
            cases hxy : eq x y <;> simp

theorem lexicographical_compare_spec (lt : α → α → Bool) {h : Heap α} {a b : Nat} :
    ∀ (post1 post2 pre1 pre2 : List Nat) (xs ys : List α) (fuel : Nat),
      Ring h a (pre1 ++ post1) → Ring h b (pre2 ++ post2) →
      vals h post1 = xs.map some → vals h post2 = ys.map some →
      min post1.length post2.length < fuel →
      lexicographical_compare lt fuel h (cursorAt a post1) a (cursorAt b post2) b
        = some (lexLt lt xs ys)
  | [], post2, pre1, pre2, xs, ys, fuel, _, h2, v1, v2, hf => by
      cases fuel with
      | zero => omega
      | succ fuel =>
        have hx : xs = [] := by cases xs with
          | nil => rfl
          | cons x xs => simp [vals] at v1
        subst hx
        cases post2 with
        | nil =>
          have hy : ys = [] := by cases ys with
            | nil => rfl
            | cons y ys => simp [vals] at v2
          subst hy
          simp [lexicographical_compare, cursorAt, lexLt]
        | cons q post2 =>
          cases ys with
          | nil => simp [vals] at v2
          | cons y ys =>
            have hq : q ≠ b := (ring_cursor_ne h2).mpr (by simp)
            simp [lexicographical_compare, cursorAt, lexLt, hq]
  | p :: post1, [], pre1, pre2, xs, ys, fuel, h1, _, v1, v2, hf => by
      cases fuel with
      | zero => omega
      | succ fuel =>
        have hy : ys = [] := by cases ys with
          | nil => rfl
          | cons y ys => simp [vals] at v2
        subst hy
        cases xs with
        | nil => simp [vals] at v1
        | cons x xs =>
          have hp : p ≠ a := (ring_cursor_ne h1).mpr (by simp)
          simp [lexicographical_compare, cursorAt, lexLt, hp]
  | p :: post1, q :: post2, pre1, pre2, xs, ys, fuel, h1, h2, v1, v2, hf => by
      cases fuel with
      | zero => omega
      | succ fuel =>
        cases xs with
        | nil => simp [vals] at v1
        | cons x xs =>
          cases ys with
          | nil => simp [vals] at v2
          | cons y ys =>
            simp only [vals, List.map_cons, List.cons.injEq] at v1 v2
            have hp : p ≠ a := (ring_cursor_ne h1).mpr (by simp)
            have hq : q ≠ b := (ring_cursor_ne h2).mpr (by simp)
            have h1' : Ring h a ((pre1 ++ [p]) ++ post1) := by simpa using h1
            have h2' : Ring h b ((pre2 ++ [q]) ++ post2) := by simpa using h2
            have ih := lexicographical_compare_spec lt post1 post2 (pre1 ++ [p]) (pre2 ++ [q])
              xs ys fuel h1' h2' v1.2 v2.2 (by simp at hf; omega)
            rw [cursorAt_cons, cursorAt_cons, lexicographical_compare]
            simp only [ne_eq, hp, not_false_eq_true, hq, and_self, ↓reduceIte, v1.1, v2.1,
              (ring_mid h1).1, (ring_mid h2).1, ih, lexLt]
            cases lt x y <;> cases lt y x <;> simp

theorem seqEq_iff {eq : α → α → Bool} (heq : ∀ a b, eq a b = true ↔ a = b) :
    ∀ (xs ys : List α), seqEq eq xs ys = true ↔ xs = ys
  | [], [] => by simp [seqEq]
  | [], _ :: _ => by simp [seqEq]
  | _ :: _, [] => by simp [seqEq]
  | a :: l, b :: m => by
      simp only [seqEq, Bool.and_eq_true, heq, seqEq_iff heq l m, List.cons.injEq]

section lex
variable {lt : α → α → Bool}

theorem lexLt_irrefl (hasym : ∀ a b, lt a b = true → lt b a = false) :
    ∀ xs : List α, lexLt lt xs xs = false
  | [] => rfl
  | a :: l => by
      have : lt a a = false := by
        cases h : lt a a with
        | false => rfl
        | true => have := hasym a a h; rw [h] at this; cases this
      simp [lexLt, this, lexLt_irrefl hasym l]

theorem lexLt_asymm (hasym : ∀ a b, lt a b = true → lt b a = false) :
    ∀ xs ys : List α, lexLt lt xs ys = true → lexLt lt ys xs = false
  | [], [], h => by simp [lexLt] at h
  | [], _ :: _, _ => rfl
  | _ :: _, [], h => by simp [lexLt] at h
  | a :: l, b :: m, h => by
      simp only [lexLt] at h ⊢
      cases hab : lt a b with
      | true => simp [hasym a b hab]
      | false =>
        simp only [hab, Bool.false_eq_true, ↓reduceIte] at h
        cases hba : lt b a with
        | true => simp [hba] at h
        | false =>
          simp only [hba, Bool.false_eq_true, ↓reduceIte] at h ⊢
          exact lexLt_asymm hasym l m h

theorem lexLt_connected (hconn : ∀ a b, lt a b = false → lt b a = false → a = b) :
    ∀ xs ys : List α, lexLt lt xs ys = false → lexLt lt ys xs = false → xs = ys
  | [], [], _, _ => rfl
  | [], _ :: _, h, _ => by simp [lexLt] at h
  | _ :: _, [], _, h => by simp [lexLt] at h
  | a :: l, b :: m, h1, h2 => by
      simp only [lexLt] at h1 h2
      cases hab : lt a b with
      | true => simp [hab] at h1
      | false =>
        cases hba : lt b a with
        | true => simp [hba] at h2
        | false =>
          simp only [hab, hba, Bool.false_eq_true, ↓reduceIte] at h1 h2
          rw [hconn a b hab hba, lexLt_connected hconn l m h1 h2]

theorem lexLt_prefix (hasym : ∀ a b, lt a b = true → lt b a = false) :
    ∀ (xs zs : List α), zs ≠ [] → lexLt lt xs (xs ++ zs) = true
  | [], [], h => absurd rfl h
  | [], _ :: _, _ => rfl
  | a :: l, zs, h => by
      have : lt a a = false := by
        cases h : lt a a with
        | false => rfl
        | true => have := hasym a a h; rw [h] at this; cases this
      simp [lexLt, this, lexLt_prefix hasym l zs h]

theorem lexLt_iff_lex (hasym : ∀ a b, lt a b = true → lt b a = false)
    (hconn : ∀ a b, lt a b = false → lt b a = false → a = b) (xs ys : List α) :
    lexLt lt xs ys = true ↔ List.Lex (fun a b => lt a b = true) xs ys := by
  constructor
  · intro h
    induction xs generalizing ys with
    | nil =>
      cases ys with
      | nil => simp [lexLt] at h
      | cons b m => exact List.Lex.nil
    | cons a l ih =>
      cases ys with
      | nil => simp [lexLt] at h
      | cons b m =>
        simp only [lexLt] at h
        cases hab : lt a b with
        | true => exact List.Lex.rel hab
        | false =>
          cases hba : lt b a with
          | true => simp [hab, hba] at h
          | false =>
            simp only [hab, hba, Bool.false_eq_true, ↓reduceIte] at h
            rw [hconn a b hab hba]
            exact List.Lex.cons (ih m h)
  · intro h
    induction h with
    | nil => rfl
    | @cons a l1 l2 _ ih =>
      have : lt a a = false := by
        cases h : lt a a with
        | false => rfl
        | true => have := hasym a a h; rw [h] at this; cases this
      simp [lexLt, this, ih]
    | rel hr => simp [lexLt, hr]

end lex

/-- C17: For two lists over an element type whose `operator<` is a strict
total order and whose `operator==` is equality, the comparison operators
return, `==` holds exactly when the two element sequences are equal, `<` is
the lexicographic order of the sequences (a proper prefix is less), exactly
one of `a < b`, `a == b`, `b < a` holds, and `a <= b` is `!(b < a)`, `a > b` is
`b < a`, `a >= b` is `!(a < b)`, `a != b` is `!(a == b)`. -/
theorem list_comparison_total (lt eq : α → α → Bool)
    (hasym : ∀ a b, lt a b = true → lt b a = false)
    (hconn : ∀ a b, lt a b = false → lt b a = false → a = b)
    (heq : ∀ a b, eq a b = true ↔ a = b)
    (h : Heap α) (a b : Nat) (pa pb : List Nat) (xs ys : List α) (fuel : Nat)
    (hA : IsList h a pa xs) (hB : IsList h b pb ys) (hf : min pa.length pb.length < fuel) :
    ∃ e l g : Bool, list_eq eq fuel h a b = some e ∧ list_lt lt fuel h a b = some l ∧
      list_lt lt fuel h b a = some g ∧
      (e = true ↔ xs = ys) ∧
      (l = true ↔ List.Lex (fun x y => lt x y = true) xs ys) ∧
      (g = true ↔ List.Lex (fun x y => lt x y = true) ys xs) ∧
      (∀ zs, zs ≠ [] → ys = xs ++ zs → l = true) ∧
      ((l = true ∧ e = false ∧ g = false) ∨ (l = false ∧ e = true ∧ g = false) ∨
        (l = false ∧ e = false ∧ g = true)) ∧
      list_le lt fuel h a b = some (!g) ∧ list_gt lt fuel h a b = some g ∧
      list_ge lt fuel h a b = some (!l) ∧ list_ne eq fuel h a b = some (!e) := by
  have hr1 : Ring h a ([] ++ pa) := hA.1
  have hr2 : Ring h b ([] ++ pb) := hB.1
  have e1 : list_eq eq fuel h a b = some (seqEq eq xs ys) := by
    have := list_eqLoop_spec eq pa pb [] [] xs ys fuel hr1 hr2 hA.2.2 hB.2.2 hf
    rw [← ring_next_sentinel hA.1, ← ring_next_sentinel hB.1] at this
    exact this
  have e2 : list_lt lt fuel h a b = some (lexLt lt xs ys) := by
    have := lexicographical_compare_spec lt pa pb [] [] xs ys fuel hr1 hr2 hA.2.2 hB.2.2 hf
    rw [← ring_next_sentinel hA.1, ← ring_next_sentinel hB.1] at this
    exact this
  have e3 : list_lt lt fuel h b a = some (lexLt lt ys xs) := by
    have := lexicographical_compare_spec lt pb pa [] [] ys xs fuel hr2 hr1 hB.2.2 hA.2.2
      (by rw [Nat.min_comm]; exact hf)
    rw [← ring_next_sentinel hA.1, ← ring_next_sentinel hB.1] at this
    exact this
  refine ⟨seqEq eq xs ys, lexLt lt xs ys, lexLt lt ys xs, e1, e2, e3, seqEq_iff heq xs ys,
    lexLt_iff_lex hasym hconn xs ys, lexLt_iff_lex hasym hconn ys xs, ?_, ?_, ?_, e3, ?_, ?_⟩
  · intro zs hz e
    subst e
    exact lexLt_prefix hasym xs zs hz
  · cases hl : lexLt lt xs ys with
    | true =>
      refine Or.inl ⟨rfl, ?_, lexLt_asymm hasym xs ys hl⟩
      cases he : seqEq eq xs ys with
      | false => rfl
      | true =>
        have := (seqEq_iff heq xs ys).mp he
        subst this
        rw [lexLt_irrefl hasym] at hl
        cases hl
    | false =>
      cases hg : lexLt lt ys xs with
      | true =>
        refine Or.inr (Or.inr ⟨rfl, ?_, rfl⟩)
        cases he : seqEq eq xs ys with
        | false => rfl
        | true =>
          have := (seqEq_iff heq xs ys).mp he
          subst this
          rw [lexLt_irrefl hasym] at hg
          cases hg
      | false =>
        exact Or.inr (Or.inl ⟨rfl, (seqEq_iff heq xs ys).mpr (lexLt_connected hconn xs ys hl hg),
          rfl⟩)
  · simp only [list_le, list_gt, e3, Option.map_some']
  · simp only [list_ge, e2, Option.map_some']
  · simp only [list_ne, e1, Option.map_some']

theorem list_comparison_total_witness :
    IsList (build (build (Heap.init : Heap Nat) [1, 2]).1 [1, 2, 3]).1 1 [2, 3] [1, 2] ∧
    IsList (build (build (Heap.init : Heap Nat) [1, 2]).1 [1, 2, 3]).1 4 [5, 6, 7] [1, 2, 3] ∧
    ∃ e l g : Bool,
      list_eq (fun x y => x == y) 3 (build (build (Heap.init : Heap Nat) [1, 2]).1 [1, 2, 3]).1
        1 4 = some e ∧
      list_lt natLt 3 (build (build (Heap.init : Heap Nat) [1, 2]).1 [1, 2, 3]).1 1 4 = some l ∧
      list_lt natLt 3 (build (build (Heap.init : Heap Nat) [1, 2]).1 [1, 2, 3]).1 4 1 = some g ∧
      l = true ∧
      ((l = true ∧ e = false ∧ g = false) ∨ (l = false ∧ e = true ∧ g = false) ∨
        (l = false ∧ e = false ∧ g = true)) :=
  have hA : IsList (build (build (Heap.init : Heap Nat) [1, 2]).1 [1, 2, 3]).1 1 [2, 3] [1, 2] :=
    by decide
  have hB : IsList (build (build (Heap.init : Heap Nat) [1, 2]).1 [1, 2, 3]).1 4 [5, 6, 7]
      [1, 2, 3] := by decide
  ⟨hA, hB, (list_comparison_total natLt (fun x y => x == y)
    (by intro a b; simp only [natLt, decide_eq_true_eq, decide_eq_false_iff_not]; omega)
    (by intro a b; simp only [natLt, decide_eq_false_iff_not]; omega)
    (by intro a b; simp)
    (build (build (Heap.init : Heap Nat) [1, 2]).1 [1, 2, 3]).1 1 4 [2, 3] [5, 6, 7] [1, 2]
    [1, 2, 3] 3 hA hB (by decide)).elim fun e k => k.elim fun l k => k.elim fun g k =>
      ⟨e, l, g, k.1, k.2.1, k.2.2.1, k.2.2.2.2.2.2.1 [3] (by simp) rfl, k.2.2.2.2.2.2.2.1⟩⟩

/-! ## `transfer` in general -/

/-- Moving the run `f :: R` forwards inside the ring of `s`, to the cursor
that stands before `post`. -/
theorem transfer_ring_fwd {h : Heap α} {s f : Nat} {pre R mid post : List Nat}
    (hr : Ring h s (pre ++ (f :: R ++ mid ++ post))) :
    Ring (transfer h (cursorAt s post) f (cursorAt s (mid ++ post))) s
      (pre ++ mid ++ (f :: R ++ post)) := by
  cases mid with
  | nil =>
    have e : transfer h (cursorAt s post) f (cursorAt s ([] ++ post)) = h := by
      simp [transfer]
    rw [e]
    simpa using hr
  | cons m M =>
    have hl : cursorAt s (m :: M ++ post) = (m :: M).headI := rfl
    rw [hl]
    have hr' : Ring h s ((pre ++ f :: R ++ m :: M) ++ post) := by simpa using hr
    rw [ring_iff_cyc] at hr'
    cases post with
    | nil =>
      have hC : Cyc h (s :: pre ++ f :: R ++ m :: M) := by simpa using hr'
      have key := (transfer_cycle hC (by simp)).1
      have : pre ++ m :: M ++ (f :: R ++ []) = (pre ++ m :: M ++ f :: R) ++ [] := by simp
      rw [this, ring_iff_cyc]
      simpa using key
    | cons q post =>
      have hC : Cyc h (q :: (post ++ s :: pre) ++ f :: R ++ m :: M) := by simpa using hr'
      have key := (transfer_cycle hC (by simp)).1
      have : pre ++ m :: M ++ (f :: R ++ q :: post) = (pre ++ m :: M ++ f :: R) ++ q :: post := by
        simp
      rw [this, ring_iff_cyc, cursorAt_cons]
      simpa using key

theorem transfer_next_frame (h : Heap α) (p f l x : Nat)
    (h1 : x ≠ h.prev l) (h2 : x ≠ h.prev f) (h3 : x ≠ h.prev p) :
    (transfer h p f l).next x = h.next x := by
  by_cases hpl : p = l
  · simp [transfer, hpl]
  · rw [transfer_next h p f l x hpl]
    simp [h1, h2, h3]

theorem transfer_prev_frame (h : Heap α) (p f l x : Nat)
    (h1 : x ≠ p) (h2 : x ≠ l) (h3 : x ≠ f) :
    (transfer h p f l).prev x = h.prev x := by
  by_cases hpl : p = l
  · simp [transfer, hpl]
  · simp only [transfer, ne_eq, hpl, not_false_eq_true, ↓reduceIte, setPrev_prev, h1, h2, h3]
    rfl

/-- C18: `transfer(position, first, last)` on a non-empty run `[first, last)`
of a well-formed ring and a cursor `position` outside the run, in another ring
or in the same one before or after the run, unlinks the run and links it, in
its original order, immediately before `position`, leaving every ring well
formed.  It changes no payload and no allocation, writes no link field other
than the `_next` of the old predecessors of `last`, `first` and `position` and
the `_prev` of `position`, `last` and `first`, writes there the values stated,
and is a no-op when `position == last`. -/
theorem transfer_resplices_run (h : Heap α) (t f : Nat) (tp R tq : List Nat)
    (hrun : Ring h t (tp ++ (f :: R ++ tq))) :
    (∀ (s : Nat) (pre post : List Nat), Ring h s (pre ++ post) →
      (∀ x ∈ s :: (pre ++ post), x ∉ t :: (tp ++ (f :: R ++ tq))) →
      Ring (transfer h (cursorAt s post) f (cursorAt t tq)) s (pre ++ f :: R ++ post) ∧
      Ring (transfer h (cursorAt s post) f (cursorAt t tq)) t (tp ++ tq)) ∧
    (∀ (pre X : List Nat) (p : Nat), tp = pre ++ p :: X →
      Ring (transfer h p f (cursorAt t tq)) t (pre ++ f :: R ++ (p :: X ++ tq))) ∧
    (∀ (mid post : List Nat), tq = mid ++ post →
      Ring (transfer h (cursorAt t post) f (cursorAt t (mid ++ post))) t
        (tp ++ mid ++ (f :: R ++ post))) ∧
    (∀ p fi l : Nat, (transfer h p fi l).data = h.data ∧ (transfer h p fi l).live = h.live ∧
      (transfer h p fi l).brk = h.brk ∧
      (∀ x, x ≠ h.prev l → x ≠ h.prev fi → x ≠ h.prev p →
        (transfer h p fi l).next x = h.next x) ∧
      (∀ x, x ≠ p → x ≠ l → x ≠ fi → (transfer h p fi l).prev x = h.prev x) ∧
      (p ≠ l → fi ≠ p → fi ≠ l → h.prev p ≠ h.prev fi → h.prev p ≠ h.prev l →
        h.prev fi ≠ h.prev l →
        (transfer h p fi l).next (h.prev l) = p ∧ (transfer h p fi l).next (h.prev fi) = l ∧
        (transfer h p fi l).next (h.prev p) = fi ∧ (transfer h p fi l).prev p = h.prev l ∧
        (transfer h p fi l).prev l = h.prev fi ∧ (transfer h p fi l).prev fi = h.prev p)) ∧
    (∀ fi l : Nat, transfer h l fi l = h) := by
  refine ⟨?_, ?_, ?_, ?_, ?_⟩
  · intro s pre post hs hd
    have := transfer_rings hs hrun hd
    exact ⟨this.1, this.2.1⟩
  · intro pre X p e
    subst e
    have hr : Ring h t (pre ++ (p :: X ++ f :: R ++ tq)) := by simpa using hrun
    exact (transfer_ring_back hr).1
  · intro mid post e
    subst e
    have hr : Ring h t (tp ++ (f :: R ++ mid ++ post)) := by simpa using hrun
    exact transfer_ring_fwd hr
  · intro p fi l
    refine ⟨transfer_data h p fi l, transfer_live h p fi l, transfer_brk h p fi l,
      fun x h1 h2 h3 => transfer_next_frame h p fi l x h1 h2 h3,
      fun x h1 h2 h3 => transfer_prev_frame h p fi l x h1 h2 h3, ?_⟩
    intro hpl hfp hfl d1 d2 d3
    rw [transfer_next h p fi l _ hpl, transfer_next h p fi l _ hpl, transfer_next h p fi l _ hpl,
      transfer_prev h p fi l _ hpl hfp, transfer_prev h p fi l _ hpl hfp,
      transfer_prev h p fi l _ hpl hfp]
    have d1' : ¬ h.prev fi = h.prev p := fun e => d1 e.symm
    have d2' : ¬ h.prev l = h.prev p := fun e => d2 e.symm
    have d3' : ¬ h.prev l = h.prev fi := fun e => d3 e.symm
    have hlf : ¬ l = fi := fun e => hfl e.symm
    have hpf : ¬ p = fi := fun e => hfp e.symm
    simp [d1', d2', d3', hlf, hpf, hpl]
  · intro fi l
    simp [transfer]

theorem transfer_resplices_run_witness :
    Ring (build (Heap.init : Heap Nat) [1, 2, 3, 4, 5]).1 1 ([2] ++ (3 :: [4] ++ [5, 6])) ∧
    Ring (transfer (build (Heap.init : Heap Nat) [1, 2, 3, 4, 5]).1 (cursorAt 1 []) 3
      (cursorAt 1 ([5, 6] ++ []))) 1 ([2] ++ [5, 6] ++ (3 :: [4] ++ [])) ∧
    Ring (transfer (build (Heap.init : Heap Nat) [1, 2, 3, 4, 5]).1 2 3 (cursorAt 1 [5, 6])) 1
      ([] ++ 3 :: [4] ++ (2 :: [] ++ [5, 6])) :=
  have hr : Ring (build (Heap.init : Heap Nat) [1, 2, 3, 4, 5]).1 1 ([2] ++ (3 :: [4] ++ [5, 6])) :=
    by decide
  have t := transfer_resplices_run (build (Heap.init : Heap Nat) [1, 2, 3, 4, 5]).1 1 3 [2] [4]
    [5, 6] hr
  ⟨hr, t.2.2.1 [5, 6] [] rfl, t.2.1 [] [] 2 rfl⟩

/-! ## Ring consistency as an invariant -/

theorem chain_iterate {h : Heap α} :
    ∀ (l : List Nat) (a b : Nat), List.Chain' (Link h) (a :: l ++ [b]) →
      (h.next)^[l.length + 1] a = b
  | [], a, b, hc => by
      have : Link h a b := by simpa using hc
      simpa using this.1
  | c :: l, a, b, hc => by
      have hc' : List.Chain' (Link h) (a :: c :: (l ++ [b])) := by simpa using hc
      rw [List.chain'_cons] at hc'
      have ih := chain_iterate l c b hc'.2
      rw [List.length_cons, Function.iterate_succ_apply, hc'.1.1]
      exact ih

theorem chain_prev_next {h : Heap α} :
    ∀ (l : List Nat) (a : Nat), List.Chain' (Link h) (a :: l) →
      (∀ x ∈ (a :: l).dropLast, h.prev (h.next x) = x ∧ h.next x ∈ l) ∧
      (∀ x ∈ l, h.next (h.prev x) = x)
  | [], _, _ => by simp
  | b :: l, a, hc => by
      rw [List.chain'_cons] at hc
      obtain ⟨ih1, ih2⟩ := chain_prev_next l b hc.2
      constructor
      · intro x hx
        rw [List.dropLast_cons₂] at hx
        rcases List.mem_cons.mp hx with e | hx
        · subst e
          rw [hc.1.1]
          exact ⟨hc.1.2, List.mem_cons_self _ _⟩
        · exact ⟨(ih1 x hx).1, List.mem_cons_of_mem _ (ih1 x hx).2⟩
      · intro x hx
        rcases List.mem_cons.mp hx with e | hx
        · subst e; rw [hc.1.2, hc.1.1]
        · exact ih2 x hx

theorem ring_node_consistent {h : Heap α} {s : Nat} {ps : List Nat} (hr : Ring h s ps) :
    ∀ x ∈ s :: ps, h.prev (h.next x) = x ∧ h.next (h.prev x) = x ∧ h.next x ∈ s :: ps := by
  obtain ⟨k1, k2⟩ := chain_prev_next (ps ++ [s]) s hr.2
  have e : (s :: (ps ++ [s])).dropLast = s :: ps := by
    rw [← List.cons_append, List.dropLast_concat]
  rw [e] at k1
  intro x hx
  refine ⟨(k1 x hx).1, k2 x ?_, ?_⟩
  · simp only [List.mem_cons, List.mem_append, List.mem_singleton] at hx ⊢
    tauto
  · have := (k1 x hx).2
    simp only [List.mem_cons, List.mem_append, List.mem_singleton] at this ⊢
    tauto

/-- A well-linked ring is consistent in the sense of the data model. -/
theorem ring_consistent {h : Heap α} {s : Nat} {ps : List Nat} (hr : Ring h s ps) :
    Consistent h s := by
  refine ⟨⟨ps.length, chain_iterate ps s s (by simpa using hr.2)⟩, ?_⟩
  have hmem : ∀ k, (h.next)^[k] s ∈ s :: ps := by
    intro k
    induction k with
    | zero => simp
    | succ k ih =>
      rw [Function.iterate_succ_apply']
      exact (ring_node_consistent hr _ ih).2.2
  intro k
  exact ⟨(ring_node_consistent hr _ (hmem k)).1, (ring_node_consistent hr _ (hmem k)).2.1⟩

theorem iterate_cancel {h : Heap α} {s : Nat}
    (hc : ∀ k, h.prev (h.next ((h.next)^[k] s)) = (h.next)^[k] s) :
    ∀ (i j : Nat), (h.next)^[i] s = (h.next)^[i + j] s → s = (h.next)^[j] s
  | 0, j, e => by simpa using e
  | i + 1, j, e => by
      apply iterate_cancel hc i j
      have e' : h.next ((h.next)^[i] s) = h.next ((h.next)^[i + j] s) := by
        rw [← Function.iterate_succ_apply' h.next, ← Function.iterate_succ_apply' h.next]
        have : i + 1 + j = (i + j) + 1 := by omega
        rw [this] at e
        exact e
      have := congrArg h.prev e'
      rwa [hc i, hc (i + j)] at this

/-- A consistent sentinel is the sentinel of a well-linked ring: the nodes
met before the first return to the sentinel, in order. -/
theorem consistent_ring {h : Heap α} {s : Nat} (hc : Consistent h s) : ∃ ps, Ring h s ps := by
  classical
  obtain ⟨hex, hk⟩ := hc
  let m := Nat.find hex
  have hm : (h.next)^[m + 1] s = s := Nat.find_spec hex
  have hmin : ∀ k, k < m → (h.next)^[k + 1] s ≠ s := fun k hk => Nat.find_min hex hk
  refine ⟨(List.range m).map (fun k => (h.next)^[k + 1] s), ?_, ?_⟩
  · have e : s :: (List.range m).map (fun k => (h.next)^[k + 1] s)
        = (List.range (m + 1)).map (fun k => (h.next)^[k] s) := by
      rw [List.range_succ_eq_map, List.map_cons, List.map_map]
      rfl
    rw [e]
    apply List.Nodup.map_on _ (List.nodup_range _)
    intro i hi j hj eij
    rw [List.mem_range] at hi hj
    by_contra hne
    rcases Nat.lt_or_gt_of_ne hne with hlt | hlt
    · obtain ⟨d, rfl⟩ : ∃ d, j = i + (d + 1) := ⟨j - i - 1, by omega⟩
      have := iterate_cancel (fun k => (hk k).1) i (d + 1) eij
      exact hmin d (by omega) this.symm
    · obtain ⟨d, rfl⟩ : ∃ d, i = j + (d + 1) := ⟨i - j - 1, by omega⟩
      have := iterate_cancel (fun k => (hk k).1) j (d + 1) eij.symm
      exact hmin d (by omega) this.symm
  · have e : s :: ((List.range m).map (fun k => (h.next)^[k + 1] s) ++ [s])
        = (List.range (m + 1 + 1)).map (fun k => (h.next)^[k] s) := by
      rw [List.range_succ_eq_map, List.map_cons, List.map_map, List.range_succ, List.map_append]
      simp only [Function.iterate_zero, id_eq, List.map_cons, List.map_nil, Function.comp_apply,
        List.cons.injEq, true_and]
      rw [hm]
      rfl
    rw [e, List.chain'_map, List.chain'_range_succ]
    intro k _
    refine ⟨?_, ?_⟩
    · rw [Function.iterate_succ_apply']
    · rw [Function.iterate_succ_apply']
      exact (hk k).1

theorem destroyNode_next (h : Heap α) (p : Nat) : (destroyNode h p).next = h.next := rfl

theorem destroyNode_prev (h : Heap α) (p : Nat) : (destroyNode h p).prev = h.prev := rfl

theorem clearLoop_spec {s : Nat} :
    ∀ (post pre : List Nat) (h : Heap α) (fuel : Nat), Ring h s (pre ++ post) →
      post.length < fuel →
      ∃ h', clearLoop fuel h s (cursorAt s post) = some h' ∧ h'.next = h.next ∧
        h'.prev = h.prev ∧ h'.brk = h.brk ∧
        (∀ q, q ∉ post → h'.data q = h.data q ∧ h'.live q = h.live q) ∧
        (∀ q ∈ post, h'.data q = none ∧ h'.live q = false)
  | [], pre, h, fuel, _, hf => by
      cases fuel with
      | zero => omega
      | succ fuel =>
        exact ⟨h, by simp [clearLoop, cursorAt], rfl, rfl, rfl, fun _ _ => ⟨rfl, rfl⟩, by simp⟩
  | p :: post, pre, h, fuel, hr, hf => by
      cases fuel with
      | zero => omega
      | succ fuel =>
        have hne : p ≠ s := (ring_cursor_ne hr).mpr (by simp)
        have hnx : h.next p = cursorAt s post := (ring_mid hr).1
        have hr1 : Ring (destroyNode h p) s ((pre ++ [p]) ++ post) := by
          have : Ring h s ((pre ++ [p]) ++ post) := by simpa using hr
          exact ring_frame this (fun _ _ => ⟨rfl, rfl⟩)
        obtain ⟨h', e1, n1, p1, b1, k1, k2⟩ :=
          clearLoop_spec post (pre ++ [p]) (destroyNode h p) fuel hr1 (by simp at hf; omega)
        have hnd : p ∉ post := by
          have hnd := hr.1
          have h2 : (pre ++ p :: post).Nodup := (List.nodup_cons.mp hnd).2
          exact (List.nodup_cons.mp (List.nodup_append.mp h2).2.1).1
        refine ⟨h', ?_, n1, p1, b1, ?_, ?_⟩
        · rw [cursorAt_cons, clearLoop]
          simp only [ne_eq, hne, not_false_eq_true, ↓reduceIte, hnx]
          exact e1
        · intro q hq
          have hq1 : q ∉ post := fun hm => hq (List.mem_cons_of_mem _ hm)
          have hq2 : q ≠ p := fun e => hq (e ▸ List.mem_cons_self _ _)
          have := k1 q hq1
          simpa [destroyNode, deleteNode, Heap.setData, Heap.setLive, hq2] using this
        · intro q hq
          rcases List.mem_cons.mp hq with e | hm
          · subst e
            have := k1 q hnd
            simpa [destroyNode, deleteNode, Heap.setData, Heap.setLive] using this
          · exact k2 q hm

theorem clear_spec {h : Heap α} {s : Nat} {ps : List Nat} {xs : List α}
    (hl : IsList h s ps xs) (fuel : Nat) (hf : ps.length < fuel) :
    ∃ h', clear fuel h s = some h' ∧ IsList h' s [] [] ∧ h'.brk = h.brk ∧
      (∀ q, q ∉ ps → h'.data q = h.data q ∧ h'.live q = h.live q) ∧
      (∀ q ∈ ps, h'.data q = none ∧ h'.live q = false) := by
  have hr0 : Ring h s ([] ++ ps) := hl.1
  obtain ⟨h1, e1, n1, p1, b1, k1, k2⟩ := clearLoop_spec ps [] h fuel hr0 hf
  have hsp : s ∉ ps := (List.nodup_cons.mp hl.1.1).1
  refine ⟨(h1.setNext s s).setPrev s s, ?_, ⟨?_, ?_, rfl⟩, b1, k1, k2⟩
  · rw [clear, ring_next_sentinel hl.1, e1]
  · exact (ring_nil_iff _ _).mpr ⟨by simp [Heap.setPrev, Heap.setNext],
      by simp [Heap.setPrev, Heap.setNext]⟩
  · intro p hp
    have hp' : p = s := by simpa using hp
    subst hp'
    have := hl.2.1 p (List.mem_cons_self _ _)
    show p < h1.brk ∧ h1.live p = true
    rw [b1, (k1 p hsp).2]
    exact this

theorem pop_front_ring {h : Heap α} {s p : Nat} {post : List Nat}
    (hr : Ring h s (p :: post)) : Ring (pop_front h s) s post := by
  have h0 : Ring h s ([] ++ p :: post) := hr
  have := (erase_ring h0).1
  rw [pop_front, begin, ring_next_sentinel hr]
  exact this

theorem pop_back_ring {h : Heap α} {s p : Nat} {pre : List Nat}
    (hr : Ring h s (pre ++ [p])) : Ring (pop_back h s) s pre := by
  have := (erase_ring hr).1
  have hp : h.prev s = p := by
    have := (ring_mid hr).2
    rwa [cursorAt_nil] at this
  rw [pop_back, end_, hp]
  simpa using this

theorem unique_ring (eq : α → α → Bool) {h : Heap α} {s : Nat} {ps : List Nat} {xs : List α}
    (hl : IsList h s ps xs) (fuel : Nat) (hf : ps.length < fuel) :
    ∃ h' ps', unique eq fuel h s = some h' ∧ Ring h' s ps' := by
  unfold unique
  cases ps with
  | nil =>
    have he : empty h s = true := (ring_empty_iff hl.1).mpr rfl
    exact ⟨h, [], by simp [he], hl.1⟩
  | cons f post =>
    cases xs with
    | nil => have := isList_length hl; simp at this
    | cons a ys =>
      have he : empty h s = false := by
        have := (ring_empty_iff hl.1).not.mpr (by simp)
        simpa using this
      have hbeg : begin h s = f := ring_next_sentinel hl.1
      have hl0 : IsList h s ([] ++ f :: post) ([] ++ a :: ys) := by simpa using hl
      obtain ⟨h', e, hl', -, -⟩ :=
        uniqueLoop_spec eq post [] f [] a ys h fuel hl0 rfl (by simp at hf; omega)
      exact ⟨h', _, by simpa [he, hbeg, end_] using e, hl'.1⟩

theorem splice_one_rings {h : Heap α} {s t i : Nat} {pre post tp tq : List Nat}
    (hA : Ring h s (pre ++ post)) (hB : Ring h t (tp ++ i :: tq))
    (hd : ∀ x ∈ s :: (pre ++ post), x ∉ t :: (tp ++ i :: tq)) :
    Ring (splice_one h (cursorAt s post) t i) s (pre ++ i :: post) ∧
    Ring (splice_one h (cursorAt s post) t i) t (tp ++ tq) := by
  have hB' : Ring h t (tp ++ (i :: [] ++ tq)) := by simpa using hB
  have hd' : ∀ x ∈ s :: (pre ++ post), x ∉ t :: (tp ++ (i :: [] ++ tq)) := by
    simpa using hd
  have key := transfer_rings hA hB' hd'
  have hnx : h.next i = cursorAt t tq := (ring_mid hB).1
  have hpos : cursorAt s post ∈ s :: (pre ++ post) := by
    cases post with
    | nil => simp [cursorAt]
    | cons q post => simp [cursorAt]
  have hj : cursorAt t tq ∈ t :: (tp ++ i :: tq) := by
    cases tq with
    | nil => simp [cursorAt]
    | cons q tq => simp [cursorAt]
  have h1 : cursorAt s post ≠ i := fun e => hd _ hpos (by rw [e]; simp)
  have h2 : cursorAt s post ≠ cursorAt t tq := fun e => hd _ hpos (by rw [e]; exact hj)
  have e : splice_one h (cursorAt s post) t i = transfer h (cursorAt s post) i (cursorAt t tq) := by
    simp [splice_one, hnx, h1, h2]
  rw [e]
  exact ⟨by simpa using key.1, key.2.1⟩

theorem splice_range_rings {h : Heap α} {s t f : Nat} {pre post tp R tq : List Nat}
    (hA : Ring h s (pre ++ post)) (hB : Ring h t (tp ++ (f :: R ++ tq)))
    (hd : ∀ x ∈ s :: (pre ++ post), x ∉ t :: (tp ++ (f :: R ++ tq))) :
    Ring (splice_range h (cursorAt s post) t f (cursorAt t tq)) s (pre ++ f :: R ++ post) ∧
    Ring (splice_range h (cursorAt s post) t f (cursorAt t tq)) t (tp ++ tq) := by
  have key := transfer_rings hA hB hd
  have hne : f ≠ cursorAt t tq := by
    have : Ring h t (tp ++ f :: R ++ tq) := by simpa using hB
    exact ring_node_ne_cursor this
  have e : splice_range h (cursorAt s post) t f (cursorAt t tq)
      = transfer h (cursorAt s post) f (cursorAt t tq) := by
    simp [splice_range, hne]
  rw [e]
  exact ⟨key.1, key.2.1⟩

theorem mem_cursor_split {s pos : Nat} {tq : List Nat} (hpos : pos ∈ s :: tq) :
    ∃ mid post, tq = mid ++ post ∧ pos = cursorAt s post := by
  by_cases hq : pos ∈ tq
  · obtain ⟨mid, post, e⟩ := List.append_of_mem hq
    exact ⟨mid, pos :: post, e, rfl⟩
  · rcases List.mem_cons.mp hpos with e | hm
    · exact ⟨tq, [], by simp, by simp [cursorAt, e]⟩
    · exact absurd hm hq

/-- `splice(position, x, first, last)` with `x` the list itself: the range
`[first, last)` of the list is moved before a cursor `position` of the list
that is not in the range, and the list stays a ring of the same nodes. -/
theorem splice_range_self_ring {h : Heap α} {s pos : Nat} {tp R tq : List Nat}
    (hr : Ring h s (tp ++ R ++ tq)) (hpos : pos ∈ s :: (tp ++ tq)) :
    ∃ ps', Ring (splice_range h pos s (cursorAt s (R ++ tq)) (cursorAt s tq)) s ps' ∧
      ps'.Perm (tp ++ R ++ tq) := by
  cases R with
  | nil =>
    refine ⟨tp ++ [] ++ tq, ?_, List.Perm.refl _⟩
    have e : splice_range h pos s (cursorAt s ([] ++ tq)) (cursorAt s tq) = h := by
      simp [splice_range]
    rw [e]; exact hr
  | cons f R =>
    have hne : f ≠ cursorAt s tq := by
      have : Ring h s (tp ++ f :: R ++ tq) := by simpa using hr
      exact ring_node_ne_cursor this
    have e : splice_range h pos s (cursorAt s (f :: R ++ tq)) (cursorAt s tq)
        = transfer h pos f (cursorAt s tq) := by
      have : cursorAt s (f :: R ++ tq) = f := rfl
      rw [this]
      simp [splice_range, hne]
    rw [e]
    by_cases hp : pos ∈ tp
    · obtain ⟨pre, X, e1⟩ := List.append_of_mem hp
      subst e1
      have hr1 : Ring h s (pre ++ (pos :: X ++ f :: R ++ tq)) := by simpa using hr
      refine ⟨_, (transfer_ring_back hr1).1, ?_⟩
      have e2 : pre ++ f :: R ++ (pos :: X ++ tq) = pre ++ ((f :: R) ++ (pos :: X) ++ tq) := by
        simp
      have e3 : pre ++ pos :: X ++ f :: R ++ tq = pre ++ ((pos :: X) ++ (f :: R) ++ tq) := by
        simp
      rw [e2, e3]
      exact List.Perm.append_left _ (List.Perm.append_right _ List.perm_append_comm)
    · have hpos' : pos ∈ s :: tq := by
        simp only [List.mem_cons, List.mem_append] at hpos ⊢
        tauto
      obtain ⟨mid, post, e1, e2⟩ := mem_cursor_split hpos'
      subst e1 e2
      have hr1 : Ring h s (tp ++ (f :: R ++ mid ++ post)) := by simpa using hr
      refine ⟨_, transfer_ring_fwd hr1, ?_⟩
      have e2 : tp ++ mid ++ (f :: R ++ post) = tp ++ (mid ++ (f :: R) ++ post) := by simp
      have e3 : tp ++ f :: R ++ (mid ++ post) = tp ++ ((f :: R) ++ mid ++ post) := by simp
      rw [e2, e3]
      exact List.Perm.append_left _ (List.Perm.append_right _ List.perm_append_comm)

/-- `splice(position, x, i)` with `x` the list itself: the node `i` of the
list is moved before any cursor `position` of the list, and the list stays a
ring of the same nodes. -/
theorem splice_one_self_ring {h : Heap α} {s pos i : Nat} {ps : List Nat}
    (hr : Ring h s ps) (hi : i ∈ ps) (hpos : pos ∈ s :: ps) :
    ∃ ps', Ring (splice_one h pos s i) s ps' ∧ ps'.Perm ps := by
  obtain ⟨tp, tq, e⟩ := List.append_of_mem hi
  subst e
  have hnx : h.next i = cursorAt s tq := (ring_mid hr).1
  by_cases hg : pos = i ∨ pos = h.next i
  · refine ⟨_, ?_, List.Perm.refl _⟩
    have e : splice_one h pos s i = h := by simp [splice_one, hg]
    rw [e]; exact hr
  · have hr1 : Ring h s (tp ++ [i] ++ tq) := by simpa using hr
    have hne : i ≠ cursorAt s tq := by
      have : Ring h s (tp ++ i :: [] ++ tq) := by simpa using hr
      exact ring_node_ne_cursor this
    have hpos' : pos ∈ s :: (tp ++ tq) := by
      simp only [not_or] at hg
      simp only [List.mem_cons, List.mem_append] at hpos ⊢
      rcases hpos with e | e | e | e
      · exact Or.inl e
      · exact Or.inr (Or.inl e)
      · exact absurd e hg.1
      · exact Or.inr (Or.inr e)
    obtain ⟨ps', k1, k2⟩ := splice_range_self_ring hr1 hpos'
    refine ⟨ps', ?_, by simpa using k2⟩
    have e : splice_one h pos s i = splice_range h pos s (cursorAt s ([i] ++ tq)) (cursorAt s tq) := by
      show (if pos = i ∨ pos = h.next i then h else transfer h pos i (h.next i))
        = (if i ≠ cursorAt s tq then transfer h pos i (cursorAt s tq) else h)
      rw [if_neg hg, if_pos hne, hnx]
    rw [e]; exact k1

/-- `swap(x)` with `x` the list itself changes nothing. -/
theorem swap_self {h : Heap α} {s : Nat} {ps : List Nat} (hr : Ring h s ps) :
    swap h s s = h := by
  obtain ⟨a1, a2, a3, a4, a5, a6⟩ := ring_sentinel_facts hr
  apply heap_ext
  · funext x
    by_cases hn : h.next s = s
    · have hp : h.prev s = s := a4.mpr (a3.mp hn)
      by_cases hx : x = s <;>
        simp [swap, ListNodeBase.swap, Heap.setNext, Heap.setPrev, hn, hp, hx]
    · have hp : ¬ h.prev s = s := fun e => hn (a3.mpr (a4.mp e))
      have hp' : ¬ s = h.prev s := fun e => hp e.symm
      have hn' : ¬ s = h.next s := fun e => hn e.symm
      by_cases hx : x = s
      · subst hx
        simp [swap, ListNodeBase.swap, Heap.setNext, Heap.setPrev, hn, hp, hp', hn', a5, a6]
      · by_cases hx2 : x = h.prev s
        · subst hx2
          simp [swap, ListNodeBase.swap, Heap.setNext, Heap.setPrev, hn, hp, hp', hn', a5, a6]
        · simp [swap, ListNodeBase.swap, Heap.setNext, Heap.setPrev, hn, hp, hp', hn', a5, a6,
            hx, hx2]
  · funext x
    by_cases hn : h.next s = s
    · have hp : h.prev s = s := a4.mpr (a3.mp hn)
      by_cases hx : x = s <;>
        simp [swap, ListNodeBase.swap, Heap.setNext, Heap.setPrev, hn, hp, hx]
    · have hp : ¬ h.prev s = s := fun e => hn (a3.mpr (a4.mp e))
      have hp' : ¬ s = h.prev s := fun e => hp e.symm
      have hn' : ¬ s = h.next s := fun e => hn e.symm
      by_cases hx : x = s
      · subst hx
        simp [swap, ListNodeBase.swap, Heap.setNext, Heap.setPrev, hn, hp, hp', hn', a5, a6]
      · by_cases hx2 : x = h.next s
        · subst hx2
          simp [swap, ListNodeBase.swap, Heap.setNext, Heap.setPrev, hn, hp, hp', hn', a5, a6]
        · simp [swap, ListNodeBase.swap, Heap.setNext, Heap.setPrev, hn, hp, hp', hn', a5, a6,
            hx, hx2]
  · exact swap_data h s s
  · exact swap_live h s s
  · exact swap_brk h s s

/-- C20: Ring consistency is an invariant of the container.  A freshly
constructed list is a sentinel linked to itself, and from every well-formed
list each mutator called within its preconditions, `insert`, `push_front`,
`push_back`, `erase`, `pop_front`, `pop_back`, `clear`, `resize`, `remove`,
`unique`, the three `splice` overloads, `merge`, `reverse`, `sort` and `swap`,
returns and leaves every list involved consistent: every node `x` reachable
from the sentinel has `x.next.prev == x` and `x.prev.next == x`, and the
sentinel is reached again after finitely many `_next` steps.  The operations
that take a list argument are covered for every second well-formed list `t`
disjoint from the first; `splice(position, x, i)` and `splice(position, x,
first, last)` also with `x` the list itself, for every node `i` and every
range `[first, last)` of the list and every cursor `position` of the list
outside the range, and `swap` also with the list itself. -/
theorem ring_consistency_invariant (lt eq : α → α → Bool) (h : Heap α) (s : Nat)
    (ps : List Nat) (xs : List α) (fuel : Nat)
    (hA : IsList h s ps xs) (hlen : ps.length < 2 ^ 64) (hf : 2 * ps.length + 66 ≤ fuel) :
    Consistent h s ∧
    (∀ h0 : Heap α, (initList h0).1.next (initList h0).2 = (initList h0).2 ∧
      (initList h0).1.prev (initList h0).2 = (initList h0).2 ∧
      Consistent (initList h0).1 (initList h0).2) ∧
    (∀ (pre post : List Nat) (x : α), ps = pre ++ post →
      Consistent (insert h (cursorAt s post) x).1 s) ∧
    (∀ x : α, Consistent (push_front h s x) s ∧ Consistent (push_back h s x) s) ∧
    (∀ (pre post : List Nat) (p : Nat), ps = pre ++ p :: post → Consistent (erase h p).1 s) ∧
    (ps ≠ [] → Consistent (pop_front h s) s ∧ Consistent (pop_back h s) s) ∧
    (∃ h', clear fuel h s = some h' ∧ Consistent h' s) ∧
    (∀ (n : Nat) (val : α), ∃ h', resize fuel h s n val = some h' ∧ Consistent h' s) ∧
    (∀ v : α, ∃ h', remove eq fuel h s v = some h' ∧ Consistent h' s) ∧
    (∃ h', unique eq fuel h s = some h' ∧ Consistent h' s) ∧
    (∃ h', reverse fuel h s = some h' ∧ Consistent h' s) ∧
    (∃ h', sort lt fuel h s = some h' ∧ Consistent h' s) ∧
    (∀ (t : Nat) (qs : List Nat) (ys : List α), IsList h t qs ys →
      (∀ x ∈ s :: ps, x ∉ t :: qs) →
      (∀ (pre post : List Nat), ps = pre ++ post →
        Consistent (splice h (cursorAt s post) t) s ∧
        Consistent (splice h (cursorAt s post) t) t) ∧
      (∀ (pre post tp tq : List Nat) (i : Nat), ps = pre ++ post → qs = tp ++ i :: tq →
        Consistent (splice_one h (cursorAt s post) t i) s ∧
        Consistent (splice_one h (cursorAt s post) t i) t) ∧
      (∀ (pre post tp R tq : List Nat) (f : Nat), ps = pre ++ post →
        qs = tp ++ (f :: R ++ tq) →
        Consistent (splice_range h (cursorAt s post) t f (cursorAt t tq)) s ∧
        Consistent (splice_range h (cursorAt s post) t f (cursorAt t tq)) t) ∧
      (∀ fuel2 : Nat, ps.length + qs.length < fuel2 →
        ∃ h', merge lt fuel2 h s t = some h' ∧ Consistent h' s ∧ Consistent h' t) ∧
      (Consistent (swap h s t) s ∧ Consistent (swap h s t) t)) ∧
    (∀ i position : Nat, i ∈ ps → position ∈ s :: ps →
      Consistent (splice_one h position s i) s) ∧
    (∀ (tp R tq : List Nat) (position : Nat), ps = tp ++ R ++ tq →
      position ∈ s :: (tp ++ tq) →
      Consistent (splice_range h position s (cursorAt s (R ++ tq)) (cursorAt s tq)) s) ∧
    Consistent (swap h s s) s := by
  have hfresh : h.brk ∉ s :: ps := fun hm => by
    have := (hA.2.1 _ hm).1; omega
  have hlx := isList_length hA
  refine ⟨ring_consistent hA.1, ?_, ?_, ?_, ?_, ?_, ?_, ?_, ?_, ?_, ?_, ?_, ?_, ?_, ?_, ?_⟩
  · intro h0
    have hr := initList_ring h0
    exact ⟨((ring_nil_iff _ _).mp hr).1, ((ring_nil_iff _ _).mp hr).2, ring_consistent hr⟩
  · intro pre post x e
    subst e
    exact ring_consistent (insert_ring x hA.1 hfresh)
  · intro x
    constructor
    · have hr : Ring h s ([] ++ ps) := hA.1
      have := insert_ring x hr (by simpa using hfresh)
      rw [← ring_next_sentinel hA.1] at this
      exact ring_consistent this
    · have hr : Ring h s (ps ++ []) := by simpa using hA.1
      have := insert_ring x hr (by simpa using hfresh)
      exact ring_consistent this
  · intro pre post p e
    subst e
    exact ring_consistent (erase_ring hA.1).1
  · intro hne
    constructor
    · cases ps with
      | nil => exact absurd rfl hne
      | cons p post => exact ring_consistent (pop_front_ring hA.1)
    · rcases List.eq_nil_or_concat ps with e | ⟨pre, p, e⟩
      · exact absurd e hne
      · rw [List.concat_eq_append] at e
        subst e
        exact ring_consistent (pop_back_ring hA.1)
  · obtain ⟨h', e, i, -⟩ := clear_spec hA fuel (by omega)
    exact ⟨h', e, ring_consistent i.1⟩
  · intro n val
    obtain ⟨h', e, i, -⟩ := resize_spec hA n val fuel (by omega)
    exact ⟨h', e, ring_consistent i.1⟩
  · intro v
    have hl0 : IsList h s ([] ++ ps) ([] ++ xs) := by simpa using hA
    obtain ⟨h', e, i, -⟩ := removeLoop_spec eq v ps [] [] xs h fuel hl0 rfl (by omega)
    refine ⟨h', ?_, ring_consistent i.1⟩
    unfold remove begin end_
    rw [ring_next_sentinel hA.1]; exact e
  · obtain ⟨h', ps', e, r⟩ := unique_ring eq hA fuel (by omega)
    exact ⟨h', e, ring_consistent r⟩
  · obtain ⟨h', e, r, -⟩ := reverse_ring hA.1 fuel (by omega)
    exact ⟨h', e, ring_consistent r⟩
  · obtain ⟨h', r, e, -, hr, -⟩ := sort_refines lt h s ps fuel hA.1 (fun p hp => (hA.2.1 p hp).1)
      (isSome_of_vals hA.2.2) hlen (by omega)
    exact ⟨h', e, ring_consistent hr⟩
  · intro t qs ys hB hd
    refine ⟨?_, ?_, ?_, ?_, ?_⟩
    · intro pre post e
      subst e
      obtain ⟨r1, r2, -⟩ := splice_ring hA.1 hB.1 hd
      exact ⟨ring_consistent r1, ring_consistent r2⟩
    · intro pre post tp tq i e1 e2
      subst e1 e2
      obtain ⟨r1, r2⟩ := splice_one_rings hA.1 hB.1 hd
      exact ⟨ring_consistent r1, ring_consistent r2⟩
    · intro pre post tp R tq f e1 e2
      subst e1 e2
      obtain ⟨r1, r2⟩ := splice_range_rings hA.1 hB.1 hd
      exact ⟨ring_consistent r1, ring_consistent r2⟩
    · intro fuel2 hf2
      have hs : ∀ p ∈ ps ++ qs, (h.data p).isSome = true := by
        intro p hp
        rcases List.mem_append.mp hp with hp | hp
        · exact isSome_of_vals hA.2.2 p hp
        · exact isSome_of_vals hB.2.2 p hp
      obtain ⟨h', e, r1, r2, -⟩ := merge_ring lt hA.1 hB.1 hd hs fuel2 hf2
      exact ⟨h', e, ring_consistent r1, ring_consistent r2⟩
    · obtain ⟨r1, r2, -⟩ := swap_ring hA.1 hB.1 hd
      exact ⟨ring_consistent r1, ring_consistent r2⟩
  · intro i position hi hpos
    obtain ⟨ps', r, -⟩ := splice_one_self_ring hA.1 hi hpos
    exact ring_consistent r
  · intro tp R tq position e hpos
    subst e
    obtain ⟨ps', r, -⟩ := splice_range_self_ring hA.1 hpos
    exact ring_consistent r
  · rw [swap_self hA.1]
    exact ring_consistent hA.1

theorem ring_consistency_invariant_witness :
    IsList (build (build (Heap.init : Heap Nat) [3, 1, 2]).1 [10, 20]).1 1 [2, 3, 4] [3, 1, 2] ∧
    IsList (build (build (Heap.init : Heap Nat) [3, 1, 2]).1 [10, 20]).1 5 [6, 7] [10, 20] ∧
    Consistent (build (build (Heap.init : Heap Nat) [3, 1, 2]).1 [10, 20]).1 1 ∧
    Consistent (erase (build (build (Heap.init : Heap Nat) [3, 1, 2]).1 [10, 20]).1 3).1 1 ∧
    (∃ h', sort natLt 80 (build (build (Heap.init : Heap Nat) [3, 1, 2]).1 [10, 20]).1 1 = some h' ∧
      Consistent h' 1) ∧
    Consistent (swap (build (build (Heap.init : Heap Nat) [3, 1, 2]).1 [10, 20]).1 1 5) 5 ∧
    (∃ h', merge natLt 6 (build (build (Heap.init : Heap Nat) [3, 1, 2]).1 [10, 20]).1 1 5
      = some h' ∧ Consistent h' 1 ∧ Consistent h' 5) ∧
    Consistent (splice_one (build (build (Heap.init : Heap Nat) [3, 1, 2]).1 [10, 20]).1 2 1 4) 1 ∧
    Consistent (splice_range (build (build (Heap.init : Heap Nat) [3, 1, 2]).1 [10, 20]).1 1 1
      (cursorAt 1 ([2, 3] ++ [4])) (cursorAt 1 [4])) 1 :=
  have hA : IsList (build (build (Heap.init : Heap Nat) [3, 1, 2]).1 [10, 20]).1 1 [2, 3, 4]
      [3, 1, 2] := by decide
  have hB : IsList (build (build (Heap.init : Heap Nat) [3, 1, 2]).1 [10, 20]).1 5 [6, 7]
      [10, 20] := by decide
  have t := ring_consistency_invariant natLt (fun a b => a == b)
    (build (build (Heap.init : Heap Nat) [3, 1, 2]).1 [10, 20]).1 1 [2, 3, 4]
    [3, 1, 2] 80 hA (by decide) (by decide)
  have u := t.2.2.2.2.2.2.2.2.2.2.2.2.1 5 [6, 7] [10, 20] hB (by decide)
  ⟨hA, hB, t.1, t.2.2.2.2.1 [2] [4] 3 rfl, t.2.2.2.2.2.2.2.2.2.2.2.1,
    u.2.2.2.2.2, u.2.2.2.1 6 (by decide),
    t.2.2.2.2.2.2.2.2.2.2.2.2.2.1 4 2 (by decide) (by decide),
    t.2.2.2.2.2.2.2.2.2.2.2.2.2.2.1 [] [2, 3] [4] 1 rfl (by decide)⟩

/-! ## Degenerate calls of `transfer` -/

/-- `transfer` with `position == first` on the run `[3, end())` of the list
built from `[1, 2, 3]` (sentinel 1, nodes 2, 3, 4), and with the empty range
at node 4 and `position` at node 2: in the first case the successor of node 4
becomes node 3, whose `_prev` is node 2, so the ring is broken, also when the
call comes through `splice(position, x, first, last)`; in the second the
sentinel is left in a ring with node 4 alone. -/
theorem transfer_degenerate_breaks_ring :
    Ring (build (Heap.init : Heap Nat) [1, 2, 3]).1 1 [2, 3, 4] ∧
    ¬ Ring (transfer (build (Heap.init : Heap Nat) [1, 2, 3]).1 3 3 1) 1 [2, 3, 4] ∧
    (transfer (build (Heap.init : Heap Nat) [1, 2, 3]).1 3 3 1).next 4 = 3 ∧
    (transfer (build (Heap.init : Heap Nat) [1, 2, 3]).1 3 3 1).prev 3 = 2 ∧
    ¬ Ring (splice_range (build (Heap.init : Heap Nat) [1, 2, 3]).1 3 1 3 1) 1 [2, 3, 4] ∧
    ¬ Ring (transfer (build (Heap.init : Heap Nat) [1, 2, 3]).1 2 4 4) 1 [2, 3, 4] ∧
    Ring (transfer (build (Heap.init : Heap Nat) [1, 2, 3]).1 2 4 4) 1 [4] := by
  decide

theorem transfer_first_next (h : Heap α) (p l : Nat) (hpl : p ≠ l) :
    (transfer h p p l).next (h.prev l) = p := by
  rw [transfer_next h p p l _ hpl]
  by_cases e : h.prev l = h.prev p <;> simp [e]

theorem transfer_first_prev (h : Heap α) (p l : Nat) (hpl : p ≠ l) :
    (transfer h p p l).prev p = h.prev p := by
  simp [transfer, Heap.setNext, Heap.setPrev, hpl]

theorem transfer_first_next_frame (h : Heap α) (p l x : Nat) (hp : h.next (h.prev p) = p)
    (hx : x ≠ h.prev l) : (transfer h p p l).next x = h.next x := by
  by_cases hpl : p = l
  · simp [transfer, hpl]
  · rw [transfer_next h p p l _ hpl]
    by_cases e : x = h.prev p
    · simp [e, hp]
    · simp [e, hx]

theorem transfer_empty_next (h : Heap α) (q f : Nat) (hqf : q ≠ f) :
    (transfer h q f f).next (h.prev q) = f := by
  rw [transfer_next h q f f _ hqf]
  simp

theorem chain_iterate_of_eq {h : Heap α} (g : Nat → Nat) :
    ∀ (l : List Nat) (a b : Nat), List.Chain' (Link h) (a :: l ++ [b]) →
      (∀ x ∈ a :: l, g x = h.next x) → g^[l.length + 1] a = b
  | [], a, b, hc, hg => by
      have : Link h a b := by simpa using hc
      simpa [hg a (by simp)] using this.1
  | c :: l, a, b, hc, hg => by
      have hc' : List.Chain' (Link h) (a :: c :: (l ++ [b])) := by simpa using hc
      rw [List.chain'_cons] at hc'
      have ih := chain_iterate_of_eq g l c b hc'.2 (fun x hx => hg x (List.mem_cons_of_mem _ hx))
      rw [List.length_cons, Function.iterate_succ_apply, hg a (by simp), hc'.1.1]
      exact ih

theorem prev_mem_ring {h : Heap α} {s : Nat} {ps : List Nat} (hr : Ring h s ps) {x : Nat}
    (hx : x ∈ s :: ps) : h.prev x ∈ s :: ps := by
  rcases List.mem_cons.mp hx with e | hx
  · subst e
    exact (ring_sentinel_facts hr).2.1
  · obtain ⟨pre, post, e⟩ := List.append_of_mem hx
    subst e
    have k := (ring_prev_cursor hr).1
    rw [cursorAt_cons] at k
    rw [k]
    have := List.getLast_mem (List.cons_ne_nil s pre)
    simp only [List.mem_cons, List.mem_append] at this ⊢
    tauto

/-- A call `transfer(first, first, last)` on a non-empty range `[first, last)`
of a well-formed ring leaves the node before `last` with `first` as its
successor, while the predecessor of `first` is still the node before the
range: the list is not consistent any more. -/
theorem transfer_first_inconsistent {h : Heap α} {s p : Nat} {pre run post : List Nat}
    (hr : Ring h s (pre ++ (p :: run ++ post))) :
    ¬ Consistent (transfer h p p (cursorAt s post)) s := by
  intro hc
  have hr1 : Ring h s (pre ++ p :: run ++ post) := by simpa using hr
  have hpl : p ≠ cursorAt s post := ring_node_ne_cursor hr1
  -- the node before `last`
  obtain ⟨ini, z, ez⟩ : ∃ ini z, p :: run = ini ++ [z] := by
    rcases List.eq_nil_or_concat (p :: run) with e | ⟨ini, z, e⟩
    · simp at e
    · exact ⟨ini, z, by rw [e, List.concat_eq_append]⟩
  have hr2 : Ring h s ((pre ++ ini) ++ z :: post) := by
    have e1 : p :: run ++ post = ini ++ [z] ++ post := by rw [← ez]
    have : pre ++ (p :: run ++ post) = (pre ++ ini) ++ z :: post := by
      rw [e1]; simp
    rw [← this]; exact hr
  have hz := ring_mid hr2
  have hpz : h.prev (cursorAt s post) = z := hz.2
  have hpp : h.next (h.prev p) = p := by
    have := (ring_node_consistent hr p (by simp)).2.1
    exact this
  -- `z` is reached from the sentinel
  have hnd := hr2.1
  have hchain : List.Chain' (Link h) (s :: (pre ++ ini) ++ [z]) := by
    have h1 : List.Chain' (Link h) ((s :: (pre ++ ini)) ++ z :: (post ++ [s])) := by
      simpa using hr2.2
    exact (List.chain'_split.mp h1).1
  have hreach : ((transfer h p p (cursorAt s post)).next)^[(pre ++ ini).length + 1] s = z := by
    apply chain_iterate_of_eq _ _ _ _ hchain
    intro x hx
    apply transfer_first_next_frame h p _ x hpp
    rw [hpz]
    rintro rfl
    have : (s :: ((pre ++ ini) ++ x :: post)).Nodup := hnd
    rw [← List.cons_append, List.nodup_append] at this
    exact this.2.2 hx (by simp)
  have h1 := (hc.2 ((pre ++ ini).length + 1)).1
  rw [hreach] at h1
  have h2 := transfer_first_next h p (cursorAt s post) hpl
  rw [hpz] at h2
  rw [h2, transfer_first_prev h p _ hpl] at h1
  -- the predecessors of `first` and of `last` differ
  have : h.next z = p := by rw [← h1]; exact hpp
  rw [hz.1] at this
  exact hpl this.symm

/-- C19 (amended): of the degenerate calls, `transfer` itself handles only
`position == last`, which includes the empty range at `position`
(`position == first == last`): it returns the heap unchanged.  The `splice`
overloads keep some of the others from `transfer`: `splice(position, x, first,
last)` with `first == last`, `splice(position, x)` with `x` empty and
`splice(position, x, i)` with `position == i` or `position == i + 1` return
without relinking, so every well-formed ring stays as it was.  The remaining
degenerate calls are not relinked correctly: `transfer` with
`position == first` and `last != first`, `last` a cursor of the ring, and
`transfer` with an empty range `first == last != position`, `position` a
cursor of the ring, never leave the ring with its element order unchanged;
and `splice(position, x, first, last)` with `position == first` on a non-empty
range `[first, last)` of the ring is not guarded: it is that call of
`transfer`, after which the node before `last` has `first` as its successor
while the predecessor of `first` is still the node before the range, so that
the list is not consistent and is no well-formed ring of any nodes. -/
theorem transfer_degenerate_guarded (h : Heap α) (s : Nat) (ps : List Nat)
    (hr : Ring h s ps) :
    (∀ fi l : Nat, transfer h l fi l = h ∧ Ring (transfer h l fi l) s ps) ∧
    (∀ position x fi : Nat, splice_range h position x fi fi = h ∧
      Ring (splice_range h position x fi fi) s ps) ∧
    (∀ position x : Nat, empty h x = true → splice h position x = h ∧
      Ring (splice h position x) s ps) ∧
    (∀ position x i : Nat, position = i ∨ position = h.next i →
      splice_one h position x i = h ∧ Ring (splice_one h position x i) s ps) ∧
    (∀ fi l : Nat, l ∈ s :: ps → fi ≠ l → ¬ Ring (transfer h fi fi l) s ps) ∧
    (∀ position fi : Nat, position ∈ s :: ps → position ≠ fi →
      ¬ Ring (transfer h position fi fi) s ps) ∧
    (∀ (pre run post : List Nat) (fi x : Nat), ps = pre ++ (fi :: run ++ post) →
      splice_range h fi x fi (cursorAt s post) = transfer h fi fi (cursorAt s post) ∧
      (splice_range h fi x fi (cursorAt s post)).next (h.prev (cursorAt s post)) = fi ∧
      (splice_range h fi x fi (cursorAt s post)).prev fi = h.prev fi ∧
      h.prev fi ≠ h.prev (cursorAt s post) ∧
      ¬ Consistent (splice_range h fi x fi (cursorAt s post)) s ∧
      ∀ qs : List Nat, ¬ Ring (splice_range h fi x fi (cursorAt s post)) s qs) := by
  refine ⟨?_, ?_, ?_, ?_, ?_, ?_, ?_⟩
  · intro fi l
    have e : transfer h l fi l = h := by simp [transfer]
    rw [e]; exact ⟨rfl, hr⟩
  · intro position x fi
    have e : splice_range h position x fi fi = h := by simp [splice_range]
    rw [e]; exact ⟨rfl, hr⟩
  · intro position x he
    have e : splice h position x = h := by simp [splice, he]
    rw [e]; exact ⟨rfl, hr⟩
  · intro position x i hp
    have e : splice_one h position x i = h := by simp [splice_one, hp]
    rw [e]; exact ⟨rfl, hr⟩
  · intro fi l hl hne hr'
    have hpl := (ring_node_consistent hr l hl).2.1
    have hm : h.prev l ∈ s :: ps := prev_mem_ring hr hl
    have e := (ring_links_eq hr hr' (h.prev l) hm).1
    rw [transfer_first_next h fi l hne, hpl] at e
    exact hne e
  · intro position fi hq hne hr'
    have hpq := (ring_node_consistent hr position hq).2.1
    have hm : h.prev position ∈ s :: ps := prev_mem_ring hr hq
    have e := (ring_links_eq hr hr' (h.prev position) hm).1
    rw [transfer_empty_next h position fi hne, hpq] at e
    exact hne e.symm
  · intro pre run post fi x e
    subst e
    have hr1 : Ring h s (pre ++ fi :: run ++ post) := by simpa using hr
    have hne : fi ≠ cursorAt s post := ring_node_ne_cursor hr1
    have e : splice_range h fi x fi (cursorAt s post) = transfer h fi fi (cursorAt s post) := by
      simp [splice_range, hne]
    rw [e]
    have hl : cursorAt s post ∈ s :: (pre ++ (fi :: run ++ post)) := by
      cases post with
      | nil => simp [cursorAt]
      | cons q post => simp [cursorAt]
    have hpp : h.next (h.prev fi) = fi := (ring_node_consistent hr fi (by simp)).2.1
    have hpl : h.next (h.prev (cursorAt s post)) = cursorAt s post :=
      (ring_node_consistent hr _ hl).2.1
    refine ⟨rfl, transfer_first_next h fi _ hne, transfer_first_prev h fi _ hne, ?_,
      transfer_first_inconsistent hr,
      fun qs hq => transfer_first_inconsistent hr (ring_consistent hq)⟩
    intro e
    rw [e, hpl] at hpp
    exact hne hpp.symm

theorem transfer_degenerate_guarded_witness :
    Ring (build (Heap.init : Heap Nat) [1, 2, 3]).1 1 [2, 3, 4] ∧
    Ring (transfer (build (Heap.init : Heap Nat) [1, 2, 3]).1 3 3 3) 1 [2, 3, 4] ∧
    Ring (splice_range (build (Heap.init : Heap Nat) [1, 2, 3]).1 2 1 4 4) 1 [2, 3, 4] ∧
    Ring (splice_one (build (Heap.init : Heap Nat) [1, 2, 3]).1 3 1 3) 1 [2, 3, 4] ∧
    ¬ Ring (transfer (build (Heap.init : Heap Nat) [1, 2, 3]).1 2 4 4) 1 [2, 3, 4] ∧
    ¬ Consistent (splice_range (build (Heap.init : Heap Nat) [1, 2, 3]).1 3 1 3 (cursorAt 1 [])) 1 :=
  have hr : Ring (build (Heap.init : Heap Nat) [1, 2, 3]).1 1 [2, 3, 4] := by decide
  have t := transfer_degenerate_guarded (build (Heap.init : Heap Nat) [1, 2, 3]).1 1 [2, 3, 4] hr
  ⟨hr, (t.1 3 3).2, (t.2.1 2 1 4).2, (t.2.2.2.1 3 1 3 (Or.inl rfl)).2,
    t.2.2.2.2.2.1 2 4 (by decide) (by decide),
    (t.2.2.2.2.2.2 [2] [4] [] 3 1 rfl).2.2.2.2.1⟩

/-! ## Relational operators of reverse iterators -/

/-- `operator>=` on reverse iterators holds for every pair. -/
theorem reverse_iterator_ge_always (lhs rhs : reverse_iterator) :
    reverse_iterator.ge lhs rhs = true := by
  simp [reverse_iterator.ge]

/-- `operator<=` on reverse iterators is the negation of `operator>`, and
holds exactly when `lhs.base() >= rhs.base()`. -/
theorem reverse_iterator_le_consistent (lhs rhs : reverse_iterator) :
    reverse_iterator.le lhs rhs = !reverse_iterator.gt lhs rhs ∧
    (reverse_iterator.le lhs rhs = true ↔ rhs.base ≤ lhs.base) := by
  constructor
  · by_cases hc : lhs.base < rhs.base
    · have : ¬ rhs.base ≤ lhs.base := by omega
      simp [reverse_iterator.le, reverse_iterator.gt, hc, this]
    · have : rhs.base ≤ lhs.base := by omega
      simp [reverse_iterator.le, reverse_iterator.gt, hc, this]
  · simp [reverse_iterator.le]

/-- `operator>=` on reverse iterators differs from the negation of
`operator<` exactly on the pairs with `lhs.base() > rhs.base()`. -/
theorem reverse_iterator_ge_differs (lhs rhs : reverse_iterator) :
    reverse_iterator.ge lhs rhs ≠ (!reverse_iterator.lt lhs rhs) ↔ rhs.base < lhs.base := by
  simp [reverse_iterator.ge, reverse_iterator.lt]

/-- C23: `operator>=` on reverse iterators is not the negation of
`operator<`.  For `lhs` over the address 2 and `rhs` over the address 1 of one
array, `lhs < rhs` holds (its base is the greater one), and `lhs >= rhs` holds
as well, although `lhs.base() <= rhs.base()` is false; `lhs <= rhs` is the
negation of `lhs > rhs` there. -/
theorem reverse_iterator_ge_ignores_rhs :
    reverse_iterator.lt ⟨2⟩ ⟨1⟩ = true ∧ reverse_iterator.ge ⟨2⟩ ⟨1⟩ = true ∧
    reverse_iterator.ge ⟨2⟩ ⟨1⟩ ≠ (!reverse_iterator.lt ⟨2⟩ ⟨1⟩) ∧
    ¬ ((⟨2⟩ : reverse_iterator).base ≤ (⟨1⟩ : reverse_iterator).base) ∧
    reverse_iterator.le ⟨2⟩ ⟨1⟩ = (!reverse_iterator.gt ⟨2⟩ ⟨1⟩) := by
  decide

/-! ## Stability of `sort` and `merge` -/

/-- In the merge of an ascending left run with any right run, a left element
stands before every right element that is not less than it. -/
theorem merge_left_first {β : Type} {le : β → β → Bool} :
    ∀ (pa pb : List β), pa.Pairwise (fun a b => le a b = true) →
      (∀ a ∈ pa, ∀ x ∈ pa, ∀ b ∈ pb, le a x = true → le x b = true → le a b = true) →
      ∀ x ∈ pa, ∀ y ∈ pb, le x y = true → List.Sublist [x, y] (List.merge pa pb le)
  | [], _, _, _, x, hx, _, _, _ => by simp at hx
  | _ :: _, [], _, _, _, _, y, hy, _ => by simp at hy
  | a :: l, b :: m, hs, htr, x, hx, y, hy, hxy => by
      rw [List.cons_merge_cons]
      have hs' := List.pairwise_cons.mp hs
      by_cases hab : le a b = true
      · simp only [hab, ↓reduceIte]
        rcases List.mem_cons.mp hx with e | hxl
        · subst e
          exact List.Sublist.cons₂ _
            (List.singleton_sublist.mpr (List.mem_merge.mpr (Or.inr hy)))
        · exact List.Sublist.cons _ (merge_left_first l (b :: m) hs'.2
            (fun a' ha' x' hx' b' hb' =>
              htr a' (List.mem_cons_of_mem _ ha') x' (List.mem_cons_of_mem _ hx') b' hb')
            x hxl y hy hxy)
      · simp only [hab, Bool.false_eq_true, ↓reduceIte]
        rcases List.mem_cons.mp hy with e | hym
        · subst e
          exfalso
          rcases List.mem_cons.mp hx with e | hxl
          · subst e; exact hab hxy
          · exact hab (htr a (List.mem_cons_self _ _) x hx y (List.mem_cons_self _ _)
              (hs'.1 x hxl) hxy)
        · exact List.Sublist.cons _ (merge_left_first (a :: l) m hs
            (fun a' ha' x' hx' b' hb' => htr a' ha' x' hx' b' (List.mem_cons_of_mem _ hb'))
            x hx y hym hxy)

theorem leAt_trans_nodes {lt : α → α → Bool} (hw : StrictWeak lt) {h : Heap α} {p q r : Nat}
    (hp : (h.data p).isSome = true) (hq : (h.data q).isSome = true)
    (hr : (h.data r).isSome = true) (h1 : leAt lt h p q = true) (h2 : leAt lt h q r = true) :
    leAt lt h p r = true := by
  obtain ⟨x, hx⟩ := Option.isSome_iff_exists.mp hp
  obtain ⟨y, hy⟩ := Option.isSome_iff_exists.mp hq
  obtain ⟨z, hz⟩ := Option.isSome_iff_exists.mp hr
  rw [leAt_of_data hx hy] at h1
  rw [leAt_of_data hy hz] at h2
  rw [leAt_of_data hx hz]
  exact leOf_trans hw x y z h1 h2

/-- C22: `sort()` is stable.  For a strict weak `operator<` and fewer than
`2^64` elements, `sort()` returns with the same nodes carrying the same
payloads, ordered as the stable sort of the input orders them: any nodes that
stood in some order in the input and of which none is less than an earlier one,
in particular any nodes with equivalent payloads, stand in the same order
afterwards.  This rests on `merge()`: merging into an ascending `*this`, every
node of `*this` ends before every node of the argument that is not less than
it, so before the equivalent ones. -/
theorem sort_stable (lt : α → α → Bool) (hw : StrictWeak lt) (h : Heap α) (s : Nat)
    (ps : List Nat) (xs : List α) (fuel : Nat)
    (hl : IsList h s ps xs) (hlen : ps.length < 2 ^ 64) (hf : 2 * ps.length + 66 ≤ fuel) :
    (∃ h' ps' xs', sort lt fuel h s = some h' ∧ IsList h' s ps' xs' ∧ ps'.Perm ps ∧
      h'.data = h.data ∧ ps' = stableSort (leAt lt h) ps ∧ xs' = stableSort (leOf lt) xs ∧
      (∀ c : List Nat, List.Sublist c ps → c.Pairwise (fun p q => ltAt lt h q p = false) →
        List.Sublist c ps') ∧
      (∀ p q : Nat, List.Sublist [p, q] ps → ltAt lt h p q = false → ltAt lt h q p = false →
        List.Sublist [p, q] ps')) ∧
    (∀ (t : Nat) (pb : List Nat) (xb : List α), IsList h t pb xb →
      (∀ x ∈ s :: ps, x ∉ t :: pb) → Ascending lt xs → ps.length + pb.length < fuel →
      ∃ hm, merge lt fuel h s t = some hm ∧
        IsList hm s (List.merge ps pb (leAt lt h)) (List.merge xs xb (leOf lt)) ∧
        ∀ p ∈ ps, ∀ q ∈ pb, ltAt lt h q p = false →
          List.Sublist [p, q] (List.merge ps pb (leAt lt h))) := by
  have hlx := isList_length hl
  constructor
  · obtain ⟨h1, ps1, xs1, e1, n1, m1, i1, -, -, pp1, d1, -, -, -⟩ :=
      sort_isList lt hw fuel hl hlen hf
    have ht : ∀ a b, leOf lt a b = true ∨ leOf lt b a = true := by
      intro a b
      have := leOf_total hw a b
      simpa [Bool.or_eq_true] using this
    have x1 : xs1 = stableSort (leOf lt) xs := by
      have := sortL_eq_stableSort ht (leOf_trans hw) (xs.length + 65) xs
        (by rw [← hlx]; exact hlen) (le_refl _)
      rw [m1] at this
      exact Option.some.inj this
    have q1 : ps1 = stableSort (leAt lt h) ps := by
      have := sortL_nodes hw h (ps.length + 65) ps (isSome_of_vals hl.2.2) hlen (le_refl _)
      rw [n1] at this
      exact Option.some.inj this
    have hsub : ∀ c : List Nat, List.Sublist c ps →
        c.Pairwise (fun p q => ltAt lt h q p = false) → List.Sublist c ps1 := by
      intro c hc hp
      rw [q1]
      apply List.sublist_insertionSort _ hc
      refine hp.imp ?_
      intro p q hpq
      simp only [leAt, hpq, Bool.not_false]
    refine ⟨h1, ps1, xs1, e1, i1, pp1, d1, q1, x1, hsub, ?_⟩
    intro p q hpq _ h2
    exact hsub [p, q] hpq (List.pairwise_pair.mpr h2)
  · intro t pb xb hB hd ha hfm
    obtain ⟨hm, e, i, -⟩ := merge_isList lt hl hB hd fuel hfm
    refine ⟨hm, e, i, ?_⟩
    intro p hp q hq hqp
    have hda := isSome_of_vals hl.2.2
    have hdb := isSome_of_vals hB.2.2
    apply merge_left_first ps pb (pairwise_nodes hl.2.2 ha)
    · intro a ha' x hx b hb h1 h2
      exact leAt_trans_nodes hw (hda a ha') (hda x hx) (hdb b hb) h1 h2
    · exact hp
    · exact hq
    · simp only [leAt, hqp, Bool.not_false]


theorem fstLt_strictWeak : StrictWeak fstLt where
  irrefl := by intro a; simp [fstLt]
  trans := by
    intro a b c
    simp only [fstLt, decide_eq_true_eq]
    omega
  incomp := by
    intro a b c
    simp only [fstLt, decide_eq_false_iff_not]
    omega

set_option maxRecDepth 100000 in
theorem sort_stable_witness :
    IsList (build (Heap.init : Heap (Nat × Nat)) [(2, 0), (1, 1), (2, 2), (1, 3)]).1 1
      [2, 3, 4, 5] [(2, 0), (1, 1), (2, 2), (1, 3)] ∧
    ∃ h' ps', sort fstLt 74 (build (Heap.init : Heap (Nat × Nat))
        [(2, 0), (1, 1), (2, 2), (1, 3)]).1 1 = some h' ∧
      IsList h' 1 ps' [(1, 1), (1, 3), (2, 0), (2, 2)] ∧ List.Sublist [2, 4] ps' ∧
      List.Sublist [3, 5] ps' :=
  have hl : IsList (build (Heap.init : Heap (Nat × Nat)) [(2, 0), (1, 1), (2, 2), (1, 3)]).1 1
      [2, 3, 4, 5] [(2, 0), (1, 1), (2, 2), (1, 3)] := by decide
  have t := (sort_stable fstLt fstLt_strictWeak
    (build (Heap.init : Heap (Nat × Nat)) [(2, 0), (1, 1), (2, 2), (1, 3)]).1 1 [2, 3, 4, 5]
    [(2, 0), (1, 1), (2, 2), (1, 3)] 74 hl (by decide) (by decide)).1
  have ex : stableSort (leOf fstLt) [(2, 0), (1, 1), (2, 2), (1, 3)]
      = [(1, 1), (1, 3), (2, 0), (2, 2)] := by decide
  ⟨hl, t.elim fun h' k => k.elim fun ps' k => k.elim fun xs' k =>
    ⟨h', ps', k.1, (k.2.2.2.2.2.1.trans ex) ▸ k.2.1,
      k.2.2.2.2.2.2.2 2 4 (by decide) (by decide) (by decide),
      k.2.2.2.2.2.2.2 3 5 (by decide) (by decide) (by decide)⟩⟩

/-! ## The bucket array of `sort` as a binary counter -/

theorem sortIter_refines (lt : α → α → Bool) {node carry : Nat} {cs : List Nat}
    (hcs : cs.length = 64) (h0 : Heap α) (rest : List Nat) :
    ∀ (d : Nat) (pre car : List Nat) (B : List (List Nat)) (fill : Nat) (h : Heap α)
      (fuel : Nat) (r : List Nat × List (List Nat) × Nat),
      Fam h 66 (famS node carry cs) (famL (pre ++ rest) car B) → B.length = 64 →
      h.data = h0.data → sortLoopL (leAt lt h0) d pre car B fill = some r →
      d + pre.length + car.length + B.flatten.length < fuel →
      ∃ h', sortIter lt fuel pre.length h node carry cs fill = some (h', r.2.2) ∧
        sortLoop lt fuel h node carry cs fill
          = sortLoop lt (fuel - pre.length) h' node carry cs r.2.2 ∧
        Fam h' 66 (famS node carry cs) (famL rest r.1 r.2.1) ∧
        h'.data = h0.data ∧ h'.live = h.live ∧ h'.brk = h.brk
  | 0, _, _, _, _, _, _, _, _, _, _, hr, _ => by simp [sortLoopL] at hr
  | d + 1, [], car, B, fill, h, fuel, r, hF, hlen, hdat, hr, hfuel => by
      simp only [sortLoopL, Option.some.injEq] at hr
      subst hr
      refine ⟨h, ?_, rfl, hF, hdat, rfl, rfl⟩
      cases fuel <;> rfl
  | d + 1, x :: pre, car, B, fill, h, fuel, r, hF, hlen, hdat, hr, hfuel => by
      cases fuel with
      | zero => omega
      | succ fuel =>
        have he : empty h node = false := by
          have := (ring_empty_iff (hF.ring 0 (by omega))).not.mpr
            (show famL (x :: pre ++ rest) car B 0 ≠ [] from by simp [famL])
          simpa using this
        simp only [sortLoopL] at hr
        cases hc : carryL (leAt lt h0) d (x :: car) B fill 0 with
        | none => simp [hc] at hr
        | some t =>
          obtain ⟨car1, B1, i⟩ := t
          simp only [hc] at hr
          cases hb : B1[i]? with
          | none => simp [hb] at hr
          | some b =>
            simp only [hb] at hr
            have htot := carryL_total (leAt lt h0) d (x :: car) B fill 0 _ hc
            simp only [List.length_cons] at htot
            have hB1 : B1.length = 64 := htot.1.trans hlen
            have hi : i < 64 := by
              rw [List.getElem?_eq_some_iff] at hb; have := hb.1; omega
            have hF1 : Fam (splice_one h (begin h carry) node (begin h node)) 66
                (famS node carry cs) (famL (pre ++ rest) (x :: car) B) := by
              apply hF.splice_one_step (show 1 < 66 by omega) (show 0 < 66 by omega)
                (by omega) (show famL (x :: pre ++ rest) car B 0 = x :: (pre ++ rest) from rfl)
              · rfl
              · rfl
              · intro k hk1 hk0
                match k with
                | 0 => exact absurd rfl hk0
                | 1 => exact absurd rfl hk1
                | k + 2 => rfl
            obtain ⟨h2, e2, hF2, hd2, hl2, hb2⟩ :=
              sortCarry_refines lt hcs h0 (pre ++ rest) fill d (x :: car) B 0 _ fuel _ hF1 hlen
                ((splice_one_data _ _ _ _).trans hdat) hc
                (by simp only [List.length_cons] at hfuel ⊢; omega)
            have hci := counter_get cs i (by omega)
            have hF3 : Fam (swap h2 carry (cs.getD i 0)) 66 (famS node carry cs)
                (famL (pre ++ rest) b (B1.set i car1)) := by
              apply hF2.swap_step (show 1 < 66 by omega) (show i + 2 < 66 by omega)
                (by omega)
              · exact (getD_of_get B1 i b hb).symm
              · show (B1.set i car1).getD i [] = car1
                rw [getD_set_nil B1 i i _ (by omega)]; simp only [↓reduceIte]
              · intro k hk1 hk2
                apply famL_other rfl _ k hk2 hk1
                intro k hk
                rw [getD_set_nil B1 i k _ (by omega)]
                simp only [Ne.symm hk, ↓reduceIte]
            have hsl := flatten_set_length B1 i b car1 hb
            obtain ⟨h', e, es, hF', hd', hl', hb'⟩ :=
              sortIter_refines lt hcs h0 rest d pre b (B1.set i car1) _ _ fuel r hF3
                (by simpa using hB1) ((swap_data h2 _ _).trans hd2) hr
                (by simp only [List.length_cons] at hfuel; omega)
            refine ⟨h', ?_, ?_, hF', hd', ?_, ?_⟩
            · simp only [List.length_cons, sortIter, he, Bool.not_false, ↓reduceIte, e2, hci]
              exact e
            · simp only [List.length_cons, Nat.add_sub_add_right]
              rw [← es]
              simp only [sortLoop, he, Bool.not_false, ↓reduceIte, e2, hci]
            · exact hl'.trans ((swap_live h2 _ _).trans (hl2.trans (splice_one_live _ _ _ _)))
            · exact hb'.trans ((swap_brk h2 _ _).trans (hb2.trans (splice_one_brk _ _ _ _)))

/-- A bucket array whose bucket `j` is empty or holds `2^(j+o)` elements
holds `2^o * v` elements in all, where bit `j` of `v` tells whether bucket `j`
is occupied. -/
theorem buckets_testBit {β : Type} :
    ∀ (B : List (List β)) (o : Nat),
      (∀ (j : Nat) (b : List β), B[j]? = some b → b = [] ∨ b.length = 2 ^ (j + o)) →
      ∃ v, B.flatten.length = 2 ^ o * v ∧
        ∀ j, v.testBit j = true ↔ ∃ b, B[j]? = some b ∧ b ≠ []
  | [], o, _ => ⟨0, by simp, fun j => by simp⟩
  | b :: B, o, hs => by
      obtain ⟨v, hv, hbit⟩ := buckets_testBit B (o + 1) (fun j c hc => by
        have := hs (j + 1) c (by simpa using hc)
        have e : j + 1 + o = j + (o + 1) := by omega
        rwa [e] at this)
      have hb := hs 0 b (by simp)
      rw [Nat.zero_add] at hb
      rcases hb with hb | hb
      · subst hb
        refine ⟨2 * v, ?_, ?_⟩
        · simp only [List.flatten_cons, List.nil_append, hv, pow_succ]; ring
        · intro j
          cases j with
          | zero => simp [Nat.testBit_zero]
          | succ j =>
            rw [Nat.testBit_succ, Nat.mul_div_cancel_left v (by decide), hbit j]
            simp
      · refine ⟨2 * v + 1, ?_, ?_⟩
        · simp only [List.flatten_cons, List.length_append, hb, hv, pow_succ]; ring
        · intro j
          cases j with
          | zero =>
            have hne : b ≠ [] := by
              intro e; subst e
              have : (0 : Nat) < 2 ^ o := Nat.two_pow_pos o
              simp at hb; omega
            simp [Nat.testBit_zero, hne, Nat.add_mod]
          | succ j =>
            have e : (2 * v + 1) / 2 = v := by omega
            rw [Nat.testBit_succ, e, hbit j]
            simp

/-- The heap in which `sort()` starts its outer loop, after construction of
`carry` and `counter[64]`: the source list, `carry` and the 64 buckets are 66
disjoint well-linked lists, all but the source empty. -/
theorem sort_locals_fam {h : Heap α} {s : Nat} {ps : List Nat} (hr : Ring h s ps)
    (ha : ∀ p ∈ s :: ps, p < h.brk) (hd : ∀ p ∈ ps, (h.data p).isSome = true) :
    (newLists 64 (initList h).1).2.length = 64 ∧
    (newLists 64 (initList h).1).1.data = h.data ∧
    (∀ k, k < 64 → (newLists 64 (initList h).1).2.getD k 0 = h.brk + 1 + k) ∧
    Fam (newLists 64 (initList h).1).1 66 (famS s h.brk (newLists 64 (initList h).1).2)
      (famL ps [] (List.replicate 64 [])) := by
  obtain ⟨n1, n2, n3, n4, n5, n6⟩ := newLists_spec 64 (initList h).1
  rw [initList_brk] at n1 n2 n4 n5 n6
  have hcs : (newLists 64 (initList h).1).2.length = 64 := by rw [n1]; simp
  have hS1 : ∀ k, k < 64 → (newLists 64 (initList h).1).2.getD k 0 = h.brk + 1 + k := by
    intro k hk; rw [n1]; exact getD_range' _ _ _ hk
  have hnext : ∀ z, (newLists 64 (initList h).1).1.next z =
      if h.brk ≤ z ∧ z < h.brk + 65 then z else h.next z := by
    intro z; rw [n5, initList_next]
    by_cases c1 : h.brk + 1 ≤ z ∧ z < h.brk + 1 + 64
    · have : h.brk ≤ z ∧ z < h.brk + 65 := by omega
      simp [c1, this]
    · by_cases c2 : z = h.brk
      · have : h.brk ≤ z ∧ z < h.brk + 65 := by omega
        simp [c1, c2]
      · have : ¬ (h.brk ≤ z ∧ z < h.brk + 65) := by omega
        simp [c1, c2, this]
  have hprev : ∀ z, (newLists 64 (initList h).1).1.prev z =
      if h.brk ≤ z ∧ z < h.brk + 65 then z else h.prev z := by
    intro z; rw [n6, initList_prev]
    by_cases c1 : h.brk + 1 ≤ z ∧ z < h.brk + 1 + 64
    · have : h.brk ≤ z ∧ z < h.brk + 65 := by omega
      simp [c1, this]
    · by_cases c2 : z = h.brk
      · have : h.brk ≤ z ∧ z < h.brk + 65 := by omega
        simp [c1, c2]
      · have : ¬ (h.brk ≤ z ∧ z < h.brk + 65) := by omega
        simp [c1, c2, this]
  have hdata : (newLists 64 (initList h).1).1.data = h.data := by rw [n3, initList_data]
  refine ⟨hcs, hdata, hS1, ?_⟩
  generalize (newLists 64 (initList h).1).1 = H1 at *
  generalize (newLists 64 (initList h).1).2 = cs at *
  have hSk : ∀ k, 1 ≤ k → k < 66 → famS s h.brk cs k = h.brk + (k - 1) := by
    intro k hk1 hk2
    match k with
    | 1 => rfl
    | k + 2 =>
      show cs.getD k 0 = _
      rw [hS1 k (by omega)]; omega
  have hLk : ∀ k, 1 ≤ k → famL ps [] (List.replicate 64 []) k = [] := by
    intro k hk1
    match k with
    | 1 => rfl
    | k + 2 =>
      show (List.replicate 64 ([] : List Nat)).getD k [] = []
      rw [List.getD_eq_getElem?_getD, List.getElem?_replicate]
      split <;> rfl
  refine ⟨?_, ?_, ?_⟩
  · intro k hk
    by_cases hk0 : k = 0
    · subst hk0
      apply ring_frame hr
      intro z hz
      have := ha z hz
      rw [hnext, hprev]
      have hc : ¬ (h.brk ≤ z ∧ z < h.brk + 65) := by omega
      simp [hc]
    · rw [hLk k (by omega), ring_nil_iff, hnext, hprev, hSk k (by omega) hk]
      have hc : h.brk ≤ h.brk + (k - 1) ∧ h.brk + (k - 1) < h.brk + 65 := by omega
      simp [hc]
  · intro k j hk hj hkj z hz hz'
    by_cases hk0 : k = 0
    · subst hk0
      have hzlt := ha z hz
      rw [hLk j (by omega), hSk j (by omega) hj] at hz'
      simp at hz'; omega
    · rw [hLk k (by omega), hSk k (by omega) hk] at hz
      simp only [List.mem_singleton] at hz
      by_cases hj0 : j = 0
      · subst hj0
        have := ha z hz'
        omega
      · rw [hLk j (by omega), hSk j (by omega) hj] at hz'
        simp only [List.mem_singleton] at hz'
        omega
  · intro k hk p hp
    by_cases hk0 : k = 0
    · subst hk0; rw [hdata]; exact hd p hp
    · rw [hLk k (by omega)] at hp; simp at hp

/-- The buckets the outer loop of `sort()` reaches from the empty bucket
array hold ascending payloads. -/
theorem sortLoopL_nodes_sorted {lt : α → α → Bool} (hw : StrictWeak lt) (h : Heap α) (d : Nat)
    (pre : List Nat) (xp : List α) (hv : vals h pre = xp.map some)
    (hlen : pre.length < 2 ^ 64) (hd : pre.length + 65 ≤ d)
    (B : List (List Nat)) (fill : Nat)
    (e : sortLoopL (leAt lt h) d pre [] (List.replicate 64 []) 0 = some ([], B, fill)) :
    ∀ (j : Nat) (b : List Nat), B[j]? = some b → ∃ xb, vals h b = xb.map some ∧
      Ascending lt xb := by
  have hl : xp.length = pre.length := by
    have := congrArg List.length hv
    simpa [vals] using this.symm
  have hrep : ∀ (γ δ : Type) (f : γ → δ),
      (List.replicate 64 ([] : List γ)).map (List.map f) = List.replicate 64 [] := by
    intro γ δ f; rw [List.map_replicate]; rfl
  have m1 := map_sortLoopL (r := leAt lt h) (s := leOpt lt) (f := h.data) (fun _ _ => rfl) d pre []
    (List.replicate 64 []) 0
  rw [e, hrep] at m1
  obtain ⟨BX, fx, ex, -, -, hasc, -, -⟩ :=
    sortLoopL_spec (leOf lt) (Ascending lt) (ascending_nil lt) (ascending_singleton lt)
      (fun a b ha hb => ascending_merge hw ha hb) d xp (List.replicate 64 []) 0
      buckets_replicate (by simpa [hl] using hlen) (by rw [hl]; exact hd)
      (by
        intro j b hb
        rw [List.getElem?_replicate] at hb
        split at hb
        · simp only [Option.some.injEq] at hb; subst hb; exact ascending_nil lt
        · cases hb)
  have m2 := map_sortLoopL (r := leOf lt) (s := leOpt lt) (f := some) (fun _ _ => rfl) d xp []
    (List.replicate 64 []) 0
  rw [ex, hrep] at m2
  have hv' : pre.map h.data = xp.map some := hv
  rw [hv'] at m1
  simp only [List.map_nil, Option.map_some'] at m1 m2
  rw [m1] at m2
  simp only [Option.some.injEq, Prod.mk.injEq, true_and] at m2
  intro j b hb
  have h1 : (B.map (List.map h.data))[j]? = some (b.map h.data) := by
    rw [List.getElem?_map, hb]; rfl
  rw [m2.1, List.getElem?_map] at h1
  cases hx : BX[j]? with
  | none => rw [hx] at h1; cases h1
  | some bx =>
    rw [hx] at h1
    simp only [Option.map_some', Option.some.injEq] at h1
    exact ⟨bx, h1.symm, hasc j bx hx⟩

/-- C21: The bucket array of `sort()` is a binary counter.  Started in the
heap in which `carry` and `counter[64]` have just been constructed, the outer
loop on a list of fewer than `2^64` elements runs `k` iterations for every
`k` up to the length of the source, and the state it is in after them is the
state from which the rest of the loop runs: the source holds the elements not
yet consumed, `carry` is empty, bucket `counter[i]` is empty or one ascending
run of exactly `2^i` nodes, empty for `i >= fill`, and non-empty exactly when
bit `i` of `k` is 1, and the buckets together hold exactly the `k` consumed
nodes. -/
theorem sort_buckets_binary_counter (lt : α → α → Bool) (hw : StrictWeak lt) (h : Heap α)
    (s : Nat) (pre rest : List Nat) (xs : List α) (fuel : Nat)
    (hl : IsList h s (pre ++ rest) xs) (hlen : (pre ++ rest).length < 2 ^ 64)
    (hf : 2 * (pre ++ rest).length + 66 ≤ fuel) :
    ∃ (hk : Heap α) (fill : Nat) (B : List (List Nat)),
      sortIter lt fuel pre.length (newLists 64 (initList h).1).1 s (initList h).2
        (newLists 64 (initList h).1).2 0 = some (hk, fill) ∧
      sortLoop lt fuel (newLists 64 (initList h).1).1 s (initList h).2
        (newLists 64 (initList h).1).2 0
        = sortLoop lt (fuel - pre.length) hk s (initList h).2 (newLists 64 (initList h).1).2 fill ∧
      Ring hk s rest ∧ Ring hk (initList h).2 [] ∧ empty hk (initList h).2 = true ∧
      hk.data = h.data ∧ B.length = 64 ∧ fill ≤ 64 ∧ B.flatten.Perm pre ∧
      B.flatten.length = pre.length ∧
      ∀ i, i < 64 → ∃ ci b xb, (newLists 64 (initList h).1).2[i]? = some ci ∧
        B[i]? = some b ∧ Ring hk ci b ∧ vals hk b = xb.map some ∧ Ascending lt xb ∧
        (b = [] ∨ b.length = 2 ^ i) ∧ (fill ≤ i → b = []) ∧
        (b ≠ [] ↔ pre.length.testBit i = true) ∧
        (empty hk ci = true ↔ pre.length.testBit i = false) := by
  have hal : ∀ p ∈ s :: (pre ++ rest), p < h.brk := fun p hp => (hl.2.1 p hp).1
  obtain ⟨hcs, hdata, hS1, hF0⟩ := sort_locals_fam hl.1 hal (isSome_of_vals hl.2.2)
  have hpl : pre.length < 2 ^ 64 := by
    have : pre.length ≤ (pre ++ rest).length := by simp
    omega
  obtain ⟨B, fill, e1, hB, hperm, -, -, -⟩ :=
    sortLoopL_spec (leAt lt h) (fun _ => True) trivial (fun _ => trivial)
      (fun _ _ _ _ => trivial) (pre.length + 65) pre (List.replicate 64 []) 0
      buckets_replicate (by simpa using hpl) (le_refl _) (fun _ _ _ => trivial)
  have hperm' : B.flatten.Perm pre := by simpa using hperm
  obtain ⟨hk, e, es, hF, hd, -, -⟩ :=
    sortIter_refines lt hcs h rest (pre.length + 65) pre [] (List.replicate 64 []) 0 _ fuel _
      hF0 (by simp) hdata e1 (by simp at hf ⊢; omega)
  have hv : vals h pre = (xs.take pre.length).map some := by
    have := congrArg (List.take pre.length) hl.2.2
    simpa [vals, List.map_take] using this
  have hsorted := sortLoopL_nodes_sorted hw h _ pre _ hv hpl (le_refl _) B fill e1
  obtain ⟨v, hv1, hbit⟩ := buckets_testBit B 0 (fun j b hb => by simpa using hB.size j b hb)
  have hvk : v = pre.length := by
    have := hperm'.length_eq
    simp only [pow_zero, one_mul] at hv1
    omega
  subst hvk
  have hcar : Ring hk (initList h).2 [] := hF.ring 1 (by omega)
  refine ⟨hk, fill, B, e, es, hF.ring 0 (by omega), hcar, (ring_empty_iff hcar).mpr rfl, hd,
    hB.len, hB.fill_le, hperm', hperm'.length_eq, ?_⟩
  intro i hi
  obtain ⟨b, hb⟩ := get_of_lt B i (by rw [hB.len]; exact hi)
  obtain ⟨xb, hxb, hasc⟩ := hsorted i b hb
  have hring : Ring hk ((newLists 64 (initList h).1).2.getD i 0) b := by
    have := hF.ring (i + 2) (by omega)
    have e2 : famL rest [] B (i + 2) = b := getD_of_get B i b hb
    rw [e2] at this
    exact this
  have hne : b ≠ [] ↔ pre.length.testBit i = true := by
    rw [hbit i]
    constructor
    · intro hn; exact ⟨b, hb, hn⟩
    · rintro ⟨b', hb', hn⟩
      rw [hb] at hb'
      rw [Option.some.inj hb']; exact hn
  refine ⟨_, b, xb, counter_get _ i (by rw [hcs]; exact hi), hb, hring, ?_, hasc,
    hB.size i b hb, fun hfi => hB.high i b hfi hb, hne, ?_⟩
  · rw [← hxb]
    exact vals_congr (fun p _ => by rw [hd])
  · rw [ring_empty_iff hring]
    constructor
    · intro hbe
      cases ht : pre.length.testBit i with
      | false => rfl
      | true => exact absurd hbe (hne.mpr ht)
    · intro ht
      by_contra hbn
      have := hne.mp hbn
      rw [ht] at this
      cases this

theorem sort_buckets_binary_counter_witness :
    IsList (build (Heap.init : Heap Nat) [5, 3, 1, 4, 2]).1 1 ([2, 3, 4] ++ [5, 6])
      [5, 3, 1, 4, 2] ∧
    ∃ (hk : Heap Nat) (fill : Nat) (B : List (List Nat)),
      sortIter natLt 76 ([2, 3, 4] : List Nat).length
        (newLists 64 (initList (build (Heap.init : Heap Nat) [5, 3, 1, 4, 2]).1).1).1 1
        (initList (build (Heap.init : Heap Nat) [5, 3, 1, 4, 2]).1).2
        (newLists 64 (initList (build (Heap.init : Heap Nat) [5, 3, 1, 4, 2]).1).1).2 0
        = some (hk, fill) ∧
      Ring hk 1 [5, 6] ∧ B.flatten.Perm [2, 3, 4] ∧
      (∃ ci b, (newLists 64 (initList (build (Heap.init : Heap Nat) [5, 3, 1, 4, 2]).1).1).2[0]?
          = some ci ∧ B[0]? = some b ∧ Ring hk ci b ∧ b ≠ []) ∧
      (∃ ci b, (newLists 64 (initList (build (Heap.init : Heap Nat) [5, 3, 1, 4, 2]).1).1).2[2]?
          = some ci ∧ B[2]? = some b ∧ Ring hk ci b ∧ empty hk ci = true) :=
  have hl : IsList (build (Heap.init : Heap Nat) [5, 3, 1, 4, 2]).1 1 ([2, 3, 4] ++ [5, 6])
      [5, 3, 1, 4, 2] := by decide
  have t := sort_buckets_binary_counter natLt natLt_strictWeak
    (build (Heap.init : Heap Nat) [5, 3, 1, 4, 2]).1 1 [2, 3, 4] [5, 6] [5, 3, 1, 4, 2] 76 hl
    (by decide) (by decide)
  ⟨hl, t.elim fun hk k => k.elim fun fill k => k.elim fun B k =>
    ⟨hk, fill, B, k.1, k.2.2.1, k.2.2.2.2.2.2.2.2.1,
      (k.2.2.2.2.2.2.2.2.2.2 0 (by decide)).elim fun ci k0 => k0.elim fun b k0 =>
        k0.elim fun _ k0 => ⟨ci, b, k0.1, k0.2.1, k0.2.2.1, k0.2.2.2.2.2.2.2.1.mpr (by decide)⟩,
      (k.2.2.2.2.2.2.2.2.2.2 2 (by decide)).elim fun ci k0 => k0.elim fun b k0 =>
        k0.elim fun _ k0 => ⟨ci, b, k0.1, k0.2.1, k0.2.2.1, k0.2.2.2.2.2.2.2.2.mpr (by decide)⟩⟩⟩

end pgstl
